import Mathlib

/-!
# Region pool and arenas of `Region2.cpp`

A shallow embedding of `hail/src/main/c/Region2.cpp`.

* A `char *` obtained from `malloc(block_size)` is a block, named by the number of blocks
  created before it; a `char *` obtained from `malloc(n)` in `allocate_big_chunk` is a chunk,
  named the same way among chunks.  Two different allocations never share memory.
* A `Region2 *` is the index of the object in the table `regions` of all `Region2` objects
  constructed so far (`new Region2(this)` appends to the table).
* A `std::vector` is a `List`; `push_back x` is `++ [x]`, `back()` is the last element.
* A `std::shared_ptr<Region2>` is the index of the object it points to; the use count of its
  control block is stored next to the object.  Destroying a `shared_ptr` is `shared_ptr_drop`.
-/

set_option autoImplicit false

namespace Hail

/-! ## Data model -/

/-- The data members of `Region2` (the back pointer `pool_` is left out: there is one pool). -/
structure Region2 where
  block_offset_ : Nat
  current_block_ : Nat
  used_blocks_ : List Nat
  big_chunks_ : List Nat
  parents_ : List Nat
  deriving DecidableEq, Repr

/-- A `Region2` object together with the use count of the `shared_ptr` control block that
currently owns it (0 when no `shared_ptr` owns it). -/
structure Slot where
  obj : Region2
  use_count : Nat
  deriving DecidableEq, Repr

/-- What a dangling `Region2 *` reads as in the model. -/
def Region2.null : Region2 := ⟨0, 0, [], [], []⟩

/-- The slot read through a dangling pointer. -/
def Slot.null : Slot := ⟨Region2.null, 0⟩

/-- The `RegionPool` (`free_regions_`, `free_blocks_`) together with the part of the C++ heap
it manages: the `Region2` objects, the number of blocks obtained from `malloc`, the sizes of the
chunks obtained from `malloc`, and the chunks given back with `free`. -/
structure World where
  regions : List Slot
  free_regions_ : List Nat
  free_blocks_ : List Nat
  blocks_made : Nat
  chunk_sizes : List Nat
  freed_chunks : List Nat
  deriving DecidableEq, Repr

/-- The constants `block_size` and `block_threshold` of the absent header `Region2.h`. -/
structure Config where
  block_size : Nat
  block_threshold : Nat
  deriving DecidableEq, Repr

/-- A `char *` returned by `allocate`: an offset into a block or into a chunk. -/
inductive Addr where
  | block (id off : Nat)
  | chunk (id off : Nat)
  deriving DecidableEq, Repr

namespace World

/-- The slot behind a `Region2 *`. -/
def slot (s : World) (r : Nat) : Slot := s.regions.getD r Slot.null

/-- The object behind a `Region2 *`. -/
def obj (s : World) (r : Nat) : Region2 := (s.slot r).obj

/-- The use count of the control block owning `r`. -/
def refs (s : World) (r : Nat) : Nat := (s.slot r).use_count

/-- Overwrite the data members of object `r`. -/
def setObj (s : World) (r : Nat) (o : Region2) : World :=
  { s with regions := s.regions.set r ⟨o, s.refs r⟩ }

/-- Overwrite the use count of object `r`. -/
def setRefs (s : World) (r : Nat) (n : Nat) : World :=
  { s with regions := s.regions.set r ⟨s.obj r, n⟩ }

end World

/-- `RegionPool::RegionPool()`: an empty pool on an empty heap. -/
def RegionPool.init : World := ⟨[], [], [], 0, [], []⟩

/-! ## `RegionPool` and `Region2` member functions -/

/-- `RegionPool::get_block()`. -/
def RegionPool.get_block (s : World) : World × Nat :=
  match s.free_blocks_.getLast? with
  | none => ({ s with blocks_made := s.blocks_made + 1 }, s.blocks_made)
  | some block => ({ s with free_blocks_ := s.free_blocks_.dropLast }, block)

/-- `RegionPool::new_region()`: `new Region2(this)` runs the constructor, which takes its
current block from `get_block`, and the object is handed to a fresh `shared_ptr`. -/
def RegionPool.new_region (s : World) : World × Nat :=
  let gb := RegionPool.get_block s
  ({ gb.1 with regions := gb.1.regions ++ [⟨⟨0, gb.2, [], [], []⟩, 1⟩] }, gb.1.regions.length)

/-- `RegionPool::get_region()`: a new region when `free_regions_` is empty, otherwise the last
retired one, handed to a fresh `shared_ptr` (use count 1). -/
def RegionPool.get_region (s : World) : World × Nat :=
  match s.free_regions_.getLast? with
  | none => RegionPool.new_region s
  | some region =>
    (({ s with free_regions_ := s.free_regions_.dropLast }).setRefs region 1, region)

/-- `Region2::get_region()`. -/
def Region2.get_region (s : World) (_r : Nat) : World × Nat := RegionPool.get_region s

/-- `Region2::allocate_new_block()`. -/
def Region2.allocate_new_block (s : World) (r : Nat) : World × Nat :=
  let o := s.obj r
  let s1 := s.setObj r { o with used_blocks_ := o.used_blocks_ ++ [o.current_block_] }
  let gb := RegionPool.get_block s1
  (gb.1.setObj r { gb.1.obj r with current_block_ := gb.2, block_offset_ := 0 }, gb.2)

/-- `Region2::allocate_big_chunk(n)`. -/
def Region2.allocate_big_chunk (s : World) (r : Nat) (n : Nat) : World × Nat :=
  let ptr := s.chunk_sizes.length
  let s1 := { s with chunk_sizes := s.chunk_sizes ++ [n] }
  (s1.setObj r { s1.obj r with big_chunks_ := (s1.obj r).big_chunks_ ++ [ptr] }, ptr)

/-- `Region2::add_reference_to(region)`: the vector keeps one more copy of the `shared_ptr`. -/
def Region2.add_reference_to (s : World) (r : Nat) (region : Nat) : World :=
  let s1 := s.setObj r { s.obj r with parents_ := (s.obj r).parents_ ++ [region] }
  s1.setRefs region (s1.refs region + 1)

/-- The statements of `Region2::clear()` up to the point where `parents_.clear()` starts to
destroy the stored pointers: the offset is reset, the used blocks are pushed on the pool's
`free_blocks_`, the big chunks are freed, and the three vectors are emptied. -/
def Region2.clearFields (s : World) (r : Nat) : World :=
  let o := s.obj r
  let s1 : World := { s with free_blocks_ := s.free_blocks_ ++ o.used_blocks_,
                             freed_chunks := s.freed_chunks ++ o.big_chunks_ }
  s1.setObj r { o with block_offset_ := 0, used_blocks_ := [], big_chunks_ := [],
                       parents_ := [] }

/-- The body of `Region2::clear()`, with the destructor of `shared_ptr<Region2>` passed in:
`parents_.clear()` destroys the stored pointers first to last. -/
def Region2.clearWith (drop : World → Nat → World) (s : World) (r : Nat) : World :=
  (s.obj r).parents_.foldl drop (Region2.clearFields s r)

/-- `RegionPool::RegionDeleter::operator()(p)`, with the destructor of `shared_ptr<Region2>`
passed in: `p->clear()`, then `p` is pushed on `free_regions_`. -/
def RegionPool.RegionDeleter (drop : World → Nat → World) (s : World) (p : Nat) : World :=
  { Region2.clearWith drop s p with
    free_regions_ := (Region2.clearWith drop s p).free_regions_ ++ [p] }

/-- The destructor of a `shared_ptr<Region2>` pointing to `r`: the use count goes down by one,
and when it reaches zero the deleter runs.  The first argument bounds the nesting depth of
destructor calls. -/
def shared_ptr_dropN : Nat → World → Nat → World
  | 0, s, _ => s
  | fuel + 1, s, r =>
    if s.refs r - 1 = 0 then
      RegionPool.RegionDeleter (shared_ptr_dropN fuel) (s.setRefs r (s.refs r - 1)) r
    else s.setRefs r (s.refs r - 1)

/-- The concatenation of one list-valued member over all `Region2` objects. -/
def World.gather (g : Region2 → List Nat) (s : World) : List Nat :=
  s.regions.flatMap (fun x => g x.obj)

/-- All parent references stored in the heap. -/
def World.allParents (s : World) : List Nat := s.gather (fun o => o.parents_)

/-- A nesting depth that destructor calls started in `s` cannot exceed: every nested call
is made for a parent reference that was removed from the heap. -/
def World.depth (s : World) : Nat := s.allParents.length + 1

/-- The destructor of a `shared_ptr<Region2>` pointing to `r`. -/
def shared_ptr_drop (s : World) (r : Nat) : World := shared_ptr_dropN s.depth s r

/-- `Region2::clear()`. -/
def Region2.clear (s : World) (r : Nat) : World :=
  Region2.clearWith (shared_ptr_dropN s.depth) s r

/-- Modelled from the spec: `num_free_regions()` is declared in the absent header
`Region2.h`; it is the number of retired arenas in the pool. -/
def RegionPool.num_free_regions (s : World) : Nat := s.free_regions_.length

/-- Modelled from the spec: `num_free_blocks()` is declared in the absent header
`Region2.h`; it is the number of blocks in the pool's free list. -/
def RegionPool.num_free_blocks (s : World) : Nat := s.free_blocks_.length

/-! ## `Utils.h` -/

/-- `round_up_offset(off, alignment)` of `Utils.h`:
`(off + (alignment - 1)) & ~(alignment - 1)` on `long`.  A `long` is given by its two's
complement bit pattern, a number below `2 ^ 64`. -/
def round_up_offset (off alignment : Nat) : Nat :=
  let m := (alignment + (2 ^ 64 - 1)) % 2 ^ 64
  ((off + m) % 2 ^ 64) &&& (2 ^ 64 - 1 - m)

/-! ## `Region2::allocate` -/

/-- Modelled from the spec: `Region2::allocate(alignment, n)` is defined in the absent header
`Region2.h`.  Following section 4.2: the write offset is rounded up to the alignment (with
`round_up_offset` of `Utils.h`); if the result plus `n` fits in the current block that
position is returned and the offset advanced; if not and `n` exceeds the threshold a big chunk
is returned; otherwise `allocate_new_block` runs and the allocation is retried.  The first
argument bounds the number of tries; `none` means the bound was reached. -/
def Region2.allocate (cfg : Config) : Nat → World → Nat → Nat → Nat → Option (World × Addr)
  | 0, _, _, _, _ => none
  | fuel + 1, s, r, alignment, n =>
    let o := s.obj r
    let aligned := round_up_offset o.block_offset_ alignment
    if aligned + n ≤ cfg.block_size then
      some (s.setObj r { o with block_offset_ := aligned + n }, Addr.block o.current_block_ aligned)
    else if cfg.block_threshold < n then
      let bc := Region2.allocate_big_chunk s r n
      some (bc.1, Addr.chunk bc.2 0)
    else
      Region2.allocate cfg fuel (Region2.allocate_new_block s r).1 r alignment n

/-! ## Reachable states and their invariants -/

/-- Every place that holds a block: the pool's free list, then for each object its current
block and its used blocks. -/
def World.allBlocks (s : World) : List Nat :=
  s.free_blocks_ ++ s.gather (fun o => o.current_block_ :: o.used_blocks_)

/-- Every chunk ever obtained: those held by an object, then those freed. -/
def World.allChunks (s : World) : List Nat :=
  s.gather (fun o => o.big_chunks_) ++ s.freed_chunks

/-- An object as `clear()` leaves it. -/
def Region2.Cleared (o : Region2) : Prop :=
  o.block_offset_ = 0 ∧ o.used_blocks_ = [] ∧ o.big_chunks_ = [] ∧ o.parents_ = []

/-- The states of a pool and of the `shared_ptr`s that client code holds (`hs`, one entry per
pointer held outside the arenas) that client code can reach through the public operations.
`copy` copies a held `shared_ptr`, `release` destroys one. -/
inductive Reachable (cfg : Config) : World → List Nat → Prop
  | init : Reachable cfg RegionPool.init []
  | get_region {s : World} {hs : List Nat} : Reachable cfg s hs →
      Reachable cfg (RegionPool.get_region s).1 ((RegionPool.get_region s).2 :: hs)
  | copy {s : World} {hs : List Nat} (r : Nat) : Reachable cfg s hs → r ∈ hs →
      Reachable cfg (s.setRefs r (s.refs r + 1)) (r :: hs)
  | release {s : World} {hs : List Nat} (r : Nat) : Reachable cfg s hs → r ∈ hs →
      Reachable cfg (shared_ptr_drop s r) (hs.erase r)
  | add_reference_to {s : World} {hs : List Nat} (r region : Nat) : Reachable cfg s hs →
      r ∈ hs → region ∈ hs → Reachable cfg (Region2.add_reference_to s r region) hs
  | clear {s : World} {hs : List Nat} (r : Nat) : Reachable cfg s hs → r ∈ hs →
      Reachable cfg (Region2.clear s r) hs
  | allocate {s s1 : World} {hs : List Nat} (r fuel alignment n : Nat) (p : Addr) :
      Reachable cfg s hs → r ∈ hs →
      Region2.allocate cfg fuel s r alignment n = some (s1, p) → Reachable cfg s1 hs

/-- The reference-count invariant, stated for the middle of a cascade of destructor calls:
`hs` are the pointers held by client code, `D` the pointers whose destructor is still to run,
`R` the objects whose deleter has started and that are still to be pushed on
`free_regions_`. -/
structure RefInv (s : World) (hs D R : List Nat) : Prop where
  count : ∀ a, s.refs a = hs.count a + s.allParents.count a + D.count a
  free : ∀ a ∈ s.free_regions_, a < s.regions.length ∧ s.refs a = 0 ∧ (s.obj a).Cleared
  pend : ∀ a ∈ R, a < s.regions.length ∧ s.refs a = 0 ∧ (s.obj a).Cleared
  nodup : (s.free_regions_ ++ R).Nodup

/-- The block invariant: every block made so far is held in exactly one place, every chunk
made so far is held by one object or was freed once. -/
structure BlockInv (s : World) : Prop where
  blocks : ∀ b, s.allBlocks.count b = if b < s.blocks_made then 1 else 0
  chunks : ∀ c, s.allChunks.count c = if c < s.chunk_sizes.length then 1 else 0

/-- The data members as `clear()` leaves them: only the current block is kept. -/
def Region2.reset (o : Region2) : Region2 :=
  { o with block_offset_ := 0, used_blocks_ := [], big_chunks_ := [], parents_ := [] }

/-- What holds between a state and a later one when only destructors of
`shared_ptr<Region2>` ran in between. -/
structure Frame (a b : World) : Prop where
  length : b.regions.length = a.regions.length
  blocks_made : b.blocks_made = a.blocks_made
  chunk_sizes : b.chunk_sizes = a.chunk_sizes
  obj : ∀ x, b.obj x = a.obj x ∨ b.obj x = (a.obj x).reset
  blocks : ∀ x, b.allBlocks.count x = a.allBlocks.count x
  chunks : ∀ x, b.allChunks.count x = a.allChunks.count x
  parents : b.allParents.length ≤ a.allParents.length
  free_regions : ∃ l, b.free_regions_ = a.free_regions_ ++ l
  free_blocks : ∃ l, b.free_blocks_ = a.free_blocks_ ++ l
  freed_chunks : ∃ l, b.freed_chunks = a.freed_chunks ++ l

/-- What holds between a state and a later one when only allocations on arena `r` ran in
between: no arena is retired or revived, no reference is added or dropped, no other arena is
touched, nothing is freed, and no block is returned to the pool. -/
structure AllocFrame (r : Nat) (a b : World) : Prop where
  length : b.regions.length = a.regions.length
  free_regions : b.free_regions_ = a.free_regions_
  refs : ∀ x, b.refs x = a.refs x
  obj : ∀ x, x ≠ r → b.obj x = a.obj x
  parents : b.allParents = a.allParents
  own_parents : (b.obj r).parents_ = (a.obj r).parents_
  freed_chunks : b.freed_chunks = a.freed_chunks
  free_blocks : ∃ l, a.free_blocks_ = b.free_blocks_ ++ l

/-- Every write offset is within the block. -/
def OffInv (cfg : Config) (s : World) : Prop :=
  ∀ a, (s.obj a).block_offset_ ≤ cfg.block_size

/-! ## Sample runs -/

/-- A configuration that agrees with the test case of `Region2.cpp`: blocks of 64 KiB and a
threshold between 10 and 5000 bytes. -/
def Config.sample : Config := ⟨65536, 4096⟩

/-- Three arenas 0, 1, 2 from a fresh pool; arena 2 references arena 1; the handle of arena 0
is released. -/
def sampleThree : World :=
  shared_ptr_drop
    (Region2.add_reference_to
      (RegionPool.get_region (RegionPool.get_region (RegionPool.get_region RegionPool.init).1).1).1
      2 1) 0

/-- One arena from a fresh pool after `allocate(4, 65533)`. -/
def sampleFull : World := ⟨[⟨⟨65533, 0, [], [], []⟩, 1⟩], [], [], 1, [], []⟩

/-- The arena of `sampleFull` after a further `allocate(4, 10)`, which spills. -/
def sampleSpilled : World := ⟨[⟨⟨10, 1, [0], [], []⟩, 1⟩], [], [], 2, [], []⟩

/-- The arena of `sampleFull` after a further `allocate(4, 5000)`, served by a big chunk. -/
def sampleChunk : World := ⟨[⟨⟨65533, 0, [], [0], []⟩, 1⟩], [], [], 1, [5000], []⟩

/-- Two arenas 0, 1 from a fresh pool; arena 1 references arena 0; the handle of arena 0 is
released, so that arena 1 holds the last reference to arena 0. -/
def sampleParent : World :=
  shared_ptr_drop
    (Region2.add_reference_to (RegionPool.get_region (RegionPool.get_region RegionPool.init).1).1
      1 0) 0

/-- The test section "referenced regions are not freed until referencing region is freed",
started in state `s` with `region` a handle to arena `a`: the state after
`auto region2 = region->get_region(); region2->add_reference_to(region);`. -/
def refTest_referenced (s : World) (a : Nat) : World :=
  Region2.add_reference_to (Region2.get_region s a).1 (Region2.get_region s a).2 a

/-- The same test after `region = nullptr;`. -/
def refTest_first_released (s : World) (a : Nat) : World :=
  shared_ptr_drop (refTest_referenced s a) a

/-- The same test after `region2 = nullptr;`. -/
def refTest_both_released (s : World) (a : Nat) : World :=
  shared_ptr_drop (refTest_first_released s a) (Region2.get_region s a).2

/-- Client code that calls `get_region` `n` times and keeps all the handles; the handles
are listed in the order obtained. -/
def get_regions : Nat → World → World × List Nat
  | 0, s => (s, [])
  | n + 1, s =>
    ((get_regions n (RegionPool.get_region s).1).1,
      (RegionPool.get_region s).2 :: (get_regions n (RegionPool.get_region s).1).2)

/-- Client code that releases the handles `rs` one after the other. -/
def release_all (s : World) (rs : List Nat) : World := rs.foldl shared_ptr_drop s

/-- The spilled arena 0 of `sampleSpilled` and a second arena 1 that references it; the handle
of arena 0 is released, so that arena 1 holds the last reference to arena 0. -/
def sampleGrandparent : World :=
  shared_ptr_drop
    (Region2.add_reference_to (RegionPool.get_region sampleSpilled).1 1 0) 0

/-- The spilled arena 0 of `sampleSpilled` references a second arena 1, which client code
still holds. -/
def sampleReferencing : World :=
  Region2.add_reference_to (RegionPool.get_region sampleSpilled).1 0 1

/-! ## Byte ranges -/

/-- Whether an address points into a chunk rather than into a block. -/
def Addr.inChunk : Addr → Bool
  | Addr.block _ _ => false
  | Addr.chunk _ _ => true

/-- The block or chunk an address points into. -/
def Addr.id : Addr → Nat
  | Addr.block i _ => i
  | Addr.chunk i _ => i

/-- The offset of an address from the start of its block or chunk. -/
def Addr.off : Addr → Nat
  | Addr.block _ o => o
  | Addr.chunk _ o => o

/-- The byte ranges `[p, p + n)` and `[q, q + m)` do not overlap: they lie in different
allocations, or one ends where or before the other starts. -/
def Addr.disjoint (p : Addr) (n : Nat) (q : Addr) (m : Nat) : Prop :=
  p.inChunk ≠ q.inChunk ∨ p.id ≠ q.id ∨ p.off + n ≤ q.off ∨ q.off + m ≤ p.off

/-- The byte range `[p, p + n)` lies in memory that arena `r` holds in state `s`: within its
current block or one of its used blocks, or within one of its big chunks. -/
def Region2.holds (cfg : Config) (s : World) (r : Nat) (p : Addr) (n : Nat) : Prop :=
  (p.inChunk = false ∧
    (p.id = (s.obj r).current_block_ ∨ p.id ∈ (s.obj r).used_blocks_) ∧
    p.off + n ≤ cfg.block_size) ∨
  (p.inChunk = true ∧ p.id ∈ (s.obj r).big_chunks_ ∧ p.off + n ≤ s.chunk_sizes.getD p.id 0)

/-- Where the ranges handed out so far by arena `r` lie: in a used block, in the current
block below the write offset, or in a big chunk of the arena. -/
def Tracked (cfg : Config) (s : World) (r : Nat) (L : List (Addr × Nat)) : Prop :=
  ∀ x ∈ L,
    (x.1.inChunk = false ∧
      ((x.1.id ∈ (s.obj r).used_blocks_ ∧ x.1.off + x.2 ≤ cfg.block_size) ∨
       (x.1.id = (s.obj r).current_block_ ∧ x.1.off + x.2 ≤ (s.obj r).block_offset_))) ∨
    (x.1.inChunk = true ∧ x.1.id ∈ (s.obj r).big_chunks_ ∧
      x.1.off + x.2 ≤ s.chunk_sizes.getD x.1.id 0)

/-- Client code that makes a sequence of `allocate` calls on arena `r`, one per request
`(alignment, n)`, with no other call in between; the returned pointers are listed in call
order.  The first argument is passed to every `allocate` as its bound on tries. -/
def allocate_all (cfg : Config) (fuel : Nat) (r : Nat) :
    World → List (Nat × Nat) → Option (World × List Addr)
  | s, [] => some (s, [])
  | s, q :: qs =>
    match Region2.allocate cfg fuel s r q.1 q.2 with
    | none => none
    | some a =>
      match allocate_all cfg fuel r a.1 qs with
      | none => none
      | some b => some (b.1, a.2 :: b.2)

/-- One elementary update made by the destructor of a `shared_ptr<Region2>`. -/
inductive Micro : World → World → Prop
  | dec (s : World) (r n : Nat) : Micro s (s.setRefs r n)
  | fields (s : World) (r : Nat) : Micro s (Region2.clearFields s r)
  | retire (s : World) (r : Nat) : Micro s { s with free_regions_ := s.free_regions_ ++ [r] }

/-- No arena is lost: an arena whose use count is 0 is on `free_regions_`, or among the
objects `R` whose deleter has started and that are still to be pushed on it. -/
def NoLeak (s : World) (R : List Nat) : Prop :=
  ∀ a, a < s.regions.length → s.refs a = 0 → a ∈ s.free_regions_ ++ R

/-- Client code that calls `b->add_reference_to(a)` `k` times in a row. -/
def add_references (s : World) (b a : Nat) : Nat → World
  | 0 => s
  | k + 1 => Region2.add_reference_to (add_references s b a k) b a

/-! ## `Encoder.h`: the buffered writer and the LEB128 layer

Bytes (`char`, `unsigned char`) are natural numbers below 256, the bit pattern of the byte.
An `int` is an integer; the result of `int` arithmetic is taken in two's complement
(`int32`). -/

/-- The `int` with the bit pattern of `x`: the result of `int` arithmetic whose exact result
is `x`. -/
def int32 (x : Int) : Int := (x + 2 ^ 31) % 2 ^ 32 - 2 ^ 31

/-- The object representation of a scalar of `w` bytes with bit pattern `v`, which
`reinterpret_cast<char *>(&x)` points at, on a little-endian machine. -/
def object_bytes (w v : Nat) : List Nat := (List.range w).map (fun k => v / 256 ^ k % 256)

/-- The bit pattern of an `int` or `long` of `bits` bits. -/
def bit_pattern (bits : Nat) (i : Int) : Nat := (i % 2 ^ bits).toNat

/-- The array after `memcpy(dst + off, src, k)`.  The array is a list: a copy that ran past
its end would lengthen it. -/
def memcpy (dst : List Nat) (off : Int) (src : List Nat) (k : Int) : List Nat :=
  dst.take off.toNat ++ src.take k.toNat ++ dst.drop (off.toNat + k.toNat)

/-- A call on the block stage that a `BlockingOutputBuffer` wraps, its template parameter
`OutputBlockBuffer`: `write_block(buf, n)`, recorded with the `n` bytes at `buf`, or
`close()`. -/
inductive BlockCall
  | write_block (bytes : List Nat)
  | close
  deriving DecidableEq, Repr

/-- The data members of a `BlockingOutputBuffer<BLOCKSIZE, _>`: the contents of the array
`block_`, the write offset `off_`, and for `block_buf_` the calls made on it so far. -/
structure BlockingOutputBuffer where
  block_ : List Nat
  off_ : Int
  block_buf_ : List BlockCall
  deriving DecidableEq, Repr

/-- The constructor: `block_(new char[BLOCKSIZE]{})`, `off_ = 0`. -/
def BlockingOutputBuffer.init (BLOCKSIZE : Int) : BlockingOutputBuffer :=
  ⟨List.replicate BLOCKSIZE.toNat 0, 0, []⟩

/-- `flush()`. -/
def BlockingOutputBuffer.flush (s : BlockingOutputBuffer) : BlockingOutputBuffer :=
  if s.off_ > 0 then
    { s with
      block_buf_ := s.block_buf_ ++ [BlockCall.write_block (s.block_.take s.off_.toNat)],
      off_ := 0 }
  else s

/-- `write_byte(c)`. -/
def BlockingOutputBuffer.write_byte (BLOCKSIZE : Int) (s : BlockingOutputBuffer) (c : Nat) :
    BlockingOutputBuffer :=
  let s1 := if int32 (s.off_ + 1) > BLOCKSIZE then s.flush else s
  { s1 with block_ := memcpy s1.block_ s1.off_ [c] 1, off_ := int32 (s1.off_ + 1) }

/-- `write_boolean(b)`. -/
def BlockingOutputBuffer.write_boolean (BLOCKSIZE : Int) (s : BlockingOutputBuffer)
    (b : Bool) : BlockingOutputBuffer :=
  BlockingOutputBuffer.write_byte BLOCKSIZE s (if b then 1 else 0)

/-- `write_int(i)`. -/
def BlockingOutputBuffer.write_int (BLOCKSIZE : Int) (s : BlockingOutputBuffer) (i : Int) :
    BlockingOutputBuffer :=
  let s1 := if int32 (s.off_ + 4) > BLOCKSIZE then s.flush else s
  { s1 with
    block_ := memcpy s1.block_ s1.off_ (object_bytes 4 (bit_pattern 32 i)) 4,
    off_ := int32 (s1.off_ + 4) }

/-- `write_long(l)`. -/
def BlockingOutputBuffer.write_long (BLOCKSIZE : Int) (s : BlockingOutputBuffer) (l : Int) :
    BlockingOutputBuffer :=
  let s1 := if int32 (s.off_ + 8) > BLOCKSIZE then s.flush else s
  { s1 with
    block_ := memcpy s1.block_ s1.off_ (object_bytes 8 (bit_pattern 64 l)) 8,
    off_ := int32 (s1.off_ + 8) }

/-- `write_float(f)`, the `float` given by its 32-bit pattern. -/
def BlockingOutputBuffer.write_float (BLOCKSIZE : Int) (s : BlockingOutputBuffer) (f : Nat) :
    BlockingOutputBuffer :=
  let s1 := if int32 (s.off_ + 4) > BLOCKSIZE then s.flush else s
  { s1 with block_ := memcpy s1.block_ s1.off_ (object_bytes 4 f) 4, off_ := int32 (s1.off_ + 4) }

/-- `write_double(d)`, the `double` given by its 64-bit pattern. -/
def BlockingOutputBuffer.write_double (BLOCKSIZE : Int) (s : BlockingOutputBuffer) (d : Nat) :
    BlockingOutputBuffer :=
  let s1 := if int32 (s.off_ + 8) > BLOCKSIZE then s.flush else s
  { s1 with block_ := memcpy s1.block_ s1.off_ (object_bytes 8 d) 8, off_ := int32 (s1.off_ + 8) }

/-- The loop of `write_bytes(buf, n)`, entered with `n_left` bytes still to copy; `fuel` bounds
the number of tests of the loop condition, and `none` means that the bound was reached. -/
def BlockingOutputBuffer.write_bytes_loop (BLOCKSIZE : Int) (buf : List Nat) (n : Int) :
    Nat → BlockingOutputBuffer → Int → Option BlockingOutputBuffer
  | 0, _, _ => none
  | fuel + 1, s, n_left =>
    if n_left > int32 (BLOCKSIZE - s.off_) then
      let s1 := { s with
        block_ := memcpy s.block_ s.off_ (buf.drop (int32 (n - n_left)).toNat)
          (int32 (BLOCKSIZE - s.off_)) }
      let n_left1 := int32 (n_left - int32 (BLOCKSIZE - s1.off_))
      let s2 := { s1 with off_ := BLOCKSIZE }
      BlockingOutputBuffer.write_bytes_loop BLOCKSIZE buf n fuel s2.flush n_left1
    else
      some { s with
        block_ := memcpy s.block_ s.off_ (buf.drop (int32 (n - n_left)).toNat) n_left,
        off_ := int32 (s.off_ + n_left) }

/-- `write_bytes(buf, n)`. -/
def BlockingOutputBuffer.write_bytes (BLOCKSIZE : Int) (fuel : Nat) (s : BlockingOutputBuffer)
    (buf : List Nat) (n : Int) : Option BlockingOutputBuffer :=
  BlockingOutputBuffer.write_bytes_loop BLOCKSIZE buf n fuel s n

/-- `close()`. -/
def BlockingOutputBuffer.close (s : BlockingOutputBuffer) : BlockingOutputBuffer :=
  { s.flush with block_buf_ := s.flush.block_buf_ ++ [BlockCall.close] }

/-- The blocks handed to the wrapped stage, in order. -/
def BlockCall.blocks : List BlockCall → List (List Nat)
  | [] => []
  | BlockCall.write_block bytes :: l => bytes :: BlockCall.blocks l
  | BlockCall.close :: l => BlockCall.blocks l

/-- A call that client code makes on the buffered writer before `close()`. -/
inductive WriterCall
  | write_byte (c : Nat)
  | write_boolean (b : Bool)
  | write_int (i : Int)
  | write_long (l : Int)
  | write_float (f : Nat)
  | write_double (d : Nat)
  | write_bytes (buf : List Nat) (n : Int)
  | flush
  deriving DecidableEq, Repr

/-- The state after one call. -/
def WriterCall.run (BLOCKSIZE : Int) (fuel : Nat) (s : BlockingOutputBuffer) :
    WriterCall → Option BlockingOutputBuffer
  | WriterCall.write_byte c => some (s.write_byte BLOCKSIZE c)
  | WriterCall.write_boolean b => some (s.write_boolean BLOCKSIZE b)
  | WriterCall.write_int i => some (s.write_int BLOCKSIZE i)
  | WriterCall.write_long l => some (s.write_long BLOCKSIZE l)
  | WriterCall.write_float f => some (s.write_float BLOCKSIZE f)
  | WriterCall.write_double d => some (s.write_double BLOCKSIZE d)
  | WriterCall.write_bytes buf n => s.write_bytes BLOCKSIZE fuel buf n
  | WriterCall.flush => some s.flush

/-- The state after a sequence of calls. -/
def WriterCall.runAll (BLOCKSIZE : Int) (fuel : Nat) :
    BlockingOutputBuffer → List WriterCall → Option BlockingOutputBuffer
  | s, [] => some s
  | s, c :: cs =>
    match WriterCall.run BLOCKSIZE fuel s c with
    | none => none
    | some s1 => WriterCall.runAll BLOCKSIZE fuel s1 cs

/-- The bytes that a call is to append to the stream: the fixed-width representation of the
value, or the run of `n` bytes. -/
def WriterCall.bytes : WriterCall → List Nat
  | WriterCall.write_byte c => [c]
  | WriterCall.write_boolean b => [if b then 1 else 0]
  | WriterCall.write_int i => object_bytes 4 (bit_pattern 32 i)
  | WriterCall.write_long l => object_bytes 8 (bit_pattern 64 l)
  | WriterCall.write_float f => object_bytes 4 f
  | WriterCall.write_double d => object_bytes 8 d
  | WriterCall.write_bytes buf n => buf.take n.toNat
  | WriterCall.flush => []

/-- What a call needs: a run of `n` bytes has `0 ≤ n`, an `int`, and `buf` holds `n` bytes. -/
def WriterCall.valid : WriterCall → Prop
  | WriterCall.write_bytes buf n => 0 ≤ n ∧ n < 2 ^ 31 ∧ n ≤ buf.length
  | _ => True

instance WriterCall.decidableValid (c : WriterCall) : Decidable c.valid := by
  cases c <;> (unfold WriterCall.valid; infer_instance)

/-- A call on the stage that a `LEB128OutputBuffer` wraps, its template parameter
`OutputBuffer`. -/
inductive BufCall
  | flush
  | write_byte (c : Nat)
  | write_float (f : Nat)
  | write_double (d : Nat)
  | write_bytes (buf : List Nat) (n : Int)
  | close
  deriving DecidableEq, Repr

/-- `LEB128OutputBuffer::write_byte(c)`; the state of the layer is the list of calls made so
far on `buf_`. -/
def LEB128OutputBuffer.write_byte (buf_ : List BufCall) (c : Nat) : List BufCall :=
  buf_ ++ [BufCall.write_byte c]

/-- The `do ... while (unpacked != 0)` loop of `write_int` and of `write_long`, entered with
the value `unpacked`, which is unsigned, so that no operation of the loop overflows; `fuel`
bounds the number of runs of the body, and `none` means that the bound was reached. -/
def LEB128OutputBuffer.write_unpacked : Nat → List BufCall → Nat → Option (List BufCall)
  | 0, _, _ => none
  | fuel + 1, buf_, unpacked =>
    let b := unpacked &&& 0x7f
    let unpacked1 := unpacked >>> 7
    let b1 := if unpacked1 ≠ 0 then b ||| 0x80 else b
    let buf1 := buf_ ++ [BufCall.write_byte b1]
    if unpacked1 ≠ 0 then LEB128OutputBuffer.write_unpacked fuel buf1 unpacked1
    else some buf1

/-- `LEB128OutputBuffer::write_int(i)`: `unsigned int unpacked = i`, then the loop. -/
def LEB128OutputBuffer.write_int (fuel : Nat) (buf_ : List BufCall) (i : Int) :
    Option (List BufCall) :=
  LEB128OutputBuffer.write_unpacked fuel buf_ (bit_pattern 32 i)

/-- `LEB128OutputBuffer::write_long(l)`: `unsigned long unpacked = l`, then the loop. -/
def LEB128OutputBuffer.write_long (fuel : Nat) (buf_ : List BufCall) (l : Int) :
    Option (List BufCall) :=
  LEB128OutputBuffer.write_unpacked fuel buf_ (bit_pattern 64 l)

/-- The bytes passed in the `write_byte` calls of a list of calls. -/
def BufCall.bytes : List BufCall → List Nat
  | [] => []
  | BufCall.write_byte c :: l => c :: BufCall.bytes l
  | _ :: l => BufCall.bytes l

/-- The number of 7-bit groups of the unsigned LEB128 encoding of `u`:
`max(1, ceil(bitlength(u) / 7))`. -/
def leb128_groups (u : Nat) : Nat := max 1 ((Nat.size u + 6) / 7)

/-- The unsigned LEB128 encoding of `u`, in the spec's words: groups of 7 payload bits, low
group first, the high bit of a byte set when more bytes follow, at least one byte. -/
def uleb128 (u : Nat) : List Nat :=
  (List.range (leb128_groups u)).map
    (fun k => u / 2 ^ (7 * k) % 128 + if k + 1 < leb128_groups u then 128 else 0)

/-- Modelled from the spec: the reader of the LEB128 layer, which consumes bytes until one with
the high bit clear and accumulates the 7-bit groups, low group first, starting at bit
`shift` on top of `acc`; it returns the unsigned value and the bytes not consumed, and `none`
when the bytes end before a byte with the high bit clear. -/
def read_uleb128 : List Nat → Nat → Nat → Option (Nat × List Nat)
  | [], _, _ => none
  | b :: rest, shift, acc =>
    if b &&& 0x80 = 0 then some (acc ||| (b &&& 0x7f) <<< shift, rest)
    else read_uleb128 rest (shift + 7) (acc ||| (b &&& 0x7f) <<< shift)

/-- The `int` or `long` of `bits` bits with the bit pattern `v % 2 ^ bits`. -/
def reinterpret (bits : Nat) (v : Nat) : Int :=
  if v % 2 ^ bits < 2 ^ (bits - 1) then (v % 2 ^ bits : Nat) else (v % 2 ^ bits : Nat) - 2 ^ bits

/-- Modelled from the spec: the reader's `read_int`, the unsigned value reinterpreted as an
`int`. -/
def read_int (bytes : List Nat) : Option (Int × List Nat) :=
  (read_uleb128 bytes 0 0).map (fun p => (reinterpret 32 p.1, p.2))

/-- Modelled from the spec: the reader's `read_long`, the unsigned value reinterpreted as a
`long`. -/
def read_long (bytes : List Nat) : Option (Int × List Nat) :=
  (read_uleb128 bytes 0 0).map (fun p => (reinterpret 64 p.1, p.2))

/-- Reading `k` integers one after the other with `read`. -/
def read_all (read : List Nat → Option (Int × List Nat)) :
    Nat → List Nat → Option (List Int × List Nat)
  | 0, bytes => some ([], bytes)
  | k + 1, bytes =>
    match read bytes with
    | none => none
    | some p =>
      match read_all read k p.2 with
      | none => none
      | some q => some (p.1 :: q.1, q.2)

/-- Writing the integers `vs` one after the other with `write`. -/
def write_all (write : List BufCall → Int → Option (List BufCall)) :
    List BufCall → List Int → Option (List BufCall)
  | buf_, [] => some buf_
  | buf_, v :: vs =>
    match write buf_ v with
    | none => none
    | some buf1 => write_all write buf1 vs

/-- The class invariant of the buffered writer: the write offset is within the array of
`BLOCKSIZE` chars. -/
structure BlockingOutputBuffer.Inv (BLOCKSIZE : Int) (s : BlockingOutputBuffer) : Prop where
  off_nonneg : 0 ≤ s.off_
  off_le : s.off_ ≤ BLOCKSIZE
  length : s.block_.length = BLOCKSIZE.toNat

/-- What holds between the state `s` before and the state `s1` after operations that are to
append `bytes`: the calls made on the wrapped stage in between are `write_block` calls with
the blocks `blocks`, none of them empty or longer than `BLOCKSIZE`, and these blocks followed
by the part of the array below the new write offset are the part of the array below the old
write offset followed by `bytes`. -/
structure BlockingOutputBuffer.Appends (BLOCKSIZE : Int) (s s1 : BlockingOutputBuffer)
    (bytes : List Nat) (blocks : List (List Nat)) : Prop where
  calls : s1.block_buf_ = s.block_buf_ ++ blocks.map BlockCall.write_block
  sizes : ∀ b ∈ blocks, 1 ≤ b.length ∧ (b.length : Int) ≤ BLOCKSIZE
  stream : blocks.flatten ++ s1.block_.take s1.off_.toNat
    = s.block_.take s.off_.toNat ++ bytes

/-- The length of the run of bytes that a call passes, 0 for the calls that pass none. -/
def WriterCall.payload : WriterCall → Int
  | WriterCall.write_bytes _ n => n
  | _ => 0

/-- `LEB128OutputBuffer::flush()`. -/
def LEB128OutputBuffer.flush (buf_ : List BufCall) : List BufCall :=
  buf_ ++ [BufCall.flush]

/-- `LEB128OutputBuffer::write_boolean(b)`. -/
def LEB128OutputBuffer.write_boolean (buf_ : List BufCall) (b : Bool) : List BufCall :=
  LEB128OutputBuffer.write_byte buf_ (if b then 1 else 0)

/-- `LEB128OutputBuffer::write_float(f)`, the `float` given by its 32-bit pattern. -/
def LEB128OutputBuffer.write_float (buf_ : List BufCall) (f : Nat) : List BufCall :=
  buf_ ++ [BufCall.write_float f]

/-- `LEB128OutputBuffer::write_double(d)`, the `double` given by its 64-bit pattern. -/
def LEB128OutputBuffer.write_double (buf_ : List BufCall) (d : Nat) : List BufCall :=
  buf_ ++ [BufCall.write_double d]

/-- `LEB128OutputBuffer::write_bytes(buf, n)`. -/
def LEB128OutputBuffer.write_bytes (buf_ : List BufCall) (buf : List Nat) (n : Int) :
    List BufCall :=
  buf_ ++ [BufCall.write_bytes buf n]

/-- `LEB128OutputBuffer::close()`. -/
def LEB128OutputBuffer.close (buf_ : List BufCall) : List BufCall :=
  buf_ ++ [BufCall.close]

/-- The state of a `BlockingOutputBuffer` that a `LEB128OutputBuffer` wraps after one call
made on it. -/
def BufCall.run (BLOCKSIZE : Int) (fuel : Nat) (s : BlockingOutputBuffer) :
    BufCall → Option BlockingOutputBuffer
  | BufCall.flush => some s.flush
  | BufCall.write_byte c => some (s.write_byte BLOCKSIZE c)
  | BufCall.write_float f => some (s.write_float BLOCKSIZE f)
  | BufCall.write_double d => some (s.write_double BLOCKSIZE d)
  | BufCall.write_bytes buf n => s.write_bytes BLOCKSIZE fuel buf n
  | BufCall.close => some s.close

/-- The state of the wrapped `BlockingOutputBuffer` after a list of calls made on it. -/
def BufCall.runAll (BLOCKSIZE : Int) (fuel : Nat) :
    BlockingOutputBuffer → List BufCall → Option BlockingOutputBuffer
  | s, [] => some s
  | s, c :: cs =>
    match BufCall.run BLOCKSIZE fuel s c with
    | none => none
    | some s1 => BufCall.runAll BLOCKSIZE fuel s1 cs

/-! ## `Encoder.h`: the LZ4 layer -/

/-- The functions of the LZ4 library that `LZ4OutputBlockBuffer` and its reader call.  The
library is not part of the repository, so its functions are parameters: `compress x` is the
compressed form of the bytes `x`, `decompress y n` is what `LZ4_decompress_safe` puts in a
buffer of `n` bytes for the compressed bytes `y` (`none` when it fails), and `compressBound n`
is `LZ4_compressBound(n)`. -/
structure LZ4 where
  compress : List Nat → List Nat
  decompress : List Nat → Nat → Option (List Nat)
  compressBound : Int → Int

/-- `LZ4_compress_default(src, dst + pos, srcSize, dstCapacity)`: the array `dst` afterwards and
the value returned, which is the number of bytes written, and 0 when the compressed form is
longer than `dstCapacity`. -/
def LZ4.compress_default (lz : LZ4) (src dst : List Nat) (pos srcSize dstCapacity : Int) :
    List Nat × Int :=
  let out := lz.compress (src.take srcSize.toNat)
  if (out.length : Int) ≤ dstCapacity then (memcpy dst pos out out.length, out.length)
  else (dst, 0)

/-- The data members of a `LZ4OutputBlockBuffer<BLOCKSIZE, _>`: the contents of the array
`block_`, and for `block_buf_` the calls made on it so far. -/
structure LZ4OutputBlockBuffer where
  block_ : List Nat
  block_buf_ : List BlockCall
  deriving DecidableEq, Repr

/-- The constructor: `block_(new char[LZ4_compressBound(BLOCKSIZE) + 4]{})`. -/
def LZ4OutputBlockBuffer.init (lz : LZ4) (BLOCKSIZE : Int) : LZ4OutputBlockBuffer :=
  ⟨List.replicate (int32 (lz.compressBound BLOCKSIZE + 4)).toNat 0, []⟩

/-- `LZ4OutputBlockBuffer::write_block(buf, n)`. -/
def LZ4OutputBlockBuffer.write_block (lz : LZ4) (BLOCKSIZE : Int) (s : LZ4OutputBlockBuffer)
    (buf : List Nat) (n : Int) : LZ4OutputBlockBuffer :=
  let c := lz.compress_default buf s.block_ 4 n (int32 (lz.compressBound BLOCKSIZE + 4))
  let block1 := memcpy c.1 0 (object_bytes 4 (bit_pattern 32 n)) 4
  ⟨block1, s.block_buf_ ++ [BlockCall.write_block (block1.take (int32 (c.2 + 4)).toNat)]⟩

/-- `LZ4OutputBlockBuffer::close()`. -/
def LZ4OutputBlockBuffer.close (s : LZ4OutputBlockBuffer) : LZ4OutputBlockBuffer :=
  ⟨s.block_, s.block_buf_ ++ [BlockCall.close]⟩

/-- The number that bytes in little-endian order stand for. -/
def le_value : List Nat → Nat
  | [] => 0
  | b :: l => b + 256 * le_value l

/-- Modelled from the spec: the reader of the block codec layer, which reads the 4-byte header
of a block to learn the uncompressed length and decompresses the bytes after the header into a
buffer of that length; it returns the length and the buffer. -/
def LZ4InputBlockBuffer.read_block (lz : LZ4) (block : List Nat) : Option (Int × List Nat) :=
  (lz.decompress (block.drop 4) (reinterpret 32 (le_value (block.take 4))).toNat).map
    (fun x => (reinterpret 32 (le_value (block.take 4)), x))

/-- A sample for the library: the bytes stored as they are behind a token byte 0, and the bound
of `lz4.h`. -/
def LZ4.stored : LZ4 where
  compress := fun x => 0 :: x
  decompress := fun y n =>
    match y with
    | 0 :: x => if x.length = n then some x else none
    | _ => none
  compressBound := fun n => n + n / 255 + 16

/-! ## The row pipeline stages

A `RegionPtr` is a `shared_ptr` to an arena and is given by the arena it points to; a row
pointer `const char *` is a number.  The headers `Region.h` and `PartitionContext.h` are not
among the sources: `RegionPtr` is taken to be the `shared_ptr<Region2>` of `Region2.cpp`, and
`ctx()` to give the pool `pool_` of the partition, a `RegionPool`, and the pointer `globals_`
to the globals row. -/

/-- What a call `next_(std::move(region), value)` leaves behind: the state of the stage called
and of the stages behind it, the pool, and whether the `RegionPtr` of the caller was moved
from, so that it is null afterwards and its destructor does nothing. -/
structure Outcome (σ : Type) where
  next : σ
  pool : World
  moved : Bool

/-- A row consumer, the template parameter `Consumer` of the stages: its
`operator()(RegionPtr &&region, const char *value)` as a function of its state, of the pool,
of the arena that `region` points to and of `value`; `none` when the call does not return. -/
def Consumer (σ : Type) : Type := σ → World → Nat → Nat → Option (Outcome σ)

/-- A downstream call as seen by the consumer: the arena and the row pointer passed, and the
pool at the time of the call. -/
structure Call where
  region : Nat
  value : Nat
  pool : World
  deriving DecidableEq, Repr

/-- The arena and the row pointer of a call. -/
def Call.row (c : Call) : Nat × Nat := (c.region, c.value)

/-- The consumer `next_` with a record of the calls made on it. -/
def Consumer.traced {σ : Type} (next_ : Consumer σ) : Consumer (σ × List Call) :=
  fun st pool region value =>
    match next_ st.1 pool region value with
    | none => none
    | some o => some ⟨(o.next, st.2 ++ [⟨region, value, pool⟩]), o.pool, o.moved⟩

/-- A terminal consumer that moves every `RegionPtr` it is passed into a list that it keeps,
the last one first. -/
def Consumer.keeping : Consumer (List Nat) :=
  fun st pool region _ => some ⟨region :: st, pool, true⟩

/-- A terminal consumer that leaves the `RegionPtr` it is passed where it is. -/
def Consumer.dropping : Consumer Unit :=
  fun st pool _ _ => some ⟨st, pool, false⟩

/-- `TableFilterRows::operator()(RegionPtr &&region, const char *value)`; `filter_` is the
template parameter `Filter`, applied to `region.get()`, `ctx()->globals_` and `value`. -/
def TableFilterRows.call {σ : Type} (filter_ : Nat → Nat → Nat → Bool) (globals_ : Nat)
    (next_ : Consumer σ) : Consumer σ :=
  fun st pool region value =>
    if filter_ region globals_ value then next_ st pool region value
    else some ⟨st, pool, false⟩

/-- The template parameter `Exploder`: `len(region, value)`, and
`operator()(new_region, value, i)`, which returns the pointer to the element `i` and may
allocate in the pool. -/
structure Exploder where
  len : Nat → Nat → Int
  call : World → Nat → Nat → Int → World × Nat

/-- The `for` loop of `TableExplodeRows::operator()`, entered with the counter at `i`; `fuel`
bounds the number of tests of the loop condition, and `none` means that the bound was reached
or that a downstream call did not return.  At the end of the body the destructor of
`new_region` runs. -/
def TableExplodeRows.loop {σ : Type} (exploder_ : Exploder) (next_ : Consumer σ)
    (region value : Nat) (len : Int) : Nat → Int → σ → World → Option (σ × World)
  | 0, _, _, _ => none
  | fuel + 1, i, st, pool =>
    if i < len then
      let g := RegionPool.get_region pool
      let p1 := Region2.add_reference_to g.1 g.2 region
      let e := exploder_.call p1 g.2 value i
      match next_ st e.1 g.2 e.2 with
      | none => none
      | some o =>
        TableExplodeRows.loop exploder_ next_ region value len fuel (int32 (i + 1)) o.next
          (if o.moved then o.pool else shared_ptr_drop o.pool g.2)
    else some (st, pool)

/-- `TableExplodeRows::operator()(RegionPtr &&region, const char *value)`. -/
def TableExplodeRows.call {σ : Type} (exploder_ : Exploder) (next_ : Consumer σ) (fuel : Nat) :
    Consumer σ :=
  fun st pool region value =>
    (TableExplodeRows.loop exploder_ next_ region value (exploder_.len region value) fuel 0
      st pool).map (fun r => ⟨r.1, r.2, false⟩)

/-- The template parameter `Decoder` with state `δ`: `decode_byte()`, and
`decode_row(region)`, which returns the row pointer and may allocate in the pool. -/
structure Decoder (δ : Type) where
  decode_byte : δ → δ × Bool
  decode_row : δ → World → Nat → δ × World × Nat

/-- A call on the decoder: `decode_byte()` with its result, or `decode_row(region)` with its
result. -/
inductive DecoderCall
  | decode_byte (b : Bool)
  | decode_row (region row : Nat)
  deriving DecidableEq, Repr

/-- The decoder `dec_` with a record of the calls made on it. -/
def Decoder.traced {δ : Type} (dec_ : Decoder δ) : Decoder (δ × List DecoderCall) where
  decode_byte := fun d =>
    (((dec_.decode_byte d.1).1, d.2 ++ [DecoderCall.decode_byte (dec_.decode_byte d.1).2]),
      (dec_.decode_byte d.1).2)
  decode_row := fun d pool region =>
    (((dec_.decode_row d.1 pool region).1,
        d.2 ++ [DecoderCall.decode_row region (dec_.decode_row d.1 pool region).2.2]),
      (dec_.decode_row d.1 pool region).2)

/-- `TableNativeRead::consume()`, on the state of `next_` and of `dec_` and on the pool.  At
the end the destructor of `region` runs. -/
def TableNativeRead.consume {σ δ : Type} (dec_ : Decoder δ) (next_ : Consumer σ) :
    σ × δ → World → Option ((σ × δ) × World) :=
  fun st pool =>
    let g := RegionPool.get_region pool
    let d := dec_.decode_row st.2 g.1 g.2
    match next_ st.1 d.2.1 g.2 d.2.2 with
    | none => none
    | some o => some ((o.next, d.1), if o.moved then o.pool else shared_ptr_drop o.pool g.2)

/-- `TableNativeRead::advance()`, on the state of `next_` and of `dec_` and on the pool, with
the value returned. -/
def TableNativeRead.advance {σ δ : Type} (dec_ : Decoder δ) :
    σ × δ → World → ((σ × δ) × World) × Bool :=
  fun st pool => (((st.1, (dec_.decode_byte st.2).1), pool), (dec_.decode_byte st.2).2)

/-- An upstream caller that makes the calls `rows` on a stage one after the other, and goes on
holding each `RegionPtr` that the stage did not move from. -/
def feed {σ : Type} (stage : Consumer σ) : σ → World → List (Nat × Nat) → Option (σ × World)
  | st, pool, [] => some (st, pool)
  | st, pool, r :: rs =>
    match stage st pool r.1 r.2 with
    | none => none
    | some o => feed stage o.next o.pool rs

/-- The downstream call that the body of the loop of `TableExplodeRows::operator()` makes for
the index `i` when it is entered with the pool `q`: the arena is the one that `get_region`
returns, the row pointer is the one that the exploder returns for that arena and `i`, and the
pool is the one that `add_reference_to` and the exploder leave. -/
def TableExplodeRows.callAt (exploder_ : Exploder) (region value : Nat) (i : Int) (q : World) :
    Call :=
  ⟨(RegionPool.get_region q).2,
   (exploder_.call
      (Region2.add_reference_to (RegionPool.get_region q).1 (RegionPool.get_region q).2 region)
      (RegionPool.get_region q).2 value i).2,
   (exploder_.call
      (Region2.add_reference_to (RegionPool.get_region q).1 (RegionPool.get_region q).2 region)
      (RegionPool.get_region q).2 value i).1⟩

/-- The downstream calls `run` are those of one call of the Explode stage for the row
`(region, value)`: there are `max(len, 0)` of them, and the call at position `j` is the one of
the loop body for the index `j`. -/
def TableExplodeRows.IsRun (exploder_ : Exploder) (row : Nat × Nat) (run : List Call) : Prop :=
  (run.length : Int) = max (exploder_.len row.1 row.2) 0 ∧
  ∀ j, j < run.length →
    ∃ q, run[j]? = some (TableExplodeRows.callAt exploder_ row.1 row.2 (j : Int) q)

/-- A sample exploder: the row pointer is the multiplicity, the element `i` of the row `value`
is the pointer `100 * value + i`, and nothing is allocated. -/
def Exploder.sample : Exploder where
  len := fun _ value => value
  call := fun pool _ value i => (pool, 100 * value + i.toNat)

/-- A sample decoder, whose state is the number of rows decoded so far: there are three rows,
row `k` is at the pointer `10 * k`, and nothing is allocated. -/
def Decoder.sample : Decoder Nat where
  decode_byte := fun k => (k, decide (k < 3))
  decode_row := fun k pool _ => (k + 1, pool, 10 * k)

/-- What a decoder or an exploder may do to the pool: `allocate` calls on the arena `r` that it
is passed. -/
inductive Allocs (cfg : Config) (r : Nat) : World → World → Prop
  | done (w : World) : Allocs cfg r w w
  | step {w w1 w2 : World} (fuel alignment n : Nat) (p : Addr) :
      Region2.allocate cfg fuel w r alignment n = some (w1, p) → Allocs cfg r w1 w2 →
      Allocs cfg r w w2

/-- What client code that holds the `RegionPtr`s `C` may do to the pool, with the `RegionPtr`s
that it holds afterwards: the public operations, on arenas that it holds. -/
inductive Acts (cfg : Config) : World → List Nat → World → List Nat → Prop
  | done (w : World) (C : List Nat) : Acts cfg w C w C
  | get_region {w w1 : World} {C C1 : List Nat} :
      Acts cfg (RegionPool.get_region w).1 ((RegionPool.get_region w).2 :: C) w1 C1 →
      Acts cfg w C w1 C1
  | copy {w w1 : World} {C C1 : List Nat} (r : Nat) : r ∈ C →
      Acts cfg (w.setRefs r (w.refs r + 1)) (r :: C) w1 C1 → Acts cfg w C w1 C1
  | release {w w1 : World} {C C1 : List Nat} (r : Nat) : r ∈ C →
      Acts cfg (shared_ptr_drop w r) (C.erase r) w1 C1 → Acts cfg w C w1 C1
  | add_reference_to {w w1 : World} {C C1 : List Nat} (r region : Nat) : r ∈ C → region ∈ C →
      Acts cfg (Region2.add_reference_to w r region) C w1 C1 → Acts cfg w C w1 C1
  | clear {w w1 : World} {C C1 : List Nat} (r : Nat) : r ∈ C →
      Acts cfg (Region2.clear w r) C w1 C1 → Acts cfg w C w1 C1
  | allocate {w w1 w2 : World} {C C1 : List Nat} (r fuel alignment n : Nat) (p : Addr) :
      r ∈ C → Region2.allocate cfg fuel w r alignment n = some (w2, p) →
      Acts cfg w2 C w1 C1 → Acts cfg w C w1 C1

/-- A consumer that is client code of the pool: in state `st` it holds the `RegionPtr`s
`own st`, and a call does to the pool what client code may do that holds these and the
`RegionPtr` passed; the latter is among those held afterwards unless it was moved from. -/
def Consumer.Sound {σ : Type} (cfg : Config) (next_ : Consumer σ) (own : σ → List Nat) : Prop :=
  ∀ st pool region value o, next_ st pool region value = some o →
    Acts cfg pool (region :: own st) o.pool ((if o.moved then [] else [region]) ++ own o.next)

/-- What holds at a downstream call `c` of the Explode stage for an input row in the arena
`region`: the arena passed is not the input arena, its parent list holds one reference, to
the input arena, its use count is 1, neither arena is on the list of retired arenas, and the
arena passed was obtained by `get_region` from a pool in which no `RegionPtr` pointed to
it. -/
structure TableExplodeRows.ChildCall (cfg : Config) (region : Nat) (c : Call) : Prop where
  ne : c.region ≠ region
  parents : (c.pool.obj c.region).parents_ = [region]
  refs : c.pool.refs c.region = 1
  live : c.region ∉ c.pool.free_regions_
  parent_live : region ∉ c.pool.free_regions_ ∧ 0 < c.pool.refs region
  obtained : ∃ q held, Reachable cfg q held ∧ region ∈ held ∧
    c.region = (RegionPool.get_region q).2 ∧ c.region ∉ held ∧ q.refs c.region = 0

/-- What holds after `j` runs of the loop of the Explode stage over a consumer that keeps the
arenas and records the calls, started with the consumer holding `st0`, other code holding
`ext`, and the pool `pool0`: the consumer holds the `j` arenas of the calls recorded, which
are distinct and none of which was held at the start, each of them has the parent list
`[region]`, no other object has changed, and no parent list has one of them as entry. -/
structure TableExplodeRows.Kept (cfg : Config) (region : Nat) (st0 ext : List Nat)
    (pool0 : World) (j : Nat) (st : List Nat × List Call) (q : World) : Prop where
  count : st.2.length = j
  held : st.1 = (st.2.map Call.region).reverse ++ st0
  reach : Reachable cfg q (st.1 ++ ext)
  nodup : (st.2.map Call.region).Nodup
  fresh : ∀ c ∈ st.2, c.region ∉ st0 ++ ext
  parents : ∀ c ∈ st.2, (q.obj c.region).parents_ = [region]
  others : ∀ x, x ∉ st.2.map Call.region → q.obj x = pool0.obj x
  unref : ∀ c ∈ st.2, ∀ x, c.region ∉ (q.obj x).parents_

/-! ## `Utils.h`: rounding, division, bits and the layout of arrays -/


/-- The `long` with the bit pattern of `x`: the result of `long` arithmetic whose exact result
is `x`. -/
def int64 (x : Int) : Int := (x + 2 ^ 63) % 2 ^ 64 - 2 ^ 63

/-- `round_up_alignment(long off, long alignment)` of `Utils.h`, the overload on `long`:
`(off + (alignment - 1)) & ~(alignment - 1)`, on bit patterns as in `round_up_offset`. -/
def round_up_alignment (off alignment : Nat) : Nat :=
  let m := (alignment + (2 ^ 64 - 1)) % 2 ^ 64
  ((off + m) % 2 ^ 64) &&& (2 ^ 64 - 1 - m)

/-- `floordiv(n, d)` of `Utils.h`.  `n / d` on `int` truncates towards zero; it is undefined
for `d = 0` and for `INT_MIN / -1`, where the result is `none`. -/
def floordiv (n d : Int) : Option Int :=
  if d = 0 ∨ (n = -(2 ^ 31) ∧ d = -1) then none
  else
    let q := Int.tdiv n d
    let r := int32 (n - int32 (q * d))
    some (if r < 0 then int32 (q - 1) else q)

/-- `lfloordiv(n, d)` of `Utils.h`, the same on `long`. -/
def lfloordiv (n d : Int) : Option Int :=
  if d = 0 ∨ (n = -(2 ^ 63) ∧ d = -1) then none
  else
    let q := Int.tdiv n d
    let r := int64 (n - int64 (q * d))
    some (if r < 0 then int64 (q - 1) else q)


/-- The bit pattern of the `int` to which a `char` with bit pattern `b` is promoted; `char` is
signed, so a byte from 128 on is a negative value and is sign-extended. -/
def char_to_int (b : Nat) : Nat := if b < 128 then b else b + (2 ^ 32 - 256)

/-- `load_bit(byte_offset, bit_offset)` of `Utils.h`; `byte_offset` points at the first byte
of the list, and the result of `&` is converted to `bool`. -/
def load_bit (byte_offset : List Nat) (bit_offset : Nat) : Bool :=
  (char_to_int (byte_offset.getD (bit_offset >>> 3) 0) &&& (1 <<< (bit_offset &&& 0x7))) != 0

/-- `set_bit(byte_offset, bit_offset)` of `Utils.h`; the `int` result of `|` is converted to
`char`, which keeps its low 8 bits. -/
def set_bit (byte_offset : List Nat) (bit_offset : Nat) : List Nat :=
  let off := bit_offset >>> 3
  let new_byte := (char_to_int (byte_offset.getD off 0) ||| (1 <<< (bit_offset &&& 0x7))) % 256
  byte_offset.set off new_byte

/-- `clear_bit(byte_offset, bit_offset)` of `Utils.h`; `~x` on `int` is the pattern
`2 ^ 32 - 1 - x`. -/
def clear_bit (byte_offset : List Nat) (bit_offset : Nat) : List Nat :=
  let off := bit_offset >>> 3
  let new_byte :=
    (char_to_int (byte_offset.getD off 0) &&& (2 ^ 32 - 1 - (1 <<< (bit_offset &&& 0x7)))) % 256
  byte_offset.set off new_byte

/-- `store_bit(byte_offset, bit_offset, b)` of `Utils.h`. -/
def store_bit (byte_offset : List Nat) (bit_offset : Nat) (b : Bool) : List Nat :=
  if b then set_bit byte_offset bit_offset else clear_bit byte_offset bit_offset

/-- `n_missing_bytes(array_len)` of `Utils.h`: `((unsigned long) array_len + 7L) >> 3`,
converted to `int`. -/
def n_missing_bytes (array_len : Int) : Int :=
  reinterpret 32 (((bit_pattern 64 array_len + 7) % 2 ^ 64) >>> 3)

/-- `load_int(off)` of `Utils.h`: the `int` whose object representation are the four bytes at
address `off` of the memory `mem`, on a little-endian machine. -/
def load_int (mem : List Nat) (off : Nat) : Int :=
  reinterpret 32 (le_value ((mem.drop off).take 4))

/-- The template parameters of `BaseArrayImpl<elem_required, elem_size, elem_align>`. -/
structure BaseArrayImpl where
  elem_required : Bool
  elem_size : Nat
  elem_align : Nat
  deriving DecidableEq, Repr

/-- The constant `array_elem_size`: `round_up_offset(elem_size, elem_align)`, a `size_t`. -/
def BaseArrayImpl.array_elem_size (t : BaseArrayImpl) : Nat :=
  round_up_offset t.elem_size t.elem_align

/-- `BaseArrayImpl::load_length(a)`. -/
def BaseArrayImpl.load_length (mem : List Nat) (a : Nat) : Int := load_int mem a

/-- `BaseArrayImpl::elements_offset(len)`: the `int` sum is converted to `long` for
`round_up_alignment`, whose result is converted to `int`. -/
def BaseArrayImpl.elements_offset (t : BaseArrayImpl) (len : Int) : Int :=
  reinterpret 32
    (round_up_alignment
      (bit_pattern 64 (int32 (4 + (if t.elem_required then 0 else n_missing_bytes len))))
      t.elem_align)

/-- `BaseArrayImpl::elements_address(a, len)`; an address is a number below `2 ^ 64`. -/
def BaseArrayImpl.elements_address_len (t : BaseArrayImpl) (a : Nat) (len : Int) : Nat :=
  (a + bit_pattern 64 (t.elements_offset len)) % 2 ^ 64

/-- `BaseArrayImpl::elements_address(a)`. -/
def BaseArrayImpl.elements_address (t : BaseArrayImpl) (mem : List Nat) (a : Nat) : Nat :=
  t.elements_address_len a (BaseArrayImpl.load_length mem a)

/-- `BaseArrayImpl::element_address(a, i)`: `i` is converted to `size_t` for the product. -/
def BaseArrayImpl.element_address (t : BaseArrayImpl) (mem : List Nat) (a : Nat) (i : Int) :
    Nat :=
  (t.elements_address mem a + (bit_pattern 64 i * t.array_elem_size) % 2 ^ 64) % 2 ^ 64

/-- What holds between the state `s` before and the state `s1` after a write of a value of
`w` bytes with the representation `rep`.  When the value does not fit behind the write
offset, one call is made on the wrapped stage, `write_block` with the part of the array below
the offset, the value is stored from index 0 on and the offset is `w`; when it fits, no call
is made, the value is stored from the offset on and the offset advances by `w`. -/
structure BlockingOutputBuffer.Stores (BLOCKSIZE : Int) (s s1 : BlockingOutputBuffer)
    (rep : List Nat) (w : Int) : Prop where
  flushed : s.off_ + w > BLOCKSIZE →
    s1.block_buf_ = s.block_buf_ ++ [BlockCall.write_block (s.block_.take s.off_.toNat)] ∧
    s1.block_ = rep ++ s.block_.drop w.toNat ∧ s1.off_ = w
  fits : s.off_ + w ≤ BLOCKSIZE →
    s1.block_buf_ = s.block_buf_ ∧
    s1.block_ = s.block_.take s.off_.toNat ++ rep ++ s.block_.drop (s.off_ + w).toNat ∧
    s1.off_ = s.off_ + w
  length : s1.block_.length = s.block_.length

/-- A buffered writer whose array is full: the write offset is at `BLOCKSIZE`, where
`write_bytes` leaves it after a run of bytes that ends with the array. -/
def BlockingOutputBuffer.full (BLOCKSIZE : Int) : BlockingOutputBuffer :=
  ⟨List.replicate BLOCKSIZE.toNat 0, BLOCKSIZE, []⟩

/-! ## A chain of Read and Explode over a consumer that keeps no arena -/

/-- A consumer that keeps no arena: a call returns, having done nothing to the pool but
allocate in the arena it is passed, and the `RegionPtr` is either left where it is, or moved
from and destroyed before the call returns. -/
def Consumer.KeepsNone {σ : Type} (cfg : Config) (next_ : Consumer σ) : Prop :=
  ∀ st pool region value, ∃ o w, next_ st pool region value = some o ∧
    Allocs cfg region pool w ∧
    o.pool = if o.moved then shared_ptr_drop w region else w

/-- A caller that calls `consume()` `n` times, for one row after the other. -/
def TableNativeRead.consume_times {σ δ : Type} (dec_ : Decoder δ) (next_ : Consumer σ) :
    Nat → σ × δ → World → Option ((σ × δ) × World)
  | 0, st, pool => some (st, pool)
  | n + 1, st, pool =>
    match TableNativeRead.consume dec_ next_ st pool with
    | none => none
    | some r => TableNativeRead.consume_times dec_ next_ n r.1 r.2

/-- A sample exploder with multiplicities 0, 1 and 2: the row at the pointer `value` has
`value % 3` elements, element `i` is the pointer `100 * value + i`, and nothing is
allocated. -/
def Exploder.cycle : Exploder where
  len := fun _ value => ((value % 3 : Nat) : Int)
  call := fun pool _ value i => (pool, 100 * value + i.toNat)

/-- A terminal consumer that moves from the `RegionPtr` it is passed and destroys it before
it returns. -/
def Consumer.destroying : Consumer Unit :=
  fun st pool region _ => some ⟨st, shared_ptr_drop pool region, true⟩

/-! ## The cascade that `clear()` starts -/

/-- The arenas that arena `r` references through its parent list in state `s`, and the arenas
that these reference in turn. -/
inductive Ancestor (s : World) (r : Nat) : Nat → Prop
  | parent {p : Nat} : p ∈ (s.obj r).parents_ → Ancestor s r p
  | next {p q : Nat} : Ancestor s r p → q ∈ (s.obj p).parents_ → Ancestor s r q

/-- The account of a cascade of destructor calls started by `clear()` on arena `r` in state
`s`, at a state `t` in its middle, with the pointers `D` still to be destroyed and the objects
`R` whose deleter has started: the arenas `lr` were retired so far, and what the free-block
list and the freed chunks gained behind the former used blocks and chunks of `r` are the
former used blocks `lb` and chunks `lc` of the arenas whose deleter has started; all other
arenas but `r` are as they were. -/
structure ClearAcc (s : World) (r : Nat) (hs lr lb lc : List Nat) (t : World)
    (D R : List Nat) : Prop where
  ref : RefInv t hs D R
  held : r ∈ hs
  free_regions : t.free_regions_ = s.free_regions_ ++ lr
  free_blocks : t.free_blocks_ = s.free_blocks_ ++ (s.obj r).used_blocks_ ++ lb
  freed_chunks : t.freed_chunks = s.freed_chunks ++ (s.obj r).big_chunks_ ++ lc
  blocks : lb.Perm ((lr ++ R).flatMap (fun x => (s.obj x).used_blocks_))
  chunks : lc.Perm ((lr ++ R).flatMap (fun x => (s.obj x).big_chunks_))
  obj : ∀ x, x ∉ lr → x ∉ R → x ≠ r → t.obj x = s.obj x
  retired : ∀ x ∈ lr ++ R, Ancestor s r x
  pending : ∀ x ∈ D, Ancestor s r x

/-! ## Lists -/

theorem getD_set_self {α : Type} (l : List α) (r : Nat) (x d : α) (h : r < l.length) :
    (l.set r x).getD r d = x := by
  simp [List.getD_eq_getElem?_getD, List.getElem?_set, h]

theorem getD_set_ne {α : Type} (l : List α) (r a : Nat) (x d : α) (h : a ≠ r) :
    (l.set r x).getD a d = l.getD a d := by
  simp [List.getD_eq_getElem?_getD, List.getElem?_set, Ne.symm h]

theorem getD_of_length_le {α : Type} (l : List α) (r : Nat) (d : α) (h : l.length ≤ r) :
    l.getD r d = d := by
  simp [List.getD_eq_getElem?_getD, List.getElem?_eq_none h]

theorem sum_map_set {α : Type} (f : α → Nat) (d : α) :
    ∀ (l : List α) (r : Nat) (x : α), r < l.length →
      ((l.set r x).map f).sum + f (l.getD r d) = (l.map f).sum + f x
  | [], r, x, h => by simp at h
  | y :: l, 0, x, _ => by simp; omega
  | y :: l, r + 1, x, h => by
    have ih := sum_map_set f d l r x (by simpa using h)
    simp only [List.set_cons_succ, List.map_cons, List.sum_cons, List.getD_cons_succ] at ih ⊢
    omega

theorem flatMap_set_same {α : Type} (f : α → List Nat) (d : α) :
    ∀ (l : List α) (r : Nat) (x : α), f x = f (l.getD r d) → r < l.length →
      (l.set r x).flatMap f = l.flatMap f
  | [], r, x, _, h => by simp at h
  | y :: l, 0, x, hx, _ => by simpa using hx
  | y :: l, r + 1, x, hx, h => by
    have ih := flatMap_set_same f d l r x (by simpa using hx) (by simpa using h)
    simp [List.flatMap_cons, ih]

/-! ## Reading and writing objects -/

namespace World

@[simp] theorem setObj_free_regions (s : World) (r : Nat) (o : Region2) :
    (s.setObj r o).free_regions_ = s.free_regions_ := rfl
@[simp] theorem setObj_free_blocks (s : World) (r : Nat) (o : Region2) :
    (s.setObj r o).free_blocks_ = s.free_blocks_ := rfl
@[simp] theorem setObj_blocks_made (s : World) (r : Nat) (o : Region2) :
    (s.setObj r o).blocks_made = s.blocks_made := rfl
@[simp] theorem setObj_chunk_sizes (s : World) (r : Nat) (o : Region2) :
    (s.setObj r o).chunk_sizes = s.chunk_sizes := rfl
@[simp] theorem setObj_freed_chunks (s : World) (r : Nat) (o : Region2) :
    (s.setObj r o).freed_chunks = s.freed_chunks := rfl
@[simp] theorem setObj_length (s : World) (r : Nat) (o : Region2) :
    (s.setObj r o).regions.length = s.regions.length := by simp [setObj]

@[simp] theorem setRefs_free_regions (s : World) (r n : Nat) :
    (s.setRefs r n).free_regions_ = s.free_regions_ := rfl
@[simp] theorem setRefs_free_blocks (s : World) (r n : Nat) :
    (s.setRefs r n).free_blocks_ = s.free_blocks_ := rfl
@[simp] theorem setRefs_blocks_made (s : World) (r n : Nat) :
    (s.setRefs r n).blocks_made = s.blocks_made := rfl
@[simp] theorem setRefs_chunk_sizes (s : World) (r n : Nat) :
    (s.setRefs r n).chunk_sizes = s.chunk_sizes := rfl
@[simp] theorem setRefs_freed_chunks (s : World) (r n : Nat) :
    (s.setRefs r n).freed_chunks = s.freed_chunks := rfl
@[simp] theorem setRefs_length (s : World) (r n : Nat) :
    (s.setRefs r n).regions.length = s.regions.length := by simp [setRefs]

theorem slot_of_length_le (s : World) (r : Nat) (h : s.regions.length ≤ r) :
    s.slot r = Slot.null := getD_of_length_le _ _ _ h

theorem obj_of_length_le (s : World) (r : Nat) (h : s.regions.length ≤ r) :
    s.obj r = Region2.null := by simp [obj, slot_of_length_le s r h, Slot.null]

theorem refs_of_length_le (s : World) (r : Nat) (h : s.regions.length ≤ r) :
    s.refs r = 0 := by simp [refs, slot_of_length_le s r h, Slot.null]

theorem lt_length_of_refs_pos (s : World) (r : Nat) (h : 0 < s.refs r) :
    r < s.regions.length := by
  by_contra hc
  have := refs_of_length_le s r (by omega)
  omega

theorem setObj_of_length_le (s : World) (r : Nat) (o : Region2) (h : s.regions.length ≤ r) :
    s.setObj r o = s := by
  simp [setObj, List.set_eq_of_length_le h]

theorem setRefs_of_length_le (s : World) (r n : Nat) (h : s.regions.length ≤ r) :
    s.setRefs r n = s := by
  simp [setRefs, List.set_eq_of_length_le h]

theorem obj_setObj_self (s : World) (r : Nat) (o : Region2) (h : r < s.regions.length) :
    (s.setObj r o).obj r = o := by
  show (List.getD (s.regions.set r ⟨o, s.refs r⟩) r Slot.null).obj = o
  rw [getD_set_self _ _ _ _ h]

theorem obj_setObj_ne (s : World) (r a : Nat) (o : Region2) (h : a ≠ r) :
    (s.setObj r o).obj a = s.obj a := by
  show (List.getD (s.regions.set r ⟨o, s.refs r⟩) a Slot.null).obj = _
  rw [getD_set_ne _ _ _ _ _ h]; rfl

@[simp] theorem refs_setObj (s : World) (r a : Nat) (o : Region2) :
    (s.setObj r o).refs a = s.refs a := by
  by_cases h : a = r
  · subst h
    by_cases hl : a < s.regions.length
    · show (List.getD (s.regions.set a ⟨o, s.refs a⟩) a Slot.null).use_count = _
      rw [getD_set_self _ _ _ _ hl]
    · rw [setObj_of_length_le s a o (by omega)]
  · show (List.getD (s.regions.set r ⟨o, s.refs r⟩) a Slot.null).use_count = _
    rw [getD_set_ne _ _ _ _ _ h]; rfl

@[simp] theorem obj_setRefs (s : World) (r a n : Nat) :
    (s.setRefs r n).obj a = s.obj a := by
  by_cases h : a = r
  · subst h
    by_cases hl : a < s.regions.length
    · show (List.getD (s.regions.set a ⟨s.obj a, n⟩) a Slot.null).obj = _
      rw [getD_set_self _ _ _ _ hl]
    · rw [setRefs_of_length_le s a n (by omega)]
  · show (List.getD (s.regions.set r ⟨s.obj r, n⟩) a Slot.null).obj = _
    rw [getD_set_ne _ _ _ _ _ h]; rfl

theorem refs_setRefs_self (s : World) (r n : Nat) (h : r < s.regions.length) :
    (s.setRefs r n).refs r = n := by
  show (List.getD (s.regions.set r ⟨s.obj r, n⟩) r Slot.null).use_count = n
  rw [getD_set_self _ _ _ _ h]

theorem refs_setRefs_ne (s : World) (r a n : Nat) (h : a ≠ r) :
    (s.setRefs r n).refs a = s.refs a := by
  show (List.getD (s.regions.set r ⟨s.obj r, n⟩) a Slot.null).use_count = _
  rw [getD_set_ne _ _ _ _ _ h]; rfl

/-! ## Gathering a member over all objects -/

@[simp] theorem gather_setRefs (g : Region2 → List Nat) (s : World) (r n : Nat) :
    (s.setRefs r n).gather g = s.gather g := by
  by_cases hl : r < s.regions.length
  · simp only [gather, setRefs]
    have e : (fun x : Slot => g x.obj) ⟨s.obj r, n⟩
        = (fun x : Slot => g x.obj) (s.regions.getD r Slot.null) := rfl
    exact flatMap_set_same (fun x => g x.obj) Slot.null s.regions r ⟨s.obj r, n⟩ e hl
  · rw [setRefs_of_length_le s r n (by omega)]

theorem count_gather_setObj (g : Region2 → List Nat) (s : World) (r : Nat) (o : Region2)
    (a : Nat) (h : r < s.regions.length) :
    ((s.setObj r o).gather g).count a + (g (s.obj r)).count a
      = (s.gather g).count a + (g o).count a := by
  simp only [gather, setObj, List.count_flatMap]
  exact sum_map_set (List.count a ∘ fun x => g x.obj) Slot.null s.regions r ⟨o, s.refs r⟩ h

theorem length_gather_setObj (g : Region2 → List Nat) (s : World) (r : Nat) (o : Region2)
    (h : r < s.regions.length) :
    ((s.setObj r o).gather g).length + (g (s.obj r)).length
      = (s.gather g).length + (g o).length := by
  simp only [gather, setObj, List.length_flatMap]
  exact sum_map_set (List.length ∘ fun x => g x.obj) Slot.null s.regions r ⟨o, s.refs r⟩ h

theorem gather_setObj_same (g : Region2 → List Nat) (s : World) (r : Nat) (o : Region2)
    (h : g o = g (s.obj r)) : (s.setObj r o).gather g = s.gather g := by
  by_cases hl : r < s.regions.length
  · simp only [gather, setObj]
    exact flatMap_set_same (fun x => g x.obj) Slot.null s.regions r ⟨o, s.refs r⟩ h hl
  · rw [setObj_of_length_le s r o (by omega)]

end World

/-! ## `clearFields` -/

theorem clearFields_eq (s : World) (r : Nat) :
    Region2.clearFields s r
      = ({ s with free_blocks_ := s.free_blocks_ ++ (s.obj r).used_blocks_,
                  freed_chunks := s.freed_chunks ++ (s.obj r).big_chunks_ } : World).setObj r
          (s.obj r).reset := rfl

theorem clearFields_of_length_le (s : World) (r : Nat) (h : s.regions.length ≤ r) :
    Region2.clearFields s r = s := by
  rw [clearFields_eq, World.setObj_of_length_le _ _ _ (by simpa using h)]
  simp [World.obj_of_length_le s r h, Region2.null]

@[simp] theorem clearFields_free_regions (s : World) (r : Nat) :
    (Region2.clearFields s r).free_regions_ = s.free_regions_ := rfl
@[simp] theorem clearFields_free_blocks (s : World) (r : Nat) :
    (Region2.clearFields s r).free_blocks_ = s.free_blocks_ ++ (s.obj r).used_blocks_ := rfl
@[simp] theorem clearFields_freed_chunks (s : World) (r : Nat) :
    (Region2.clearFields s r).freed_chunks = s.freed_chunks ++ (s.obj r).big_chunks_ := rfl
@[simp] theorem clearFields_blocks_made (s : World) (r : Nat) :
    (Region2.clearFields s r).blocks_made = s.blocks_made := rfl
@[simp] theorem clearFields_chunk_sizes (s : World) (r : Nat) :
    (Region2.clearFields s r).chunk_sizes = s.chunk_sizes := rfl
@[simp] theorem clearFields_length (s : World) (r : Nat) :
    (Region2.clearFields s r).regions.length = s.regions.length := by
  rw [clearFields_eq, World.setObj_length]

@[simp] theorem clearFields_refs (s : World) (r a : Nat) :
    (Region2.clearFields s r).refs a = s.refs a := by
  rw [clearFields_eq, World.refs_setObj]; rfl

theorem clearFields_obj_self (s : World) (r : Nat) :
    (Region2.clearFields s r).obj r = (s.obj r).reset := by
  by_cases h : r < s.regions.length
  · rw [clearFields_eq, World.obj_setObj_self _ _ _ (by simpa using h)]
  · rw [clearFields_of_length_le s r (by omega), World.obj_of_length_le s r (by omega)]; rfl

theorem clearFields_obj_ne (s : World) (r a : Nat) (h : a ≠ r) :
    (Region2.clearFields s r).obj a = s.obj a := by
  rw [clearFields_eq, World.obj_setObj_ne _ _ _ _ h]; rfl

theorem clearFields_obj (s : World) (r a : Nat) :
    (Region2.clearFields s r).obj a = s.obj a ∨ (Region2.clearFields s r).obj a = (s.obj a).reset := by
  by_cases h : a = r
  · subst h; exact Or.inr (clearFields_obj_self s a)
  · exact Or.inl (clearFields_obj_ne s r a h)

theorem clearFields_count_gather (g : Region2 → List Nat) (s : World) (r a : Nat)
    (h : r < s.regions.length) :
    ((Region2.clearFields s r).gather g).count a + (g (s.obj r)).count a
      = (s.gather g).count a + (g (s.obj r).reset).count a :=
  World.count_gather_setObj g
    ⟨s.regions, s.free_regions_, s.free_blocks_ ++ (s.obj r).used_blocks_, s.blocks_made,
      s.chunk_sizes, s.freed_chunks ++ (s.obj r).big_chunks_⟩ r (s.obj r).reset a h

theorem clearFields_length_gather (g : Region2 → List Nat) (s : World) (r : Nat)
    (h : r < s.regions.length) :
    ((Region2.clearFields s r).gather g).length + (g (s.obj r)).length
      = (s.gather g).length + (g (s.obj r).reset).length :=
  World.length_gather_setObj g
    ⟨s.regions, s.free_regions_, s.free_blocks_ ++ (s.obj r).used_blocks_, s.blocks_made,
      s.chunk_sizes, s.freed_chunks ++ (s.obj r).big_chunks_⟩ r (s.obj r).reset h

theorem clearFields_count_parents (s : World) (r a : Nat) :
    (Region2.clearFields s r).allParents.count a + (s.obj r).parents_.count a
      = s.allParents.count a := by
  by_cases h : r < s.regions.length
  · have := clearFields_count_gather (fun o => o.parents_) s r a h
    simpa [World.allParents, Region2.reset] using this
  · rw [clearFields_of_length_le s r (by omega), World.obj_of_length_le s r (by omega)]
    simp [Region2.null]

theorem clearFields_length_parents (s : World) (r : Nat) :
    (Region2.clearFields s r).allParents.length + (s.obj r).parents_.length
      = s.allParents.length := by
  by_cases h : r < s.regions.length
  · have := clearFields_length_gather (fun o => o.parents_) s r h
    simpa [World.allParents, Region2.reset] using this
  · rw [clearFields_of_length_le s r (by omega), World.obj_of_length_le s r (by omega)]
    simp [Region2.null]

theorem clearFields_count_blocks (s : World) (r b : Nat) :
    (Region2.clearFields s r).allBlocks.count b = s.allBlocks.count b := by
  by_cases h : r < s.regions.length
  · have := clearFields_count_gather (fun o => o.current_block_ :: o.used_blocks_) s r b h
    simp only [World.allBlocks, clearFields_free_blocks, List.count_append]
    simp only [Region2.reset, List.count_cons, List.count_nil] at this ⊢
    omega
  · rw [clearFields_of_length_le s r (by omega)]

theorem clearFields_count_chunks (s : World) (r c : Nat) :
    (Region2.clearFields s r).allChunks.count c = s.allChunks.count c := by
  by_cases h : r < s.regions.length
  · have := clearFields_count_gather (fun o => o.big_chunks_) s r c h
    simp only [World.allChunks, clearFields_freed_chunks, List.count_append]
    simp only [Region2.reset, List.count_nil] at this ⊢
    omega
  · rw [clearFields_of_length_le s r (by omega)]

/-! ## The destructor as a sequence of elementary updates -/

theorem foldl_micros (f : World → Nat → World)
    (hf : ∀ s r, Relation.ReflTransGen Micro s (f s r)) :
    ∀ (ps : List Nat) (s : World), Relation.ReflTransGen Micro s (ps.foldl f s)
  | [], _ => Relation.ReflTransGen.refl
  | p :: ps, s => (hf s p).trans (foldl_micros f hf ps (f s p))

theorem dropN_micros : ∀ (fuel : Nat) (s : World) (r : Nat),
    Relation.ReflTransGen Micro s (shared_ptr_dropN fuel s r)
  | 0, _, _ => Relation.ReflTransGen.refl
  | fuel + 1, s, r => by
    have h1 : Relation.ReflTransGen Micro s (s.setRefs r (s.refs r - 1)) :=
      Relation.ReflTransGen.single (Micro.dec s r _)
    unfold shared_ptr_dropN
    by_cases h : s.refs r - 1 = 0
    · rw [if_pos h]
      unfold RegionPool.RegionDeleter
      refine Relation.ReflTransGen.tail ?_ (Micro.retire _ r)
      refine h1.trans ?_
      refine (Relation.ReflTransGen.single (Micro.fields _ r)).trans ?_
      exact foldl_micros _ (dropN_micros fuel) _ _
    · rw [if_neg h]; exact h1

theorem clear_micros (s : World) (r : Nat) :
    Relation.ReflTransGen Micro s (Region2.clear s r) :=
  (Relation.ReflTransGen.single (Micro.fields s r)).trans
    (foldl_micros _ (dropN_micros s.depth) _ _)

theorem drop_micros (s : World) (r : Nat) :
    Relation.ReflTransGen Micro s (shared_ptr_drop s r) := dropN_micros _ s r

/-- A relation between states that holds across every elementary update, is reflexive and
transitive, holds across every sequence of them. -/
theorem micros_lift (Q : World → World → Prop) (hrefl : ∀ s, Q s s)
    (htrans : ∀ a b c, Q a b → Q b c → Q a c) (hstep : ∀ a b, Micro a b → Q a b)
    {a b : World} (h : Relation.ReflTransGen Micro a b) : Q a b := by
  induction h with
  | refl => exact hrefl _
  | tail _ hbc ih => exact htrans _ _ _ ih (hstep _ _ hbc)

@[simp] theorem reset_reset (o : Region2) : o.reset.reset = o.reset := rfl

theorem reset_cleared (o : Region2) : o.reset.Cleared := ⟨rfl, rfl, rfl, rfl⟩

theorem reset_of_cleared {o : Region2} (h : o.Cleared) : o.reset = o := by
  obtain ⟨h1, h2, h3, h4⟩ := h
  cases o
  simp only [Region2.reset] at *
  simp [h1, h2, h3, h4]

theorem Frame.stay (s : World) : Frame s s :=
  ⟨rfl, rfl, rfl, fun _ => Or.inl rfl, fun _ => rfl, fun _ => rfl, le_refl _,
    ⟨[], by simp⟩, ⟨[], by simp⟩, ⟨[], by simp⟩⟩

theorem Frame.andThen {a b c : World} (h1 : Frame a b) (h2 : Frame b c) : Frame a c where
  length := h2.length.trans h1.length
  blocks_made := h2.blocks_made.trans h1.blocks_made
  chunk_sizes := h2.chunk_sizes.trans h1.chunk_sizes
  obj x := by
    rcases h1.obj x with e1 | e1 <;> rcases h2.obj x with e2 | e2
    · exact Or.inl (e2.trans e1)
    · exact Or.inr (by rw [e2, e1])
    · exact Or.inr (e2.trans e1)
    · exact Or.inr (by rw [e2, e1, reset_reset])
  blocks x := (h2.blocks x).trans (h1.blocks x)
  chunks x := (h2.chunks x).trans (h1.chunks x)
  parents := le_trans h2.parents h1.parents
  free_regions := by
    obtain ⟨l1, e1⟩ := h1.free_regions
    obtain ⟨l2, e2⟩ := h2.free_regions
    exact ⟨l1 ++ l2, by rw [e2, e1, List.append_assoc]⟩
  free_blocks := by
    obtain ⟨l1, e1⟩ := h1.free_blocks
    obtain ⟨l2, e2⟩ := h2.free_blocks
    exact ⟨l1 ++ l2, by rw [e2, e1, List.append_assoc]⟩
  freed_chunks := by
    obtain ⟨l1, e1⟩ := h1.freed_chunks
    obtain ⟨l2, e2⟩ := h2.freed_chunks
    exact ⟨l1 ++ l2, by rw [e2, e1, List.append_assoc]⟩

theorem Frame.of_micro {a b : World} (h : Micro a b) : Frame a b := by
  cases h with
  | dec r n =>
    refine ⟨by simp, rfl, rfl, fun x => Or.inl (by simp), fun x => ?_, fun x => ?_, ?_,
      ⟨[], by simp⟩, ⟨[], by simp⟩, ⟨[], by simp⟩⟩
    · simp [World.allBlocks]
    · simp [World.allChunks]
    · simp [World.allParents]
  | fields r =>
    refine ⟨by simp, rfl, rfl, fun x => clearFields_obj a r x,
      fun x => clearFields_count_blocks a r x, fun x => clearFields_count_chunks a r x, ?_,
      ⟨[], by simp⟩, ⟨_, rfl⟩, ⟨_, rfl⟩⟩
    have := clearFields_length_parents a r
    omega
  | retire r =>
    exact ⟨rfl, rfl, rfl, fun x => Or.inl rfl, fun x => rfl, fun x => rfl, le_refl _,
      ⟨[r], rfl⟩, ⟨[], by simp⟩, ⟨[], by simp⟩⟩

theorem Frame.of_micros {a b : World} (h : Relation.ReflTransGen Micro a b) : Frame a b :=
  micros_lift Frame Frame.stay (fun _ _ _ => Frame.andThen) (fun _ _ => Frame.of_micro) h

theorem dropN_frame (fuel : Nat) (s : World) (r : Nat) : Frame s (shared_ptr_dropN fuel s r) :=
  Frame.of_micros (dropN_micros fuel s r)

theorem drop_frame (s : World) (r : Nat) : Frame s (shared_ptr_drop s r) :=
  Frame.of_micros (drop_micros s r)

theorem clear_frame (s : World) (r : Nat) : Frame s (Region2.clear s r) :=
  Frame.of_micros (clear_micros s r)

theorem foldl_dropN_frame (fuel : Nat) (ps : List Nat) (s : World) :
    Frame s (ps.foldl (shared_ptr_dropN fuel) s) :=
  Frame.of_micros (foldl_micros _ (dropN_micros fuel) ps s)

theorem Frame.current {a b : World} (h : Frame a b) (x : Nat) :
    (b.obj x).current_block_ = (a.obj x).current_block_ := by
  rcases h.obj x with e | e
  · rw [e]
  · rw [e]; rfl

theorem Frame.cleared {a b : World} (h : Frame a b) (x : Nat) (hc : (a.obj x).Cleared) :
    (b.obj x).Cleared := by
  rcases h.obj x with e | e <;> rw [e]
  · exact hc
  · exact reset_cleared _

/-! ## Invariants across a cascade of destructor calls -/

/-- An invariant `I s D R` of a state `s`, the pointers `D` still to be destroyed and the
objects `R` still to be retired, that each elementary update of the destructor maintains, is
maintained by the whole cascade that destroying the pointers `ps` starts, given enough depth. -/
theorem foldl_dropN_inv (I : World → List Nat → List Nat → Prop)
    (hkeep : ∀ s r D R, I s (r :: D) R → s.refs r - 1 ≠ 0 →
      I (s.setRefs r (s.refs r - 1)) D R)
    (hfire : ∀ s r D R, I s (r :: D) R → s.refs r - 1 = 0 →
      I (Region2.clearFields (s.setRefs r (s.refs r - 1)) r) ((s.obj r).parents_ ++ D) (r :: R))
    (hretire : ∀ s r D R, I s D (r :: R) →
      I { s with free_regions_ := s.free_regions_ ++ [r] } D R) :
    ∀ (fuel : Nat) (ps : List Nat) (s : World) (D R : List Nat),
      (ps ≠ [] → s.allParents.length < fuel) → I s (ps ++ D) R →
      I (ps.foldl (shared_ptr_dropN fuel) s) D R := by
  intro fuel
  induction fuel with
  | zero =>
    intro ps s D R hfuel h
    cases ps with
    | nil => simpa using h
    | cons p ps => exact absurd (hfuel (by simp)) (by simp)
  | succ fuel ih =>
    intro ps
    induction ps with
    | nil => intro s D R _ h; simpa using h
    | cons p ps ihps =>
      intro s D R hfuel h
      have hlen : s.allParents.length < fuel + 1 := hfuel (by simp)
      have hstep : I (shared_ptr_dropN (fuel + 1) s p) (ps ++ D) R := by
        unfold shared_ptr_dropN
        by_cases hz : s.refs p - 1 = 0
        · rw [if_pos hz]
          unfold RegionPool.RegionDeleter
          apply hretire
          have h2 := hfire s p (ps ++ D) R h hz
          have hobj : (s.setRefs p (s.refs p - 1)).obj p = s.obj p := World.obj_setRefs _ _ _ _
          unfold Region2.clearWith
          rw [hobj]
          refine ih (s.obj p).parents_ _ (ps ++ D) (p :: R) ?_ h2
          intro hne
          have h3 := clearFields_length_parents (s.setRefs p (s.refs p - 1)) p
          rw [hobj] at h3
          have h4 : (s.setRefs p (s.refs p - 1)).allParents = s.allParents :=
            World.gather_setRefs _ _ _ _
          rw [h4] at h3
          have h5 : 0 < (s.obj p).parents_.length := List.length_pos.mpr hne
          omega
        · rw [if_neg hz]
          exact hkeep s p (ps ++ D) R h hz
      refine ihps _ D R ?_ hstep
      intro _
      exact lt_of_le_of_lt (dropN_frame (fuel + 1) s p).parents hlen

theorem dropN_inv (I : World → List Nat → List Nat → Prop)
    (hkeep : ∀ s r D R, I s (r :: D) R → s.refs r - 1 ≠ 0 →
      I (s.setRefs r (s.refs r - 1)) D R)
    (hfire : ∀ s r D R, I s (r :: D) R → s.refs r - 1 = 0 →
      I (Region2.clearFields (s.setRefs r (s.refs r - 1)) r) ((s.obj r).parents_ ++ D) (r :: R))
    (hretire : ∀ s r D R, I s D (r :: R) →
      I { s with free_regions_ := s.free_regions_ ++ [r] } D R)
    (fuel : Nat) (s : World) (r : Nat) (D R : List Nat)
    (hfuel : s.allParents.length < fuel) (h : I s (r :: D) R) :
    I (shared_ptr_dropN fuel s r) D R :=
  foldl_dropN_inv I hkeep hfire hretire fuel [r] s D R (fun _ => hfuel) h

/-! ## The reference-count invariant -/

theorem RefInv.refs_pos {s : World} {hs D R : List Nat} {r : Nat}
    (h : RefInv s hs (r :: D) R) : 0 < s.refs r := by
  have := h.count r
  rw [List.count_cons_self] at this
  omega

theorem RefInv.refs_pos_of_mem {s : World} {hs D R : List Nat} {r : Nat}
    (h : RefInv s hs D R) (hr : r ∈ hs) : 0 < s.refs r := by
  have := h.count r
  have := List.count_pos_iff.mpr hr
  omega

theorem refInv_keep (hs : List Nat) (s : World) (r : Nat) (D R : List Nat)
    (h : RefInv s hs (r :: D) R) (hz : s.refs r - 1 ≠ 0) :
    RefInv (s.setRefs r (s.refs r - 1)) hs D R := by
  have hv : r < s.regions.length := World.lt_length_of_refs_pos s r h.refs_pos
  have hne : ∀ a, s.refs a = 0 → a ≠ r := by
    intro a ha e; subst e; omega
  refine ⟨fun a => ?_, fun a ha => ?_, fun a ha => ?_, h.nodup⟩
  · have hc := h.count a
    have hp : (s.setRefs r (s.refs r - 1)).allParents = s.allParents :=
      World.gather_setRefs _ _ _ _
    rw [hp]
    by_cases e : a = r
    · subst e
      rw [World.refs_setRefs_self _ _ _ hv]
      rw [List.count_cons_self] at hc
      omega
    · rw [World.refs_setRefs_ne _ _ _ _ e]
      rw [List.count_cons_of_ne e] at hc
      exact hc
  · obtain ⟨h1, h2, h3⟩ := h.free a ha
    exact ⟨by simpa using h1, by rw [World.refs_setRefs_ne _ _ _ _ (hne a h2)]; exact h2,
      by rw [World.obj_setRefs]; exact h3⟩
  · obtain ⟨h1, h2, h3⟩ := h.pend a ha
    exact ⟨by simpa using h1, by rw [World.refs_setRefs_ne _ _ _ _ (hne a h2)]; exact h2,
      by rw [World.obj_setRefs]; exact h3⟩

theorem refInv_fire (hs : List Nat) (s : World) (r : Nat) (D R : List Nat)
    (h : RefInv s hs (r :: D) R) (hz : s.refs r - 1 = 0) :
    RefInv (Region2.clearFields (s.setRefs r (s.refs r - 1)) r) hs
      ((s.obj r).parents_ ++ D) (r :: R) := by
  have hpos := h.refs_pos
  have hv : r < s.regions.length := World.lt_length_of_refs_pos s r hpos
  have hone : s.refs r = 1 := by omega
  have hne : ∀ a, s.refs a = 0 → a ≠ r := by
    intro a ha e; subst e; omega
  have hcr := h.count r
  rw [List.count_cons_self] at hcr
  have hobj : (s.setRefs r (s.refs r - 1)).obj r = s.obj r := World.obj_setRefs _ _ _ _
  have hp : (s.setRefs r (s.refs r - 1)).allParents = s.allParents :=
    World.gather_setRefs _ _ _ _
  have hnotfree : r ∉ s.free_regions_ := fun hm => hne r (h.free r hm).2.1 rfl
  have hnotR : r ∉ R := fun hm => hne r (h.pend r hm).2.1 rfl
  refine ⟨fun a => ?_, fun a ha => ?_, fun a ha => ?_, ?_⟩
  · have hc := h.count a
    have hcp := clearFields_count_parents (s.setRefs r (s.refs r - 1)) r a
    rw [hobj, hp] at hcp
    rw [clearFields_refs, List.count_append]
    by_cases e : a = r
    · subst e
      rw [World.refs_setRefs_self _ _ _ hv]
      omega
    · rw [World.refs_setRefs_ne _ _ _ _ e]
      rw [List.count_cons_of_ne e] at hc
      omega
  · have ha' : a ∈ s.free_regions_ := ha
    obtain ⟨h1, h2, h3⟩ := h.free a ha'
    have e := hne a h2
    refine ⟨by simpa using h1, ?_, ?_⟩
    · rw [clearFields_refs, World.refs_setRefs_ne _ _ _ _ e]; exact h2
    · rw [clearFields_obj_ne _ _ _ e, World.obj_setRefs]; exact h3
  · rcases List.mem_cons.mp ha with e | ha'
    · subst e
      refine ⟨by simpa using hv, ?_, ?_⟩
      · rw [clearFields_refs, World.refs_setRefs_self _ _ _ hv]; exact hz
      · rw [clearFields_obj_self]; exact reset_cleared _
    · obtain ⟨h1, h2, h3⟩ := h.pend a ha'
      have e := hne a h2
      refine ⟨by simpa using h1, ?_, ?_⟩
      · rw [clearFields_refs, World.refs_setRefs_ne _ _ _ _ e]; exact h2
      · rw [clearFields_obj_ne _ _ _ e, World.obj_setRefs]; exact h3
  · show (s.free_regions_ ++ r :: R).Nodup
    rw [List.nodup_middle, List.nodup_cons]
    exact ⟨by simp [hnotfree, hnotR], h.nodup⟩

theorem refInv_retire (hs : List Nat) (s : World) (r : Nat) (D R : List Nat)
    (h : RefInv s hs D (r :: R)) :
    RefInv { s with free_regions_ := s.free_regions_ ++ [r] } hs D R := by
  refine ⟨fun a => h.count a, fun a ha => ?_, fun a ha => h.pend a (List.mem_cons_of_mem _ ha),
    ?_⟩
  · have ha' : a ∈ s.free_regions_ ++ [r] := ha
    rcases List.mem_append.mp ha' with hm | hm
    · exact h.free a hm
    · rw [List.mem_singleton] at hm
      subst hm
      exact h.pend a (List.mem_cons_self _ _)
  · show ((s.free_regions_ ++ [r]) ++ R).Nodup
    have := h.nodup
    simpa [List.append_assoc] using this

theorem dropN_refInv (hs : List Nat) (fuel : Nat) (s : World) (r : Nat) (D R : List Nat)
    (hfuel : s.allParents.length < fuel) (h : RefInv s hs (r :: D) R) :
    RefInv (shared_ptr_dropN fuel s r) hs D R :=
  dropN_inv (fun s D R => RefInv s hs D R) (refInv_keep hs) (refInv_fire hs) (refInv_retire hs)
    fuel s r D R hfuel h

theorem drop_refInv {s : World} {hs : List Nat} {r : Nat} (h : RefInv s hs [] [])
    (hr : r ∈ hs) : RefInv (shared_ptr_drop s r) (hs.erase r) [] [] := by
  apply dropN_refInv _ _ _ _ _ _ (Nat.lt_succ_self _)
  refine ⟨fun a => ?_, h.free, h.pend, h.nodup⟩
  have hc := h.count a
  by_cases e : a = r
  · subst e
    have := List.count_erase_self a hs
    have := List.count_pos_iff.mpr hr
    rw [List.count_cons_self]
    simp only [List.count_nil] at hc ⊢
    omega
  · rw [List.count_cons_of_ne e, List.count_erase_of_ne e]
    exact hc

theorem clear_refInv {s : World} {hs : List Nat} {r : Nat} (h : RefInv s hs [] [])
    (hr : r ∈ hs) : RefInv (Region2.clear s r) hs [] [] := by
  have hpos := h.refs_pos_of_mem hr
  have hne : ∀ a, s.refs a = 0 → a ≠ r := by
    intro a ha e; subst e; omega
  unfold Region2.clear Region2.clearWith
  apply foldl_dropN_inv (fun s D R => RefInv s hs D R) (refInv_keep hs) (refInv_fire hs)
    (refInv_retire hs)
  · intro _
    have := clearFields_length_parents s r
    show (Region2.clearFields s r).allParents.length < s.allParents.length + 1
    omega
  · refine ⟨fun a => ?_, fun a ha => ?_, fun a ha => by simp at ha, h.nodup⟩
    · have hc := h.count a
      have hcp := clearFields_count_parents s r a
      rw [clearFields_refs, List.count_append]
      simp only [List.count_nil] at hc ⊢
      omega
    · obtain ⟨h1, h2, h3⟩ := h.free a ha
      have e := hne a h2
      exact ⟨by simpa using h1, by rw [clearFields_refs]; exact h2,
        by rw [clearFields_obj_ne _ _ _ e]; exact h3⟩

/-! ## `get_block`, `new_region`, `get_region` -/

theorem get_block_cases (s : World) :
    (s.free_blocks_ = [] ∧
      RegionPool.get_block s = ({ s with blocks_made := s.blocks_made + 1 }, s.blocks_made)) ∨
    (∃ l b, s.free_blocks_ = l ++ [b] ∧
      RegionPool.get_block s = ({ s with free_blocks_ := l }, b)) := by
  unfold RegionPool.get_block
  cases h : s.free_blocks_.getLast? with
  | none => exact Or.inl ⟨List.getLast?_eq_none_iff.mp h, rfl⟩
  | some b =>
    refine Or.inr ⟨s.free_blocks_.dropLast, b, ?_, rfl⟩
    exact (List.dropLast_append_getLast? b (by simp [h])).symm

@[simp] theorem get_block_regions (s : World) :
    (RegionPool.get_block s).1.regions = s.regions := by
  rcases get_block_cases s with ⟨_, e⟩ | ⟨l, b, _, e⟩ <;> rw [e]

@[simp] theorem get_block_free_regions (s : World) :
    (RegionPool.get_block s).1.free_regions_ = s.free_regions_ := by
  rcases get_block_cases s with ⟨_, e⟩ | ⟨l, b, _, e⟩ <;> rw [e]

@[simp] theorem get_block_chunk_sizes (s : World) :
    (RegionPool.get_block s).1.chunk_sizes = s.chunk_sizes := by
  rcases get_block_cases s with ⟨_, e⟩ | ⟨l, b, _, e⟩ <;> rw [e]

@[simp] theorem get_block_freed_chunks (s : World) :
    (RegionPool.get_block s).1.freed_chunks = s.freed_chunks := by
  rcases get_block_cases s with ⟨_, e⟩ | ⟨l, b, _, e⟩ <;> rw [e]

@[simp] theorem get_block_obj (s : World) (a : Nat) :
    (RegionPool.get_block s).1.obj a = s.obj a := by
  simp [World.obj, World.slot]

@[simp] theorem get_block_refs (s : World) (a : Nat) :
    (RegionPool.get_block s).1.refs a = s.refs a := by
  simp [World.refs, World.slot]

@[simp] theorem get_block_gather (g : Region2 → List Nat) (s : World) :
    (RegionPool.get_block s).1.gather g = s.gather g := by
  simp [World.gather]

/-- Block bookkeeping of `get_block`: the returned block leaves the free list, or is new. -/
theorem get_block_count (s : World) (x : Nat) :
    (RegionPool.get_block s).1.free_blocks_.count x
        + (if x = (RegionPool.get_block s).2 then 1 else 0)
        + (if x < s.blocks_made then 1 else 0)
      = s.free_blocks_.count x + (if x < (RegionPool.get_block s).1.blocks_made then 1 else 0) := by
  rcases get_block_cases s with ⟨_, e⟩ | ⟨l, b, hl, e⟩
  · rw [e]
    simp only
    by_cases h1 : x = s.blocks_made
    · subst h1; simp
    · by_cases h2 : x < s.blocks_made
      · have : x < s.blocks_made + 1 := by omega
        simp [h1, h2, this]
      · have : ¬ x < s.blocks_made + 1 := by omega
        simp [h1, h2, this]
  · rw [e, hl]
    simp only [List.count_append, List.count_cons, List.count_nil]
    by_cases h1 : x = b
    · subst h1; simp
    · have : ¬ b = x := fun h => h1 h.symm
      simp [h1, this]

theorem get_block_blocks_made_le (s : World) :
    s.blocks_made ≤ (RegionPool.get_block s).1.blocks_made := by
  rcases get_block_cases s with ⟨_, e⟩ | ⟨l, b, _, e⟩
  · rw [e]; exact Nat.le_succ _
  · rw [e]

/-- The free list after `get_block` is the old one, or the old one without its last entry. -/
theorem get_block_free_blocks (s : World) :
    (RegionPool.get_block s).1.free_blocks_ = s.free_blocks_.dropLast := by
  rcases get_block_cases s with ⟨h, e⟩ | ⟨l, b, h, e⟩ <;> rw [e, h] <;> simp

theorem new_region_fst (s : World) :
    (RegionPool.new_region s).1
      = { (RegionPool.get_block s).1 with
          regions := s.regions ++ [⟨⟨0, (RegionPool.get_block s).2, [], [], []⟩, 1⟩] } := by
  simp [RegionPool.new_region]

@[simp] theorem new_region_snd (s : World) :
    (RegionPool.new_region s).2 = s.regions.length := by
  simp [RegionPool.new_region]

@[simp] theorem new_region_regions (s : World) :
    (RegionPool.new_region s).1.regions
      = s.regions ++ [⟨⟨0, (RegionPool.get_block s).2, [], [], []⟩, 1⟩] := by
  rw [new_region_fst]

@[simp] theorem new_region_free_regions (s : World) :
    (RegionPool.new_region s).1.free_regions_ = s.free_regions_ := by
  rw [new_region_fst]; simp

@[simp] theorem new_region_free_blocks (s : World) :
    (RegionPool.new_region s).1.free_blocks_ = (RegionPool.get_block s).1.free_blocks_ := by
  rw [new_region_fst]

@[simp] theorem new_region_blocks_made (s : World) :
    (RegionPool.new_region s).1.blocks_made = (RegionPool.get_block s).1.blocks_made := by
  rw [new_region_fst]

@[simp] theorem new_region_chunk_sizes (s : World) :
    (RegionPool.new_region s).1.chunk_sizes = s.chunk_sizes := by
  rw [new_region_fst]; simp

@[simp] theorem new_region_freed_chunks (s : World) :
    (RegionPool.new_region s).1.freed_chunks = s.freed_chunks := by
  rw [new_region_fst]; simp

theorem new_region_slot_lt (s : World) (a : Nat) (h : a < s.regions.length) :
    (RegionPool.new_region s).1.slot a = s.slot a := by
  simp only [World.slot, new_region_regions, List.getD_eq_getElem?_getD]
  rw [List.getElem?_append_left h]

theorem new_region_slot_self (s : World) :
    (RegionPool.new_region s).1.slot s.regions.length
      = ⟨⟨0, (RegionPool.get_block s).2, [], [], []⟩, 1⟩ := by
  simp only [World.slot, new_region_regions, List.getD_eq_getElem?_getD]
  rw [List.getElem?_append_right (le_refl _)]
  simp

theorem new_region_gather (g : Region2 → List Nat) (s : World) :
    (RegionPool.new_region s).1.gather g
      = s.gather g ++ g ⟨0, (RegionPool.get_block s).2, [], [], []⟩ := by
  simp [World.gather, List.flatMap_append]

theorem get_region_cases (s : World) :
    (s.free_regions_ = [] ∧ RegionPool.get_region s = RegionPool.new_region s) ∨
    (∃ l r, s.free_regions_ = l ++ [r] ∧
      RegionPool.get_region s = (({ s with free_regions_ := l } : World).setRefs r 1, r)) := by
  unfold RegionPool.get_region
  cases h : s.free_regions_.getLast? with
  | none => exact Or.inl ⟨List.getLast?_eq_none_iff.mp h, rfl⟩
  | some b =>
    refine Or.inr ⟨s.free_regions_.dropLast, b, ?_, rfl⟩
    exact (List.dropLast_append_getLast? b (by simp [h])).symm

/-! ## Invariants of the public operations -/

theorem refInv_init : RefInv RegionPool.init [] [] [] :=
  ⟨fun a => by simp [RegionPool.init, World.refs, World.slot, Slot.null, World.allParents,
      World.gather],
    fun a ha => by simp [RegionPool.init] at ha, fun a ha => by simp at ha,
    by simp [RegionPool.init]⟩

theorem blockInv_init : BlockInv RegionPool.init :=
  ⟨fun b => by simp [RegionPool.init, World.allBlocks, World.gather],
   fun c => by simp [RegionPool.init, World.allChunks, World.gather]⟩

theorem new_region_refs (s : World) (a : Nat) :
    (RegionPool.new_region s).1.refs a = if a = s.regions.length then 1 else s.refs a := by
  rcases Nat.lt_trichotomy a s.regions.length with h | h | h
  · rw [if_neg (by omega)]
    simp only [World.refs, new_region_slot_lt s a h]
  · subst h
    rw [if_pos rfl]
    simp only [World.refs, new_region_slot_self]
  · rw [if_neg (by omega), World.refs_of_length_le s a (by omega),
      World.refs_of_length_le _ a (by simp; omega)]

theorem new_region_obj (s : World) (a : Nat) :
    (RegionPool.new_region s).1.obj a
      = if a = s.regions.length then ⟨0, (RegionPool.get_block s).2, [], [], []⟩
        else s.obj a := by
  rcases Nat.lt_trichotomy a s.regions.length with h | h | h
  · rw [if_neg (by omega)]
    simp only [World.obj, new_region_slot_lt s a h]
  · subst h
    rw [if_pos rfl]
    simp only [World.obj, new_region_slot_self]
  · rw [if_neg (by omega), World.obj_of_length_le s a (by omega),
      World.obj_of_length_le _ a (by simp; omega)]

theorem refInv_get_region {s : World} {hs : List Nat} (h : RefInv s hs [] []) :
    RefInv (RegionPool.get_region s).1 ((RegionPool.get_region s).2 :: hs) [] [] := by
  rcases get_region_cases s with ⟨_, e⟩ | ⟨l, r, hl, e⟩
  · rw [e, new_region_snd]
    refine ⟨fun a => ?_, fun a ha => ?_, fun a ha => by simp at ha, ?_⟩
    · have hc := h.count a
      have hp : (RegionPool.new_region s).1.allParents = s.allParents := by
        simp [World.allParents, new_region_gather]
      rw [new_region_refs, hp]
      by_cases e1 : a = s.regions.length
      · subst e1
        have := World.refs_of_length_le s _ (le_refl _)
        rw [if_pos rfl, List.count_cons_self]
        omega
      · rw [if_neg e1, List.count_cons_of_ne e1]
        exact hc
    · rw [new_region_free_regions] at ha
      obtain ⟨h1, h2, h3⟩ := h.free a ha
      refine ⟨by simp; omega, ?_, ?_⟩
      · rw [new_region_refs, if_neg (by omega)]; exact h2
      · rw [new_region_obj, if_neg (by omega)]; exact h3
    · simpa using h.nodup
  · rw [e]
    dsimp only
    have hnd : (l ++ [r]).Nodup := by
      have := h.nodup
      rwa [List.append_nil, hl] at this
    have hrl : r ∉ l := by
      intro hm
      have := List.disjoint_of_nodup_append hnd hm
      simp at this
    obtain ⟨hv, hr0, _⟩ := h.free r (by rw [hl]; simp)
    have hrefs : ∀ a, (World.setRefs ⟨s.regions, l, s.free_blocks_, s.blocks_made,
        s.chunk_sizes, s.freed_chunks⟩ r 1).refs a = if a = r then 1 else s.refs a := by
      intro a
      by_cases e1 : a = r
      · subst e1
        rw [if_pos rfl]
        exact World.refs_setRefs_self _ _ _ hv
      · rw [if_neg e1]
        exact World.refs_setRefs_ne _ _ _ _ e1
    have hobjs : ∀ a, (World.setRefs ⟨s.regions, l, s.free_blocks_, s.blocks_made,
        s.chunk_sizes, s.freed_chunks⟩ r 1).obj a = s.obj a :=
      fun a => World.obj_setRefs _ _ _ _
    have hp : (World.setRefs ⟨s.regions, l, s.free_blocks_, s.blocks_made,
        s.chunk_sizes, s.freed_chunks⟩ r 1).allParents = s.allParents :=
      World.gather_setRefs _ _ _ _
    refine ⟨fun a => ?_, fun a ha => ?_, fun a ha => by simp at ha, ?_⟩
    · have hc := h.count a
      rw [hp, hrefs]
      by_cases e1 : a = r
      · subst e1
        rw [if_pos rfl, List.count_cons_self]
        simp only [List.count_nil] at hc ⊢
        omega
      · rw [if_neg e1, List.count_cons_of_ne e1]
        exact hc
    · have ha' : a ∈ l := ha
      have e1 : a ≠ r := fun e => hrl (e ▸ ha')
      obtain ⟨h1, h2, h3⟩ := h.free a (by rw [hl]; simp [ha'])
      refine ⟨by simpa using h1, ?_, ?_⟩
      · rw [hrefs, if_neg e1]; exact h2
      · rw [hobjs]; exact h3
    · show (l ++ []).Nodup
      rw [List.append_nil]
      exact (List.nodup_append.mp hnd).1

theorem blockInv_get_region {s : World} (h : BlockInv s) :
    BlockInv (RegionPool.get_region s).1 := by
  rcases get_region_cases s with ⟨_, e⟩ | ⟨l, r, hl, e⟩
  · rw [e]
    refine ⟨fun x => ?_, fun x => ?_⟩
    · have h1 := get_block_count s x
      have h2 := h.blocks x
      simp only [World.allBlocks, List.count_append] at h2
      simp only [World.allBlocks, new_region_free_blocks, new_region_gather,
        new_region_blocks_made, List.count_append, List.count_cons, List.count_nil, beq_iff_eq]
      by_cases hx : x = (RegionPool.get_block s).2
      · rw [if_pos hx] at h1
        rw [if_pos hx.symm]
        split_ifs at h1 h2 ⊢ <;> omega
      · rw [if_neg hx] at h1
        rw [if_neg (fun e => hx e.symm)]
        split_ifs at h1 h2 ⊢ <;> omega
    · have h2 := h.chunks x
      simpa [World.allChunks, new_region_gather] using h2
  · rw [e]
    dsimp only
    refine ⟨fun x => ?_, fun x => ?_⟩
    · have h2 := h.blocks x
      simpa [World.allBlocks] using h2
    · have h2 := h.chunks x
      simpa [World.allChunks] using h2

theorem refInv_copy {s : World} {hs : List Nat} {r : Nat} (h : RefInv s hs [] [])
    (hr : r ∈ hs) : RefInv (s.setRefs r (s.refs r + 1)) (r :: hs) [] [] := by
  have hpos := h.refs_pos_of_mem hr
  have hv := World.lt_length_of_refs_pos s r hpos
  have hne : ∀ a, s.refs a = 0 → a ≠ r := by
    intro a ha e; subst e; omega
  refine ⟨fun a => ?_, fun a ha => ?_, fun a ha => by simp at ha, h.nodup⟩
  · have hc := h.count a
    have hp : (s.setRefs r (s.refs r + 1)).allParents = s.allParents :=
      World.gather_setRefs _ _ _ _
    rw [hp]
    by_cases e1 : a = r
    · subst e1
      rw [World.refs_setRefs_self _ _ _ hv, List.count_cons_self]
      omega
    · rw [World.refs_setRefs_ne _ _ _ _ e1, List.count_cons_of_ne e1]
      exact hc
  · obtain ⟨h1, h2, h3⟩ := h.free a ha
    exact ⟨by simpa using h1, by rw [World.refs_setRefs_ne _ _ _ _ (hne a h2)]; exact h2,
      by rw [World.obj_setRefs]; exact h3⟩

theorem blockInv_setRefs {s : World} (h : BlockInv s) (r n : Nat) :
    BlockInv (s.setRefs r n) :=
  ⟨fun x => by simpa [World.allBlocks] using h.blocks x,
   fun x => by simpa [World.allChunks] using h.chunks x⟩

theorem refInv_add_reference {s : World} {hs : List Nat} {r region : Nat}
    (h : RefInv s hs [] []) (hr : r ∈ hs) (hg : region ∈ hs) :
    RefInv (Region2.add_reference_to s r region) hs [] [] := by
  have hv := World.lt_length_of_refs_pos s r (h.refs_pos_of_mem hr)
  have hgpos := h.refs_pos_of_mem hg
  have hgv := World.lt_length_of_refs_pos s region hgpos
  have hrpos := h.refs_pos_of_mem hr
  unfold Region2.add_reference_to
  dsimp only
  have hrefs : ∀ a,
      ((s.setObj r { s.obj r with parents_ := (s.obj r).parents_ ++ [region] }).setRefs region
        ((s.setObj r { s.obj r with parents_ := (s.obj r).parents_ ++ [region] }).refs region
          + 1)).refs a = if a = region then s.refs region + 1 else s.refs a := by
    intro a
    by_cases e1 : a = region
    · subst e1
      rw [if_pos rfl, World.refs_setRefs_self _ _ _ (by simpa using hgv), World.refs_setObj]
    · rw [if_neg e1, World.refs_setRefs_ne _ _ _ _ e1, World.refs_setObj]
  refine ⟨fun a => ?_, fun a ha => ?_, fun a ha => by simp at ha, h.nodup⟩
  · have hc := h.count a
    have hcp := World.count_gather_setObj (fun o => o.parents_) s r
      { s.obj r with parents_ := (s.obj r).parents_ ++ [region] } a hv
    simp only [List.count_append, List.count_cons, List.count_nil, beq_iff_eq] at hcp
    rw [hrefs]
    unfold World.allParents
    rw [World.gather_setRefs]
    unfold World.allParents at hc
    by_cases e1 : a = region
    · rw [if_pos e1]
      rw [if_pos e1.symm] at hcp
      subst e1
      omega
    · rw [if_neg e1]
      rw [if_neg (fun e => e1 e.symm)] at hcp
      omega
  · have ha' : a ∈ s.free_regions_ := ha
    obtain ⟨h1, h2, h3⟩ := h.free a ha'
    have e1 : a ≠ r := by intro e; subst e; omega
    have e2 : a ≠ region := by intro e; subst e; omega
    refine ⟨by simpa using h1, ?_, ?_⟩
    · rw [hrefs, if_neg e2]; exact h2
    · rw [World.obj_setRefs, World.obj_setObj_ne _ _ _ _ e1]; exact h3

theorem blockInv_setObj {s : World} (h : BlockInv s) (r : Nat) (o : Region2)
    (h1 : o.current_block_ = (s.obj r).current_block_)
    (h2 : o.used_blocks_ = (s.obj r).used_blocks_)
    (h3 : o.big_chunks_ = (s.obj r).big_chunks_) : BlockInv (s.setObj r o) := by
  refine ⟨fun x => ?_, fun x => ?_⟩
  · have := h.blocks x
    simp only [World.allBlocks, World.setObj_free_blocks, World.setObj_blocks_made] at this ⊢
    rw [World.gather_setObj_same _ _ _ _ (by simp [h1, h2])]
    exact this
  · have := h.chunks x
    simp only [World.allChunks, World.setObj_freed_chunks, World.setObj_chunk_sizes] at this ⊢
    rw [World.gather_setObj_same _ _ _ _ (by simp [h3])]
    exact this

theorem blockInv_add_reference {s : World} (h : BlockInv s) (r region : Nat) :
    BlockInv (Region2.add_reference_to s r region) := by
  unfold Region2.add_reference_to
  dsimp only
  refine blockInv_setRefs (blockInv_setObj h r _ ?_ ?_ ?_) _ _ <;> rfl

theorem blockInv_of_frame {a b : World} (h : BlockInv a) (f : Frame a b) : BlockInv b :=
  ⟨fun x => by rw [f.blocks, f.blocks_made]; exact h.blocks x,
   fun x => by rw [f.chunks, f.chunk_sizes]; exact h.chunks x⟩

/-! ## Allocation steps -/

theorem AllocFrame.idle (r : Nat) (s : World) : AllocFrame r s s :=
  ⟨rfl, rfl, fun _ => rfl, fun _ _ => rfl, rfl, rfl, rfl, ⟨[], by simp⟩⟩

theorem AllocFrame.followedBy {r : Nat} {a b c : World} (h1 : AllocFrame r a b)
    (h2 : AllocFrame r b c) : AllocFrame r a c where
  length := h2.length.trans h1.length
  free_regions := h2.free_regions.trans h1.free_regions
  refs x := (h2.refs x).trans (h1.refs x)
  obj x hx := (h2.obj x hx).trans (h1.obj x hx)
  parents := h2.parents.trans h1.parents
  own_parents := h2.own_parents.trans h1.own_parents
  freed_chunks := h2.freed_chunks.trans h1.freed_chunks
  free_blocks := by
    obtain ⟨l1, e1⟩ := h1.free_blocks
    obtain ⟨l2, e2⟩ := h2.free_blocks
    exact ⟨l2 ++ l1, by rw [e1, e2, List.append_assoc]⟩

theorem allocFrame_setObj (s : World) (r : Nat) (o : Region2)
    (hp : o.parents_ = (s.obj r).parents_) : AllocFrame r s (s.setObj r o) where
  length := by simp
  free_regions := rfl
  refs x := by simp
  obj x hx := World.obj_setObj_ne _ _ _ _ hx
  parents := World.gather_setObj_same _ _ _ _ hp
  own_parents := by
    by_cases hv : r < s.regions.length
    · rw [World.obj_setObj_self _ _ _ hv, hp]
    · rw [World.setObj_of_length_le _ _ _ (by omega)]
  freed_chunks := rfl
  free_blocks := ⟨[], by simp⟩

theorem allocFrame_get_block (r : Nat) (s : World) :
    AllocFrame r s (RegionPool.get_block s).1 where
  length := by simp
  free_regions := by simp
  refs x := by simp
  obj x _ := by simp
  parents := by simp [World.allParents]
  own_parents := by simp
  freed_chunks := by simp
  free_blocks := by
    rcases get_block_cases s with ⟨h, e⟩ | ⟨l, b, h, e⟩
    · rw [e]; exact ⟨[], by simp⟩
    · rw [e]; exact ⟨[b], h⟩

theorem allocFrame_new_block (s : World) (r : Nat) :
    AllocFrame r s (Region2.allocate_new_block s r).1 := by
  unfold Region2.allocate_new_block
  dsimp only
  refine ((allocFrame_setObj s r _ ?_).followedBy (allocFrame_get_block r _)).followedBy
    (allocFrame_setObj _ r _ ?_) <;> rfl

theorem allocFrame_big_chunk (s : World) (r n : Nat) :
    AllocFrame r s (Region2.allocate_big_chunk s r n).1 := by
  unfold Region2.allocate_big_chunk
  dsimp only
  have h0 : AllocFrame r s ⟨s.regions, s.free_regions_, s.free_blocks_, s.blocks_made,
      s.chunk_sizes ++ [n], s.freed_chunks⟩ :=
    ⟨rfl, rfl, fun _ => rfl, fun _ _ => rfl, rfl, rfl, rfl, ⟨[], by simp⟩⟩
  refine h0.followedBy (allocFrame_setObj _ r _ ?_)
  rfl

theorem allocate_frame (cfg : Config) : ∀ (fuel : Nat) (s : World) (r alignment n : Nat)
    (s1 : World) (p : Addr), Region2.allocate cfg fuel s r alignment n = some (s1, p) →
    AllocFrame r s s1
  | 0, s, r, alignment, n, s1, p, h => by simp [Region2.allocate] at h
  | fuel + 1, s, r, alignment, n, s1, p, h => by
    unfold Region2.allocate at h
    dsimp only at h
    split_ifs at h with h1 h2
    · simp only [Option.some.injEq, Prod.mk.injEq] at h
      rw [← h.1]
      refine allocFrame_setObj s r _ ?_
      rfl
    · simp only [Option.some.injEq, Prod.mk.injEq] at h
      rw [← h.1]
      exact allocFrame_big_chunk s r n
    · exact (allocFrame_new_block s r).followedBy
        (allocate_frame cfg fuel _ r alignment n s1 p h)

theorem refInv_of_allocFrame {a b : World} {hs : List Nat} {r : Nat} (h : RefInv a hs [] [])
    (hr : r ∈ hs) (f : AllocFrame r a b) : RefInv b hs [] [] := by
  have hpos := h.refs_pos_of_mem hr
  refine ⟨fun x => ?_, fun x hx => ?_, fun x hx => by simp at hx, ?_⟩
  · rw [f.refs, f.parents]; exact h.count x
  · rw [f.free_regions] at hx
    obtain ⟨h1, h2, h3⟩ := h.free x hx
    have e1 : x ≠ r := by intro e; subst e; omega
    exact ⟨by rw [f.length]; exact h1, by rw [f.refs]; exact h2, by rw [f.obj x e1]; exact h3⟩
  · rw [f.free_regions]; exact h.nodup

theorem new_block_obj (s : World) (r : Nat) (hv : r < s.regions.length) :
    (Region2.allocate_new_block s r).1.obj r
      = { s.obj r with
          used_blocks_ := (s.obj r).used_blocks_ ++ [(s.obj r).current_block_],
          current_block_ := (Region2.allocate_new_block s r).2,
          block_offset_ := 0 } := by
  unfold Region2.allocate_new_block
  dsimp only
  rw [World.obj_setObj_self _ _ _ (by simpa using hv), get_block_obj,
    World.obj_setObj_self _ _ _ hv]

theorem new_block_snd (s : World) (r : Nat) :
    (Region2.allocate_new_block s r).2
      = (RegionPool.get_block (s.setObj r { s.obj r with
          used_blocks_ := (s.obj r).used_blocks_ ++ [(s.obj r).current_block_] })).2 := rfl

theorem blockInv_new_block {s : World} (h : BlockInv s) (r : Nat) (hv : r < s.regions.length) :
    BlockInv (Region2.allocate_new_block s r).1 := by
  have hb := new_block_snd s r
  unfold Region2.allocate_new_block at hb ⊢
  dsimp only at hb ⊢
  generalize hs1 : s.setObj r { s.obj r with
      used_blocks_ := (s.obj r).used_blocks_ ++ [(s.obj r).current_block_] } = s1 at hb ⊢
  have hv1 : r < s1.regions.length := by rw [← hs1]; simpa using hv
  have ho1 : s1.obj r = { s.obj r with
      used_blocks_ := (s.obj r).used_blocks_ ++ [(s.obj r).current_block_] } := by
    rw [← hs1, World.obj_setObj_self _ _ _ hv]
  refine ⟨fun x => ?_, fun x => ?_⟩
  · have c1 := World.count_gather_setObj (fun o => o.current_block_ :: o.used_blocks_) s r
      { s.obj r with used_blocks_ := (s.obj r).used_blocks_ ++ [(s.obj r).current_block_] } x hv
    rw [hs1] at c1
    have c2 := World.count_gather_setObj (fun o => o.current_block_ :: o.used_blocks_)
      (RegionPool.get_block s1).1 r
      { (RegionPool.get_block s1).1.obj r with
        current_block_ := (RegionPool.get_block s1).2, block_offset_ := 0 } x (by simpa using hv1)
    have c3 := get_block_count s1 x
    have c4 := h.blocks x
    have hf : s1.free_blocks_ = s.free_blocks_ := by rw [← hs1]; rfl
    have hm : s1.blocks_made = s.blocks_made := by rw [← hs1]; rfl
    rw [get_block_gather, get_block_obj, ho1] at c2
    rw [hf, hm] at c3
    simp only [World.allBlocks, List.count_append, World.setObj_free_blocks,
      World.setObj_blocks_made] at c4 ⊢
    simp only [List.count_cons, List.count_append, List.count_nil, beq_iff_eq] at c1 c2
    rw [get_block_obj, ho1]
    dsimp only at c1 c2 ⊢
    by_cases hx : x = (RegionPool.get_block s1).2
    · rw [if_pos hx] at c3
      rw [if_pos hx.symm] at c2
      split_ifs at c1 c2 c3 c4 ⊢ <;> omega
    · rw [if_neg hx] at c3
      rw [if_neg (show ¬ (RegionPool.get_block s1).2 = x from fun e => hx e.symm)] at c2
      split_ifs at c1 c2 c3 c4 ⊢ <;> omega
  · have c1 := World.gather_setObj_same (fun o => o.big_chunks_) s r
      { s.obj r with used_blocks_ := (s.obj r).used_blocks_ ++ [(s.obj r).current_block_] } rfl
    rw [hs1] at c1
    have c2 := World.gather_setObj_same (fun o => o.big_chunks_)
      (RegionPool.get_block s1).1 r
      { (RegionPool.get_block s1).1.obj r with
        current_block_ := (RegionPool.get_block s1).2, block_offset_ := 0 } rfl
    have c4 := h.chunks x
    have hf : s1.freed_chunks = s.freed_chunks := by rw [← hs1]; rfl
    have hm : s1.chunk_sizes = s.chunk_sizes := by rw [← hs1]; rfl
    simp only [World.allChunks, World.setObj_freed_chunks, World.setObj_chunk_sizes,
      get_block_freed_chunks, get_block_chunk_sizes] at c4 ⊢
    rw [c2, get_block_gather, c1, hf, hm]
    exact c4

theorem big_chunk_obj (s : World) (r n : Nat) (hv : r < s.regions.length) :
    (Region2.allocate_big_chunk s r n).1.obj r
      = { s.obj r with big_chunks_ := (s.obj r).big_chunks_ ++ [s.chunk_sizes.length] } := by
  unfold Region2.allocate_big_chunk
  dsimp only
  exact World.obj_setObj_self _ _ _ hv

theorem blockInv_big_chunk {s : World} (h : BlockInv s) (r n : Nat)
    (hv : r < s.regions.length) : BlockInv (Region2.allocate_big_chunk s r n).1 := by
  unfold Region2.allocate_big_chunk
  dsimp only
  refine ⟨fun x => ?_, fun x => ?_⟩
  · have c1 := World.gather_setObj_same (fun o => o.current_block_ :: o.used_blocks_)
      ⟨s.regions, s.free_regions_, s.free_blocks_, s.blocks_made, s.chunk_sizes ++ [n],
        s.freed_chunks⟩ r
      { s.obj r with big_chunks_ := (s.obj r).big_chunks_ ++ [s.chunk_sizes.length] } rfl
    have c4 := h.blocks x
    simp only [World.allBlocks, World.setObj_free_blocks, World.setObj_blocks_made] at c4 ⊢
    rw [show World.obj ⟨s.regions, s.free_regions_, s.free_blocks_, s.blocks_made,
      s.chunk_sizes ++ [n], s.freed_chunks⟩ r = s.obj r from rfl]
    rw [c1]
    exact c4
  · have c1 := World.count_gather_setObj (fun o => o.big_chunks_)
      ⟨s.regions, s.free_regions_, s.free_blocks_, s.blocks_made, s.chunk_sizes ++ [n],
        s.freed_chunks⟩ r
      { s.obj r with big_chunks_ := (s.obj r).big_chunks_ ++ [s.chunk_sizes.length] } x hv
    have c4 := h.chunks x
    simp only [World.allChunks, World.setObj_freed_chunks, World.setObj_chunk_sizes,
      List.count_append, List.length_append, List.length_singleton] at c4 ⊢
    rw [show World.obj ⟨s.regions, s.free_regions_, s.free_blocks_, s.blocks_made,
      s.chunk_sizes ++ [n], s.freed_chunks⟩ r = s.obj r from rfl] at c1 ⊢
    rw [show World.gather (fun o => o.big_chunks_) ⟨s.regions, s.free_regions_, s.free_blocks_,
      s.blocks_made, s.chunk_sizes ++ [n], s.freed_chunks⟩
        = s.gather (fun o => o.big_chunks_) from rfl] at c1
    simp only [List.count_cons, List.count_append, List.count_nil, beq_iff_eq] at c1
    by_cases hx : x = s.chunk_sizes.length
    · rw [if_pos hx.symm] at c1
      split_ifs at c1 c4 ⊢ <;> omega
    · rw [if_neg (fun e => hx e.symm)] at c1
      split_ifs at c1 c4 ⊢ <;> omega

theorem blockInv_allocate (cfg : Config) : ∀ (fuel : Nat) (s : World) (r alignment n : Nat)
    (s1 : World) (p : Addr), BlockInv s → r < s.regions.length →
    Region2.allocate cfg fuel s r alignment n = some (s1, p) → BlockInv s1
  | 0, s, r, alignment, n, s1, p, _, _, h => by simp [Region2.allocate] at h
  | fuel + 1, s, r, alignment, n, s1, p, hb, hv, h => by
    unfold Region2.allocate at h
    dsimp only at h
    split_ifs at h with h1 h2
    · simp only [Option.some.injEq, Prod.mk.injEq] at h
      rw [← h.1]
      refine blockInv_setObj hb r _ ?_ ?_ ?_ <;> rfl
    · simp only [Option.some.injEq, Prod.mk.injEq] at h
      rw [← h.1]
      exact blockInv_big_chunk hb r n hv
    · exact blockInv_allocate cfg fuel _ r alignment n s1 p (blockInv_new_block hb r hv)
        (by rw [(allocFrame_new_block s r).length]; exact hv) h

theorem offInv_allocate (cfg : Config) : ∀ (fuel : Nat) (s : World) (r alignment n : Nat)
    (s1 : World) (p : Addr), OffInv cfg s →
    Region2.allocate cfg fuel s r alignment n = some (s1, p) → OffInv cfg s1
  | 0, s, r, alignment, n, s1, p, _, h => by simp [Region2.allocate] at h
  | fuel + 1, s, r, alignment, n, s1, p, ho, h => by
    have key : ∀ (t : World) (o : Region2), OffInv cfg t → o.block_offset_ ≤ cfg.block_size →
        OffInv cfg (t.setObj r o) := by
      intro t o ht hle a
      by_cases e : a = r
      · subst e
        by_cases hv : a < t.regions.length
        · rw [World.obj_setObj_self _ _ _ hv]; exact hle
        · rw [World.setObj_of_length_le _ _ _ (by omega)]; exact ht a
      · rw [World.obj_setObj_ne _ _ _ _ e]; exact ht a
    unfold Region2.allocate at h
    dsimp only at h
    split_ifs at h with h1 h2
    · simp only [Option.some.injEq, Prod.mk.injEq] at h
      rw [← h.1]
      exact key s _ ho h1
    · simp only [Option.some.injEq, Prod.mk.injEq] at h
      rw [← h.1]
      unfold Region2.allocate_big_chunk
      dsimp only
      refine key _ _ ho ?_
      exact ho r
    · refine offInv_allocate cfg fuel _ r alignment n s1 p ?_ h
      unfold Region2.allocate_new_block
      dsimp only
      refine key _ _ ?_ (Nat.zero_le _)
      intro a
      rw [get_block_obj]
      refine key s _ ho ?_ a
      exact ho r

theorem le_sum_map_getD {α : Type} (f : α → Nat) (d : α) :
    ∀ (l : List α) (r : Nat), r < l.length → f (l.getD r d) ≤ (l.map f).sum
  | [], r, h => by simp at h
  | y :: l, 0, _ => by simp
  | y :: l, r + 1, h => by
    have ih := le_sum_map_getD f d l r (by simpa using h)
    simp only [List.map_cons, List.sum_cons, List.getD_cons_succ]
    omega

theorem offInv_of_frame {cfg : Config} {a b : World} (h : OffInv cfg a) (f : Frame a b) :
    OffInv cfg b := by
  intro x
  rcases f.obj x with e | e
  · rw [e]; exact h x
  · rw [e]; exact Nat.zero_le _

theorem offInv_get_region {cfg : Config} {s : World} (h : OffInv cfg s) :
    OffInv cfg (RegionPool.get_region s).1 := by
  intro x
  rcases get_region_cases s with ⟨_, e⟩ | ⟨l, r, _, e⟩
  · rw [e, new_region_obj]
    split_ifs
    · exact Nat.zero_le _
    · exact h x
  · rw [e]
    dsimp only
    rw [World.obj_setRefs]
    exact h x

theorem offInv_setObj {cfg : Config} {t : World} (ht : OffInv cfg t) (r : Nat) (o : Region2)
    (hle : o.block_offset_ ≤ cfg.block_size) : OffInv cfg (t.setObj r o) := by
  intro a
  by_cases e : a = r
  · subst e
    by_cases hv : a < t.regions.length
    · rw [World.obj_setObj_self _ _ _ hv]; exact hle
    · rw [World.setObj_of_length_le _ _ _ (by omega)]; exact ht a
  · rw [World.obj_setObj_ne _ _ _ _ e]; exact ht a

/-- Every reachable state satisfies the reference-count, block and offset invariants. -/
theorem reachable_inv {cfg : Config} {s : World} {hs : List Nat} (h : Reachable cfg s hs) :
    RefInv s hs [] [] ∧ BlockInv s ∧ OffInv cfg s := by
  induction h with
  | init =>
    exact ⟨refInv_init, blockInv_init, fun a => by
      simp [RegionPool.init, World.obj, World.slot, Slot.null, Region2.null]⟩
  | get_region _ ih =>
    exact ⟨refInv_get_region ih.1, blockInv_get_region ih.2.1, offInv_get_region ih.2.2⟩
  | copy r _ hr ih =>
    exact ⟨refInv_copy ih.1 hr, blockInv_setRefs ih.2.1 _ _, fun a => by
      rw [World.obj_setRefs]; exact ih.2.2 a⟩
  | release r _ hr ih =>
    exact ⟨drop_refInv ih.1 hr, blockInv_of_frame ih.2.1 (drop_frame _ r),
      offInv_of_frame ih.2.2 (drop_frame _ r)⟩
  | add_reference_to r region _ hr hg ih =>
    refine ⟨refInv_add_reference ih.1 hr hg, blockInv_add_reference ih.2.1 r region, ?_⟩
    intro a
    unfold Region2.add_reference_to
    dsimp only
    rw [World.obj_setRefs]
    refine offInv_setObj ih.2.2 r _ ?_ a
    exact ih.2.2 r
  | clear r _ hr ih =>
    exact ⟨clear_refInv ih.1 hr, blockInv_of_frame ih.2.1 (clear_frame _ r),
      offInv_of_frame ih.2.2 (clear_frame _ r)⟩
  | allocate r fuel alignment n p _ hr ha ih =>
    have hv := World.lt_length_of_refs_pos _ r (ih.1.refs_pos_of_mem hr)
    exact ⟨refInv_of_allocFrame ih.1 hr (allocate_frame cfg fuel _ r alignment n _ p ha),
      blockInv_allocate cfg fuel _ r alignment n _ p ih.2.1 hv ha,
      offInv_allocate cfg fuel _ r alignment n _ p ih.2.2 ha⟩

theorem World.mem_gather (g : Region2 → List Nat) (s : World) (r x : Nat)
    (hx : x ∈ g (s.obj r)) (hv : r < s.regions.length) : x ∈ s.gather g := by
  simp only [World.gather, List.mem_flatMap]
  refine ⟨s.slot r, ?_, hx⟩
  simp only [World.slot, List.getD_eq_getElem?_getD, List.getElem?_eq_getElem hv,
    Option.getD_some]
  exact List.getElem_mem hv

theorem World.count_le_gather (g : Region2 → List Nat) (s : World) (r x : Nat)
    (hv : r < s.regions.length) : (g (s.obj r)).count x ≤ (s.gather g).count x := by
  simp only [World.gather, List.count_flatMap]
  exact le_sum_map_getD (List.count x ∘ fun y => g y.obj) Slot.null s.regions r hv

/-! ## Sample runs are reachable -/

theorem sampleThree_reachable : Reachable Config.sample sampleThree [2, 1] :=
  Reachable.release 0
    (Reachable.add_reference_to 2 1
      (Reachable.get_region (Reachable.get_region (Reachable.get_region Reachable.init)))
      (by decide) (by decide))
    (by decide)

theorem sampleFull_reachable : Reachable Config.sample sampleFull [0] :=
  Reachable.allocate 0 2 4 65533 (Addr.block 0 0) (Reachable.get_region Reachable.init)
    (by decide) (by decide)

theorem sampleSpilled_reachable : Reachable Config.sample sampleSpilled [0] :=
  Reachable.allocate 0 2 4 10 (Addr.block 1 0) sampleFull_reachable (by decide) (by decide)

theorem sampleChunk_reachable : Reachable Config.sample sampleChunk [0] :=
  Reachable.allocate 0 2 4 5000 (Addr.chunk 0 0) sampleFull_reachable (by decide) (by decide)

/-! ## Claims -/

/-- C1: in every state reachable through `get_region`, `add_reference_to`, `clear`, handle
copies and releases (and allocations), an arena that sits in `free_regions_` appears in the
`parents_` list of no arena at all, so in particular of no live one: an arena is retired only
once every reference registered to it is gone. -/
theorem retired_arena_not_referenced (cfg : Config) {s : World} {hs : List Nat}
    (h : Reachable cfg s hs) (a b : Nat) (ha : a ∈ s.free_regions_) :
    a ∉ (s.obj b).parents_ := by
  intro hm
  have hinv := (reachable_inv h).1
  have h0 := (hinv.free a ha).2.1
  have hc := hinv.count a
  by_cases hv : b < s.regions.length
  · have := World.mem_gather (fun o => o.parents_) s b a hm hv
    have := List.count_pos_iff.mpr this
    unfold World.allParents at hc
    omega
  · rw [World.obj_of_length_le s b (by omega)] at hm
    simp [Region2.null] at hm

/-- C1, at a sample: arena 0 is retired, arena 2 is live and references arena 1 only. -/
theorem retired_arena_not_referenced_witness :
    0 ∈ sampleThree.free_regions_ ∧ (sampleThree.obj 2).parents_ = [1] ∧
      0 ∉ (sampleThree.obj 2).parents_ :=
  ⟨by decide, by decide,
    retired_arena_not_referenced Config.sample sampleThree_reachable 0 2 (by decide)⟩

/-- C4: in every reachable state each block made so far is held in exactly one place among
the pool's free-block list, the used-block lists and the current-block slots of all arenas:
the list of all these places has no duplicate, and its members are exactly the blocks made. -/
theorem block_held_in_exactly_one_place (cfg : Config) {s : World} {hs : List Nat}
    (h : Reachable cfg s hs) :
    s.allBlocks.Nodup ∧ ∀ b, b ∈ s.allBlocks ↔ b < s.blocks_made := by
  have hinv := (reachable_inv h).2.1
  refine ⟨List.nodup_iff_count_le_one.mpr fun b => ?_, fun b => ?_⟩
  · have := hinv.blocks b
    split_ifs at this <;> omega
  · have := hinv.blocks b
    rw [← List.count_pos_iff]
    split_ifs at this with hb
    · exact ⟨fun _ => hb, fun _ => by omega⟩
    · exact ⟨fun hp => by omega, fun hlt => absurd hlt hb⟩

/-- C4, at a sample: after a spill the arena holds block 1 as current and block 0 as used. -/
theorem block_held_in_exactly_one_place_witness :
    sampleSpilled.allBlocks = [1, 0] ∧ sampleSpilled.allBlocks.Nodup ∧
      ∀ b, b ∈ sampleSpilled.allBlocks ↔ b < sampleSpilled.blocks_made :=
  ⟨by decide, block_held_in_exactly_one_place Config.sample sampleSpilled_reachable⟩

/-! ## Unfolding the destructor -/

theorem dropN_keep (fuel : Nat) (s : World) (r : Nat) (h : s.refs r - 1 ≠ 0) :
    shared_ptr_dropN (fuel + 1) s r = s.setRefs r (s.refs r - 1) := by
  rw [shared_ptr_dropN]; exact if_neg h

theorem dropN_fire (fuel : Nat) (s : World) (r : Nat) (h : s.refs r - 1 = 0) :
    shared_ptr_dropN (fuel + 1) s r
      = { Region2.clearWith (shared_ptr_dropN fuel) (s.setRefs r (s.refs r - 1)) r with
          free_regions_ :=
            (Region2.clearWith (shared_ptr_dropN fuel) (s.setRefs r (s.refs r - 1)) r).free_regions_
              ++ [r] } := by
  rw [shared_ptr_dropN]; exact if_pos h

theorem clearWith_nil (drop : World → Nat → World) (s : World) (r : Nat)
    (h : (s.obj r).parents_ = []) : Region2.clearWith drop s r = Region2.clearFields s r := by
  simp [Region2.clearWith, h]

/-- Dropping the last reference to an arena without parent references: the arena is cleared
and pushed on `free_regions_`, and nothing else happens. -/
theorem dropN_last_no_parents (fuel : Nat) (s : World) (r : Nat) (h1 : s.refs r - 1 = 0)
    (hp : (s.obj r).parents_ = []) :
    shared_ptr_dropN (fuel + 1) s r
      = { Region2.clearFields (s.setRefs r (s.refs r - 1)) r with
          free_regions_ := s.free_regions_ ++ [r] } := by
  rw [dropN_fire fuel s r h1, clearWith_nil _ _ _ (by rw [World.obj_setRefs]; exact hp)]
  rfl

theorem drop_last_no_parents (s : World) (r : Nat) (h1 : s.refs r - 1 = 0)
    (hp : (s.obj r).parents_ = []) :
    shared_ptr_drop s r
      = { Region2.clearFields (s.setRefs r (s.refs r - 1)) r with
          free_regions_ := s.free_regions_ ++ [r] } :=
  dropN_last_no_parents _ s r h1 hp

theorem drop_keep (s : World) (r : Nat) (h : s.refs r - 1 ≠ 0) :
    shared_ptr_drop s r = s.setRefs r (s.refs r - 1) :=
  dropN_keep _ s r h

/-! ## What `get_region` and `add_reference_to` return -/

/-- The arena returned by `get_region` from a state that satisfies the reference-count
invariant was referenced by nobody, comes back with use count 1 and no parent references, and
no other arena is touched. -/
theorem get_region_spec {s : World} {hs : List Nat} (h : RefInv s hs [] []) :
    s.refs (RegionPool.get_region s).2 = 0 ∧
    (RegionPool.get_region s).1.refs (RegionPool.get_region s).2 = 1 ∧
    ((RegionPool.get_region s).1.obj (RegionPool.get_region s).2).Cleared ∧
    (RegionPool.get_region s).2 < (RegionPool.get_region s).1.regions.length ∧
    (∀ x, x ≠ (RegionPool.get_region s).2 →
      (RegionPool.get_region s).1.refs x = s.refs x ∧
      (RegionPool.get_region s).1.obj x = s.obj x) ∧
    (RegionPool.get_region s).1.free_regions_ = s.free_regions_.dropLast := by
  rcases get_region_cases s with ⟨hl, e⟩ | ⟨l, r, hl, e⟩
  · rw [e, new_region_snd]
    refine ⟨World.refs_of_length_le s _ (le_refl _), ?_, ?_, by simp, fun x hx => ⟨?_, ?_⟩, ?_⟩
    · rw [new_region_refs, if_pos rfl]
    · rw [new_region_obj, if_pos rfl]; exact ⟨rfl, rfl, rfl, rfl⟩
    · rw [new_region_refs, if_neg hx]
    · rw [new_region_obj, if_neg hx]
    · rw [new_region_free_regions, hl]; rfl
  · rw [e]
    dsimp only
    obtain ⟨hv, hr0, hc⟩ := h.free r (by rw [hl]; simp)
    refine ⟨hr0, World.refs_setRefs_self _ _ _ hv, ?_, by simpa using hv, fun x hx => ⟨?_, ?_⟩, ?_⟩
    · rw [World.obj_setRefs]; exact hc
    · exact World.refs_setRefs_ne _ _ _ _ hx
    · exact World.obj_setRefs _ _ _ _
    · rw [hl]; simp

theorem add_reference_spec (s : World) (r region : Nat) (hv : r < s.regions.length)
    (hg : region < s.regions.length) :
    ((Region2.add_reference_to s r region).obj r).parents_ = (s.obj r).parents_ ++ [region] ∧
    (Region2.add_reference_to s r region).refs region = s.refs region + 1 ∧
    (∀ x, x ≠ r → (Region2.add_reference_to s r region).obj x = s.obj x) ∧
    (∀ x, x ≠ region → (Region2.add_reference_to s r region).refs x = s.refs x) ∧
    (Region2.add_reference_to s r region).free_regions_ = s.free_regions_ := by
  unfold Region2.add_reference_to
  dsimp only
  refine ⟨?_, ?_, fun x hx => ?_, fun x hx => ?_, rfl⟩
  · rw [World.obj_setRefs, World.obj_setObj_self _ _ _ hv]
  · rw [World.refs_setRefs_self _ _ _ (by simpa using hg), World.refs_setObj]
  · rw [World.obj_setRefs, World.obj_setObj_ne _ _ _ _ hx]
  · rw [World.refs_setRefs_ne _ _ _ _ hx, World.refs_setObj]

theorem sampleParent_reachable : Reachable Config.sample sampleParent [1] :=
  Reachable.release 0
    (Reachable.add_reference_to 1 0
      (Reachable.get_region (Reachable.get_region Reachable.init)) (by decide) (by decide))
    (by decide)

/-- C2 as stated fails: arena 1 has a single external handle, the child arena 2 obtained from
it registers a reference to it, releasing arena 1 leaves the free-arena count unchanged, but
releasing arena 2 then raises the count by 3, because arena 1 held the last reference to its
own parent arena 0. -/
theorem keep_alive_counterexample :
    Reachable Config.sample sampleParent [1] ∧ List.count 1 [1] = 1 ∧
    RegionPool.num_free_regions (refTest_first_released sampleParent 1)
      = RegionPool.num_free_regions (refTest_referenced sampleParent 1) ∧
    RegionPool.num_free_regions (refTest_both_released sampleParent 1)
      = RegionPool.num_free_regions (refTest_first_released sampleParent 1) + 3 ∧
    ¬ (RegionPool.num_free_regions (refTest_both_released sampleParent 1)
      = RegionPool.num_free_regions (refTest_first_released sampleParent 1) + 2) :=
  ⟨sampleParent_reachable, by decide, by decide, by decide, by decide⟩

/-! ## Obtaining and releasing many arenas -/

theorem get_region_of_no_free (s : World) (h : s.free_regions_ = []) :
    RegionPool.get_region s = RegionPool.new_region s := by
  rcases get_region_cases s with ⟨_, e⟩ | ⟨l, r, hl, _⟩
  · exact e
  · rw [h] at hl; simp at hl

theorem get_block_of_no_free (s : World) (h : s.free_blocks_ = []) :
    RegionPool.get_block s = ({ s with blocks_made := s.blocks_made + 1 }, s.blocks_made) := by
  rcases get_block_cases s with ⟨_, e⟩ | ⟨l, r, hl, _⟩
  · exact e
  · rw [h] at hl; simp at hl

theorem get_regions_of_no_free : ∀ (n : Nat) (s : World), s.free_regions_ = [] →
    s.free_blocks_ = [] →
    (get_regions n s).2 = List.range' s.regions.length n ∧
    (get_regions n s).1.free_regions_ = [] ∧ (get_regions n s).1.free_blocks_ = [] ∧
    (get_regions n s).1.regions.length = s.regions.length + n ∧
    (∀ x, x < s.regions.length →
      (get_regions n s).1.refs x = s.refs x ∧ (get_regions n s).1.obj x = s.obj x) ∧
    (∀ x, s.regions.length ≤ x → x < s.regions.length + n →
      (get_regions n s).1.refs x = 1 ∧ ((get_regions n s).1.obj x).Cleared)
  | 0, s, h1, h2 => by
    refine ⟨rfl, h1, h2, rfl, fun x _ => ⟨rfl, rfl⟩, fun x hx1 hx2 => ?_⟩
    omega
  | n + 1, s, h1, h2 => by
    have e := get_region_of_no_free s h1
    have hfb : (RegionPool.new_region s).1.free_blocks_ = [] := by
      rw [new_region_free_blocks, get_block_of_no_free s h2]; exact h2
    have hfr : (RegionPool.new_region s).1.free_regions_ = [] := by
      rw [new_region_free_regions]; exact h1
    have hlen : (RegionPool.new_region s).1.regions.length = s.regions.length + 1 := by simp
    obtain ⟨i1, i2, i3, i4, i5, i6⟩ := get_regions_of_no_free n (RegionPool.new_region s).1 hfr hfb
    rw [hlen] at i1 i4 i5 i6
    unfold get_regions
    rw [e]
    refine ⟨?_, i2, i3, by rw [i4]; omega, fun x hx => ?_, fun x hx1 hx2 => ?_⟩
    · rw [new_region_snd]
      dsimp only
      rw [i1]
      rfl
    · obtain ⟨j1, j2⟩ := i5 x (by omega)
      dsimp only
      rw [j1, j2, new_region_refs, new_region_obj, if_neg (by omega), if_neg (by omega)]
      exact ⟨rfl, rfl⟩
    · dsimp only
      by_cases hx : x = s.regions.length
      · obtain ⟨j1, j2⟩ := i5 x (by omega)
        rw [j1, j2, new_region_refs, new_region_obj, if_pos hx, if_pos hx]
        exact ⟨rfl, rfl, rfl, rfl, rfl⟩
      · exact i6 x (by omega) (by omega)

theorem release_all_of_last_handles : ∀ (rs : List Nat) (s : World), rs.Nodup →
    (∀ x ∈ rs, s.refs x = 1 ∧ (s.obj x).used_blocks_ = [] ∧ (s.obj x).parents_ = []) →
    (release_all s rs).free_regions_ = s.free_regions_ ++ rs ∧
    (release_all s rs).free_blocks_ = s.free_blocks_
  | [], s, _, _ => by simp [release_all]
  | r :: rs, s, hnd, hall => by
    obtain ⟨hr1, hr2, hr3⟩ := hall r (List.mem_cons_self _ _)
    have hd := drop_last_no_parents s r (by rw [hr1]) hr3
    have hnd' := List.nodup_cons.mp hnd
    have ih := release_all_of_last_handles rs (shared_ptr_drop s r) hnd'.2 (by
      intro x hx
      have hxr : x ≠ r := fun e => hnd'.1 (e ▸ hx)
      obtain ⟨h1, h2, h3⟩ := hall x (List.mem_cons_of_mem _ hx)
      rw [hd]
      have e1 : World.refs { Region2.clearFields (s.setRefs r (s.refs r - 1)) r with
          free_regions_ := s.free_regions_ ++ [r] } x = s.refs x := by
        show (Region2.clearFields (s.setRefs r (s.refs r - 1)) r).refs x = _
        rw [clearFields_refs, World.refs_setRefs_ne _ _ _ _ hxr]
      have e2 : World.obj { Region2.clearFields (s.setRefs r (s.refs r - 1)) r with
          free_regions_ := s.free_regions_ ++ [r] } x = s.obj x := by
        show (Region2.clearFields (s.setRefs r (s.refs r - 1)) r).obj x = _
        rw [clearFields_obj_ne _ _ _ hxr, World.obj_setRefs]
      rw [e1, e2]
      exact ⟨h1, h2, h3⟩)
    have e : release_all s (r :: rs) = release_all (shared_ptr_drop s r) rs := rfl
    rw [e, ih.1, ih.2, hd]
    refine ⟨by simp, ?_⟩
    show (Region2.clearFields (s.setRefs r (s.refs r - 1)) r).free_blocks_ = _
    rw [clearFields_free_blocks, World.obj_setRefs, hr2]
    simp

/-- C5: starting from any pool state with no free arenas and no free blocks, obtaining `n`
arenas with `get_region`, all held at once, and then releasing all of them in any order, with
no `allocate` call, leaves `num_free_regions` equal to `n` and `num_free_blocks` equal to 0. -/
theorem pool_round_trip (s : World) (h1 : s.free_regions_ = []) (h2 : s.free_blocks_ = [])
    (n : Nat) (order : List Nat) (hperm : order.Perm (get_regions n s).2) :
    RegionPool.num_free_regions (release_all (get_regions n s).1 order) = n ∧
    RegionPool.num_free_blocks (release_all (get_regions n s).1 order) = 0 := by
  obtain ⟨i1, i2, i3, _, _, i6⟩ := get_regions_of_no_free n s h1 h2
  have hnd : order.Nodup := by
    rw [hperm.nodup_iff, i1]
    exact List.nodup_range' _ _
  have hall : ∀ x ∈ order, (get_regions n s).1.refs x = 1 ∧
      ((get_regions n s).1.obj x).used_blocks_ = [] ∧
      ((get_regions n s).1.obj x).parents_ = [] := by
    intro x hx
    have hm := hperm.mem_iff.mp hx
    rw [i1, List.mem_range'_1] at hm
    obtain ⟨j1, j2⟩ := i6 x hm.1 hm.2
    exact ⟨j1, j2.2.1, j2.2.2.2⟩
  obtain ⟨k1, k2⟩ := release_all_of_last_handles order _ hnd hall
  unfold RegionPool.num_free_regions RegionPool.num_free_blocks
  rw [k1, k2, i2, i3, List.nil_append, hperm.length_eq, i1]
  simp

/-- C5, at a sample: three arenas from a fresh pool, released in the order 1, 0, 2. -/
theorem pool_round_trip_witness :
    (get_regions 3 RegionPool.init).2 = [0, 1, 2] ∧
    RegionPool.num_free_regions (release_all (get_regions 3 RegionPool.init).1 [1, 0, 2]) = 3 ∧
    RegionPool.num_free_blocks (release_all (get_regions 3 RegionPool.init).1 [1, 0, 2]) = 0 :=
  ⟨by decide, pool_round_trip RegionPool.init rfl rfl 3 [1, 0, 2] (by decide)⟩

/-! ## Rounding -/

theorem and_compl_self (m : Nat) (hm : m < 2 ^ 64) : m &&& (2 ^ 64 - 1 - m) = 0 := by
  apply Nat.eq_of_testBit_eq
  intro i
  have e : 2 ^ 64 - 1 - m = 2 ^ 64 - (m + 1) := by omega
  rw [e, Nat.testBit_and, Nat.testBit_two_pow_sub_succ hm]
  cases m.testBit i <;> simp

theorem round_up_offset_zero (alignment : Nat) : round_up_offset 0 alignment = 0 := by
  unfold round_up_offset
  have hm : (alignment + (2 ^ 64 - 1)) % 2 ^ 64 < 2 ^ 64 := Nat.mod_lt _ (by norm_num)
  simp only [Nat.zero_add]
  rw [Nat.mod_eq_of_lt hm]
  exact and_compl_self _ hm

/-! ## Unfolding `allocate` -/

theorem allocate_fits (cfg : Config) (fuel : Nat) (s : World) (r alignment n : Nat)
    (h : round_up_offset (s.obj r).block_offset_ alignment + n ≤ cfg.block_size) :
    Region2.allocate cfg (fuel + 1) s r alignment n
      = some (s.setObj r { s.obj r with
                block_offset_ := round_up_offset (s.obj r).block_offset_ alignment + n },
              Addr.block (s.obj r).current_block_
                (round_up_offset (s.obj r).block_offset_ alignment)) := by
  rw [Region2.allocate]; exact if_pos h

theorem allocate_chunk (cfg : Config) (fuel : Nat) (s : World) (r alignment n : Nat)
    (h : ¬ round_up_offset (s.obj r).block_offset_ alignment + n ≤ cfg.block_size)
    (hn : cfg.block_threshold < n) :
    Region2.allocate cfg (fuel + 1) s r alignment n
      = some ((Region2.allocate_big_chunk s r n).1,
              Addr.chunk (Region2.allocate_big_chunk s r n).2 0) := by
  rw [Region2.allocate]; dsimp only; rw [if_neg h, if_pos hn]

theorem allocate_spill (cfg : Config) (fuel : Nat) (s : World) (r alignment n : Nat)
    (h : ¬ round_up_offset (s.obj r).block_offset_ alignment + n ≤ cfg.block_size)
    (hn : ¬ cfg.block_threshold < n) :
    Region2.allocate cfg (fuel + 1) s r alignment n
      = Region2.allocate cfg fuel (Region2.allocate_new_block s r).1 r alignment n := by
  rw [Region2.allocate]; dsimp only; rw [if_neg h, if_neg hn]

theorem get_block_setObj (s : World) (r : Nat) (o : Region2) :
    RegionPool.get_block (s.setObj r o)
      = ((RegionPool.get_block s).1.setObj r o, (RegionPool.get_block s).2) := by
  unfold RegionPool.get_block
  simp only [World.setObj_free_blocks, World.setObj_blocks_made]
  cases s.free_blocks_.getLast? <;> rfl

/-- C6: for every arena `r` without parent references whose last handle is released: while it
was live no allocation on it returned a block to the pool (the free list only loses entries);
the release increases `num_free_regions` by 1 and `num_free_blocks` by exactly the number of
its used blocks, which are the blocks appended to the free list; the current block stays
attached to the retired arena. -/
theorem release_returns_used_blocks (cfg : Config) (s : World) (r : Nat) (h1 : s.refs r = 1)
    (hp : (s.obj r).parents_ = []) :
    (∀ fuel alignment n s1 p, Region2.allocate cfg fuel s r alignment n = some (s1, p) →
      ∃ l, s.free_blocks_ = s1.free_blocks_ ++ l) ∧
    RegionPool.num_free_regions (shared_ptr_drop s r) = RegionPool.num_free_regions s + 1 ∧
    RegionPool.num_free_blocks (shared_ptr_drop s r)
      = RegionPool.num_free_blocks s + (s.obj r).used_blocks_.length ∧
    (shared_ptr_drop s r).free_blocks_ = s.free_blocks_ ++ (s.obj r).used_blocks_ ∧
    (shared_ptr_drop s r).free_regions_ = s.free_regions_ ++ [r] ∧
    ((shared_ptr_drop s r).obj r).current_block_ = (s.obj r).current_block_ := by
  have hd := drop_last_no_parents s r (by rw [h1]) hp
  have hfb : (shared_ptr_drop s r).free_blocks_ = s.free_blocks_ ++ (s.obj r).used_blocks_ := by
    rw [hd]
    show (Region2.clearFields (s.setRefs r (s.refs r - 1)) r).free_blocks_ = _
    rw [clearFields_free_blocks, World.obj_setRefs]
    rfl
  have hfr : (shared_ptr_drop s r).free_regions_ = s.free_regions_ ++ [r] := by rw [hd]
  refine ⟨fun fuel alignment n s1 p ha => (allocate_frame cfg fuel s r alignment n s1 p ha).free_blocks,
    ?_, ?_, hfb, hfr, (drop_frame s r).current r⟩
  · unfold RegionPool.num_free_regions; rw [hfr]; simp
  · unfold RegionPool.num_free_blocks; rw [hfb]; simp

/-- C6, at the samples of the test case: from a fresh pool with blocks of 65536 bytes,
allocating 65533 bytes and releasing gives 1 free arena and 0 free blocks; allocating 65533
bytes, then 10 bytes, and releasing gives 1 free arena and 1 free block. -/
theorem release_returns_used_blocks_witness :
    Region2.allocate Config.sample 2 (RegionPool.get_region RegionPool.init).1 0 4 65533
      = some (sampleFull, Addr.block 0 0) ∧
    RegionPool.num_free_regions (shared_ptr_drop sampleFull 0) = 1 ∧
    RegionPool.num_free_blocks (shared_ptr_drop sampleFull 0) = 0 ∧
    Region2.allocate Config.sample 2 sampleFull 0 4 10 = some (sampleSpilled, Addr.block 1 0) ∧
    RegionPool.num_free_regions (shared_ptr_drop sampleSpilled 0) = 1 ∧
    RegionPool.num_free_blocks (shared_ptr_drop sampleSpilled 0) = 1 :=
  ⟨by decide,
   (release_returns_used_blocks Config.sample sampleFull 0 (by decide) (by decide)).2.1,
   (release_returns_used_blocks Config.sample sampleFull 0 (by decide) (by decide)).2.2.1,
   by decide,
   (release_returns_used_blocks Config.sample sampleSpilled 0 (by decide) (by decide)).2.1,
   (release_returns_used_blocks Config.sample sampleSpilled 0 (by decide) (by decide)).2.2.1⟩

/-- C7: an allocation on an existing arena that does not fit in the current block and whose
size exceeds the threshold returns the start of a new chunk of exactly that size: no block is
taken from the pool or made, the arena's current block, write offset, used-block list and
parent list are unchanged, and the chunk list gains exactly that chunk.  When the arena,
having no parent references, is then released through its last handle, the chunk is freed and
the free-block list gains the used blocks only: `num_free_blocks` is what it would be without
the chunk, and is unchanged when the arena has no used blocks. -/
theorem big_chunk_allocation (cfg : Config) (fuel : Nat) (s : World) (r alignment n : Nat)
    (hv : r < s.regions.length)
    (hfit : ¬ round_up_offset (s.obj r).block_offset_ alignment + n ≤ cfg.block_size)
    (hn : cfg.block_threshold < n) :
    ∃ s1, Region2.allocate cfg (fuel + 1) s r alignment n
        = some (s1, Addr.chunk s.chunk_sizes.length 0) ∧
      s1.free_blocks_ = s.free_blocks_ ∧ s1.blocks_made = s.blocks_made ∧
      s1.chunk_sizes = s.chunk_sizes ++ [n] ∧
      (s1.obj r).current_block_ = (s.obj r).current_block_ ∧
      (s1.obj r).block_offset_ = (s.obj r).block_offset_ ∧
      (s1.obj r).used_blocks_ = (s.obj r).used_blocks_ ∧
      (s1.obj r).parents_ = (s.obj r).parents_ ∧
      (s1.obj r).big_chunks_ = (s.obj r).big_chunks_ ++ [s.chunk_sizes.length] ∧
      (s.refs r = 1 → (s.obj r).parents_ = [] →
        (shared_ptr_drop s1 r).freed_chunks
          = s.freed_chunks ++ ((s.obj r).big_chunks_ ++ [s.chunk_sizes.length]) ∧
        (shared_ptr_drop s1 r).free_blocks_ = s.free_blocks_ ++ (s.obj r).used_blocks_ ∧
        RegionPool.num_free_blocks (shared_ptr_drop s1 r)
          = RegionPool.num_free_blocks (shared_ptr_drop s r) ∧
        ((s.obj r).used_blocks_ = [] →
          RegionPool.num_free_blocks (shared_ptr_drop s1 r) = RegionPool.num_free_blocks s)) := by
  refine ⟨(Region2.allocate_big_chunk s r n).1, allocate_chunk cfg fuel s r alignment n hfit hn,
    rfl, rfl, rfl, ?_⟩
  have ho := big_chunk_obj s r n hv
  refine ⟨by rw [ho], by rw [ho], by rw [ho], by rw [ho], by rw [ho], fun h1 hp => ?_⟩
  have hf := allocFrame_big_chunk s r n
  have hd := drop_last_no_parents (Region2.allocate_big_chunk s r n).1 r
    (by rw [hf.refs, h1]) (by rw [ho]; exact hp)
  have hfb : (shared_ptr_drop (Region2.allocate_big_chunk s r n).1 r).free_blocks_
      = s.free_blocks_ ++ (s.obj r).used_blocks_ := by
    rw [hd]
    show (Region2.clearFields _ r).free_blocks_ = _
    rw [clearFields_free_blocks, World.obj_setRefs, ho]
    rfl
  have hfc : (shared_ptr_drop (Region2.allocate_big_chunk s r n).1 r).freed_chunks
      = s.freed_chunks ++ ((s.obj r).big_chunks_ ++ [s.chunk_sizes.length]) := by
    rw [hd]
    show (Region2.clearFields _ r).freed_chunks = _
    rw [clearFields_freed_chunks, World.obj_setRefs, ho]
    rfl
  have hs := (release_returns_used_blocks cfg s r h1 hp).2.2.2.1
  refine ⟨hfc, hfb, ?_, fun hu => ?_⟩
  · unfold RegionPool.num_free_blocks; rw [hfb, hs]
  · unfold RegionPool.num_free_blocks; rw [hfb, hu]; simp

/-- C7, at the sample of the test case: from a fresh pool, 65533 bytes, then 5000 bytes (above
the threshold), then release gives 1 free arena and 0 free blocks. -/
theorem big_chunk_allocation_witness :
    ∃ s1, Region2.allocate Config.sample 1 sampleFull 0 4 5000 = some (s1, Addr.chunk 0 0) ∧
      s1 = sampleChunk ∧
      RegionPool.num_free_blocks s1 = 0 ∧
      RegionPool.num_free_regions (shared_ptr_drop s1 0) = 1 ∧
      RegionPool.num_free_blocks (shared_ptr_drop s1 0) = 0 := by
  obtain ⟨s1, h1, h2, _, _, _, _, _, _, _, h3⟩ :=
    big_chunk_allocation Config.sample 0 sampleFull 0 4 5000 (by decide) (by decide) (by decide)
  have e : s1 = sampleChunk := by
    have : Region2.allocate Config.sample 1 sampleFull 0 4 5000
        = some (sampleChunk, Addr.chunk 0 0) := by decide
    rw [h1] at this
    simp only [Option.some.injEq, Prod.mk.injEq] at this
    exact this.1
  refine ⟨s1, h1, e, ?_, ?_, ?_⟩
  · unfold RegionPool.num_free_blocks; rw [h2]; rfl
  · rw [e]; decide
  · exact (h3 (by decide) (by decide)).2.2.2 (by decide)

theorem new_block_snd_eq (s : World) (r : Nat) :
    (Region2.allocate_new_block s r).2 = (RegionPool.get_block s).2 := by
  rw [new_block_snd, get_block_setObj]

theorem new_block_free_blocks (s : World) (r : Nat) :
    (Region2.allocate_new_block s r).1.free_blocks_ = (RegionPool.get_block s).1.free_blocks_ := by
  unfold Region2.allocate_new_block
  dsimp only
  rw [World.setObj_free_blocks, get_block_setObj]
  rfl

theorem new_block_blocks_made (s : World) (r : Nat) :
    (Region2.allocate_new_block s r).1.blocks_made = (RegionPool.get_block s).1.blocks_made := by
  unfold Region2.allocate_new_block
  dsimp only
  rw [World.setObj_blocks_made, get_block_setObj]
  rfl

/-- C8: when an allocation of `n` bytes on an existing arena does not fit in the current block
and `n` is at most the threshold (itself at most the block size), `allocate` returns the start
of the block returned by the pool's `get_block`; afterwards the used-block list is the old
list with the old current block appended, the current block is that new block, the write
offset equals `n`, and the chunk and parent lists are unchanged. -/
theorem spill_takes_new_block (cfg : Config) (hcfg : cfg.block_threshold ≤ cfg.block_size)
    (fuel : Nat) (s : World) (r alignment n : Nat) (hv : r < s.regions.length)
    (hfit : ¬ round_up_offset (s.obj r).block_offset_ alignment + n ≤ cfg.block_size)
    (hn : n ≤ cfg.block_threshold) :
    ∃ s1, Region2.allocate cfg (fuel + 2) s r alignment n
        = some (s1, Addr.block (RegionPool.get_block s).2 0) ∧
      (s1.obj r).used_blocks_ = (s.obj r).used_blocks_ ++ [(s.obj r).current_block_] ∧
      (s1.obj r).current_block_ = (RegionPool.get_block s).2 ∧
      (s1.obj r).block_offset_ = n ∧
      (s1.obj r).big_chunks_ = (s.obj r).big_chunks_ ∧
      (s1.obj r).parents_ = (s.obj r).parents_ ∧
      s1.free_blocks_ = (RegionPool.get_block s).1.free_blocks_ ∧
      s1.blocks_made = (RegionPool.get_block s).1.blocks_made := by
  have ho := new_block_obj s r hv
  have hv1 : r < (Region2.allocate_new_block s r).1.regions.length := by
    rw [(allocFrame_new_block s r).length]; exact hv
  have hoff : ((Region2.allocate_new_block s r).1.obj r).block_offset_ = 0 := by rw [ho]
  have hfit2 : round_up_offset ((Region2.allocate_new_block s r).1.obj r).block_offset_ alignment
      + n ≤ cfg.block_size := by
    rw [hoff, round_up_offset_zero]; omega
  have e := allocate_spill cfg (fuel + 1) s r alignment n hfit (by omega)
  rw [allocate_fits cfg fuel _ r alignment n hfit2] at e
  rw [hoff, round_up_offset_zero, ho] at e
  dsimp only at e
  rw [new_block_snd_eq] at e
  refine ⟨_, e, ?_⟩
  rw [World.obj_setObj_self _ _ _ hv1]
  dsimp only
  refine ⟨rfl, rfl, by omega, rfl, rfl, ?_, ?_⟩
  · rw [World.setObj_free_blocks, new_block_free_blocks]
  · rw [World.setObj_blocks_made, new_block_blocks_made]

/-- C8, at the sample of the test case: the arena holds 65533 bytes in block 0, and
`allocate(4, 10)` spills into the new block 1. -/
theorem spill_takes_new_block_witness :
    ∃ s1, Region2.allocate Config.sample 2 sampleFull 0 4 10 = some (s1, Addr.block 1 0) ∧
      (s1.obj 0).used_blocks_ = [0] ∧ (s1.obj 0).current_block_ = 1 ∧
      (s1.obj 0).block_offset_ = 10 := by
  obtain ⟨s1, h1, h2, h3, h4, _⟩ :=
    spill_takes_new_block Config.sample (by decide) 0 sampleFull 0 4 10 (by decide) (by decide)
      (by decide)
  exact ⟨s1, h1, h2, h3, h4⟩

/-! ## `clear` -/

theorem set_getD_self {α : Type} (d : α) : ∀ (l : List α) (r : Nat), l.set r (l.getD r d) = l
  | [], _ => rfl
  | _ :: _, 0 => rfl
  | y :: l, r + 1 => by
    rw [List.getD_cons_succ, List.set_cons_succ, set_getD_self d l r]

theorem World.setObj_obj_self (s : World) (r : Nat) : s.setObj r (s.obj r) = s := by
  have e : (⟨s.obj r, s.refs r⟩ : Slot) = s.regions.getD r Slot.null := rfl
  unfold World.setObj
  rw [e, set_getD_self]

theorem clearFields_of_cleared (s : World) (r : Nat) (h : (s.obj r).Cleared) :
    Region2.clearFields s r = s := by
  rw [clearFields_eq, reset_of_cleared h, h.2.1, h.2.2.1]
  simp only [List.append_nil]
  exact World.setObj_obj_self s r

theorem clear_obj (s : World) (r : Nat) : (Region2.clear s r).obj r = (s.obj r).reset := by
  have hf := foldl_dropN_frame s.depth (s.obj r).parents_ (Region2.clearFields s r)
  have e : Region2.clear s r
      = (s.obj r).parents_.foldl (shared_ptr_dropN s.depth) (Region2.clearFields s r) := rfl
  rw [e]
  rcases hf.obj r with h | h
  · rw [h, clearFields_obj_self]
  · rw [h, clearFields_obj_self, reset_reset]

/-- Destroying pointers to arenas that all have further references only lowers use counts. -/
theorem foldl_dropN_keep (fuel : Nat) : ∀ (ps : List Nat) (s : World),
    (∀ p ∈ ps, ps.count p < s.refs p) →
    (ps.foldl (shared_ptr_dropN (fuel + 1)) s).free_blocks_ = s.free_blocks_ ∧
    (ps.foldl (shared_ptr_dropN (fuel + 1)) s).freed_chunks = s.freed_chunks ∧
    (ps.foldl (shared_ptr_dropN (fuel + 1)) s).free_regions_ = s.free_regions_ ∧
    (∀ x, (ps.foldl (shared_ptr_dropN (fuel + 1)) s).obj x = s.obj x)
  | [], s, _ => ⟨rfl, rfl, rfl, fun _ => rfl⟩
  | p :: ps, s, h => by
    have hp := h p (List.mem_cons_self _ _)
    rw [List.count_cons_self] at hp
    have hv := World.lt_length_of_refs_pos s p (by omega)
    have hk := dropN_keep fuel s p (by omega)
    have ih := foldl_dropN_keep fuel ps (s.setRefs p (s.refs p - 1)) (by
      intro q hq
      have hq' := h q (List.mem_cons_of_mem _ hq)
      by_cases e : q = p
      · subst e
        rw [World.refs_setRefs_self _ _ _ hv]
        rw [List.count_cons_self] at hq'
        omega
      · rw [World.refs_setRefs_ne _ _ _ _ e]
        rw [List.count_cons_of_ne e] at hq'
        exact hq')
    rw [List.foldl_cons, hk]
    refine ⟨ih.1, ih.2.1, ih.2.2.1, fun x => ?_⟩
    rw [ih.2.2.2 x, World.obj_setRefs]

theorem sampleGrandparent_reachable : Reachable Config.sample sampleGrandparent [1] :=
  Reachable.release 0
    (Reachable.add_reference_to 1 0 (Reachable.get_region sampleSpilled_reachable)
      (by decide) (by decide))
    (by decide)

/-- C10: `clear()` is idempotent: for every arena and every state, a second `clear()` right
after the first leaves the whole state, arena and pool alike, exactly as the first call left
it; so the second call returns no block, frees no chunk and releases no arena. -/
theorem clear_idempotent (s : World) (r : Nat) :
    Region2.clear (Region2.clear s r) r = Region2.clear s r := by
  have hc : ((Region2.clear s r).obj r).Cleared := by
    rw [clear_obj]; exact reset_cleared _
  have e : Region2.clear (Region2.clear s r) r
      = ((Region2.clear s r).obj r).parents_.foldl (shared_ptr_dropN (Region2.clear s r).depth)
          (Region2.clearFields (Region2.clear s r) r) := rfl
  rw [e, hc.2.2.2, List.foldl_nil, clearFields_of_cleared _ _ hc]

/-! ## Rounding up never goes down -/

theorem and_add_and_compl : ∀ (k x m : Nat), x < 2 ^ k → m < 2 ^ k →
    (x &&& m) + (x &&& (2 ^ k - 1 - m)) = x
  | 0, x, m, hx, hm => by
    have : x = 0 := by simpa using hx
    subst this
    simp
  | k + 1, x, m, hx, hm => by
    have hp : 2 ^ (k + 1) = 2 * 2 ^ k := by rw [pow_succ]; omega
    rw [hp] at hx hm ⊢
    have ih := and_add_and_compl k (x / 2) (m / 2) (by omega) (by omega)
    have hc : (2 * 2 ^ k - 1 - m) / 2 = 2 ^ k - 1 - m / 2 := by omega
    have hA2 : (x &&& m) / 2 = x / 2 &&& m / 2 := Nat.and_div_two
    have hB2 : (x &&& (2 * 2 ^ k - 1 - m)) / 2 = x / 2 &&& (2 ^ k - 1 - m / 2) := by
      rw [Nat.and_div_two, hc]
    have hAm : (x &&& m) % 2 = 1 ↔ x % 2 = 1 ∧ m % 2 = 1 := Nat.and_mod_two_eq_one
    have hBm : (x &&& (2 * 2 ^ k - 1 - m)) % 2 = 1 ↔ x % 2 = 1 ∧ (2 * 2 ^ k - 1 - m) % 2 = 1 :=
      Nat.and_mod_two_eq_one
    rw [← hA2, ← hB2] at ih
    omega

theorem le_round_up_offset (off alignment : Nat) (ho : off < 2 ^ 63) (h0 : 0 < alignment)
    (ha : alignment < 2 ^ 63) : off ≤ round_up_offset off alignment := by
  unfold round_up_offset
  have e1 : (alignment + (2 ^ 64 - 1)) % 2 ^ 64 = alignment - 1 := by omega
  have e2 : (off + (alignment - 1)) % 2 ^ 64 = off + (alignment - 1) := by omega
  simp only [e1, e2]
  have h1 := and_add_and_compl 64 (off + (alignment - 1)) (alignment - 1) (by omega) (by omega)
  have h2 : (off + (alignment - 1)) &&& (alignment - 1) ≤ alignment - 1 := Nat.and_le_right
  omega

/-! ## Ranges handed out by `allocate` -/

theorem BlockInv.cur_not_used {s : World} (h : BlockInv s) (r : Nat)
    (hv : r < s.regions.length) : (s.obj r).current_block_ ∉ (s.obj r).used_blocks_ := by
  intro hm
  have h1 := World.count_le_gather (fun o => o.current_block_ :: o.used_blocks_) s r
    (s.obj r).current_block_ hv
  have h2 := h.blocks (s.obj r).current_block_
  have h3 := List.count_pos_iff.mpr hm
  simp only [World.allBlocks, List.count_append] at h2
  simp only [List.count_cons_self] at h1
  split_ifs at h2 <;> omega

theorem BlockInv.chunk_lt {s : World} (h : BlockInv s) (r c : Nat) (hv : r < s.regions.length)
    (hc : c ∈ (s.obj r).big_chunks_) : c < s.chunk_sizes.length := by
  have h1 := World.count_le_gather (fun o => o.big_chunks_) s r c hv
  have h2 := h.chunks c
  have h3 := List.count_pos_iff.mpr hc
  simp only [World.allChunks, List.count_append] at h2
  beta_reduce at h1
  split_ifs at h2 with hlt
  · exact hlt
  · omega

theorem offInv_new_block {cfg : Config} {s : World} (h : OffInv cfg s) (r : Nat) :
    OffInv cfg (Region2.allocate_new_block s r).1 := by
  unfold Region2.allocate_new_block
  dsimp only
  refine offInv_setObj ?_ r _ (Nat.zero_le _)
  intro a
  rw [get_block_obj]
  refine offInv_setObj h r _ ?_ a
  exact h r

theorem new_block_chunk_sizes (s : World) (r : Nat) :
    (Region2.allocate_new_block s r).1.chunk_sizes = s.chunk_sizes := by
  unfold Region2.allocate_new_block
  dsimp only
  rw [World.setObj_chunk_sizes, get_block_chunk_sizes, World.setObj_chunk_sizes]

theorem getD_append_of_lt (l : List Nat) (x : Nat) (i : Nat) (h : i < l.length) :
    (l ++ [x]).getD i 0 = l.getD i 0 := by
  simp only [List.getD_eq_getElem?_getD]
  rw [List.getElem?_append_left h]

theorem getD_append_length (l : List Nat) (x : Nat) : (l ++ [x]).getD l.length 0 = x := by
  simp only [List.getD_eq_getElem?_getD]
  rw [List.getElem?_append_right (le_refl _)]
  simp

/-- A bump allocation at an offset `A` at or above the write offset keeps the ranges handed
out so far where they are and returns a range that overlaps none of them. -/
theorem tracked_bump (cfg : Config) (s : World) (r A n : Nat) (L : List (Addr × Nat))
    (hb : BlockInv s) (hv : r < s.regions.length) (hT : Tracked cfg s r L)
    (hle : (s.obj r).block_offset_ ≤ A) :
    Tracked cfg (s.setObj r { s.obj r with block_offset_ := A + n }) r
        ((Addr.block (s.obj r).current_block_ A, n) :: L) ∧
      ∀ x ∈ L, Addr.disjoint (Addr.block (s.obj r).current_block_ A) n x.1 x.2 := by
  have hnu := hb.cur_not_used r hv
  refine ⟨fun x hx => ?_, fun x hx => ?_⟩
  · rw [World.obj_setObj_self _ _ _ hv]
    rcases List.mem_cons.mp hx with e | hx'
    · subst e
      exact Or.inl ⟨rfl, Or.inr ⟨rfl, Nat.le_refl _⟩⟩
    · rcases hT x hx' with ⟨k, hu | hc⟩ | hch
      · exact Or.inl ⟨k, Or.inl hu⟩
      · exact Or.inl ⟨k, Or.inr ⟨hc.1, by dsimp only; omega⟩⟩
      · exact Or.inr hch
  · rcases hT x hx with ⟨k, hu | hc⟩ | hch
    · refine Or.inr (Or.inl ?_)
      intro e
      exact hnu (by rw [show (s.obj r).current_block_ = x.1.id from e]; exact hu.1)
    · refine Or.inr (Or.inr (Or.inr ?_))
      show x.1.off + x.2 ≤ A
      omega
    · refine Or.inl ?_
      rw [hch.1]
      simp [Addr.inChunk]

/-- A big-chunk allocation keeps the ranges handed out so far where they are and returns a
range in a chunk of its own. -/
theorem tracked_chunk (cfg : Config) (s : World) (r n : Nat) (L : List (Addr × Nat))
    (hb : BlockInv s) (hv : r < s.regions.length) (hT : Tracked cfg s r L) :
    Tracked cfg (Region2.allocate_big_chunk s r n).1 r
        ((Addr.chunk (Region2.allocate_big_chunk s r n).2 0, n) :: L) ∧
      ∀ x ∈ L, Addr.disjoint (Addr.chunk (Region2.allocate_big_chunk s r n).2 0) n x.1 x.2 := by
  have hobj := big_chunk_obj s r n hv
  have hsizes : (Region2.allocate_big_chunk s r n).1.chunk_sizes = s.chunk_sizes ++ [n] := rfl
  have hsnd : (Region2.allocate_big_chunk s r n).2 = s.chunk_sizes.length := rfl
  refine ⟨fun x hx => ?_, fun x hx => ?_⟩
  · rw [hobj, hsizes]
    rcases List.mem_cons.mp hx with e | hx'
    · subst e
      refine Or.inr ⟨rfl, ?_, ?_⟩
      · show s.chunk_sizes.length ∈ (s.obj r).big_chunks_ ++ [s.chunk_sizes.length]
        simp
      · show 0 + n ≤ (s.chunk_sizes ++ [n]).getD s.chunk_sizes.length 0
        rw [getD_append_length]; omega
    · rcases hT x hx' with hbl | hch
      · exact Or.inl hbl
      · refine Or.inr ⟨hch.1, ?_, ?_⟩
        · show x.1.id ∈ (s.obj r).big_chunks_ ++ [s.chunk_sizes.length]
          exact List.mem_append_left _ hch.2.1
        · rw [getD_append_of_lt _ _ _ (hb.chunk_lt r _ hv hch.2.1)]
          exact hch.2.2
  · rcases hT x hx with hbl | hch
    · refine Or.inl ?_
      rw [hbl.1]
      simp [Addr.inChunk]
    · refine Or.inr (Or.inl ?_)
      have := hb.chunk_lt r _ hv hch.2.1
      show s.chunk_sizes.length ≠ x.1.id
      omega

/-- A spill keeps the ranges handed out so far where they are: those of the old current block
are now in a used block. -/
theorem tracked_spill (cfg : Config) (s : World) (r : Nat) (L : List (Addr × Nat))
    (ho : OffInv cfg s) (hv : r < s.regions.length) (hT : Tracked cfg s r L) :
    Tracked cfg (Region2.allocate_new_block s r).1 r L := by
  have hobj := new_block_obj s r hv
  intro x hx
  rw [hobj, new_block_chunk_sizes]
  rcases hT x hx with ⟨k, hu | hc⟩ | hch
  · exact Or.inl ⟨k, Or.inl ⟨List.mem_append_left _ hu.1, hu.2⟩⟩
  · refine Or.inl ⟨k, Or.inl ⟨?_, ?_⟩⟩
    · show x.1.id ∈ (s.obj r).used_blocks_ ++ [(s.obj r).current_block_]
      rw [hc.1]; simp
    · have := ho r
      omega
  · exact Or.inr hch

/-- One `allocate` call keeps the ranges handed out so far where they are, and returns a range
that is tracked too and overlaps none of them. -/
theorem allocate_tracked (cfg : Config) (hsz : cfg.block_size < 2 ^ 63) (r alignment n : Nat)
    (h0 : 0 < alignment) (ha : alignment < 2 ^ 63) (L : List (Addr × Nat)) :
    ∀ (fuel : Nat) (s s1 : World) (p : Addr), BlockInv s → OffInv cfg s →
      r < s.regions.length → Tracked cfg s r L →
      Region2.allocate cfg fuel s r alignment n = some (s1, p) →
      Tracked cfg s1 r ((p, n) :: L) ∧ ∀ x ∈ L, Addr.disjoint p n x.1 x.2
  | 0, s, s1, p, _, _, _, _, h => by simp [Region2.allocate] at h
  | fuel + 1, s, s1, p, hb, ho, hv, hT, h => by
    by_cases hfit : round_up_offset (s.obj r).block_offset_ alignment + n ≤ cfg.block_size
    · rw [allocate_fits cfg fuel s r alignment n hfit] at h
      simp only [Option.some.injEq, Prod.mk.injEq] at h
      obtain ⟨e1, e2⟩ := h
      rw [← e1, ← e2]
      exact tracked_bump cfg s r _ n L hb hv hT
        (le_round_up_offset (s.obj r).block_offset_ alignment (lt_of_le_of_lt (ho r) hsz) h0 ha)
    · by_cases hn : cfg.block_threshold < n
      · rw [allocate_chunk cfg fuel s r alignment n hfit hn] at h
        simp only [Option.some.injEq, Prod.mk.injEq] at h
        obtain ⟨e1, e2⟩ := h
        rw [← e1, ← e2]
        exact tracked_chunk cfg s r n L hb hv hT
      · rw [allocate_spill cfg fuel s r alignment n hfit hn] at h
        exact allocate_tracked cfg hsz r alignment n h0 ha L fuel _ s1 p
          (blockInv_new_block hb r hv) (offInv_new_block ho r)
          (by rw [(allocFrame_new_block s r).length]; exact hv)
          (tracked_spill cfg s r L ho hv hT) h

theorem Addr.disjoint_symm {p q : Addr} {n m : Nat} (h : Addr.disjoint p n q m) :
    Addr.disjoint q m p n := by
  rcases h with h | h | h | h
  · exact Or.inl (Ne.symm h)
  · exact Or.inr (Or.inl (Ne.symm h))
  · exact Or.inr (Or.inr (Or.inr h))
  · exact Or.inr (Or.inr (Or.inl h))

/-- With a threshold that does not exceed the block size, two tries are enough for
`allocate` to return. -/
theorem allocate_total (cfg : Config) (hcfg : cfg.block_threshold ≤ cfg.block_size)
    (fuel : Nat) (s : World) (r alignment n : Nat) (hv : r < s.regions.length) :
    ∃ s1 p, Region2.allocate cfg (fuel + 2) s r alignment n = some (s1, p) := by
  by_cases hfit : round_up_offset (s.obj r).block_offset_ alignment + n ≤ cfg.block_size
  · exact ⟨_, _, allocate_fits cfg (fuel + 1) s r alignment n hfit⟩
  · by_cases hn : cfg.block_threshold < n
    · exact ⟨_, _, allocate_chunk cfg (fuel + 1) s r alignment n hfit hn⟩
    · have hoff : ((Region2.allocate_new_block s r).1.obj r).block_offset_ = 0 := by
        rw [new_block_obj s r hv]
      have hfit2 : round_up_offset ((Region2.allocate_new_block s r).1.obj r).block_offset_
          alignment + n ≤ cfg.block_size := by
        rw [hoff, round_up_offset_zero]; omega
      exact ⟨_, _, (allocate_spill cfg (fuel + 1) s r alignment n hfit hn).trans
        (allocate_fits cfg fuel _ r alignment n hfit2)⟩

theorem allocate_all_tracked (cfg : Config) (hcfg : cfg.block_threshold ≤ cfg.block_size)
    (hsz : cfg.block_size < 2 ^ 63) (r fuel : Nat) :
    ∀ (reqs : List (Nat × Nat)) (s : World) (L : List (Addr × Nat)), BlockInv s →
      OffInv cfg s → r < s.regions.length → Tracked cfg s r L →
      (∀ q ∈ reqs, 0 < q.1 ∧ q.1 < 2 ^ 63) →
      ∃ s1 ps, allocate_all cfg (fuel + 2) r s reqs = some (s1, ps) ∧
        ps.length = reqs.length ∧
        (List.zip ps (reqs.map Prod.snd)).Pairwise
          (fun x y => Addr.disjoint x.1 x.2 y.1 y.2) ∧
        (∀ z ∈ List.zip ps (reqs.map Prod.snd), ∀ x ∈ L, Addr.disjoint z.1 z.2 x.1 x.2) ∧
        Tracked cfg s1 r (List.zip ps (reqs.map Prod.snd) ++ L) ∧ OffInv cfg s1
  | [], s, L, _, ho, _, hT, _ =>
    ⟨s, [], rfl, rfl, by simp, by simp, by simpa using hT, ho⟩
  | q :: qs, s, L, hb, ho, hv, hT, hq => by
    obtain ⟨sA, p, hA⟩ := allocate_total cfg hcfg fuel s r q.1 q.2 hv
    obtain ⟨hq0, hq1⟩ := hq q (List.mem_cons_self _ _)
    obtain ⟨hTA, hDA⟩ := allocate_tracked cfg hsz r q.1 q.2 hq0 hq1 L (fuel + 2) s sA p
      hb ho hv hT hA
    have hbA := blockInv_allocate cfg (fuel + 2) s r q.1 q.2 sA p hb hv hA
    have hoA := offInv_allocate cfg (fuel + 2) s r q.1 q.2 sA p ho hA
    have hvA : r < sA.regions.length := by
      rw [(allocate_frame cfg (fuel + 2) s r q.1 q.2 sA p hA).length]; exact hv
    obtain ⟨s1, ps, h1, h2, h3, h4, h5, h6⟩ :=
      allocate_all_tracked cfg hcfg hsz r fuel qs sA ((p, q.2) :: L) hbA hoA hvA hTA
        (fun x hx => hq x (List.mem_cons_of_mem _ hx))
    refine ⟨s1, p :: ps, ?_, by simp [h2], ?_, ?_, ?_, h6⟩
    · rw [allocate_all, hA]
      dsimp only
      rw [h1]
    · simp only [List.map_cons, List.zip_cons_cons, List.pairwise_cons]
      exact ⟨fun z hz => Addr.disjoint_symm (h4 z hz (p, q.2) (List.mem_cons_self _ _)), h3⟩
    · intro z hz x hx
      simp only [List.map_cons, List.zip_cons_cons, List.mem_cons] at hz
      rcases hz with e | hz
      · subst e
        exact hDA x hx
      · exact h4 z hz x (List.mem_cons_of_mem _ hx)
    · intro x hx
      apply h5 x
      simp only [List.map_cons, List.zip_cons_cons, List.cons_append, List.mem_cons,
        List.mem_append] at hx ⊢
      tauto

/-- C3: for every arena held in a reachable state and every sequence of `allocate` calls made
on it with nothing in between (alignments being positive `long`s, sizes arbitrary, so in
particular positive): every call returns, the returned byte ranges `[p, p + size)` are
pairwise disjoint, and at the end each of them still lies in a block or chunk that the arena
holds.  In particular a range returned by an allocation that spilled into a new block does not
overlap the range returned by the next allocation served from that block. -/
theorem allocations_disjoint (cfg : Config) (hcfg : cfg.block_threshold ≤ cfg.block_size)
    (hsz : cfg.block_size < 2 ^ 63) {s : World} {hs : List Nat} (h : Reachable cfg s hs)
    (r : Nat) (hr : r ∈ hs) (fuel : Nat) (reqs : List (Nat × Nat))
    (hreq : ∀ q ∈ reqs, 0 < q.1 ∧ q.1 < 2 ^ 63) :
    ∃ s1 ps, allocate_all cfg (fuel + 2) r s reqs = some (s1, ps) ∧
      ps.length = reqs.length ∧
      (List.zip ps (reqs.map Prod.snd)).Pairwise (fun x y => Addr.disjoint x.1 x.2 y.1 y.2) ∧
      ∀ z ∈ List.zip ps (reqs.map Prod.snd), Region2.holds cfg s1 r z.1 z.2 := by
  obtain ⟨hri, hbi, hoi⟩ := reachable_inv h
  have hv := World.lt_length_of_refs_pos s r (hri.refs_pos_of_mem hr)
  obtain ⟨s1, ps, h1, h2, h3, _, h5, h6⟩ :=
    allocate_all_tracked cfg hcfg hsz r fuel reqs s [] hbi hoi hv (by intro x hx; simp at hx)
      hreq
  refine ⟨s1, ps, h1, h2, h3, fun z hz => ?_⟩
  rcases h5 z (by simpa using hz) with ⟨k, hu | hc⟩ | hch
  · exact Or.inl ⟨k, Or.inr hu.1, hu.2⟩
  · exact Or.inl ⟨k, Or.inl hc.1, le_trans hc.2 (h6 r)⟩
  · exact Or.inr hch

/-- C3, at a sample: from a fresh pool, 65533 bytes fill block 0, 10 bytes spill into block 1,
the next 3 bytes follow them in block 1 at offset 12, and 70000 bytes go to a chunk. -/
theorem allocations_disjoint_witness :
    (allocate_all Config.sample 2 0 (RegionPool.get_region RegionPool.init).1
        [(4, 65533), (4, 10), (4, 3), (8, 70000)]).map Prod.snd
      = some [Addr.block 0 0, Addr.block 1 0, Addr.block 1 12, Addr.chunk 0 0] ∧
    ∃ s1 ps, allocate_all Config.sample 2 0 (RegionPool.get_region RegionPool.init).1
        [(4, 65533), (4, 10), (4, 3), (8, 70000)] = some (s1, ps) ∧
      ps.length = 4 ∧
      (List.zip ps [65533, 10, 3, 70000]).Pairwise
        (fun x y => Addr.disjoint x.1 x.2 y.1 y.2) ∧
      ∀ z ∈ List.zip ps [65533, 10, 3, 70000], Region2.holds Config.sample s1 0 z.1 z.2 :=
  ⟨by decide,
   allocations_disjoint Config.sample (by decide) (by decide)
     (Reachable.get_region Reachable.init) 0 (by decide) 0
     [(4, 65533), (4, 10), (4, 3), (8, 70000)] (by decide)⟩

/-! ## The depth bound is enough -/

/-- Destroying the pointers `ps` gives the same state for any two depth bounds above the number
of parent references in the heap: the bound is never reached. -/
theorem foldl_dropN_depth (n : Nat) : ∀ (f1 f2 : Nat) (ps : List Nat) (s : World),
    s.allParents.length ≤ n → (ps ≠ [] → n < f1 ∧ n < f2) →
    ps.foldl (shared_ptr_dropN f1) s = ps.foldl (shared_ptr_dropN f2) s := by
  induction n using Nat.strong_induction_on with
  | _ n ih =>
    intro f1 f2 ps
    induction ps with
    | nil => intro s _ _; rfl
    | cons p ps ihps =>
      intro s hs hf
      obtain ⟨h1, h2⟩ := hf (by simp)
      obtain ⟨g1, rfl⟩ : ∃ g1, f1 = g1 + 1 := ⟨f1 - 1, by omega⟩
      obtain ⟨g2, rfl⟩ : ∃ g2, f2 = g2 + 1 := ⟨f2 - 1, by omega⟩
      have hstep : shared_ptr_dropN (g1 + 1) s p = shared_ptr_dropN (g2 + 1) s p := by
        by_cases hz : s.refs p - 1 = 0
        · rw [dropN_fire _ _ _ hz, dropN_fire _ _ _ hz]
          have hcw : Region2.clearWith (shared_ptr_dropN g1) (s.setRefs p (s.refs p - 1)) p
              = Region2.clearWith (shared_ptr_dropN g2) (s.setRefs p (s.refs p - 1)) p := by
            unfold Region2.clearWith
            by_cases hp : ((s.setRefs p (s.refs p - 1)).obj p).parents_ = []
            · rw [hp]; rfl
            · have h3 := clearFields_length_parents (s.setRefs p (s.refs p - 1)) p
              have h4 : (s.setRefs p (s.refs p - 1)).allParents = s.allParents :=
                World.gather_setRefs _ _ _ _
              rw [h4] at h3
              have h5 := List.length_pos.mpr hp
              exact ih (n - 1) (by omega) g1 g2 _ _ (by omega) (fun _ => ⟨by omega, by omega⟩)
          rw [hcw]
        · rw [dropN_keep _ _ _ hz, dropN_keep _ _ _ hz]
      simp only [List.foldl_cons]
      rw [hstep]
      exact ihps _ (le_trans (dropN_frame (g2 + 1) s p).parents hs) (fun _ => ⟨h1, h2⟩)

/-- The destructor with any depth bound of at least `depth` is the destructor: the cascade of
nested destructor calls always runs to its end. -/
theorem dropN_depth_enough (s : World) (r fuel : Nat) (h : s.depth ≤ fuel) :
    shared_ptr_dropN fuel s r = shared_ptr_drop s r :=
  foldl_dropN_depth s.allParents.length fuel s.depth [r] s (le_refl _)
    (fun _ => ⟨h, Nat.lt_succ_self _⟩)

/-- `clear()` with any depth bound of at least `depth` is `clear()`. -/
theorem clearWith_depth_enough (s : World) (r fuel : Nat) (h : s.depth ≤ fuel) :
    Region2.clearWith (shared_ptr_dropN fuel) s r = Region2.clear s r := by
  have hl := clearFields_length_parents s r
  exact foldl_dropN_depth s.allParents.length fuel s.depth (s.obj r).parents_
    (Region2.clearFields s r) (by omega) (fun _ => ⟨h, Nat.lt_succ_self _⟩)

/-! ## `get_region` and `get_block`, case by case -/

/-- C11: in every reachable state whose retired-arena list is non-empty, `get_region` returns
the last (most recently retired) arena of the list and constructs nothing: the list loses
exactly that entry, `num_free_regions` decreases by exactly 1, `num_free_blocks` and the
free-block list are unchanged, the returned arena has use count 1, and its data members are
those it had in the list: the same current block, write offset 0 and empty used-block, chunk
and parent lists. -/
theorem get_region_reuses_retired (cfg : Config) {s : World} {hs : List Nat}
    (h : Reachable cfg s hs) (l : List Nat) (r : Nat) (hl : s.free_regions_ = l ++ [r]) :
    (RegionPool.get_region s).2 = r ∧
    (RegionPool.get_region s).1.free_regions_ = l ∧
    RegionPool.num_free_regions (RegionPool.get_region s).1 + 1 = RegionPool.num_free_regions s ∧
    RegionPool.num_free_blocks (RegionPool.get_region s).1 = RegionPool.num_free_blocks s ∧
    (RegionPool.get_region s).1.free_blocks_ = s.free_blocks_ ∧
    (RegionPool.get_region s).1.blocks_made = s.blocks_made ∧
    (RegionPool.get_region s).1.regions.length = s.regions.length ∧
    (RegionPool.get_region s).1.refs r = 1 ∧
    (RegionPool.get_region s).1.obj r = s.obj r ∧
    ((RegionPool.get_region s).1.obj r).current_block_ = (s.obj r).current_block_ ∧
    ((RegionPool.get_region s).1.obj r).block_offset_ = 0 ∧
    ((RegionPool.get_region s).1.obj r).used_blocks_ = [] ∧
    ((RegionPool.get_region s).1.obj r).big_chunks_ = [] ∧
    ((RegionPool.get_region s).1.obj r).parents_ = [] := by
  have hinv := (reachable_inv h).1
  obtain ⟨hv, _, hc⟩ := hinv.free r (by rw [hl]; simp)
  rcases get_region_cases s with ⟨he, _⟩ | ⟨l', r', hl', e⟩
  · rw [he] at hl; simp at hl
  · have hlr : l' = l ∧ r' = r := by
      rw [hl] at hl'
      have := List.append_inj' hl' rfl
      exact ⟨this.1.symm, by simpa using this.2.symm⟩
    obtain ⟨rfl, rfl⟩ := hlr
    rw [e]
    dsimp only
    have ho : (World.setRefs ⟨s.regions, l', s.free_blocks_, s.blocks_made, s.chunk_sizes,
        s.freed_chunks⟩ r' 1).obj r' = s.obj r' := World.obj_setRefs _ _ _ _
    refine ⟨rfl, rfl, ?_, rfl, rfl, rfl, ?_, World.refs_setRefs_self _ _ _ hv, ho, ?_, ?_, ?_,
      ?_, ?_⟩
    · simp [RegionPool.num_free_regions, hl]
    · exact World.setRefs_length _ _ _
    · rw [ho]
    · rw [ho]; exact hc.1
    · rw [ho]; exact hc.2.1
    · rw [ho]; exact hc.2.2.1
    · rw [ho]; exact hc.2.2.2

/-- C11, at a sample: arena 0 with the spilled block 0 is released and obtained again; it
comes back with its current block 1, the used block 0 stays in the pool. -/
theorem get_region_reuses_retired_witness :
    (shared_ptr_drop sampleSpilled 0).free_regions_ = [] ++ [0] ∧
    (RegionPool.get_region (shared_ptr_drop sampleSpilled 0)).2 = 0 ∧
    RegionPool.num_free_regions (RegionPool.get_region (shared_ptr_drop sampleSpilled 0)).1 + 1
      = RegionPool.num_free_regions (shared_ptr_drop sampleSpilled 0) ∧
    RegionPool.num_free_blocks (RegionPool.get_region (shared_ptr_drop sampleSpilled 0)).1 = 1 ∧
    ((RegionPool.get_region (shared_ptr_drop sampleSpilled 0)).1.obj 0).current_block_ = 1 :=
  ⟨by decide,
   (get_region_reuses_retired Config.sample
      (Reachable.release 0 sampleSpilled_reachable (by decide)) [] 0 (by decide)).1,
   (get_region_reuses_retired Config.sample
      (Reachable.release 0 sampleSpilled_reachable (by decide)) [] 0 (by decide)).2.2.1,
   by decide, by decide⟩

/-- C12: in every state whose retired-arena list is empty, `get_region` constructs a new arena
object, with use count 1, write offset 0 and empty used-block, chunk and parent lists, whose
current block is the block returned by the pool's `get_block`: the last block of the free list
when there is one, `num_free_blocks` decreasing by 1 and no block being made, and a newly made
block otherwise, the free list staying empty; the retired-arena list stays empty. -/
theorem get_region_constructs_fresh (s : World) (h : s.free_regions_ = []) :
    (RegionPool.get_region s).2 = s.regions.length ∧
    (RegionPool.get_region s).1.regions.length = s.regions.length + 1 ∧
    (RegionPool.get_region s).1.obj (RegionPool.get_region s).2
      = ⟨0, (RegionPool.get_block s).2, [], [], []⟩ ∧
    (RegionPool.get_region s).1.refs (RegionPool.get_region s).2 = 1 ∧
    (∀ x, x < s.regions.length →
      (RegionPool.get_region s).1.obj x = s.obj x ∧
      (RegionPool.get_region s).1.refs x = s.refs x) ∧
    (RegionPool.get_region s).1.free_regions_ = [] ∧
    RegionPool.num_free_regions (RegionPool.get_region s).1 = 0 ∧
    (∀ l b, s.free_blocks_ = l ++ [b] →
      ((RegionPool.get_region s).1.obj (RegionPool.get_region s).2).current_block_ = b ∧
      (RegionPool.get_region s).1.free_blocks_ = l ∧
      RegionPool.num_free_blocks (RegionPool.get_region s).1 + 1 = RegionPool.num_free_blocks s ∧
      (RegionPool.get_region s).1.blocks_made = s.blocks_made) ∧
    (s.free_blocks_ = [] →
      ((RegionPool.get_region s).1.obj (RegionPool.get_region s).2).current_block_
        = s.blocks_made ∧
      (RegionPool.get_region s).1.free_blocks_ = [] ∧
      (RegionPool.get_region s).1.blocks_made = s.blocks_made + 1) := by
  have e := get_region_of_no_free s h
  have hobj : (RegionPool.new_region s).1.obj s.regions.length
      = ⟨0, (RegionPool.get_block s).2, [], [], []⟩ := by
    rw [new_region_obj, if_pos rfl]
  rw [e, new_region_snd]
  refine ⟨rfl, by simp, hobj, by rw [new_region_refs, if_pos rfl], fun x hx => ⟨?_, ?_⟩, ?_, ?_,
    fun l b hl => ?_, fun hb => ?_⟩
  · rw [new_region_obj, if_neg (by omega)]
  · rw [new_region_refs, if_neg (by omega)]
  · rw [new_region_free_regions, h]
  · simp [RegionPool.num_free_regions, h]
  · rcases get_block_cases s with ⟨he, _⟩ | ⟨l', b', hl', eb⟩
    · rw [he] at hl; simp at hl
    · have hlb : l' = l ∧ b' = b := by
        rw [hl] at hl'
        have := List.append_inj' hl' rfl
        exact ⟨this.1.symm, by simpa using this.2.symm⟩
      obtain ⟨rfl, rfl⟩ := hlb
      rw [hobj, new_region_free_blocks, new_region_blocks_made, eb]
      refine ⟨rfl, rfl, ?_, rfl⟩
      simp [RegionPool.num_free_blocks, hl, new_region_free_blocks, eb]
  · rw [hobj, new_region_free_blocks, new_region_blocks_made, get_block_of_no_free s hb]
    exact ⟨rfl, hb, rfl⟩

/-- C12, at samples: from a fresh pool the new arena 0 gets the newly made block 0; after an
arena with a spilled block was released and obtained again, a second `get_region` constructs
arena 1 around the pooled block 0. -/
theorem get_region_constructs_fresh_witness :
    (RegionPool.get_region RegionPool.init).1.obj 0 = ⟨0, 0, [], [], []⟩ ∧
    (RegionPool.get_region RegionPool.init).1.blocks_made = 1 ∧
    ((RegionPool.get_region (RegionPool.get_region (shared_ptr_drop sampleSpilled 0)).1).1.obj
        (RegionPool.get_region (RegionPool.get_region (shared_ptr_drop sampleSpilled 0)).1).2
      ).current_block_ = 0 ∧
    RegionPool.num_free_blocks
        (RegionPool.get_region (RegionPool.get_region (shared_ptr_drop sampleSpilled 0)).1).1 + 1
      = RegionPool.num_free_blocks (RegionPool.get_region (shared_ptr_drop sampleSpilled 0)).1 :=
  ⟨(get_region_constructs_fresh RegionPool.init rfl).2.2.1,
   ((get_region_constructs_fresh RegionPool.init rfl).2.2.2.2.2.2.2.2 rfl).2.2,
   ((get_region_constructs_fresh (RegionPool.get_region (shared_ptr_drop sampleSpilled 0)).1
      (by decide)).2.2.2.2.2.2.2.1 [] 0 (by decide)).1,
   ((get_region_constructs_fresh (RegionPool.get_region (shared_ptr_drop sampleSpilled 0)).1
      (by decide)).2.2.2.2.2.2.2.1 [] 0 (by decide)).2.2.1⟩

/-- C13: in every reachable state, `get_block` on a non-empty free-block list removes and
returns its last entry, the most recently returned block: `num_free_blocks` decreases by
exactly 1 and the returned block is no longer in the list; on an empty free list it returns a
newly made block, one that no arena and no list holds, and the free list stays empty. -/
theorem get_block_pops_or_makes (cfg : Config) {s : World} {hs : List Nat}
    (h : Reachable cfg s hs) :
    (∀ l b, s.free_blocks_ = l ++ [b] →
      (RegionPool.get_block s).2 = b ∧
      (RegionPool.get_block s).1.free_blocks_ = l ∧
      RegionPool.num_free_blocks (RegionPool.get_block s).1 + 1 = RegionPool.num_free_blocks s ∧
      b ∉ (RegionPool.get_block s).1.free_blocks_ ∧
      (RegionPool.get_block s).1.blocks_made = s.blocks_made) ∧
    (s.free_blocks_ = [] →
      (RegionPool.get_block s).2 = s.blocks_made ∧
      (RegionPool.get_block s).2 ∉ s.allBlocks ∧
      (RegionPool.get_block s).1.free_blocks_ = [] ∧
      (RegionPool.get_block s).1.blocks_made = s.blocks_made + 1) := by
  have hinv := (reachable_inv h).2.1
  refine ⟨fun l b hl => ?_, fun he => ?_⟩
  · rcases get_block_cases s with ⟨he, _⟩ | ⟨l', b', hl', eb⟩
    · rw [he] at hl; simp at hl
    · have hlb : l' = l ∧ b' = b := by
        rw [hl] at hl'
        have := List.append_inj' hl' rfl
        exact ⟨this.1.symm, by simpa using this.2.symm⟩
      obtain ⟨rfl, rfl⟩ := hlb
      rw [eb]
      refine ⟨rfl, rfl, by simp [RegionPool.num_free_blocks, hl], ?_, rfl⟩
      intro hm
      dsimp only at hm
      have hc := hinv.blocks b'
      have h1 := List.count_pos_iff.mpr hm
      simp only [World.allBlocks, hl, List.count_append, List.count_cons_self,
        List.count_nil] at hc
      split_ifs at hc <;> omega
  · rw [get_block_of_no_free s he]
    refine ⟨rfl, ?_, he, rfl⟩
    intro hm
    dsimp only at hm
    have hc := hinv.blocks s.blocks_made
    have h1 := List.count_pos_iff.mpr hm
    rw [if_neg (lt_irrefl _)] at hc
    omega

/-- C13, at a sample: after the spilled arena was released the free list is `[0]`, and
`get_block` returns block 0 and leaves the list empty. -/
theorem get_block_pops_or_makes_witness :
    (shared_ptr_drop sampleSpilled 0).free_blocks_ = [] ++ [0] ∧
    (RegionPool.get_block (shared_ptr_drop sampleSpilled 0)).2 = 0 ∧
    (RegionPool.get_block (shared_ptr_drop sampleSpilled 0)).1.free_blocks_ = [] ∧
    (RegionPool.get_block RegionPool.init).2 = 0 :=
  ⟨by decide,
   ((get_block_pops_or_makes Config.sample
      (Reachable.release 0 sampleSpilled_reachable (by decide))).1 [] 0 (by decide)).1,
   ((get_block_pops_or_makes Config.sample
      (Reachable.release 0 sampleSpilled_reachable (by decide))).1 [] 0 (by decide)).2.1,
   ((get_block_pops_or_makes Config.sample Reachable.init).2 rfl).1⟩

/-! ## Bump allocation -/

/-- For a power-of-two alignment, `round_up_offset` is the least multiple of the alignment at
or above the offset. -/
theorem round_up_offset_pow_two (off k : Nat) (ho : off < 2 ^ 63) (hk : k < 63) :
    round_up_offset off (2 ^ k) = (off + 2 ^ k - 1) / 2 ^ k * 2 ^ k := by
  have hpos : 0 < 2 ^ k := Nat.pow_pos (by decide)
  have hle : 2 ^ k ≤ 2 ^ 62 := Nat.pow_le_pow_right (by decide) (by omega)
  have hmod := Nat.and_pow_two_sub_one_eq_mod (off + (2 ^ k - 1)) k
  have hdm := Nat.div_add_mod (off + (2 ^ k - 1)) (2 ^ k)
  have hx : off + 2 ^ k - 1 = off + (2 ^ k - 1) := by omega
  rw [hx]
  unfold round_up_offset
  generalize 2 ^ k = a at hpos hle hmod hdm ⊢
  have e1 : (a + (2 ^ 64 - 1)) % 2 ^ 64 = a - 1 := by omega
  have e2 : (off + (a - 1)) % 2 ^ 64 = off + (a - 1) := by omega
  simp only [e1, e2]
  have h1 := and_add_and_compl 64 (off + (a - 1)) (a - 1) (by omega) (by omega)
  rw [hmod] at h1
  rw [Nat.mul_comm] at hdm
  omega

/-- C14: for an alignment `2 ^ k` that is a power of two and a write offset that is a
non-negative `long`, let `R` be the write offset rounded up to a multiple of the alignment;
if `R + size` is at most the block size, `allocate` returns the position `R` of the current
block and sets the write offset to `R + size`, and changes nothing else: the current block,
the used-block, chunk and parent lists, the use counts, the other arenas and the pool's
free-block and retired-arena lists are as before.  `R` is the least multiple of the alignment
that is at least the write offset. -/
theorem allocate_bumps (cfg : Config) (fuel : Nat) (s : World) (r k n : Nat)
    (hv : r < s.regions.length) (ho : (s.obj r).block_offset_ < 2 ^ 63) (hk : k < 63)
    (hfit : ((s.obj r).block_offset_ + 2 ^ k - 1) / 2 ^ k * 2 ^ k + n ≤ cfg.block_size) :
    ∃ s1, Region2.allocate cfg (fuel + 1) s r (2 ^ k) n
        = some (s1, Addr.block (s.obj r).current_block_
            (((s.obj r).block_offset_ + 2 ^ k - 1) / 2 ^ k * 2 ^ k)) ∧
      (s1.obj r).block_offset_
        = ((s.obj r).block_offset_ + 2 ^ k - 1) / 2 ^ k * 2 ^ k + n ∧
      (s1.obj r).current_block_ = (s.obj r).current_block_ ∧
      (s1.obj r).used_blocks_ = (s.obj r).used_blocks_ ∧
      (s1.obj r).big_chunks_ = (s.obj r).big_chunks_ ∧
      (s1.obj r).parents_ = (s.obj r).parents_ ∧
      (∀ x, x ≠ r → s1.obj x = s.obj x) ∧
      (∀ x, s1.refs x = s.refs x) ∧
      s1.regions.length = s.regions.length ∧
      s1.free_blocks_ = s.free_blocks_ ∧
      s1.free_regions_ = s.free_regions_ ∧
      s1.blocks_made = s.blocks_made ∧
      s1.chunk_sizes = s.chunk_sizes ∧
      s1.freed_chunks = s.freed_chunks ∧
      (((s.obj r).block_offset_ + 2 ^ k - 1) / 2 ^ k * 2 ^ k) % 2 ^ k = 0 ∧
      (s.obj r).block_offset_ ≤ ((s.obj r).block_offset_ + 2 ^ k - 1) / 2 ^ k * 2 ^ k ∧
      ((s.obj r).block_offset_ + 2 ^ k - 1) / 2 ^ k * 2 ^ k
        < (s.obj r).block_offset_ + 2 ^ k := by
  have hR := round_up_offset_pow_two (s.obj r).block_offset_ k ho hk
  have e := allocate_fits cfg fuel s r (2 ^ k) n (by rw [hR]; exact hfit)
  rw [hR] at e
  have hpos : 0 < 2 ^ k := Nat.pow_pos (by decide)
  have hdm := Nat.div_add_mod ((s.obj r).block_offset_ + 2 ^ k - 1) (2 ^ k)
  have hlt := Nat.mod_lt ((s.obj r).block_offset_ + 2 ^ k - 1) hpos
  rw [Nat.mul_comm] at hdm
  refine ⟨_, e, ?_, ?_, ?_, ?_, ?_, fun x hx => ?_, fun x => ?_, ?_, rfl, rfl, rfl, rfl, rfl,
    Nat.mul_mod_left _ _, ?_, ?_⟩
  · rw [World.obj_setObj_self _ _ _ hv]
  · rw [World.obj_setObj_self _ _ _ hv]
  · rw [World.obj_setObj_self _ _ _ hv]
  · rw [World.obj_setObj_self _ _ _ hv]
  · rw [World.obj_setObj_self _ _ _ hv]
  · exact World.obj_setObj_ne _ _ _ _ hx
  · exact World.refs_setObj _ _ _ _
  · exact World.setObj_length _ _ _
  · generalize 2 ^ k = a at hpos hdm hlt ⊢
    omega
  · generalize 2 ^ k = a at hpos hdm hlt ⊢
    omega

/-- C14, at a sample: with the write offset at 10 in block 1, `allocate(4, 3)` returns
offset 12 of block 1 and leaves the write offset at 15. -/
theorem allocate_bumps_witness :
    ∃ s1, Region2.allocate Config.sample 1 sampleSpilled 0 (2 ^ 2) 3
        = some (s1, Addr.block 1 12) ∧
      (s1.obj 0).block_offset_ = 15 ∧ (s1.obj 0).used_blocks_ = [0] ∧ s1.free_blocks_ = [] := by
  obtain ⟨s1, h1, h2, _, h4, _, _, _, _, _, h10, _⟩ :=
    allocate_bumps Config.sample 0 sampleSpilled 0 2 3 (by decide) (by decide) (by decide)
      (by decide)
  exact ⟨s1, h1, h2, h4, h10⟩

/-! ## No arena is lost -/

theorem noLeak_keep (hs : List Nat) (s : World) (r : Nat) (D R : List Nat)
    (h : RefInv s hs (r :: D) R ∧ NoLeak s R) (hz : s.refs r - 1 ≠ 0) :
    RefInv (s.setRefs r (s.refs r - 1)) hs D R ∧ NoLeak (s.setRefs r (s.refs r - 1)) R := by
  refine ⟨refInv_keep hs s r D R h.1 hz, fun a ha h0 => ?_⟩
  have hv : r < s.regions.length := World.lt_length_of_refs_pos s r h.1.refs_pos
  have ha' : a < s.regions.length := by simpa using ha
  by_cases e : a = r
  · subst e
    rw [World.refs_setRefs_self _ _ _ hv] at h0
    exact absurd h0 hz
  · rw [World.refs_setRefs_ne _ _ _ _ e] at h0
    exact h.2 a ha' h0

theorem noLeak_fire (hs : List Nat) (s : World) (r : Nat) (D R : List Nat)
    (h : RefInv s hs (r :: D) R ∧ NoLeak s R) (hz : s.refs r - 1 = 0) :
    RefInv (Region2.clearFields (s.setRefs r (s.refs r - 1)) r) hs
        ((s.obj r).parents_ ++ D) (r :: R) ∧
      NoLeak (Region2.clearFields (s.setRefs r (s.refs r - 1)) r) (r :: R) := by
  refine ⟨refInv_fire hs s r D R h.1 hz, fun a ha h0 => ?_⟩
  have ha' : a < s.regions.length := by simpa using ha
  show a ∈ s.free_regions_ ++ r :: R
  by_cases e : a = r
  · subst e; simp
  · rw [clearFields_refs, World.refs_setRefs_ne _ _ _ _ e] at h0
    have := h.2 a ha' h0
    simp only [List.mem_append, List.mem_cons] at this ⊢
    tauto

theorem noLeak_retire (hs : List Nat) (s : World) (r : Nat) (D R : List Nat)
    (h : RefInv s hs D (r :: R) ∧ NoLeak s (r :: R)) :
    RefInv { s with free_regions_ := s.free_regions_ ++ [r] } hs D R ∧
      NoLeak { s with free_regions_ := s.free_regions_ ++ [r] } R := by
  refine ⟨refInv_retire hs s r D R h.1, fun a ha h0 => ?_⟩
  have := h.2 a ha h0
  show a ∈ (s.free_regions_ ++ [r]) ++ R
  simpa [List.append_assoc] using this

theorem drop_noLeak {s : World} {hs : List Nat} {r : Nat} (h : RefInv s hs [] [])
    (hn : NoLeak s []) (hr : r ∈ hs) : NoLeak (shared_ptr_drop s r) [] := by
  have h1 : RefInv s (hs.erase r) [r] [] := by
    refine ⟨fun a => ?_, h.free, h.pend, h.nodup⟩
    have hc := h.count a
    by_cases e : a = r
    · subst e
      have := List.count_erase_self a hs
      have := List.count_pos_iff.mpr hr
      rw [List.count_cons_self]
      simp only [List.count_nil] at hc ⊢
      omega
    · rw [List.count_cons_of_ne e, List.count_erase_of_ne e]
      exact hc
  exact (dropN_inv (fun s D R => RefInv s (hs.erase r) D R ∧ NoLeak s R)
    (noLeak_keep _) (noLeak_fire _) (noLeak_retire _) s.depth s r [] []
    (Nat.lt_succ_self _) ⟨h1, hn⟩).2

theorem clear_noLeak {s : World} {hs : List Nat} {r : Nat} (h : RefInv s hs [] [])
    (hn : NoLeak s []) (hr : r ∈ hs) : NoLeak (Region2.clear s r) [] := by
  have hpos := h.refs_pos_of_mem hr
  have hne : ∀ a, s.refs a = 0 → a ≠ r := by
    intro a ha e; subst e; omega
  have h1 : RefInv (Region2.clearFields s r) hs ((s.obj r).parents_ ++ []) [] := by
    refine ⟨fun a => ?_, fun a ha => ?_, fun a ha => by simp at ha, h.nodup⟩
    · have hc := h.count a
      have hcp := clearFields_count_parents s r a
      rw [clearFields_refs, List.count_append]
      simp only [List.count_nil] at hc ⊢
      omega
    · obtain ⟨h1, h2, h3⟩ := h.free a ha
      have e := hne a h2
      exact ⟨by simpa using h1, by rw [clearFields_refs]; exact h2,
        by rw [clearFields_obj_ne _ _ _ e]; exact h3⟩
  have h2 : NoLeak (Region2.clearFields s r) [] := by
    intro a ha h0
    rw [clearFields_refs] at h0
    exact hn a (by simpa using ha) h0
  unfold Region2.clear Region2.clearWith
  refine (foldl_dropN_inv (fun s D R => RefInv s hs D R ∧ NoLeak s R)
    (noLeak_keep _) (noLeak_fire _) (noLeak_retire _) s.depth (s.obj r).parents_ _ [] [] ?_
    ⟨h1, h2⟩).2
  intro _
  have := clearFields_length_parents s r
  show (Region2.clearFields s r).allParents.length < s.allParents.length + 1
  omega

theorem noLeak_get_region {s : World} {hs : List Nat} (h : RefInv s hs [] [])
    (hn : NoLeak s []) : NoLeak (RegionPool.get_region s).1 [] := by
  rcases get_region_cases s with ⟨_, e⟩ | ⟨l, r, hl, e⟩
  · rw [e]
    intro a ha h0
    rw [new_region_refs] at h0
    rw [new_region_free_regions]
    by_cases e1 : a = s.regions.length
    · rw [if_pos e1] at h0; omega
    · rw [if_neg e1] at h0
      have ha' : a < s.regions.length := by
        rw [new_region_regions] at ha
        simp at ha
        omega
      exact hn a ha' h0
  · rw [e]
    dsimp only
    have hv : r < s.regions.length := (h.free r (by rw [hl]; simp)).1
    intro a ha h0
    have ha' : a < s.regions.length := by simpa using ha
    show a ∈ l ++ []
    by_cases e1 : a = r
    · subst e1
      have hself := World.refs_setRefs_self (⟨s.regions, l, s.free_blocks_, s.blocks_made,
        s.chunk_sizes, s.freed_chunks⟩ : World) a 1 hv
      have := hself.symm.trans h0
      omega
    · have hne := World.refs_setRefs_ne (⟨s.regions, l, s.free_blocks_, s.blocks_made,
        s.chunk_sizes, s.freed_chunks⟩ : World) r a 1 e1
      have h0' : s.refs a = 0 := hne.symm.trans h0
      have := hn a ha' h0'
      rw [hl] at this
      simp only [List.append_nil, List.mem_append, List.mem_singleton] at this ⊢
      tauto

theorem noLeak_copy {s : World} {hs : List Nat} {r : Nat} (h : RefInv s hs [] [])
    (hn : NoLeak s []) (hr : r ∈ hs) : NoLeak (s.setRefs r (s.refs r + 1)) [] := by
  have hv := World.lt_length_of_refs_pos s r (h.refs_pos_of_mem hr)
  intro a ha h0
  by_cases e : a = r
  · subst e
    rw [World.refs_setRefs_self _ _ _ hv] at h0
    omega
  · rw [World.refs_setRefs_ne _ _ _ _ e] at h0
    exact hn a (by simpa using ha) h0

theorem noLeak_add_reference {s : World} {hs : List Nat} {r region : Nat}
    (h : RefInv s hs [] []) (hn : NoLeak s []) (hr : r ∈ hs) (hg : region ∈ hs) :
    NoLeak (Region2.add_reference_to s r region) [] := by
  have hv := World.lt_length_of_refs_pos s r (h.refs_pos_of_mem hr)
  have hgv := World.lt_length_of_refs_pos s region (h.refs_pos_of_mem hg)
  obtain ⟨_, h2, _, h4, h5⟩ := add_reference_spec s r region hv hgv
  intro a ha h0
  rw [h5]
  have ha' : a < s.regions.length := by
    unfold Region2.add_reference_to at ha
    simpa using ha
  by_cases e : a = region
  · subst e
    rw [h2] at h0
    omega
  · rw [h4 a e] at h0
    exact hn a ha' h0

theorem noLeak_of_allocFrame {a b : World} {r : Nat} (hn : NoLeak a [])
    (f : AllocFrame r a b) : NoLeak b [] := by
  intro x hx h0
  rw [f.free_regions]
  exact hn x (by rw [← f.length]; exact hx) (by rw [← f.refs]; exact h0)

/-- In every reachable state, an arena that nothing refers to is on the pool's list of retired
arenas. -/
theorem reachable_noLeak {cfg : Config} {s : World} {hs : List Nat} (h : Reachable cfg s hs) :
    NoLeak s [] := by
  induction h with
  | init => intro a ha; simp [RegionPool.init] at ha
  | get_region h0 ih => exact noLeak_get_region (reachable_inv h0).1 ih
  | copy r h0 hr ih => exact noLeak_copy (reachable_inv h0).1 ih hr
  | release r h0 hr ih => exact drop_noLeak (reachable_inv h0).1 ih hr
  | add_reference_to r region h0 hr hg ih =>
    exact noLeak_add_reference (reachable_inv h0).1 ih hr hg
  | clear r h0 hr ih => exact clear_noLeak (reachable_inv h0).1 ih hr
  | allocate r fuel alignment n p h0 hr ha ih =>
    exact noLeak_of_allocFrame ih (allocate_frame cfg fuel _ r alignment n _ p ha)

/-! ## Repeated references -/

theorem World.exists_of_mem_gather (g : Region2 → List Nat) (s : World) (x : Nat)
    (hx : x ∈ s.gather g) : ∃ r, r < s.regions.length ∧ x ∈ g (s.obj r) := by
  simp only [World.gather, List.mem_flatMap] at hx
  obtain ⟨sl, hsl, hx⟩ := hx
  obtain ⟨i, hi, e⟩ := List.getElem_of_mem hsl
  refine ⟨i, hi, ?_⟩
  have : s.obj i = sl.obj := by
    simp only [World.obj, World.slot, List.getD_eq_getElem?_getD, List.getElem?_eq_getElem hi,
      Option.getD_some, e]
  rw [this]; exact hx

theorem add_reference_obj (s : World) (r region : Nat) (hv : r < s.regions.length) :
    (Region2.add_reference_to s r region).obj r
      = { s.obj r with parents_ := (s.obj r).parents_ ++ [region] } := by
  unfold Region2.add_reference_to
  dsimp only
  rw [World.obj_setRefs, World.obj_setObj_self _ _ _ hv]

theorem add_reference_length (s : World) (r region : Nat) :
    (Region2.add_reference_to s r region).regions.length = s.regions.length := by
  unfold Region2.add_reference_to
  simp

theorem add_references_reachable {cfg : Config} {s : World} {hs : List Nat}
    (h : Reachable cfg s hs) (a b : Nat) (ha : a ∈ hs) (hb : b ∈ hs) :
    ∀ k, Reachable cfg (add_references s b a k) hs
  | 0 => h
  | k + 1 => Reachable.add_reference_to b a (add_references_reachable h a b ha hb k) hb ha

theorem add_references_spec (s : World) (a b : Nat) (hva : a < s.regions.length)
    (hvb : b < s.regions.length) : ∀ k,
    (add_references s b a k).regions.length = s.regions.length ∧
    (add_references s b a k).obj b
      = { s.obj b with parents_ := (s.obj b).parents_ ++ List.replicate k a } ∧
    (add_references s b a k).refs a = s.refs a + k ∧
    (∀ x, x ≠ b → (add_references s b a k).obj x = s.obj x) ∧
    (∀ x, x ≠ a → (add_references s b a k).refs x = s.refs x) ∧
    (add_references s b a k).free_regions_ = s.free_regions_ ∧
    (add_references s b a k).free_blocks_ = s.free_blocks_
  | 0 => ⟨rfl, by simp [add_references], rfl, fun _ _ => rfl, fun _ _ => rfl, rfl, rfl⟩
  | k + 1 => by
    obtain ⟨h1, h2, h3, h4, h5, h6, h7⟩ := add_references_spec s a b hva hvb k
    have hva' : a < (add_references s b a k).regions.length := by rw [h1]; exact hva
    have hvb' : b < (add_references s b a k).regions.length := by rw [h1]; exact hvb
    obtain ⟨_, g2, g3, g4, g5⟩ := add_reference_spec (add_references s b a k) b a hvb' hva'
    have g1 := add_reference_obj (add_references s b a k) b a hvb'
    refine ⟨?_, ?_, ?_, fun x hx => ?_, fun x hx => ?_, ?_, ?_⟩
    · show (Region2.add_reference_to _ b a).regions.length = _
      rw [add_reference_length, h1]
    · show (Region2.add_reference_to _ b a).obj b = _
      rw [g1, h2, List.replicate_succ']
      simp
    · show (Region2.add_reference_to _ b a).refs a = _
      rw [g2, h3]; omega
    · show (Region2.add_reference_to _ b a).obj x = _
      rw [g3 x hx, h4 x hx]
    · show (Region2.add_reference_to _ b a).refs x = _
      rw [g4 x hx, h5 x hx]
    · show (Region2.add_reference_to _ b a).free_regions_ = _
      rw [g5, h6]
    · show (Region2.add_reference_to _ b a).free_blocks_ = _
      rw [← h7]; rfl

/-- When the states `s1` and `s3` are reachable with only destructor runs in between, no
handle to `a` or `b` is left in `s3`, only `b` referred to `a` in `s1` and nothing referred to
`b`, then `a` is on the list of retired arenas of `s3`, once. -/
theorem retired_once_of_frame {cfg : Config} {s1 s3 : World} {hs1 hs3 : List Nat}
    (_h1 : Reachable cfg s1 hs1) (h3 : Reachable cfg s3 hs3) (f : Frame s1 s3) (a b : Nat)
    (hva : a < s1.regions.length) (hvb : b < s1.regions.length)
    (hca : hs3.count a = 0) (hcb : hs3.count b = 0)
    (hpa : ∀ x, x ≠ b → a ∉ (s1.obj x).parents_) (hpb : ∀ x, b ∉ (s1.obj x).parents_) :
    s3.free_regions_.count a = 1 := by
  have hinv := (reachable_inv h3).1
  have hnl := reachable_noLeak h3
  have hsub : ∀ x y, y ∈ (s3.obj x).parents_ → y ∈ (s1.obj x).parents_ := by
    intro x y hy
    rcases f.obj x with e | e
    · rw [← e]; exact hy
    · rw [e] at hy; simp [Region2.reset] at hy
  have hb0 : b ∉ s3.allParents := by
    intro hm
    obtain ⟨x, _, hx⟩ := World.exists_of_mem_gather _ s3 b hm
    exact hpb x (hsub x b hx)
  have hrb : s3.refs b = 0 := by
    have := hinv.count b
    rw [List.count_eq_zero_of_not_mem hb0, hcb] at this
    simpa using this
  have hbfree : b ∈ s3.free_regions_ := by
    simpa using hnl b (by rw [f.length]; exact hvb) hrb
  have hbc := (hinv.free b hbfree).2.2
  have ha0 : a ∉ s3.allParents := by
    intro hm
    obtain ⟨x, _, hx⟩ := World.exists_of_mem_gather _ s3 a hm
    by_cases e : x = b
    · subst e
      rw [hbc.2.2.2] at hx
      simp at hx
    · exact hpa x e (hsub x a hx)
  have hra : s3.refs a = 0 := by
    have := hinv.count a
    rw [List.count_eq_zero_of_not_mem ha0, hca] at this
    simpa using this
  have hafree : a ∈ s3.free_regions_ := by
    simpa using hnl a (by rw [f.length]; exact hva) hra
  have hnd : s3.free_regions_.Nodup := by
    simpa using hinv.nodup
  exact List.count_eq_one_of_mem hnd hafree

/-- C15: in a reachable state where client code holds handles to the arenas `a` and `b`, one
call `b->add_reference_to(a)` appends exactly one entry `a` to the parent list of `b`, also
when `a` is on it already, and raises the use count of `a` by exactly 1; no other field of
`b`, no field of `a` (when `a` is not `b`), no other arena, no other use count and no list of
the pool changes.  After `k` such calls the parent list of `b` has `k` further entries `a` and
the use count of `a` is `k` higher; for `k ≥ 1`, `a` is not on the list of retired arenas,
also after the handle to `a` was dropped, and in every reachable state an arena that is on
the parent list of an arena is not on the list of retired arenas.  When the handles were the
only references to `a` and to `b` (use count 1 each, `a` other than `b`), then once both
handles have been dropped, in either order, `a` is on the list of retired arenas exactly
once. -/
theorem add_reference_not_deduplicated (cfg : Config) {s : World} {hs : List Nat}
    (h : Reachable cfg s hs) (a b : Nat) (ha : a ∈ hs) (hb : b ∈ hs) (k : Nat) (hk : 1 ≤ k) :
    ((Region2.add_reference_to s b a).obj b
        = { s.obj b with parents_ := (s.obj b).parents_ ++ [a] } ∧
      (Region2.add_reference_to s b a).refs a = s.refs a + 1 ∧
      (∀ x, x ≠ b → (Region2.add_reference_to s b a).obj x = s.obj x) ∧
      (∀ x, x ≠ a → (Region2.add_reference_to s b a).refs x = s.refs x) ∧
      (Region2.add_reference_to s b a).regions.length = s.regions.length ∧
      (Region2.add_reference_to s b a).free_regions_ = s.free_regions_ ∧
      (Region2.add_reference_to s b a).free_blocks_ = s.free_blocks_ ∧
      (Region2.add_reference_to s b a).blocks_made = s.blocks_made ∧
      (Region2.add_reference_to s b a).chunk_sizes = s.chunk_sizes ∧
      (Region2.add_reference_to s b a).freed_chunks = s.freed_chunks) ∧
    (((add_references s b a k).obj b).parents_ = (s.obj b).parents_ ++ List.replicate k a ∧
      (add_references s b a k).refs a = s.refs a + k ∧
      a ∉ (add_references s b a k).free_regions_ ∧
      a ∉ (shared_ptr_drop (add_references s b a k) a).free_regions_ ∧
      (shared_ptr_drop (add_references s b a k) a).refs a = s.refs a + k - 1 ∧
      (shared_ptr_drop (add_references s b a k) a).obj b = (add_references s b a k).obj b) ∧
    (∀ (t : World) (ht : List Nat), Reachable cfg t ht → ∀ x y, x < t.regions.length →
      y ∈ (t.obj x).parents_ → y ∉ t.free_regions_ ∧ 0 < t.refs y) ∧
    (a ≠ b → s.refs a = 1 → s.refs b = 1 →
      (shared_ptr_drop (shared_ptr_drop (add_references s b a k) a) b).free_regions_.count a = 1 ∧
      (shared_ptr_drop (shared_ptr_drop (add_references s b a k) b) a).free_regions_.count a
        = 1) := by
  have hinv := (reachable_inv h).1
  have hpa := hinv.refs_pos_of_mem ha
  have hpb := hinv.refs_pos_of_mem hb
  have hva := World.lt_length_of_refs_pos s a hpa
  have hvb := World.lt_length_of_refs_pos s b hpb
  obtain ⟨k1, k2, k3, k4, k5, k6, k7⟩ := add_references_spec s a b hva hvb k
  have hR := add_references_reachable h a b ha hb k
  have hinvk := (reachable_inv hR).1
  have hkeep : (add_references s b a k).refs a - 1 ≠ 0 := by rw [k3]; omega
  have hdrop := drop_keep (add_references s b a k) a hkeep
  have hnotfree : a ∉ (add_references s b a k).free_regions_ := by
    intro hm
    have := (hinvk.free a hm).2.1
    rw [k3] at this
    omega
  refine ⟨⟨add_reference_obj s b a hvb, ?_, ?_, ?_, add_reference_length s b a, ?_, rfl, rfl,
    rfl, rfl⟩, ⟨?_, k3, hnotfree, ?_, ?_, ?_⟩, ?_, ?_⟩
  · exact (add_reference_spec s b a hvb hva).2.1
  · exact (add_reference_spec s b a hvb hva).2.2.1
  · exact (add_reference_spec s b a hvb hva).2.2.2.1
  · exact (add_reference_spec s b a hvb hva).2.2.2.2
  · rw [k2]
  · rw [hdrop]; exact hnotfree
  · rw [hdrop, World.refs_setRefs_self _ _ _ (by rw [k1]; exact hva), k3]
  · rw [hdrop, World.obj_setRefs]
  · intro t ht hT x y hx hy
    have hi := (reachable_inv hT).1
    have hc := hi.count y
    have h1 := World.count_le_gather (fun o => o.parents_) t x y hx
    have h2 := List.count_pos_iff.mpr hy
    have h3 : List.count y (t.obj x).parents_ ≤ t.allParents.count y := h1
    have hpos : 0 < t.refs y := by omega
    refine ⟨fun hm => ?_, hpos⟩
    have := (hi.free y hm).2.1
    omega
  · intro hab hra hrb
    have hca := hinv.count a
    have hcb := hinv.count b
    have hha := List.count_pos_iff.mpr ha
    have hhb := List.count_pos_iff.mpr hb
    simp only [List.count_nil] at hca hcb
    have hpa0 : ∀ x, a ∉ (s.obj x).parents_ := by
      intro x hm
      by_cases hx : x < s.regions.length
      · have h1 := World.count_le_gather (fun o => o.parents_) s x a hx
        have h2 := List.count_pos_iff.mpr hm
        have h3 : List.count a (s.obj x).parents_ ≤ s.allParents.count a := h1
        omega
      · rw [World.obj_of_length_le s x (by omega)] at hm
        simp [Region2.null] at hm
    have hpb0 : ∀ x, b ∉ (s.obj x).parents_ := by
      intro x hm
      by_cases hx : x < s.regions.length
      · have h1 := World.count_le_gather (fun o => o.parents_) s x b hx
        have h2 := List.count_pos_iff.mpr hm
        have h3 : List.count b (s.obj x).parents_ ≤ s.allParents.count b := h1
        omega
      · rw [World.obj_of_length_le s x (by omega)] at hm
        simp [Region2.null] at hm
    have hqa : ∀ x, x ≠ b → a ∉ ((add_references s b a k).obj x).parents_ := by
      intro x hx
      rw [k4 x hx]
      exact hpa0 x
    have hqb : ∀ x, b ∉ ((add_references s b a k).obj x).parents_ := by
      intro x hm
      by_cases hx : x = b
      · subst hx
        rw [k2] at hm
        simp only [List.mem_append, List.mem_replicate] at hm
        rcases hm with hm | hm
        · exact hpb0 x hm
        · exact hab hm.2.symm
      · rw [k4 x hx] at hm
        exact hpb0 x hm
    have hva' : a < (add_references s b a k).regions.length := by rw [k1]; exact hva
    have hvb' : b < (add_references s b a k).regions.length := by rw [k1]; exact hvb
    constructor
    · refine retired_once_of_frame hR
        (Reachable.release b (Reachable.release a hR ha)
          ((List.mem_erase_of_ne (Ne.symm hab)).mpr hb))
        (Frame.andThen (drop_frame _ a) (drop_frame _ b)) a b hva' hvb' ?_ ?_ hqa hqb
      · rw [List.count_erase_of_ne hab, List.count_erase_self]; omega
      · rw [List.count_erase_self, List.count_erase_of_ne (Ne.symm hab)]; omega
    · refine retired_once_of_frame hR
        (Reachable.release a (Reachable.release b hR hb)
          ((List.mem_erase_of_ne hab).mpr ha))
        (Frame.andThen (drop_frame _ b) (drop_frame _ a)) a b hva' hvb' ?_ ?_ hqa hqb
      · rw [List.count_erase_self, List.count_erase_of_ne hab]; omega
      · rw [List.count_erase_of_ne (Ne.symm hab), List.count_erase_self]; omega

/-- C15, at a sample: two arenas 0 and 1 from a fresh pool, arena 1 registers two references to
arena 0; its parent list is `[0, 0]`, the use count of arena 0 is 3, and after both handles
were dropped the list of retired arenas is `[0, 1]`. -/
theorem add_reference_not_deduplicated_witness :
    ((add_references (RegionPool.get_region (RegionPool.get_region RegionPool.init).1).1 1 0
        2).obj 1).parents_ = [0, 0] ∧
    (add_references (RegionPool.get_region (RegionPool.get_region RegionPool.init).1).1 1 0
        2).refs 0 = 3 ∧
    (shared_ptr_drop (shared_ptr_drop
      (add_references (RegionPool.get_region (RegionPool.get_region RegionPool.init).1).1 1 0 2)
      0) 1).free_regions_ = [0, 1] ∧
    (shared_ptr_drop (shared_ptr_drop
      (add_references (RegionPool.get_region (RegionPool.get_region RegionPool.init).1).1 1 0 2)
      0) 1).free_regions_.count 0 = 1 :=
  ⟨by decide, by decide, by decide,
   ((add_reference_not_deduplicated Config.sample
      (Reachable.get_region (Reachable.get_region Reachable.init)) 0 1 (by decide) (by decide)
      2 (by decide)).2.2.2 (by decide) (by decide) (by decide)).1⟩

/-! ## The LEB128 layer -/

theorem lor_high_bit : ∀ b, b < 128 → b ||| 0x80 = b + 128 := by decide

theorem land_high_bit_clear : ∀ b, b < 128 → b &&& 0x80 = 0 := by decide

theorem land_high_bit_set : ∀ b, b < 128 → (b + 128) &&& 0x80 ≠ 0 := by decide

theorem land_low_bits : ∀ b, b < 128 → b &&& 0x7f = b := by decide

theorem land_low_bits_of_high : ∀ b, b < 128 → (b + 128) &&& 0x7f = b := by decide

/-- The last run of the loop body: a value below 128 is written as it is. -/
theorem write_unpacked_last (fuel : Nat) (buf_ : List BufCall) (u : Nat) (h : u < 128) :
    LEB128OutputBuffer.write_unpacked (fuel + 1) buf_ u
      = some (buf_ ++ [BufCall.write_byte u]) := by
  have h1 : u >>> 7 = 0 := by rw [Nat.shiftRight_eq_div_pow]; omega
  have h2 : u &&& 0x7f = u := land_low_bits u h
  rw [LEB128OutputBuffer.write_unpacked]
  simp only [h1, h2, ne_eq, not_true_eq_false, if_false]

/-- A run of the loop body that is not the last: the low 7 bits are written with the high bit
set, and the loop goes on with the value shifted by 7. -/
theorem write_unpacked_more (fuel : Nat) (buf_ : List BufCall) (u : Nat) (h : 128 ≤ u) :
    LEB128OutputBuffer.write_unpacked (fuel + 1) buf_ u
      = LEB128OutputBuffer.write_unpacked fuel (buf_ ++ [BufCall.write_byte (u % 128 + 128)])
          (u / 128) := by
  have h1 : u >>> 7 = u / 128 := by rw [Nat.shiftRight_eq_div_pow]
  have h0 : u / 128 ≠ 0 := by omega
  have h2 : u &&& 0x7f = u % 128 := Nat.and_pow_two_sub_one_eq_mod u 7
  have h3 : u % 128 ||| 0x80 = u % 128 + 128 := lor_high_bit _ (Nat.mod_lt _ (by decide))
  rw [LEB128OutputBuffer.write_unpacked]
  simp only [h1, h2, h3, ne_eq, h0, not_false_eq_true, if_true]

/-- The encoding with `n + 1` groups. -/
theorem uleb128_of_groups (u n : Nat) (h : leb128_groups u = n + 1) :
    uleb128 u = (List.range (n + 1)).map
      (fun k => u / 2 ^ (7 * k) % 128 + if k < n then 128 else 0) := by
  unfold uleb128
  rw [h]
  apply List.map_congr_left
  intro k _
  simp only [Nat.add_lt_add_iff_right]

theorem leb128_groups_eq (u n : Nat) (h1 : u < 128 ^ (n + 1)) (h2 : n = 0 ∨ 128 ^ n ≤ u) :
    leb128_groups u = n + 1 := by
  have e1 : (128 : Nat) ^ (n + 1) = 2 ^ (7 * n + 7) := by
    rw [show (128 : Nat) = 2 ^ 7 from rfl, ← pow_mul, show 7 * (n + 1) = 7 * n + 7 by omega]
  have e2 : (128 : Nat) ^ n = 2 ^ (7 * n) := by
    rw [show (128 : Nat) = 2 ^ 7 from rfl, ← pow_mul]
  rw [e1] at h1
  rw [e2] at h2
  have hle : Nat.size u ≤ 7 * n + 7 := Nat.size_le.mpr h1
  unfold leb128_groups
  rcases h2 with h2 | h2
  · subst h2
    omega
  · have hlt : 7 * n < Nat.size u := Nat.lt_size.mpr h2
    omega

/-- Every value has a number of groups. -/
theorem leb128_groups_spec (u : Nat) :
    u < 128 ^ (leb128_groups u - 1 + 1) ∧
      (leb128_groups u - 1 = 0 ∨ 128 ^ (leb128_groups u - 1) ≤ u) ∧ 1 ≤ leb128_groups u := by
  have hpos : 1 ≤ leb128_groups u := by unfold leb128_groups; omega
  have e1 : ∀ m : Nat, (128 : Nat) ^ m = 2 ^ (7 * m) := by
    intro m
    rw [show (128 : Nat) = 2 ^ 7 from rfl, ← pow_mul]
  refine ⟨?_, ?_, hpos⟩
  · rw [e1]
    apply Nat.size_le.mp
    unfold leb128_groups
    omega
  · by_cases h : leb128_groups u - 1 = 0
    · exact Or.inl h
    · refine Or.inr ?_
      rw [e1]
      apply Nat.lt_size.mp
      unfold leb128_groups at h ⊢
      omega

/-- The loop writes the encoding with `n + 1` groups when it has `n + 1` runs at least. -/
theorem write_unpacked_groups : ∀ (n fuel : Nat) (buf_ : List BufCall) (u : Nat), n < fuel →
    u < 128 ^ (n + 1) → (n = 0 ∨ 128 ^ n ≤ u) →
    LEB128OutputBuffer.write_unpacked fuel buf_ u
      = some (buf_ ++ ((List.range (n + 1)).map
          (fun k => u / 2 ^ (7 * k) % 128 + if k < n then 128 else 0)).map
            BufCall.write_byte)
  | 0, fuel, buf_, u, hf, h1, _ => by
    obtain ⟨f, rfl⟩ : ∃ f, fuel = f + 1 := ⟨fuel - 1, by omega⟩
    have hu : u < 128 := by simpa using h1
    rw [write_unpacked_last f buf_ u hu]
    have hr : List.range (0 + 1) = [0] := rfl
    rw [hr]
    simp [Nat.mod_eq_of_lt hu]
  | n + 1, fuel, buf_, u, hf, h1, h2 => by
    obtain ⟨f, rfl⟩ : ∃ f, fuel = f + 1 := ⟨fuel - 1, by omega⟩
    have h2 : 128 ^ (n + 1) ≤ u := by
      rcases h2 with h2 | h2
      · omega
      · exact h2
    have hpos : 0 < 128 ^ n := Nat.pow_pos (by decide)
    have hu : 128 ≤ u := by
      have : 128 ^ (n + 1) = 128 ^ n * 128 := pow_succ 128 n
      nlinarith
    have hd1 : u / 128 < 128 ^ (n + 1) := by
      rw [Nat.div_lt_iff_lt_mul (by decide)]
      have : 128 ^ (n + 1 + 1) = 128 ^ (n + 1) * 128 := pow_succ 128 (n + 1)
      omega
    have hd2 : n = 0 ∨ 128 ^ n ≤ u / 128 := by
      refine Or.inr ?_
      rw [Nat.le_div_iff_mul_le (by decide)]
      have : 128 ^ (n + 1) = 128 ^ n * 128 := pow_succ 128 n
      omega
    rw [write_unpacked_more f buf_ u hu,
      write_unpacked_groups n f _ (u / 128) (by omega) hd1 hd2]
    congr 1
    rw [List.append_assoc]
    congr 1
    rw [List.range_succ_eq_map (n + 1)]
    simp only [List.map_cons, List.map_map, List.singleton_append, Nat.mul_zero, pow_zero,
      Nat.div_one, Nat.zero_lt_succ, if_true, List.cons.injEq, true_and]
    apply List.map_congr_left
    intro k _
    simp only [Function.comp, Nat.succ_eq_add_one, Nat.add_lt_add_iff_right]
    have : u / 128 / 2 ^ (7 * k) = u / 2 ^ (7 * (k + 1)) := by
      rw [Nat.div_div_eq_div_mul, show 7 * (k + 1) = 7 + 7 * k by omega, pow_add]
      norm_num
    rw [this]

/-- The loop writes the unsigned LEB128 encoding of its value, through `write_byte` calls,
when it has as many runs as the encoding has groups. -/
theorem write_unpacked_uleb128 (fuel : Nat) (buf_ : List BufCall) (u : Nat)
    (hf : leb128_groups u ≤ fuel) :
    LEB128OutputBuffer.write_unpacked fuel buf_ u
      = some (buf_ ++ (uleb128 u).map BufCall.write_byte) := by
  obtain ⟨h1, h2, h3⟩ := leb128_groups_spec u
  rw [uleb128_of_groups u (leb128_groups u - 1) (by omega)]
  exact write_unpacked_groups _ fuel buf_ u (by omega) h1 h2

theorem bit_pattern_lt (bits : Nat) (i : Int) : bit_pattern bits i < 2 ^ bits := by
  unfold bit_pattern
  have hpos : (0 : Int) < 2 ^ bits := by positivity
  have h1 := Int.emod_lt_of_pos i hpos
  have h2 := Int.emod_nonneg i (ne_of_gt hpos)
  zify
  rw [Int.toNat_of_nonneg h2]
  exact_mod_cast h1

theorem leb128_groups_le (u bits : Nat) (h : u < 2 ^ bits) :
    leb128_groups u ≤ max 1 ((bits + 6) / 7) := by
  have := Nat.size_le.mpr h
  unfold leb128_groups
  omega

theorem uleb128_length (u : Nat) : (uleb128 u).length = leb128_groups u := by
  simp [uleb128]

theorem uleb128_getD (u k : Nat) (hk : k < leb128_groups u) :
    (uleb128 u).getD k 0
      = u / 2 ^ (7 * k) % 128 + if k + 1 < leb128_groups u then 128 else 0 := by
  unfold uleb128
  rw [List.getD_eq_getElem _ _ (by simpa using hk)]
  simp

/-- The bytes of the encoding: byte `k` has the bits `7k .. 7k + 6` of `u` as its low 7 bits,
and its high bit is set when it is not the last byte. -/
theorem uleb128_byte (u k : Nat) (hk : k < (uleb128 u).length) :
    (uleb128 u).getD k 0 % 128 = u / 2 ^ (7 * k) % 128 ∧
    (∀ j, j < 7 → ((uleb128 u).getD k 0).testBit j = u.testBit (7 * k + j)) ∧
    (uleb128 u).getD k 0 < 256 ∧
    ((uleb128 u).getD k 0).testBit 7 = decide (k + 1 < (uleb128 u).length) := by
  rw [uleb128_length] at hk ⊢
  have hg := uleb128_getD u k hk
  have hlt : u / 2 ^ (7 * k) % 128 < 128 := Nat.mod_lt _ (by decide)
  have hmod : (uleb128 u).getD k 0 % 128 = u / 2 ^ (7 * k) % 128 := by
    rw [hg]; split_ifs <;> omega
  refine ⟨hmod, fun j hj => ?_, ?_, ?_⟩
  · have h1 : ((uleb128 u).getD k 0 % 2 ^ 7).testBit j = ((uleb128 u).getD k 0).testBit j := by
      rw [Nat.testBit_mod_two_pow]; simp [hj]
    have h2 : (u / 2 ^ (7 * k) % 2 ^ 7).testBit j = (u / 2 ^ (7 * k)).testBit j := by
      rw [Nat.testBit_mod_two_pow]; simp [hj]
    rw [← h1, show (2 : Nat) ^ 7 = 128 from rfl, hmod, ← show (2 : Nat) ^ 7 = 128 from rfl, h2,
      ← Nat.shiftRight_eq_div_pow, Nat.testBit_shiftRight]
  · rw [hg]; split_ifs <;> omega
  · rw [Nat.testBit_to_div_mod, hg]
    split_ifs with h
    · simp only [h, decide_True, decide_eq_true_eq]
      omega
    · simp only [h, decide_False, decide_eq_false_iff_not]
      omega

/-- C17: for every `int` `i`, `write_int(i)` of the LEB128 layer returns within five runs of
its loop and makes on the wrapped stage `write_byte` calls only, with the bytes of the
unsigned LEB128 encoding of `u`, the bit pattern of `i` taken as an `unsigned int`: byte `k`
has bits `7k .. 7k + 6` of `u` as its low 7 bits, every byte but the last has its high bit
set, and the last byte has its high bit clear.  `write_long(l)` does the same, within ten
runs, for the bit pattern of `l` taken as an `unsigned long`. -/
theorem write_int_emits_uleb128 (fuel : Nat) (buf_ : List BufCall) (i l : Int) :
    (LEB128OutputBuffer.write_int (fuel + 5) buf_ i
        = some (buf_ ++ (uleb128 (bit_pattern 32 i)).map BufCall.write_byte) ∧
      LEB128OutputBuffer.write_long (fuel + 10) buf_ l
        = some (buf_ ++ (uleb128 (bit_pattern 64 l)).map BufCall.write_byte)) ∧
    ∀ u, uleb128 u ≠ [] ∧
      ∀ k, k < (uleb128 u).length →
        (uleb128 u).getD k 0 % 128 = u / 2 ^ (7 * k) % 128 ∧
        (∀ j, j < 7 → ((uleb128 u).getD k 0).testBit j = u.testBit (7 * k + j)) ∧
        (uleb128 u).getD k 0 < 256 ∧
        ((uleb128 u).getD k 0).testBit 7 = decide (k + 1 < (uleb128 u).length) := by
  refine ⟨⟨?_, ?_⟩, fun u => ⟨?_, fun k hk => uleb128_byte u k hk⟩⟩
  · have := leb128_groups_le _ 32 (bit_pattern_lt 32 i)
    exact write_unpacked_uleb128 _ buf_ _ (by simp at this; omega)
  · have := leb128_groups_le _ 64 (bit_pattern_lt 64 l)
    exact write_unpacked_uleb128 _ buf_ _ (by simp at this; omega)
  · intro h
    have h1 := uleb128_length u
    have h2 := (leb128_groups_spec u).2.2
    rw [h] at h1
    simp at h1
    omega

/-- C17, at samples: 300 is written as `0xAC 0x02`, and -1 as `0xFF 0xFF 0xFF 0xFF 0x0F` by
`write_int`; byte 0 of the encoding of 300 has the low 7 bits of 300. -/
theorem write_int_emits_uleb128_witness :
    LEB128OutputBuffer.write_int 5 [] 300
      = some [BufCall.write_byte 0xAC, BufCall.write_byte 0x02] ∧
    LEB128OutputBuffer.write_int 5 [] (-1)
      = some [BufCall.write_byte 0xFF, BufCall.write_byte 0xFF, BufCall.write_byte 0xFF,
          BufCall.write_byte 0xFF, BufCall.write_byte 0x0F] ∧
    LEB128OutputBuffer.write_long 10 [] 300
      = some ([] ++ (uleb128 (bit_pattern 64 300)).map BufCall.write_byte) ∧
    (uleb128 300).getD 0 0 % 128 = 300 / 2 ^ (7 * 0) % 128 :=
  ⟨by decide, by decide, (write_int_emits_uleb128 0 [] 0 300).1.2,
   (((write_int_emits_uleb128 0 [] 0 0).2 300).2 0 (by simp [uleb128_length, leb128_groups])).1⟩

theorem bit_pattern_of_nonneg (bits : Nat) (i : Int) (h0 : 0 ≤ i) (h1 : i < 2 ^ bits) :
    bit_pattern bits i = i.toNat := by
  unfold bit_pattern
  rw [Int.emod_eq_of_lt h0 h1]

theorem bit_pattern_of_neg (bits : Nat) (i : Int) (h0 : i < 0) (h1 : -(2 ^ bits) ≤ i) :
    bit_pattern bits i = (i + 2 ^ bits).toNat := by
  unfold bit_pattern
  have h : i % 2 ^ bits = (i + 2 ^ bits) % 2 ^ bits := by simp
  rw [h, Int.emod_eq_of_lt (by omega) (by omega)]

theorem uleb128_small (u : Nat) (h : u < 128) : uleb128 u = [u] := by
  have hg := leb128_groups_eq u 0 (by simpa using h) (Or.inl rfl)
  rw [uleb128_of_groups u 0 hg]
  have hr : List.range (0 + 1) = [0] := rfl
  rw [hr]
  simp [Nat.mod_eq_of_lt h]

/-- C18: for every `int` `i` with bit pattern `u`, `write_int(i)` returns within five runs of
its loop, having made exactly `max(1, ceil(bitlength(u) / 7))` `write_byte` calls: one for
0 .. 127, with the byte `i` itself (0x00 for zero), two for 128 .. 16383, at most five in all
and exactly five for every negative `int`, `INT_MIN` included; `write_long(l)` returns within
ten runs, having made between 1 and 10 calls by the same formula over the 64-bit pattern, and
exactly ten for every negative `long`. -/
theorem write_int_byte_count (fuel : Nat) (buf_ : List BufCall) (i l : Int) :
    (∃ L : List Nat, LEB128OutputBuffer.write_int (fuel + 5) buf_ i
          = some (buf_ ++ L.map BufCall.write_byte) ∧
        L.length = max 1 ((Nat.size (bit_pattern 32 i) + 6) / 7) ∧
        1 ≤ L.length ∧ L.length ≤ 5 ∧
        (0 ≤ i → i < 128 → L = [i.toNat]) ∧
        (i = 0 → L = [0x00]) ∧
        (128 ≤ i → i < 16384 → L.length = 2) ∧
        (i < 0 → -(2 ^ 31) ≤ i → L.length = 5)) ∧
    (∃ L : List Nat, LEB128OutputBuffer.write_long (fuel + 10) buf_ l
          = some (buf_ ++ L.map BufCall.write_byte) ∧
        L.length = max 1 ((Nat.size (bit_pattern 64 l) + 6) / 7) ∧
        1 ≤ L.length ∧ L.length ≤ 10 ∧
        (0 ≤ l → l < 128 → L = [l.toNat]) ∧
        (128 ≤ l → l < 16384 → L.length = 2) ∧
        (l < 0 → -(2 ^ 63) ≤ l → L.length = 10)) := by
  have hi := leb128_groups_le _ 32 (bit_pattern_lt 32 i)
  have hl := leb128_groups_le _ 64 (bit_pattern_lt 64 l)
  have hi1 := (leb128_groups_spec (bit_pattern 32 i)).2.2
  have hl1 := (leb128_groups_spec (bit_pattern 64 l)).2.2
  simp only [Nat.reduceAdd, Nat.reduceDiv] at hi hl
  constructor
  · refine ⟨uleb128 (bit_pattern 32 i), write_unpacked_uleb128 _ buf_ _ (by omega),
      uleb128_length _, ?_, ?_, fun h0 h1 => ?_, fun h0 => ?_, fun h0 h1 => ?_, fun h0 h1 => ?_⟩
    · rw [uleb128_length]; exact hi1
    · rw [uleb128_length]; omega
    · rw [bit_pattern_of_nonneg 32 i h0 (by omega)]
      exact uleb128_small _ (by omega)
    · subst h0
      exact uleb128_small _ (by decide)
    · rw [uleb128_length, bit_pattern_of_nonneg 32 i (by omega) (by omega)]
      exact leb128_groups_eq _ 1 (by omega) (Or.inr (by omega))
    · rw [uleb128_length, bit_pattern_of_neg 32 i h0 (by omega)]
      exact leb128_groups_eq _ 4 (by omega) (Or.inr (by omega))
  · refine ⟨uleb128 (bit_pattern 64 l), write_unpacked_uleb128 _ buf_ _ (by omega),
      uleb128_length _, ?_, ?_, fun h0 h1 => ?_, fun h0 h1 => ?_, fun h0 h1 => ?_⟩
    · rw [uleb128_length]; exact hl1
    · rw [uleb128_length]; omega
    · rw [bit_pattern_of_nonneg 64 l h0 (by omega)]
      exact uleb128_small _ (by omega)
    · rw [uleb128_length, bit_pattern_of_nonneg 64 l (by omega) (by omega)]
      exact leb128_groups_eq _ 1 (by omega) (Or.inr (by omega))
    · rw [uleb128_length, bit_pattern_of_neg 64 l h0 (by omega)]
      exact leb128_groups_eq _ 9 (by omega) (Or.inr (by omega))

/-- C18, at samples: `INT_MIN` takes five bytes with `write_int`, -1 takes ten with
`write_long`, 127 takes one and 128 takes two. -/
theorem write_int_byte_count_witness :
    (∃ L : List Nat, LEB128OutputBuffer.write_int 5 [] (-2147483648)
          = some ([] ++ L.map BufCall.write_byte) ∧ L.length = 5) ∧
    (∃ L : List Nat, LEB128OutputBuffer.write_long 10 [] (-1)
          = some ([] ++ L.map BufCall.write_byte) ∧ L.length = 10) ∧
    LEB128OutputBuffer.write_int 5 [] 127 = some [BufCall.write_byte 127] ∧
    LEB128OutputBuffer.write_int 5 [] 128
      = some [BufCall.write_byte 0x80, BufCall.write_byte 0x01] ∧
    LEB128OutputBuffer.write_int 5 [] 0 = some [BufCall.write_byte 0x00] := by
  obtain ⟨⟨L, h1, _, _, _, _, _, _, h8⟩, ⟨M, g1, _, _, _, _, _, g7⟩⟩ :=
    write_int_byte_count 0 [] (-2147483648) (-1)
  exact ⟨⟨L, h1, h8 (by decide) (by decide)⟩, ⟨M, g1, g7 (by decide) (by decide)⟩,
    by decide, by decide, by decide⟩

/-! ## Reading back what the LEB128 layer wrote -/

theorem shiftLeft_split (u s : Nat) : (u % 128) <<< s ||| (u / 128) <<< (s + 7) = u <<< s := by
  apply Nat.eq_of_testBit_eq
  intro j
  rw [show (128 : Nat) = 2 ^ 7 from rfl, ← Nat.shiftRight_eq_div_pow]
  simp only [Nat.testBit_or, Nat.testBit_shiftLeft, Nat.testBit_mod_two_pow,
    Nat.testBit_shiftRight]
  by_cases h1 : s ≤ j
  · by_cases h2 : s + 7 ≤ j
    · have e : 7 + (j - (s + 7)) = j - s := by omega
      have h3 : ¬ j - s < 7 := by omega
      simp [h1, h2, h3, e]
    · have h3 : j - s < 7 := by omega
      simp [h1, h2, h3]
  · have h2 : ¬ s + 7 ≤ j := by omega
    simp [h1, h2]

theorem groups_list_succ (n u : Nat) :
    (List.range (n + 1 + 1)).map (fun k => u / 2 ^ (7 * k) % 128 + if k < n + 1 then 128 else 0)
      = (u % 128 + 128) :: (List.range (n + 1)).map
          (fun k => u / 128 / 2 ^ (7 * k) % 128 + if k < n then 128 else 0) := by
  rw [List.range_succ_eq_map (n + 1)]
  simp only [List.map_cons, List.map_map, Nat.mul_zero, pow_zero,
    Nat.div_one, Nat.zero_lt_succ, if_true, List.cons.injEq, true_and]
  apply List.map_congr_left
  intro k _
  simp only [Function.comp, Nat.succ_eq_add_one, Nat.add_lt_add_iff_right]
  have : u / 128 / 2 ^ (7 * k) = u / 2 ^ (7 * (k + 1)) := by
    rw [Nat.div_div_eq_div_mul, show 7 * (k + 1) = 7 + 7 * k by omega, pow_add]
    norm_num
  rw [this]

/-- The reader, started at bit `shift` on top of `acc`, reads an encoding with `n + 1` groups
back and stops behind it. -/
theorem read_uleb128_groups : ∀ (n u : Nat) (rest : List Nat) (shift acc : Nat),
    u < 128 ^ (n + 1) →
    read_uleb128 ((List.range (n + 1)).map
        (fun k => u / 2 ^ (7 * k) % 128 + if k < n then 128 else 0) ++ rest) shift acc
      = some (acc ||| u <<< shift, rest)
  | 0, u, rest, shift, acc, h => by
    have hu : u < 128 := by simpa using h
    have hr : List.range (0 + 1) = [0] := rfl
    rw [hr]
    simp only [List.map_cons, List.map_nil, Nat.mul_zero, pow_zero, Nat.div_one,
      Nat.mod_eq_of_lt hu, lt_irrefl, if_false, Nat.add_zero, List.singleton_append]
    rw [read_uleb128, if_pos (land_high_bit_clear u hu), land_low_bits u hu]
  | n + 1, u, rest, shift, acc, h => by
    have hm : u % 128 < 128 := Nat.mod_lt _ (by decide)
    have hd : u / 128 < 128 ^ (n + 1) := by
      rw [Nat.div_lt_iff_lt_mul (by decide)]
      have : 128 ^ (n + 1 + 1) = 128 ^ (n + 1) * 128 := pow_succ 128 (n + 1)
      omega
    rw [groups_list_succ, List.cons_append, read_uleb128,
      if_neg (land_high_bit_set _ hm), land_low_bits_of_high _ hm,
      read_uleb128_groups n (u / 128) rest (shift + 7) _ hd, Nat.lor_assoc, shiftLeft_split]

/-- The reader reads the encoding of `u` back as `u` and stops behind it. -/
theorem read_uleb128_uleb128 (u : Nat) (rest : List Nat) :
    read_uleb128 (uleb128 u ++ rest) 0 0 = some (u, rest) := by
  obtain ⟨h1, _, h3⟩ := leb128_groups_spec u
  rw [uleb128_of_groups u (leb128_groups u - 1) (by omega),
    read_uleb128_groups _ u rest 0 0 h1]
  simp

theorem reinterpret_int (i : Int) (h0 : -(2 ^ 31) ≤ i) (h1 : i < 2 ^ 31) :
    reinterpret 32 (bit_pattern 32 i) = i := by
  unfold reinterpret bit_pattern
  have e : ((i % 2 ^ 32).toNat % 2 ^ 32 : Nat) = (i % 2 ^ 32).toNat := by omega
  rw [e]
  split_ifs with h
  · norm_num at h; omega
  · norm_num at h; omega

theorem reinterpret_long (l : Int) (h0 : -(2 ^ 63) ≤ l) (h1 : l < 2 ^ 63) :
    reinterpret 64 (bit_pattern 64 l) = l := by
  unfold reinterpret bit_pattern
  have e : ((l % 2 ^ 64).toNat % 2 ^ 64 : Nat) = (l % 2 ^ 64).toNat := by omega
  rw [e]
  split_ifs with h
  · norm_num at h; omega
  · norm_num at h; omega

theorem bufCall_bytes_append (a b : List BufCall) :
    BufCall.bytes (a ++ b) = BufCall.bytes a ++ BufCall.bytes b := by
  induction a with
  | nil => rfl
  | cons x a ih => cases x <;> simp [BufCall.bytes, ih]

theorem bufCall_bytes_write_byte (L : List Nat) :
    BufCall.bytes (L.map BufCall.write_byte) = L := by
  induction L with
  | nil => rfl
  | cons x L ih => simp [BufCall.bytes, ih]

theorem write_all_spec (write : List BufCall → Int → Option (List BufCall))
    (enc : Int → List Nat)
    (hw : ∀ buf_ v, write buf_ v = some (buf_ ++ (enc v).map BufCall.write_byte)) :
    ∀ (vs : List Int) (buf_ : List BufCall),
      write_all write buf_ vs = some (buf_ ++ (vs.flatMap enc).map BufCall.write_byte)
  | [], buf_ => by simp [write_all]
  | v :: vs, buf_ => by
    rw [write_all, hw]
    dsimp only
    rw [write_all_spec write enc hw vs]
    simp

theorem read_all_spec (read : List Nat → Option (Int × List Nat)) (enc : Int → List Nat)
    (rest : List Nat) : ∀ (vs : List Int),
      (∀ v ∈ vs, ∀ tail, read (enc v ++ tail) = some (v, tail)) →
      read_all read vs.length (vs.flatMap enc ++ rest) = some (vs, rest)
  | [], _ => by simp [read_all]
  | v :: vs, h => by
    have h1 := h v (List.mem_cons_self _ _) (vs.flatMap enc ++ rest)
    have h2 := read_all_spec read enc rest vs (fun x hx => h x (List.mem_cons_of_mem _ hx))
    simp only [List.length_cons, List.flatMap_cons, List.append_assoc, read_all, h1, h2]

theorem read_int_uleb128 (v : Int) (h0 : -(2 ^ 31) ≤ v) (h1 : v < 2 ^ 31) (tail : List Nat) :
    read_int (uleb128 (bit_pattern 32 v) ++ tail) = some (v, tail) := by
  unfold read_int
  rw [read_uleb128_uleb128]
  simp only [Option.map_some']
  rw [reinterpret_int v h0 h1]

theorem read_long_uleb128 (v : Int) (h0 : -(2 ^ 63) ≤ v) (h1 : v < 2 ^ 63) (tail : List Nat) :
    read_long (uleb128 (bit_pattern 64 v) ++ tail) = some (v, tail) := by
  unfold read_long
  rw [read_uleb128_uleb128]
  simp only [Option.map_some']
  rw [reinterpret_long v h0 h1]

/-- C16: for every `int` `i`, `write_int(i)` of the LEB128 layer returns, and reading the bytes
it wrote, followed by any further bytes `rest`, gives `i` back and leaves exactly `rest`
unread; the same holds for every `long` with `write_long` and `read_long`; so the integers
`vs` written one after the other are read back as `vs`, and likewise the longs `ls`.  This
covers 0, the negative values, `INT_MIN` and `INT_MAX`. -/
theorem leb128_round_trip (fuel : Nat) (i l : Int) (vs ls : List Int) (rest : List Nat)
    (hi : -(2 ^ 31) ≤ i ∧ i < 2 ^ 31) (hl : -(2 ^ 63) ≤ l ∧ l < 2 ^ 63)
    (hvs : ∀ v ∈ vs, -(2 ^ 31) ≤ v ∧ v < 2 ^ 31)
    (hls : ∀ v ∈ ls, -(2 ^ 63) ≤ v ∧ v < 2 ^ 63) :
    (∃ log, LEB128OutputBuffer.write_int (fuel + 5) [] i = some log ∧
      read_int (BufCall.bytes log ++ rest) = some (i, rest)) ∧
    (∃ log, LEB128OutputBuffer.write_long (fuel + 10) [] l = some log ∧
      read_long (BufCall.bytes log ++ rest) = some (l, rest)) ∧
    (∃ log, write_all (LEB128OutputBuffer.write_int (fuel + 5)) [] vs = some log ∧
      read_all read_int vs.length (BufCall.bytes log ++ rest) = some (vs, rest)) ∧
    (∃ log, write_all (LEB128OutputBuffer.write_long (fuel + 10)) [] ls = some log ∧
      read_all read_long ls.length (BufCall.bytes log ++ rest) = some (ls, rest)) := by
  have hwi : ∀ buf_ v, LEB128OutputBuffer.write_int (fuel + 5) buf_ v
      = some (buf_ ++ (uleb128 (bit_pattern 32 v)).map BufCall.write_byte) := by
    intro buf_ v
    have := leb128_groups_le _ 32 (bit_pattern_lt 32 v)
    exact write_unpacked_uleb128 _ buf_ _ (by simp at this; omega)
  have hwl : ∀ buf_ v, LEB128OutputBuffer.write_long (fuel + 10) buf_ v
      = some (buf_ ++ (uleb128 (bit_pattern 64 v)).map BufCall.write_byte) := by
    intro buf_ v
    have := leb128_groups_le _ 64 (bit_pattern_lt 64 v)
    exact write_unpacked_uleb128 _ buf_ _ (by simp at this; omega)
  refine ⟨⟨_, hwi [] i, ?_⟩, ⟨_, hwl [] l, ?_⟩,
    ⟨_, write_all_spec _ _ hwi vs [], ?_⟩, ⟨_, write_all_spec _ _ hwl ls [], ?_⟩⟩
  · rw [List.nil_append, bufCall_bytes_write_byte]
    exact read_int_uleb128 i hi.1 hi.2 rest
  · rw [List.nil_append, bufCall_bytes_write_byte]
    exact read_long_uleb128 l hl.1 hl.2 rest
  · rw [List.nil_append, bufCall_bytes_write_byte]
    exact read_all_spec read_int _ rest vs (fun v hv => read_int_uleb128 v (hvs v hv).1 (hvs v hv).2)
  · rw [List.nil_append, bufCall_bytes_write_byte]
    exact read_all_spec read_long _ rest ls
      (fun v hv => read_long_uleb128 v (hls v hv).1 (hls v hv).2)

/-- C16, at samples: `INT_MIN` written by `write_int` and followed by the byte 7 is read back
as `INT_MIN` with the byte 7 left; the sequence 0, -1, `INT_MAX`, `INT_MIN` is read back as
it was written; -1 written by `write_long` is read back by `read_long`. -/
theorem leb128_round_trip_witness :
    (∃ log, LEB128OutputBuffer.write_int 5 [] (-2147483648) = some log ∧
      read_int (BufCall.bytes log ++ [7]) = some (-2147483648, [7])) ∧
    (∃ log, LEB128OutputBuffer.write_long 10 [] (-1) = some log ∧
      read_long (BufCall.bytes log ++ [7]) = some (-1, [7])) ∧
    (∃ log, write_all (LEB128OutputBuffer.write_int 5) [] [0, -1, 2147483647, -2147483648]
        = some log ∧
      read_all read_int 4 (BufCall.bytes log ++ [7])
        = some ([0, -1, 2147483647, -2147483648], [7])) ∧
    LEB128OutputBuffer.write_int 5 [] (-2147483648)
      = some [BufCall.write_byte 0x80, BufCall.write_byte 0x80, BufCall.write_byte 0x80,
          BufCall.write_byte 0x80, BufCall.write_byte 0x08] ∧
    read_int [0x80, 0x80, 0x80, 0x80, 0x08, 7] = some (-2147483648, [7]) := by
  obtain ⟨h1, h2, h3, _⟩ := leb128_round_trip 0 (-2147483648) (-1)
    [0, -1, 2147483647, -2147483648] [] [7] (by decide) (by decide) (by decide) (by decide)
  exact ⟨h1, h2, h3, by decide, by decide⟩

/-! ## The buffered writer -/

theorem int32_eq (x : Int) (h0 : -(2 ^ 31) ≤ x) (h1 : x < 2 ^ 31) : int32 x = x := by
  unfold int32
  omega

theorem blockCall_blocks_append (a b : List BlockCall) :
    BlockCall.blocks (a ++ b) = BlockCall.blocks a ++ BlockCall.blocks b := by
  induction a with
  | nil => rfl
  | cons x a ih => cases x <;> simp [BlockCall.blocks, ih]

theorem blockCall_blocks_write_block (L : List (List Nat)) :
    BlockCall.blocks (L.map BlockCall.write_block) = L := by
  induction L with
  | nil => rfl
  | cons x L ih => simp [BlockCall.blocks, ih]

theorem memcpy_length (dst : List Nat) (o k : Nat) (src : List Nat) (hk : k ≤ src.length)
    (ho : o + k ≤ dst.length) : (memcpy dst o src k).length = dst.length := by
  unfold memcpy
  simp only [Int.toNat_ofNat, List.length_append, List.length_take, List.length_drop]
  omega

theorem memcpy_take (dst : List Nat) (o k : Nat) (src : List Nat) (hk : k ≤ src.length)
    (ho : o ≤ dst.length) :
    (memcpy dst o src k).take (o + k) = dst.take o ++ src.take k := by
  unfold memcpy
  simp only [Int.toNat_ofNat]
  have h1 : (List.take o dst ++ List.take k src).length = o + k := by
    simp only [List.length_append, List.length_take]
    omega
  rw [List.take_append_eq_append_take, h1, Nat.sub_self, List.take_zero, List.append_nil,
    List.take_of_length_le (le_of_eq h1)]

theorem BlockingOutputBuffer.Appends.nothing (B : Int) (s : BlockingOutputBuffer) :
    BlockingOutputBuffer.Appends B s s [] [] :=
  ⟨by simp, by simp, by simp⟩

theorem BlockingOutputBuffer.Appends.seq {B : Int} {s s1 s2 : BlockingOutputBuffer}
    {x y : List Nat} {b1 b2 : List (List Nat)} (h1 : BlockingOutputBuffer.Appends B s s1 x b1)
    (h2 : BlockingOutputBuffer.Appends B s1 s2 y b2) :
    BlockingOutputBuffer.Appends B s s2 (x ++ y) (b1 ++ b2) := by
  refine ⟨?_, ?_, ?_⟩
  · rw [h2.calls, h1.calls]; simp
  · intro b hb
    rcases List.mem_append.mp hb with h | h
    · exact h1.sizes b h
    · exact h2.sizes b h
  · rw [List.flatten_append, List.append_assoc, h2.stream, ← List.append_assoc, h1.stream,
      List.append_assoc]

theorem flush_of_pos (s : BlockingOutputBuffer) (h : 0 < s.off_) :
    s.flush = ⟨s.block_, 0,
      s.block_buf_ ++ [BlockCall.write_block (s.block_.take s.off_.toNat)]⟩ := by
  unfold BlockingOutputBuffer.flush
  rw [if_pos h]

theorem flush_of_zero (s : BlockingOutputBuffer) (h : s.off_ = 0) : s.flush = s := by
  unfold BlockingOutputBuffer.flush
  rw [if_neg (by omega)]

/-- `flush()` hands the part of the array below the write offset on when there is one, and
leaves the offset at 0. -/
theorem flush_appends (B : Int) (s : BlockingOutputBuffer) (h : BlockingOutputBuffer.Inv B s) :
    BlockingOutputBuffer.Inv B s.flush ∧ s.flush.off_ = 0 ∧ s.flush.block_ = s.block_ ∧
      BlockingOutputBuffer.Appends B s s.flush []
        (if 0 < s.off_ then [s.block_.take s.off_.toNat] else []) := by
  by_cases hp : 0 < s.off_
  · rw [flush_of_pos s hp, if_pos hp]
    have h1 := h.off_nonneg
    have h2 := h.off_le
    have h3 := h.length
    refine ⟨⟨le_refl _, by dsimp only; omega, h3⟩, rfl, rfl, ⟨by simp, ?_, by simp⟩⟩
    intro b hb
    rw [List.mem_singleton] at hb
    subst hb
    rw [List.length_take, h3]
    omega
  · have h0 : s.off_ = 0 := le_antisymm (by omega) h.off_nonneg
    rw [flush_of_zero s h0, if_neg hp]
    exact ⟨h, h0, rfl, BlockingOutputBuffer.Appends.nothing B s⟩

/-- The common body of `write_byte`, `write_int`, `write_long`, `write_float` and
`write_double` for a value of `w` bytes: flush when the value does not fit, store the value at
the write offset, and advance the offset by `w`. -/
theorem scalar_appends (B : Int) (s : BlockingOutputBuffer) (rep : List Nat) (w : Int)
    (h : BlockingOutputBuffer.Inv B s) (hrep : (rep.length : Int) = w) (hw : w ≤ B)
    (hB : B + w < 2 ^ 31) :
    BlockingOutputBuffer.Inv B
        ⟨memcpy (if int32 (s.off_ + w) > B then s.flush else s).block_
          (if int32 (s.off_ + w) > B then s.flush else s).off_ rep w,
         int32 ((if int32 (s.off_ + w) > B then s.flush else s).off_ + w),
         (if int32 (s.off_ + w) > B then s.flush else s).block_buf_⟩ ∧
      BlockingOutputBuffer.Appends B s
        ⟨memcpy (if int32 (s.off_ + w) > B then s.flush else s).block_
          (if int32 (s.off_ + w) > B then s.flush else s).off_ rep w,
         int32 ((if int32 (s.off_ + w) > B then s.flush else s).off_ + w),
         (if int32 (s.off_ + w) > B then s.flush else s).block_buf_⟩ rep
        (if s.off_ + w > B ∧ 0 < s.off_ then [s.block_.take s.off_.toNat] else []) := by
  obtain ⟨blk, off, log⟩ := s
  have h1 : 0 ≤ off := h.off_nonneg
  have h2 : off ≤ B := h.off_le
  have h3 : blk.length = B.toNat := h.length
  have hw0 : 0 ≤ w := by omega
  obtain ⟨k, rfl⟩ := Int.eq_ofNat_of_zero_le hw0
  obtain ⟨o, rfl⟩ := Int.eq_ofNat_of_zero_le h1
  have hk : rep.length = k := by exact_mod_cast hrep
  have e1 : int32 ((o : Int) + (k : Int)) = o + k := int32_eq _ (by omega) (by omega)
  have e2 : int32 (0 + (k : Int)) = k := by rw [int32_eq _ (by omega) (by omega)]; omega
  obtain ⟨hf1, hf2, hf3, hf4⟩ := flush_appends B ⟨blk, o, log⟩ h
  dsimp only at hf2 hf3 hf4 ⊢
  simp only [e1]
  by_cases hc : (o : Int) + (k : Int) > B
  · simp only [hc, if_true, true_and]
    rw [hf2, hf3, e2]
    have hlen := memcpy_length blk 0 k rep (by omega) (by omega)
    have htake := memcpy_take blk 0 k rep (by omega) (by omega)
    simp only [Nat.cast_zero, Nat.zero_add, List.take_zero, List.nil_append] at hlen htake
    refine ⟨⟨by dsimp only; omega, hw, by dsimp only; rw [hlen]; exact h3⟩, ?_, ?_, ?_⟩
    · exact hf4.calls
    · exact hf4.sizes
    · have := hf4.stream
      rw [hf2, hf3] at this
      simp only [Int.toNat_zero, List.take_zero, List.append_nil] at this
      simp only [Int.toNat_ofNat] at this ⊢
      rw [htake, this, List.take_of_length_le (le_of_eq hk)]
  · simp only [hc, if_false, false_and, e1]
    have hob : o + k ≤ blk.length := by omega
    have hlen := memcpy_length blk o k rep (by omega) hob
    have htake := memcpy_take blk o k rep (by omega) (by omega)
    refine ⟨⟨by dsimp only; omega, by dsimp only; omega, by dsimp only; rw [hlen]; exact h3⟩,
      by simp, by simp, ?_⟩
    dsimp only
    rw [show ((o : Int) + (k : Int)).toNat = o + k by omega, htake, Int.toNat_ofNat,
      List.take_of_length_le (le_of_eq hk)]
    simp

theorem write_bytes_loop_done (B : Int) (buf : List Nat) (n : Int) (fuel : Nat)
    (s : BlockingOutputBuffer) (n_left : Int) (h : ¬ n_left > int32 (B - s.off_)) :
    BlockingOutputBuffer.write_bytes_loop B buf n (fuel + 1) s n_left
      = some ⟨memcpy s.block_ s.off_ (buf.drop (int32 (n - n_left)).toNat) n_left,
          int32 (s.off_ + n_left), s.block_buf_⟩ := by
  rw [BlockingOutputBuffer.write_bytes_loop, if_neg h]

theorem write_bytes_loop_more (B : Int) (buf : List Nat) (n : Int) (fuel : Nat)
    (s : BlockingOutputBuffer) (n_left : Int) (h : n_left > int32 (B - s.off_)) :
    BlockingOutputBuffer.write_bytes_loop B buf n (fuel + 1) s n_left
      = BlockingOutputBuffer.write_bytes_loop B buf n fuel
          (BlockingOutputBuffer.flush
            ⟨memcpy s.block_ s.off_ (buf.drop (int32 (n - n_left)).toNat) (int32 (B - s.off_)),
              B, s.block_buf_⟩)
          (int32 (n_left - int32 (B - s.off_))) := by
  rw [BlockingOutputBuffer.write_bytes_loop, if_pos h]

/-- One run of the body of the loop of `write_bytes`: the array is filled up to its end and
handed on as one block of `BLOCKSIZE` bytes. -/
theorem write_bytes_iter (B : Int) (buf : List Nat) (n : Int) (s : BlockingOutputBuffer)
    (n_left : Int) (hB1 : 1 ≤ B) (hB : B < 2 ^ 31) (hn : n < 2 ^ 31)
    (hbuf : n ≤ buf.length) (h : BlockingOutputBuffer.Inv B s) (h0 : 0 ≤ n_left)
    (h1 : n_left ≤ n) (hgt : n_left > B - s.off_) :
    BlockingOutputBuffer.Inv B (BlockingOutputBuffer.flush
        ⟨memcpy s.block_ s.off_ (buf.drop (int32 (n - n_left)).toNat) (int32 (B - s.off_)),
          B, s.block_buf_⟩) ∧
      (BlockingOutputBuffer.flush
        ⟨memcpy s.block_ s.off_ (buf.drop (int32 (n - n_left)).toNat) (int32 (B - s.off_)),
          B, s.block_buf_⟩).off_ = 0 ∧
      int32 (B - s.off_) = B - s.off_ ∧
      int32 (n_left - int32 (B - s.off_)) = n_left - (B - s.off_) ∧
      ∃ blk : List Nat, (blk.length : Int) = B ∧
        BlockingOutputBuffer.Appends B s (BlockingOutputBuffer.flush
          ⟨memcpy s.block_ s.off_ (buf.drop (int32 (n - n_left)).toNat) (int32 (B - s.off_)),
            B, s.block_buf_⟩)
          ((buf.drop (n - n_left).toNat).take (B - s.off_).toNat) [blk] := by
  obtain ⟨blk, off, log⟩ := s
  have g1 : 0 ≤ off := h.off_nonneg
  have g2 : off ≤ B := h.off_le
  have g3 : blk.length = B.toNat := h.length
  dsimp only at hgt ⊢
  obtain ⟨o, rfl⟩ := Int.eq_ofNat_of_zero_le g1
  obtain ⟨b, rfl⟩ := Int.eq_ofNat_of_zero_le (show 0 ≤ B by omega)
  have e1 : int32 ((b : Int) - (o : Int)) = ((b - o : Nat) : Int) := by
    rw [int32_eq _ (by omega) (by omega)]; omega
  have e2 : int32 (n - n_left) = n - n_left := int32_eq _ (by omega) (by omega)
  have e3 : int32 (n_left - ((b - o : Nat) : Int)) = n_left - ((b : Int) - (o : Int)) := by
    rw [int32_eq _ (by omega) (by omega)]; omega
  have e4 : (b : Int) - (o : Int) = ((b - o : Nat) : Int) := by omega
  rw [e1, e2, e3]
  have hsrc : b - o ≤ (buf.drop (n - n_left).toNat).length := by
    rw [List.length_drop]; omega
  have hlen := memcpy_length blk o (b - o) _ hsrc (by omega)
  have htake := memcpy_take blk o (b - o) _ hsrc (by omega)
  rw [show o + (b - o) = b by omega] at htake
  rw [flush_of_pos _ (show (0 : Int) < (b : Int) from by omega)]
  dsimp only
  refine ⟨⟨le_refl _, ?_, ?_⟩, rfl, e4.symm, rfl,
    List.take (b : Int).toNat
      (memcpy blk o (buf.drop (n - n_left).toNat) ((b - o : Nat) : Int)), ?_, ⟨rfl, ?_, ?_⟩⟩
  · show (0 : Int) ≤ b
    omega
  · show (memcpy blk o (buf.drop (n - n_left).toNat) ((b - o : Nat) : Int)).length = _
    rw [hlen]; exact g3
  · rw [List.length_take, hlen, g3]; omega
  · intro x hx
    rw [List.mem_singleton] at hx
    subst hx
    rw [List.length_take, hlen, g3]
    omega
  · simp only [Int.toNat_ofNat, Int.toNat_zero, List.take_zero, List.append_nil,
      List.flatten_cons, List.flatten_nil, e4]
    exact htake

theorem take_drop_split (buf : List Nat) (a k m : Nat) :
    (buf.drop a).take k ++ (buf.drop (a + k)).take m = (buf.drop a).take (k + m) := by
  rw [List.take_add, List.drop_drop]

/-- The loop of `write_bytes` returns after `j` runs of its body when `j` blocks are due, with
the `j` blocks handed on and the rest of the bytes in the array. -/
theorem write_bytes_loop_appends (B : Int) (buf : List Nat) (n : Int) (hB1 : 1 ≤ B)
    (hB : B < 2 ^ 31) (hn : n < 2 ^ 31) (hbuf : n ≤ buf.length) :
    ∀ (j fuel : Nat) (s : BlockingOutputBuffer) (n_left : Int), j < fuel →
      BlockingOutputBuffer.Inv B s → 0 ≤ n_left → n_left ≤ n →
      (j = 0 → s.off_ + n_left ≤ B) → (1 ≤ j → (j : Int) * B < s.off_ + n_left) →
      s.off_ + n_left ≤ ((j : Int) + 1) * B →
      ∃ s1 blocks, BlockingOutputBuffer.write_bytes_loop B buf n fuel s n_left = some s1 ∧
        BlockingOutputBuffer.Inv B s1 ∧
        BlockingOutputBuffer.Appends B s s1
          ((buf.drop (n - n_left).toNat).take n_left.toNat) blocks ∧
        blocks.length = j ∧ (∀ b ∈ blocks, (b.length : Int) = B) ∧
        s1.off_ = s.off_ + n_left - (j : Int) * B
  | 0, fuel, s, n_left, hf, h, h0, h1, hj0, _, _ => by
    obtain ⟨f, rfl⟩ : ∃ f, fuel = f + 1 := ⟨fuel - 1, by omega⟩
    have g1 := h.off_nonneg
    have g2 := h.off_le
    have g3 := h.length
    have g4 := hj0 rfl
    have e1 : int32 (B - s.off_) = B - s.off_ := int32_eq _ (by omega) (by omega)
    have e2 : int32 (n - n_left) = n - n_left := int32_eq _ (by omega) (by omega)
    have e3 : int32 (s.off_ + n_left) = s.off_ + n_left := int32_eq _ (by omega) (by omega)
    rw [write_bytes_loop_done B buf n f s n_left (by rw [e1]; omega), e2, e3]
    obtain ⟨o, ho⟩ := Int.eq_ofNat_of_zero_le g1
    obtain ⟨m, rfl⟩ := Int.eq_ofNat_of_zero_le h0
    rw [ho] at g4 ⊢
    have hsrc : m ≤ (buf.drop (n - (m : Int)).toNat).length := by
      rw [List.length_drop]; omega
    have hlen := memcpy_length s.block_ o m _ hsrc (by omega)
    have htake := memcpy_take s.block_ o m _ hsrc (by omega)
    refine ⟨_, [], rfl, ⟨?_, ?_, ?_⟩, ⟨?_, ?_, ?_⟩, rfl, ?_, ?_⟩
    · show (0 : Int) ≤ o + m
      omega
    · exact g4
    · show (memcpy s.block_ o (buf.drop (n - (m : Int)).toNat) (m : Int)).length = _
      rw [hlen]; exact g3
    · simp
    · simp
    · show [].flatten ++ List.take ((o : Int) + (m : Int)).toNat
          (memcpy s.block_ o (buf.drop (n - (m : Int)).toNat) (m : Int)) = _
      rw [show ((o : Int) + (m : Int)).toNat = o + m by omega, htake, ho]
      simp only [Int.toNat_ofNat, List.flatten_nil, List.nil_append]
    · simp
    · show (o : Int) + (m : Int) = _
      omega
  | j + 1, fuel, s, n_left, hf, h, h0, h1, _, hj1, hj2 => by
    obtain ⟨f, rfl⟩ : ∃ f, fuel = f + 1 := ⟨fuel - 1, by omega⟩
    have g1 := h.off_nonneg
    have g2 := h.off_le
    have hP : 0 ≤ (j : Int) * B := mul_nonneg (by omega) (by omega)
    have hP1 : ((j + 1 : Nat) : Int) * B = (j : Int) * B + B := by push_cast; ring
    have hP2 : (((j + 1 : Nat) : Int) + 1) * B = (j : Int) * B + B + B := by push_cast; ring
    have hP3 : ((j : Int) + 1) * B = (j : Int) * B + B := by ring
    have g4 := hj1 (by omega)
    rw [hP1] at g4
    rw [hP2] at hj2
    have hgt : n_left > B - s.off_ := by omega
    obtain ⟨k1, k2, k3, k4, blk, k5, k6⟩ :=
      write_bytes_iter B buf n s n_left hB1 hB hn hbuf h h0 h1 hgt
    rw [write_bytes_loop_more B buf n f s n_left (by rw [k3]; exact hgt), k4]
    obtain ⟨s1, blocks, r1, r2, r3, r4, r5, r6⟩ :=
      write_bytes_loop_appends B buf n hB1 hB hn hbuf j f _ (n_left - (B - s.off_))
        (by omega) k1 (by omega) (by omega)
        (fun hj => by subst hj; rw [k2]; simp only [Nat.cast_zero, zero_mul] at hj2; omega)
        (fun _ => by rw [k2]; omega) (by rw [k2, hP3]; omega)
    refine ⟨s1, blk :: blocks, r1, r2, ?_, by simp [r4], ?_, ?_⟩
    · have := k6.seq r3
      rw [show (n - (n_left - (B - s.off_))).toNat = (n - n_left).toNat + (B - s.off_).toNat
        by omega, take_drop_split,
        show (B - s.off_).toNat + (n_left - (B - s.off_)).toNat = n_left.toNat by omega] at this
      exact this
    · intro b hb
      rcases List.mem_cons.mp hb with e | hb
      · rw [e]; exact k5
      · exact r5 b hb
    · rw [r6, k2, hP1]; omega

/-- The number of blocks due, `max(0, ceil(t / B) - 1)`, as the number `j` with
`j * B < t ≤ (j + 1) * B`, or 0 when `t ≤ B`. -/
theorem blocks_due (B t : Int) (hB1 : 1 ≤ B) (ht : 0 ≤ t) :
    ∃ j : Nat, (j : Int) = max 0 ((t + B - 1) / B - 1) ∧ (j = 0 → t ≤ B) ∧
      (1 ≤ j → (j : Int) * B < t) ∧ t ≤ ((j : Int) + 1) * B ∧ (j : Int) ≤ t := by
  have hBpos : 0 < B := by omega
  have c1 : (t + B - 1) / B * B ≤ t + B - 1 := Int.ediv_mul_le _ (ne_of_gt hBpos)
  have c2 : t + B - 1 < ((t + B - 1) / B + 1) * B := Int.lt_ediv_add_one_mul_self _ hBpos
  have c0 : 0 ≤ (t + B - 1) / B := Int.ediv_nonneg (by omega) (by omega)
  generalize (t + B - 1) / B = c at c0 c1 c2
  have c3 : (c + 1) * B = c * B + B := by ring
  rw [c3] at c2
  by_cases hc : c ≤ 1
  · refine ⟨0, by rw [max_eq_left (by omega)]; rfl, fun _ => ?_, fun h => by omega, ?_, by simpa using ht⟩
    · have : c * B ≤ 1 * B := mul_le_mul_of_nonneg_right hc (by omega)
      omega
    · have : c * B ≤ 1 * B := mul_le_mul_of_nonneg_right hc (by omega)
      simp only [Nat.cast_zero, zero_add, one_mul]
      omega
  · have hc2 : 2 ≤ c := by omega
    have h2 : 2 * B ≤ c * B := mul_le_mul_of_nonneg_right hc2 (by omega)
    obtain ⟨j, hj⟩ := Int.eq_ofNat_of_zero_le (show 0 ≤ c - 1 by omega)
    have hjB : (j : Int) * B = c * B - B := by rw [← hj]; ring
    have hjB1 : ((j : Int) + 1) * B = c * B := by rw [← hj]; ring
    refine ⟨j, by rw [max_eq_right (by omega), hj], fun h => ?_, fun _ => ?_, ?_, ?_⟩
    · subst h; simp at hj; omega
    · rw [hjB]; omega
    · rw [hjB1]; omega
    · have h3 : (c - 1) * 1 ≤ (c - 1) * B := mul_le_mul_of_nonneg_left hB1 (by omega)
      have h4 : (c - 1) * B = c * B - B := by ring
      rw [← hj]
      omega

/-- C20: for every `BLOCKSIZE` of at least 1, every write offset `off` with
`0 ≤ off ≤ BLOCKSIZE` and every payload length `n ≥ 0`, `write_bytes(buf, n)` returns (within
`n + 1` tests of its loop condition), having handed exactly
`max(0, ceil((off + n) / BLOCKSIZE) - 1)` blocks to the wrapped stage, each of exactly
`BLOCKSIZE` bytes, and having made no other call on it; it leaves the write offset at
`off + n` minus `BLOCKSIZE` times that number of blocks, within the array, and the blocks
followed by the part of the array below the new write offset are the part of the array below
the old write offset followed by `buf[0 .. n)`. -/
theorem write_bytes_blocks (BLOCKSIZE : Int) (fuel : Nat) (s : BlockingOutputBuffer)
    (buf : List Nat) (n : Int) (hB1 : 1 ≤ BLOCKSIZE) (hB : BLOCKSIZE < 2 ^ 31)
    (hinv : BlockingOutputBuffer.Inv BLOCKSIZE s) (hn0 : 0 ≤ n) (hn : n < 2 ^ 31)
    (hbuf : n ≤ buf.length) (hfuel : n < fuel) :
    ∃ (s1 : BlockingOutputBuffer) (blocks : List (List Nat)),
      BlockingOutputBuffer.write_bytes BLOCKSIZE fuel s buf n = some s1 ∧
      s1.block_buf_ = s.block_buf_ ++ blocks.map BlockCall.write_block ∧
      (blocks.length : Int) = max 0 ((s.off_ + n + BLOCKSIZE - 1) / BLOCKSIZE - 1) ∧
      (∀ b ∈ blocks, (b.length : Int) = BLOCKSIZE) ∧
      s1.off_ = s.off_ + n - BLOCKSIZE * blocks.length ∧
      0 ≤ s1.off_ ∧ s1.off_ ≤ BLOCKSIZE ∧ s1.block_.length = s.block_.length ∧
      blocks.flatten ++ s1.block_.take s1.off_.toNat
        = s.block_.take s.off_.toNat ++ buf.take n.toNat := by
  have g1 := hinv.off_nonneg
  have g2 := hinv.off_le
  obtain ⟨j, j1, j2, j3, j4, j5⟩ := blocks_due BLOCKSIZE (s.off_ + n) hB1 (by omega)
  have hjn : (j : Int) ≤ n := by
    by_cases hj : j = 0
    · subst hj; simpa using hn0
    · have h1 := j3 (by omega)
      have h2 : (j : Int) * 1 ≤ (j : Int) * BLOCKSIZE :=
        mul_le_mul_of_nonneg_left hB1 (by omega)
      have h3 : ((j : Int) - 1) * 1 ≤ ((j : Int) - 1) * BLOCKSIZE :=
        mul_le_mul_of_nonneg_left hB1 (by omega)
      have h4 : ((j : Int) - 1) * BLOCKSIZE = (j : Int) * BLOCKSIZE - BLOCKSIZE := by ring
      omega
  obtain ⟨s1, blocks, r1, r2, r3, r4, r5, r6⟩ :=
    write_bytes_loop_appends BLOCKSIZE buf n hB1 hB hn hbuf j fuel s n (by omega) hinv hn0
      (le_refl _) j2 j3 j4
  refine ⟨s1, blocks, r1, r3.calls, by rw [r4]; exact j1, r5, ?_, r2.off_nonneg, r2.off_le,
    by rw [r2.length, hinv.length], ?_⟩
  · rw [r6, r4, mul_comm]
  · have := r3.stream
    rw [Int.sub_self, Int.toNat_zero, List.drop_zero] at this
    exact this

/-- C20, at a sample: with blocks of 4 bytes and the write offset at 3, a run of 6 bytes
gives the blocks `[9, 9, 9, 1]` and `[2, 3, 4, 5]` and leaves the byte 6 in the array. -/
theorem write_bytes_blocks_witness :
    BlockingOutputBuffer.write_bytes 4 7 ⟨[9, 9, 9, 0], 3, []⟩ [1, 2, 3, 4, 5, 6] 6
      = some ⟨[6, 3, 4, 5], 1,
          [BlockCall.write_block [9, 9, 9, 1], BlockCall.write_block [2, 3, 4, 5]]⟩ ∧
    ∃ (s1 : BlockingOutputBuffer) (blocks : List (List Nat)),
      BlockingOutputBuffer.write_bytes 4 7 ⟨[9, 9, 9, 0], 3, []⟩ [1, 2, 3, 4, 5, 6] 6 = some s1 ∧
      s1.block_buf_ = [] ++ blocks.map BlockCall.write_block ∧
      (blocks.length : Int) = max 0 ((3 + 6 + 4 - 1) / 4 - 1) ∧
      (∀ b ∈ blocks, (b.length : Int) = 4) ∧
      s1.off_ = 3 + 6 - 4 * blocks.length ∧
      0 ≤ s1.off_ ∧ s1.off_ ≤ 4 ∧ s1.block_.length = 4 ∧
      blocks.flatten ++ s1.block_.take s1.off_.toNat
        = [9, 9, 9] ++ [1, 2, 3, 4, 5, 6] :=
  ⟨by decide,
   write_bytes_blocks 4 7 ⟨[9, 9, 9, 0], 3, []⟩ [1, 2, 3, 4, 5, 6] 6 (by decide) (by decide)
     ⟨by decide, by decide, by decide⟩ (by decide) (by decide) (by decide) (by decide)⟩

theorem object_bytes_length (w v : Nat) : (object_bytes w v).length = w := by
  simp [object_bytes]

theorem init_inv (B : Int) (h : 0 ≤ B) :
    BlockingOutputBuffer.Inv B (BlockingOutputBuffer.init B) :=
  ⟨le_refl _, h, by simp [BlockingOutputBuffer.init]⟩

/-- `write_bytes(buf, n)` returns and appends `buf[0 .. n)`. -/
theorem write_bytes_appends (B : Int) (fuel : Nat) (s : BlockingOutputBuffer) (buf : List Nat)
    (n : Int) (hB1 : 1 ≤ B) (hB : B < 2 ^ 31) (hinv : BlockingOutputBuffer.Inv B s)
    (hn0 : 0 ≤ n) (hn : n < 2 ^ 31) (hbuf : n ≤ buf.length) (hfuel : n < fuel) :
    ∃ s1 blocks, BlockingOutputBuffer.write_bytes B fuel s buf n = some s1 ∧
      BlockingOutputBuffer.Inv B s1 ∧
      BlockingOutputBuffer.Appends B s s1 (buf.take n.toNat) blocks := by
  have g1 := hinv.off_nonneg
  have g2 := hinv.off_le
  obtain ⟨j, _, j2, j3, j4, _⟩ := blocks_due B (s.off_ + n) hB1 (by omega)
  have hjn : (j : Int) ≤ n := by
    by_cases hj : j = 0
    · subst hj; simpa using hn0
    · have h1 := j3 (by omega)
      have h3 : ((j : Int) - 1) * 1 ≤ ((j : Int) - 1) * B :=
        mul_le_mul_of_nonneg_left hB1 (by omega)
      have h4 : ((j : Int) - 1) * B = (j : Int) * B - B := by ring
      omega
  obtain ⟨s1, blocks, r1, r2, r3, _⟩ :=
    write_bytes_loop_appends B buf n hB1 hB hn hbuf j fuel s n (by omega) hinv hn0
      (le_refl _) j2 j3 j4
  refine ⟨s1, blocks, r1, r2, ?_⟩
  rw [Int.sub_self, Int.toNat_zero, List.drop_zero] at r3
  exact r3

/-- Every call returns, keeps the class invariant and appends its bytes. -/
theorem run_appends (B : Int) (fuel : Nat) (s : BlockingOutputBuffer) (c : WriterCall)
    (hB8 : 8 ≤ B) (hB : B + 8 < 2 ^ 31) (hinv : BlockingOutputBuffer.Inv B s)
    (hv : c.valid) (hf : c.payload < fuel) :
    ∃ s1 blocks, WriterCall.run B fuel s c = some s1 ∧ BlockingOutputBuffer.Inv B s1 ∧
      BlockingOutputBuffer.Appends B s s1 c.bytes blocks := by
  cases c with
  | write_byte x =>
    obtain ⟨h1, h2⟩ := scalar_appends B s [x] 1 hinv rfl (by omega) (by omega)
    exact ⟨_, _, rfl, h1, h2⟩
  | write_boolean x =>
    obtain ⟨h1, h2⟩ := scalar_appends B s [if x then 1 else 0] 1 hinv rfl (by omega)
      (by omega)
    exact ⟨_, _, rfl, h1, h2⟩
  | write_int x =>
    obtain ⟨h1, h2⟩ := scalar_appends B s (object_bytes 4 (bit_pattern 32 x)) 4 hinv
      (by rw [object_bytes_length]; rfl) (by omega) (by omega)
    exact ⟨_, _, rfl, h1, h2⟩
  | write_long x =>
    obtain ⟨h1, h2⟩ := scalar_appends B s (object_bytes 8 (bit_pattern 64 x)) 8 hinv
      (by rw [object_bytes_length]; rfl) (by omega) (by omega)
    exact ⟨_, _, rfl, h1, h2⟩
  | write_float x =>
    obtain ⟨h1, h2⟩ := scalar_appends B s (object_bytes 4 x) 4 hinv
      (by rw [object_bytes_length]; rfl) (by omega) (by omega)
    exact ⟨_, _, rfl, h1, h2⟩
  | write_double x =>
    obtain ⟨h1, h2⟩ := scalar_appends B s (object_bytes 8 x) 8 hinv
      (by rw [object_bytes_length]; rfl) (by omega) (by omega)
    exact ⟨_, _, rfl, h1, h2⟩
  | write_bytes buf n =>
    obtain ⟨hv1, hv2, hv3⟩ := hv
    exact write_bytes_appends B fuel s buf n (by omega) (by omega) hinv hv1 hv2 hv3 hf
  | flush =>
    obtain ⟨h1, _, _, h4⟩ := flush_appends B s hinv
    exact ⟨_, _, rfl, h1, h4⟩

/-- Every sequence of calls returns, keeps the class invariant and appends the bytes of its
calls in call order. -/
theorem runAll_appends (B : Int) (fuel : Nat) (hB8 : 8 ≤ B) (hB : B + 8 < 2 ^ 31) :
    ∀ (calls : List WriterCall) (s : BlockingOutputBuffer), BlockingOutputBuffer.Inv B s →
      (∀ c ∈ calls, c.valid) → (∀ c ∈ calls, c.payload < fuel) →
      ∃ s1 blocks, WriterCall.runAll B fuel s calls = some s1 ∧
        BlockingOutputBuffer.Inv B s1 ∧
        BlockingOutputBuffer.Appends B s s1 (calls.flatMap WriterCall.bytes) blocks
  | [], s, hinv, _, _ => ⟨s, [], rfl, hinv, BlockingOutputBuffer.Appends.nothing B s⟩
  | c :: cs, s, hinv, hv, hf => by
    obtain ⟨s1, b1, r1, r2, r3⟩ := run_appends B fuel s c hB8 hB hinv
      (hv c (List.mem_cons_self _ _)) (hf c (List.mem_cons_self _ _))
    obtain ⟨s2, b2, q1, q2, q3⟩ := runAll_appends B fuel hB8 hB cs s1 r2
      (fun x hx => hv x (List.mem_cons_of_mem _ hx))
      (fun x hx => hf x (List.mem_cons_of_mem _ hx))
    refine ⟨s2, b1 ++ b2, ?_, q2, ?_⟩
    · rw [WriterCall.runAll, r1]
      exact q1
    · rw [List.flatMap_cons]
      exact r3.seq q3

/-- C19, amended: for every `BLOCKSIZE` from 8 up to `INT_MAX - 8` and every sequence of
`write_byte`, `write_boolean`, `write_int`, `write_long`, `write_float`, `write_double`,
`write_bytes` (with `n ≥ 0` bytes at `buf`) and `flush` calls on a new buffered writer,
followed by `close()`:
every call returns, the calls made on the wrapped stage are `write_block` calls followed by
exactly one `close()`, which comes last, and the blocks handed on, concatenated in order, are
the fixed-width representations of the written values (1, 1, 4, 8, 4, 8 bytes, a boolean as 0
or 1, a run of bytes as it is) concatenated in call order; no block is empty or longer than
`BLOCKSIZE`. -/
theorem writer_stream (BLOCKSIZE : Int) (fuel : Nat) (calls : List WriterCall)
    (hB8 : 8 ≤ BLOCKSIZE) (hB : BLOCKSIZE + 8 < 2 ^ 31) (hv : ∀ c ∈ calls, c.valid)
    (hf : ∀ c ∈ calls, c.payload < fuel) :
    ∃ (s1 : BlockingOutputBuffer) (blocks : List (List Nat)),
      WriterCall.runAll BLOCKSIZE fuel (BlockingOutputBuffer.init BLOCKSIZE) calls = some s1 ∧
      s1.close.block_buf_ = blocks.map BlockCall.write_block ++ [BlockCall.close] ∧
      BlockCall.blocks s1.close.block_buf_ = blocks ∧
      blocks.flatten = calls.flatMap WriterCall.bytes ∧
      s1.close.block_buf_.count BlockCall.close = 1 ∧
      s1.close.block_buf_.getLast? = some BlockCall.close ∧
      (∀ b ∈ blocks, 1 ≤ b.length ∧ (b.length : Int) ≤ BLOCKSIZE) := by
  obtain ⟨s1, b1, r1, r2, r3⟩ := runAll_appends BLOCKSIZE fuel hB8 hB calls
    (BlockingOutputBuffer.init BLOCKSIZE) (init_inv BLOCKSIZE (by omega)) hv hf
  obtain ⟨_, f2, _, f4⟩ := flush_appends BLOCKSIZE s1 r2
  have h := r3.seq f4
  have hc : s1.close.block_buf_
      = (b1 ++ if 0 < s1.off_ then [s1.block_.take s1.off_.toNat] else []).map
          BlockCall.write_block ++ [BlockCall.close] := by
    show s1.flush.block_buf_ ++ [BlockCall.close] = _
    rw [h.calls]
    rfl
  refine ⟨s1, _, r1, hc, ?_, ?_, ?_, ?_, h.sizes⟩
  · rw [hc, blockCall_blocks_append, blockCall_blocks_write_block]
    simp [BlockCall.blocks]
  · have := h.stream
    rw [f2] at this
    simpa [BlockingOutputBuffer.init] using this
  · rw [hc, List.count_append, List.count_eq_zero_of_not_mem]
    · rfl
    · simp
  · rw [hc]
    simp

/-- C19 amended, at a sample: with blocks of 8 bytes, an `int`, a byte, a run of 6 bytes, a flush, a
boolean and a `long`, followed by `close()`, give four blocks that carry the 20 bytes in call
order, and one `close()` at the end. -/
theorem writer_stream_witness :
    (WriterCall.runAll 8 7 (BlockingOutputBuffer.init 8)
        [WriterCall.write_int 1, WriterCall.write_byte 7,
         WriterCall.write_bytes [1, 2, 3, 4, 5, 6] 6, WriterCall.flush,
         WriterCall.write_boolean true, WriterCall.write_long (-2)]).map
        (fun s => s.close.block_buf_)
      = some [BlockCall.write_block [1, 0, 0, 0, 7, 1, 2, 3],
          BlockCall.write_block [4, 5, 6],
          BlockCall.write_block [1],
          BlockCall.write_block [254, 255, 255, 255, 255, 255, 255, 255],
          BlockCall.close] ∧
    ∃ (s1 : BlockingOutputBuffer) (blocks : List (List Nat)),
      WriterCall.runAll 8 7 (BlockingOutputBuffer.init 8)
        [WriterCall.write_int 1, WriterCall.write_byte 7,
         WriterCall.write_bytes [1, 2, 3, 4, 5, 6] 6, WriterCall.flush,
         WriterCall.write_boolean true, WriterCall.write_long (-2)] = some s1 ∧
      s1.close.block_buf_ = blocks.map BlockCall.write_block ++ [BlockCall.close] ∧
      blocks.flatten = [1, 0, 0, 0, 7, 1, 2, 3, 4, 5, 6, 1,
        254, 255, 255, 255, 255, 255, 255, 255] := by
  obtain ⟨s1, blocks, h1, h2, _, h4, _⟩ := writer_stream 8 7
    [WriterCall.write_int 1, WriterCall.write_byte 7,
     WriterCall.write_bytes [1, 2, 3, 4, 5, 6] 6, WriterCall.flush,
     WriterCall.write_boolean true, WriterCall.write_long (-2)]
    (by decide) (by decide) (by decide) (by decide)
  exact ⟨by decide, s1, blocks, h1, h2, h4⟩

/-! ## `flush()` -/

theorem flush_of_not_pos (s : BlockingOutputBuffer) (h : ¬ 0 < s.off_) : s.flush = s := by
  unfold BlockingOutputBuffer.flush
  rw [if_neg h]

theorem flush_flush (s : BlockingOutputBuffer) : s.flush.flush = s.flush := by
  by_cases h : 0 < s.off_
  · rw [flush_of_pos s h]
    exact flush_of_zero _ rfl
  · rw [flush_of_not_pos s h, flush_of_not_pos s h]

/-- C21: `flush()` with a write offset `off > 0` makes exactly one call on the wrapped stage,
`write_block` with the part `[0, off)` of the array, which has `off` bytes and so is not
empty, and sets the offset to 0, leaving the array as it is; with `off = 0` (with any
`off ≤ 0`) it makes no call and changes nothing.  So `flush` hands on no empty block, and
`flush()` followed by `flush()` leaves the same state as one `flush()`. -/
theorem flush_hands_one_block (BLOCKSIZE : Int) (s : BlockingOutputBuffer)
    (h : BlockingOutputBuffer.Inv BLOCKSIZE s) :
    (0 < s.off_ →
      s.flush.block_buf_
        = s.block_buf_ ++ [BlockCall.write_block (s.block_.take s.off_.toNat)] ∧
      ((s.block_.take s.off_.toNat).length : Int) = s.off_ ∧
      s.block_.take s.off_.toNat ≠ [] ∧
      s.flush.off_ = 0 ∧ s.flush.block_ = s.block_) ∧
    (s.off_ = 0 → s.flush = s) ∧
    (¬ 0 < s.off_ → s.flush = s) ∧
    (∀ b, s.flush.block_buf_ = s.block_buf_ ++ [BlockCall.write_block b] → b ≠ []) ∧
    (s.flush.block_buf_ = s.block_buf_ ∨
      ∃ b, b ≠ [] ∧ s.flush.block_buf_ = s.block_buf_ ++ [BlockCall.write_block b]) ∧
    s.flush.flush = s.flush ∧
    BlockingOutputBuffer.Inv BLOCKSIZE s.flush := by
  have h1 := h.off_nonneg
  have h2 := h.off_le
  have h3 := h.length
  have hlen : 0 < s.off_ → ((s.block_.take s.off_.toNat).length : Int) = s.off_ := by
    intro hp
    rw [List.length_take, h3]
    omega
  have hne : 0 < s.off_ → s.block_.take s.off_.toNat ≠ [] := by
    intro hp e
    have := hlen hp
    rw [e] at this
    simp at this
    omega
  refine ⟨fun hp => ?_, fun h0 => flush_of_zero s h0, fun hn => flush_of_not_pos s hn,
    fun b hb => ?_, ?_, flush_flush s, (flush_appends BLOCKSIZE s h).1⟩
  · rw [flush_of_pos s hp]
    exact ⟨rfl, hlen hp, hne hp, rfl, rfl⟩
  · by_cases hp : 0 < s.off_
    · rw [flush_of_pos s hp] at hb
      have := List.append_cancel_left hb
      simp only [List.cons.injEq, BlockCall.write_block.injEq, and_true] at this
      rw [← this]
      exact hne hp
    · rw [flush_of_not_pos s hp] at hb
      have := congrArg List.length hb
      simp at this
  · by_cases hp : 0 < s.off_
    · exact Or.inr ⟨_, hne hp, by rw [flush_of_pos s hp]⟩
    · exact Or.inl (by rw [flush_of_not_pos s hp])

/-- C21, at samples: with the offset at 3 the block `[1, 2, 3]` is handed on and the offset is
0 afterwards; a second `flush()` and a `flush()` at offset 0 do nothing. -/
theorem flush_hands_one_block_witness :
    (BlockingOutputBuffer.flush ⟨[1, 2, 3, 0], 3, []⟩)
      = ⟨[1, 2, 3, 0], 0, [BlockCall.write_block [1, 2, 3]]⟩ ∧
    (BlockingOutputBuffer.flush ⟨[1, 2, 3, 0], 3, []⟩).block_buf_
      = [] ++ [BlockCall.write_block (List.take (3 : Int).toNat [1, 2, 3, 0])] ∧
    (BlockingOutputBuffer.flush ⟨[1, 2, 3, 0], 0, []⟩) = ⟨[1, 2, 3, 0], 0, []⟩ ∧
    (BlockingOutputBuffer.flush (BlockingOutputBuffer.flush ⟨[1, 2, 3, 0], 3, []⟩))
      = BlockingOutputBuffer.flush ⟨[1, 2, 3, 0], 3, []⟩ :=
  ⟨by decide,
   ((flush_hands_one_block 4 ⟨[1, 2, 3, 0], 3, []⟩ ⟨by decide, by decide, by decide⟩).1
      (by decide)).1,
   (flush_hands_one_block 4 ⟨[1, 2, 3, 0], 0, []⟩ ⟨by decide, by decide, by decide⟩).2.1 rfl,
   (flush_hands_one_block 4 ⟨[1, 2, 3, 0], 3, []⟩
      ⟨by decide, by decide, by decide⟩).2.2.2.2.2.1⟩

/-! ## The calls that the LEB128 layer passes on -/

theorem runAll_append_one (B : Int) (fuel : Nat) : ∀ (l : List BufCall)
    (s : BlockingOutputBuffer) (c : BufCall),
    BufCall.runAll B fuel s (l ++ [c])
      = (BufCall.runAll B fuel s l).bind (fun t => BufCall.run B fuel t c)
  | [], s, c => by
    simp only [List.nil_append, BufCall.runAll, Option.some_bind]
    cases BufCall.run B fuel s c <;> rfl
  | x :: l, s, c => by
    simp only [List.cons_append, BufCall.runAll]
    cases BufCall.run B fuel s x with
    | none => rfl
    | some s1 => exact runAll_append_one B fuel l s1 c

/-- C24: through the LEB128 layer, each of `write_byte`, `write_float`, `write_double`,
`write_bytes`, `flush` and `close` makes exactly one call on the wrapped stage, the same call
with the same arguments, after the calls made before; `write_boolean(b)` makes the call
`write_byte(1)` when `b` is true and `write_byte(0)` when `b` is false.  So for every wrapped
stage, given by its state `t` and the effect `step` of a call on it, the effect of the call
through the layer is the effect of the same call on the stage; in particular this holds for a
wrapped `BlockingOutputBuffer`.  The byte of `write_byte` is passed as it is, whatever its
high bit. -/
theorem leb128_passes_through (buf_ : List BufCall) (c f d : Nat) (buf : List Nat) (n : Int)
    (b : Bool) :
    (LEB128OutputBuffer.write_byte buf_ c = buf_ ++ [BufCall.write_byte c] ∧
      LEB128OutputBuffer.write_float buf_ f = buf_ ++ [BufCall.write_float f] ∧
      LEB128OutputBuffer.write_double buf_ d = buf_ ++ [BufCall.write_double d] ∧
      LEB128OutputBuffer.write_bytes buf_ buf n = buf_ ++ [BufCall.write_bytes buf n] ∧
      LEB128OutputBuffer.flush buf_ = buf_ ++ [BufCall.flush] ∧
      LEB128OutputBuffer.close buf_ = buf_ ++ [BufCall.close] ∧
      LEB128OutputBuffer.write_boolean buf_ b
        = buf_ ++ [BufCall.write_byte (if b then 1 else 0)] ∧
      LEB128OutputBuffer.write_boolean buf_ true = buf_ ++ [BufCall.write_byte 1] ∧
      LEB128OutputBuffer.write_boolean buf_ false = buf_ ++ [BufCall.write_byte 0]) ∧
    (∀ (τ : Type) (step : τ → BufCall → τ) (t : τ),
      (LEB128OutputBuffer.write_byte buf_ c).foldl step t
        = step (buf_.foldl step t) (BufCall.write_byte c) ∧
      (LEB128OutputBuffer.write_float buf_ f).foldl step t
        = step (buf_.foldl step t) (BufCall.write_float f) ∧
      (LEB128OutputBuffer.write_double buf_ d).foldl step t
        = step (buf_.foldl step t) (BufCall.write_double d) ∧
      (LEB128OutputBuffer.write_bytes buf_ buf n).foldl step t
        = step (buf_.foldl step t) (BufCall.write_bytes buf n) ∧
      (LEB128OutputBuffer.flush buf_).foldl step t = step (buf_.foldl step t) BufCall.flush ∧
      (LEB128OutputBuffer.close buf_).foldl step t = step (buf_.foldl step t) BufCall.close ∧
      (LEB128OutputBuffer.write_boolean buf_ b).foldl step t
        = step (buf_.foldl step t) (BufCall.write_byte (if b then 1 else 0))) ∧
    (∀ (BLOCKSIZE : Int) (fuel : Nat) (s : BlockingOutputBuffer),
      BufCall.runAll BLOCKSIZE fuel s (LEB128OutputBuffer.write_byte [] c)
        = some (s.write_byte BLOCKSIZE c) ∧
      BufCall.runAll BLOCKSIZE fuel s (LEB128OutputBuffer.write_float [] f)
        = some (s.write_float BLOCKSIZE f) ∧
      BufCall.runAll BLOCKSIZE fuel s (LEB128OutputBuffer.write_double [] d)
        = some (s.write_double BLOCKSIZE d) ∧
      BufCall.runAll BLOCKSIZE fuel s (LEB128OutputBuffer.write_bytes [] buf n)
        = s.write_bytes BLOCKSIZE fuel buf n ∧
      BufCall.runAll BLOCKSIZE fuel s (LEB128OutputBuffer.flush []) = some s.flush ∧
      BufCall.runAll BLOCKSIZE fuel s (LEB128OutputBuffer.close []) = some s.close ∧
      BufCall.runAll BLOCKSIZE fuel s (LEB128OutputBuffer.write_boolean [] b)
        = some (s.write_boolean BLOCKSIZE b) ∧
      BufCall.runAll BLOCKSIZE fuel s (LEB128OutputBuffer.write_byte buf_ c)
        = (BufCall.runAll BLOCKSIZE fuel s buf_).bind
            (fun t => some (t.write_byte BLOCKSIZE c))) ∧
    BufCall.bytes (LEB128OutputBuffer.write_byte [] c) = [c] := by
  refine ⟨⟨rfl, rfl, rfl, rfl, rfl, rfl, rfl, rfl, rfl⟩, fun τ step t => ?_,
    fun B fuel s => ⟨rfl, rfl, rfl, ?_, rfl, rfl, rfl, ?_⟩, rfl⟩
  · simp [LEB128OutputBuffer.write_byte, LEB128OutputBuffer.write_float,
      LEB128OutputBuffer.write_double, LEB128OutputBuffer.write_bytes,
      LEB128OutputBuffer.flush, LEB128OutputBuffer.close, LEB128OutputBuffer.write_boolean]
  · show BufCall.runAll B fuel s [BufCall.write_bytes buf n] = _
    simp only [BufCall.runAll, BufCall.run]
    cases s.write_bytes B fuel buf n <;> rfl
  · show BufCall.runAll B fuel s (buf_ ++ [BufCall.write_byte c]) = _
    rw [runAll_append_one]
    rfl

/-! ## The LZ4 layer -/

theorem object_bytes_four (v : Nat) :
    object_bytes 4 v = [v % 256, v / 256 % 256, v / 65536 % 256, v / 16777216 % 256] := by
  simp [object_bytes, List.range, List.range.loop]

theorem le_value_object_bytes (v : Nat) (h : v < 2 ^ 32) : le_value (object_bytes 4 v) = v := by
  rw [object_bytes_four]
  simp only [le_value]
  omega

/-- The block that `write_block` hands on: the header and the compressed form. -/
theorem lz4_write_block_eq (lz : LZ4) (B : Int) (s : LZ4OutputBlockBuffer) (buf : List Nat)
    (n : Int) (hlen : s.block_.length = (lz.compressBound B + 4).toNat)
    (hbound : ((lz.compress (buf.take n.toNat)).length : Int) ≤ lz.compressBound B)
    (hint : lz.compressBound B + 4 < 2 ^ 31) :
    (LZ4OutputBlockBuffer.write_block lz B s buf n).block_buf_
      = s.block_buf_ ++ [BlockCall.write_block
          (object_bytes 4 (bit_pattern 32 n) ++ lz.compress (buf.take n.toNat))] ∧
    (LZ4OutputBlockBuffer.write_block lz B s buf n).block_.length = s.block_.length := by
  have e1 : int32 (lz.compressBound B + 4) = lz.compressBound B + 4 :=
    int32_eq _ (by omega) (by omega)
  unfold LZ4OutputBlockBuffer.write_block LZ4.compress_default
  simp only [e1]
  generalize lz.compress (buf.take n.toNat) = out at hbound ⊢
  generalize lz.compressBound B = cb at hlen hbound hint e1 ⊢
  rw [if_pos (by omega)]
  have e2 : int32 ((out.length : Int) + 4) = ((out.length + 4 : Nat) : Int) := by
    rw [int32_eq _ (by omega) (by omega)]; push_cast; rfl
  simp only [e2, Int.toNat_ofNat]
  have h4 : (object_bytes 4 (bit_pattern 32 n)).length = 4 := object_bytes_length _ _
  generalize object_bytes 4 (bit_pattern 32 n) = hdr at h4 ⊢
  have hd : 4 + out.length ≤ s.block_.length := by omega
  generalize s.block_ = dst at hlen hd ⊢
  unfold memcpy
  simp only [Int.toNat_ofNat, Int.toNat_zero, List.take_zero, List.nil_append, Nat.zero_add,
    show (4 : Int).toNat = 4 from rfl, List.take_of_length_le (le_refl out.length),
    List.take_of_length_le (le_of_eq h4)]
  have hdrop : List.drop 4 (List.take 4 dst ++ out ++ List.drop (4 + out.length) dst)
      = out ++ List.drop (4 + out.length) dst := by
    rw [List.append_assoc, List.drop_append_eq_append_drop]
    simp only [List.length_take]
    rw [show min 4 dst.length = 4 by omega, Nat.sub_self, List.drop_zero,
      List.drop_of_length_le (by simp)]
    simp
  rw [hdrop]
  have ht : List.take (out.length + 4) (hdr ++ (out ++ List.drop (4 + out.length) dst))
      = hdr ++ out := by
    rw [← List.append_assoc, List.take_append_eq_append_take]
    simp only [List.length_append, h4]
    rw [show out.length + 4 - (4 + out.length) = 0 by omega, List.take_zero, List.append_nil,
      List.take_of_length_le (by simp [h4]; omega)]
  rw [ht]
  refine ⟨rfl, ?_⟩
  simp only [List.length_append, List.length_drop, h4]
  omega

/-- C23: for `0 ≤ n ≤ BLOCKSIZE`, `write_block(buf, n)` of the LZ4 layer makes exactly one call
on the wrapped stage, `write_block` with a block of `4 + c` bytes, where `c` is the length of
the compressed form of `buf[0 .. n)`: its first four bytes are `n`, the uncompressed length,
as a 32-bit integer in little-endian order, and the bytes from 4 on are the compressed form.
The compressor is a parameter, with the guarantee of the library that the compressed form of
at most `BLOCKSIZE` bytes has at most `LZ4_compressBound(BLOCKSIZE)` bytes. -/
theorem lz4_block_layout (lz : LZ4) (BLOCKSIZE : Int) (s : LZ4OutputBlockBuffer)
    (buf : List Nat) (n : Int) (hn0 : 0 ≤ n) (hnB : n ≤ BLOCKSIZE) (hB : BLOCKSIZE < 2 ^ 31)
    (hlen : s.block_.length = (lz.compressBound BLOCKSIZE + 4).toNat)
    (hlib : ∀ x : List Nat, (x.length : Int) ≤ BLOCKSIZE →
      ((lz.compress x).length : Int) ≤ lz.compressBound BLOCKSIZE)
    (hint : lz.compressBound BLOCKSIZE + 4 < 2 ^ 31) :
    ∃ block : List Nat,
      (LZ4OutputBlockBuffer.write_block lz BLOCKSIZE s buf n).block_buf_
        = s.block_buf_ ++ [BlockCall.write_block block] ∧
      block.length = 4 + (lz.compress (buf.take n.toNat)).length ∧
      block.take 4 = [n.toNat % 256, n.toNat / 256 % 256, n.toNat / 65536 % 256,
        n.toNat / 16777216 % 256] ∧
      le_value (block.take 4) = n.toNat ∧
      block.drop 4 = lz.compress (buf.take n.toNat) ∧
      (LZ4OutputBlockBuffer.write_block lz BLOCKSIZE s buf n).block_.length
        = s.block_.length := by
  have hb : ((lz.compress (buf.take n.toNat)).length : Int) ≤ lz.compressBound BLOCKSIZE := by
    apply hlib
    rw [List.length_take]
    omega
  obtain ⟨h1, h2⟩ := lz4_write_block_eq lz BLOCKSIZE s buf n hlen hb hint
  have hp : bit_pattern 32 n = n.toNat := bit_pattern_of_nonneg 32 n hn0 (by omega)
  have h4 : (object_bytes 4 n.toNat).length = 4 := object_bytes_length _ _
  rw [hp] at h1
  refine ⟨_, h1, ?_, ?_, ?_, ?_, h2⟩
  · rw [List.length_append, h4]
  · rw [List.take_left' h4, object_bytes_four]
  · rw [List.take_left' h4]
    exact le_value_object_bytes _ (by omega)
  · rw [List.drop_left' h4]

/-- C23, at a sample: with the sample compressor, which stores the bytes behind a token byte,
the block for the three bytes `[7, 8, 9]` has the header `[3, 0, 0, 0]` and the payload
`[0, 7, 8, 9]`, 8 bytes in all. -/
theorem lz4_block_layout_witness :
    (LZ4OutputBlockBuffer.write_block LZ4.stored 4 (LZ4OutputBlockBuffer.init LZ4.stored 4)
        [7, 8, 9] 3).block_buf_ = [BlockCall.write_block [3, 0, 0, 0, 0, 7, 8, 9]] ∧
    ∃ block : List Nat,
      (LZ4OutputBlockBuffer.write_block LZ4.stored 4 (LZ4OutputBlockBuffer.init LZ4.stored 4)
          [7, 8, 9] 3).block_buf_ = [] ++ [BlockCall.write_block block] ∧
      block.length = 4 + 4 ∧ block.take 4 = [3, 0, 0, 0] ∧ block.drop 4 = [0, 7, 8, 9] := by
  obtain ⟨block, h1, h2, h3, _, h5, _⟩ :=
    lz4_block_layout LZ4.stored 4 (LZ4OutputBlockBuffer.init LZ4.stored 4) [7, 8, 9] 3
      (by decide) (by decide) (by decide) (by decide)
      (fun x hx => by simp only [LZ4.stored, List.length_cons]; omega) (by decide)
  exact ⟨by decide, block, h1, h2, h3, h5⟩

/-- C22: for `0 ≤ n ≤ BLOCKSIZE` and `n` bytes at `buf`, the single block that
`write_block(buf, n)` of the LZ4 layer hands on is read back by the reader as follows: its
4-byte header gives `n`, and decompressing the bytes after the header into a buffer of `n`
bytes gives `buf[0 .. n)`.  Compressor and decompressor are parameters, with the guarantees
of the library: the compressed form of at most `BLOCKSIZE` bytes has at most
`LZ4_compressBound(BLOCKSIZE)` bytes, and decompressing the compressed form of `x` into a
buffer of the length of `x` gives `x`. -/
theorem lz4_round_trip (lz : LZ4) (BLOCKSIZE : Int) (s : LZ4OutputBlockBuffer)
    (buf : List Nat) (n : Int) (hn0 : 0 ≤ n) (hnB : n ≤ BLOCKSIZE) (hB : BLOCKSIZE < 2 ^ 31)
    (hbuf : n ≤ buf.length)
    (hlen : s.block_.length = (lz.compressBound BLOCKSIZE + 4).toNat)
    (hlib : ∀ x : List Nat, (x.length : Int) ≤ BLOCKSIZE →
      ((lz.compress x).length : Int) ≤ lz.compressBound BLOCKSIZE)
    (hround : ∀ x : List Nat, lz.decompress (lz.compress x) x.length = some x)
    (hint : lz.compressBound BLOCKSIZE + 4 < 2 ^ 31) :
    ∃ block : List Nat,
      (LZ4OutputBlockBuffer.write_block lz BLOCKSIZE s buf n).block_buf_
        = s.block_buf_ ++ [BlockCall.write_block block] ∧
      reinterpret 32 (le_value (block.take 4)) = n ∧
      lz.decompress (block.drop 4) n.toNat = some (buf.take n.toNat) ∧
      LZ4InputBlockBuffer.read_block lz block = some (n, buf.take n.toNat) ∧
      (buf.take n.toNat).length = n.toNat := by
  have hb : ((lz.compress (buf.take n.toNat)).length : Int) ≤ lz.compressBound BLOCKSIZE := by
    apply hlib
    rw [List.length_take]
    omega
  obtain ⟨h1, _⟩ := lz4_write_block_eq lz BLOCKSIZE s buf n hlen hb hint
  have hp : bit_pattern 32 n = n.toNat := bit_pattern_of_nonneg 32 n hn0 (by omega)
  have h4 : (object_bytes 4 (bit_pattern 32 n)).length = 4 := object_bytes_length _ _
  have hl : (buf.take n.toNat).length = n.toNat := by
    rw [List.length_take]; omega
  have hhdr : reinterpret 32 (le_value (object_bytes 4 (bit_pattern 32 n))) = n := by
    rw [le_value_object_bytes _ (bit_pattern_lt 32 n)]
    exact reinterpret_int n (by omega) (by omega)
  have hdec : lz.decompress (lz.compress (buf.take n.toNat)) n.toNat
      = some (buf.take n.toNat) := by
    have := hround (buf.take n.toNat)
    rw [hl] at this
    exact this
  refine ⟨_, h1, ?_, ?_, ?_, hl⟩
  · rw [List.take_left' h4]; exact hhdr
  · rw [List.drop_left' h4]; exact hdec
  · unfold LZ4InputBlockBuffer.read_block
    rw [List.take_left' h4, List.drop_left' h4, hhdr, hdec]
    rfl

/-- C22, at a sample: with the sample compressor, the block written for `[7, 8, 9]` is read
back as the length 3 and the bytes `[7, 8, 9]`, and the block written for no bytes as the
length 0 and no bytes. -/
theorem lz4_round_trip_witness :
    LZ4InputBlockBuffer.read_block LZ4.stored [3, 0, 0, 0, 0, 7, 8, 9] = some (3, [7, 8, 9]) ∧
    (∃ block : List Nat,
      (LZ4OutputBlockBuffer.write_block LZ4.stored 4 (LZ4OutputBlockBuffer.init LZ4.stored 4)
          [7, 8, 9] 3).block_buf_ = [] ++ [BlockCall.write_block block] ∧
      LZ4InputBlockBuffer.read_block LZ4.stored block = some (3, [7, 8, 9])) ∧
    (∃ block : List Nat,
      (LZ4OutputBlockBuffer.write_block LZ4.stored 4 (LZ4OutputBlockBuffer.init LZ4.stored 4)
          [] 0).block_buf_ = [] ++ [BlockCall.write_block block] ∧
      LZ4InputBlockBuffer.read_block LZ4.stored block = some (0, [])) := by
  obtain ⟨block, h1, _, _, h4, _⟩ :=
    lz4_round_trip LZ4.stored 4 (LZ4OutputBlockBuffer.init LZ4.stored 4) [7, 8, 9] 3
      (by decide) (by decide) (by decide) (by decide) (by decide)
      (fun x hx => by simp only [LZ4.stored, List.length_cons]; omega)
      (fun x => by simp [LZ4.stored]) (by decide)
  obtain ⟨block0, g1, _, _, g4, _⟩ :=
    lz4_round_trip LZ4.stored 4 (LZ4OutputBlockBuffer.init LZ4.stored 4) [] 0
      (by decide) (by decide) (by decide) (by decide) (by decide)
      (fun x hx => by simp only [LZ4.stored, List.length_cons]; omega)
      (fun x => by simp [LZ4.stored]) (by decide)
  exact ⟨by decide, ⟨block, h1, h4⟩, ⟨block0, g1, g4⟩⟩

/-! ## The Filter stage -/

theorem traced_eq {σ : Type} (next_ : Consumer σ) (st : σ) (log : List Call) (pool : World)
    (region value : Nat) (o : Outcome σ) (h : next_ st pool region value = some o) :
    Consumer.traced next_ (st, log) pool region value
      = some ⟨(o.next, log ++ [⟨region, value, pool⟩]), o.pool, o.moved⟩ := by
  simp only [Consumer.traced, h]

theorem filter_feed {σ : Type} (filter_ : Nat → Nat → Nat → Bool) (globals_ : Nat)
    (next_ : Consumer σ) (hn : ∀ st pool region value, ∃ o, next_ st pool region value = some o) :
    ∀ (rows : List (Nat × Nat)) (st : σ) (log : List Call) (pool : World),
      ∃ st1 log1 pool1,
        feed (TableFilterRows.call filter_ globals_ (Consumer.traced next_)) (st, log) pool rows
          = some ((st1, log1), pool1) ∧
        log1.map Call.row
          = log.map Call.row ++ rows.filter (fun r => filter_ r.1 globals_ r.2)
  | [], st, log, pool => ⟨st, log, pool, rfl, by simp⟩
  | r :: rs, st, log, pool => by
    by_cases hf : filter_ r.1 globals_ r.2 = true
    · obtain ⟨o, ho⟩ := hn st pool r.1 r.2
      obtain ⟨st1, log1, pool1, h1, h2⟩ :=
        filter_feed filter_ globals_ next_ hn rs o.next (log ++ [⟨r.1, r.2, pool⟩]) o.pool
      refine ⟨st1, log1, pool1, ?_, ?_⟩
      · rw [feed]
        simp only [TableFilterRows.call, hf, if_true, traced_eq next_ st log pool r.1 r.2 o ho]
        exact h1
      · rw [h2]
        simp [Call.row, List.filter_cons, hf]
    · obtain ⟨st1, log1, pool1, h1, h2⟩ := filter_feed filter_ globals_ next_ hn rs st log pool
      refine ⟨st1, log1, pool1, ?_, ?_⟩
      · rw [feed]
        simp only [TableFilterRows.call, hf, Bool.false_eq_true, if_false]
        exact h1
      · rw [h2]
        simp [List.filter_cons, hf]

/-- C25: for every predicate `filter_`, every consumer `next_` that returns from its calls and
every sequence `rows` of calls (arena, row pointer) made on the Filter stage, the calls that
the stage makes on `next_` are the calls of `rows` for which the predicate holds, in the order
of `rows`, each with the arena and the row pointer that the stage was called with.  A call
for which the predicate holds is the call on `next_` itself, with the same `RegionPtr`: the
pool is passed on as it is, and the `RegionPtr` is moved from when `next_` moves from it. -/
theorem filter_forwards_matching_rows {σ : Type} (filter_ : Nat → Nat → Nat → Bool)
    (globals_ : Nat) (next_ : Consumer σ)
    (hn : ∀ st pool region value, ∃ o, next_ st pool region value = some o)
    (rows : List (Nat × Nat)) (st : σ) (log : List Call) (pool : World) :
    (∃ st1 log1 pool1,
      feed (TableFilterRows.call filter_ globals_ (Consumer.traced next_)) (st, log) pool rows
        = some ((st1, log1), pool1) ∧
      log1.map Call.row
        = log.map Call.row ++ rows.filter (fun r => filter_ r.1 globals_ r.2)) ∧
    (∀ region value, filter_ region globals_ value = true →
      TableFilterRows.call filter_ globals_ next_ st pool region value
        = next_ st pool region value) ∧
    (∀ region value, filter_ region globals_ value = false →
      TableFilterRows.call filter_ globals_ next_ st pool region value
        = some ⟨st, pool, false⟩) :=
  ⟨filter_feed filter_ globals_ next_ hn rows st log pool,
   fun region value h => by simp only [TableFilterRows.call, h, if_true],
   fun region value h => by simp only [TableFilterRows.call, h, Bool.false_eq_true, if_false]⟩

/-- C25, at a sample: the rows 1, 2, 3, 4 in the arenas 10, 11, 12, 13 through a filter for
even rows: the consumer is called with the row 2 in arena 11 and then the row 4 in arena
13. -/
theorem filter_forwards_matching_rows_witness :
    (feed (TableFilterRows.call (fun _ _ v => v % 2 == 0) 0 (Consumer.traced Consumer.keeping))
        ([], []) RegionPool.init [(10, 1), (11, 2), (12, 3), (13, 4)]).map
        (fun r => (r.1.2.map Call.row, r.1.1))
      = some ([(11, 2), (13, 4)], [13, 11]) ∧
    ∃ st1 log1 pool1,
      feed (TableFilterRows.call (fun _ _ v => v % 2 == 0) 0 (Consumer.traced Consumer.keeping))
        ([], []) RegionPool.init [(10, 1), (11, 2), (12, 3), (13, 4)]
        = some ((st1, log1), pool1) ∧
      log1.map Call.row = [].map Call.row ++ [(11, 2), (13, 4)] :=
  ⟨by decide,
   (filter_forwards_matching_rows (fun _ _ v => v % 2 == 0) 0 Consumer.keeping
      (fun st pool region value => ⟨_, rfl⟩) [(10, 1), (11, 2), (12, 3), (13, 4)] []
      [] RegionPool.init).1⟩

/-! ## The Explode stage -/

theorem explode_loop_done {σ : Type} (exploder_ : Exploder) (next_ : Consumer σ)
    (region value : Nat) (len : Int) (fuel : Nat) (i : Int) (st : σ) (pool : World)
    (h : ¬ i < len) :
    TableExplodeRows.loop exploder_ next_ region value len (fuel + 1) i st pool
      = some (st, pool) := by
  rw [TableExplodeRows.loop, if_neg h]

theorem explode_loop_more {σ : Type} (exploder_ : Exploder) (next_ : Consumer σ)
    (region value : Nat) (len : Int) (fuel : Nat) (i : Int) (st : σ) (pool : World)
    (h : i < len) (o : Outcome σ)
    (ho : next_ st (TableExplodeRows.callAt exploder_ region value i pool).pool
      (TableExplodeRows.callAt exploder_ region value i pool).region
      (TableExplodeRows.callAt exploder_ region value i pool).value = some o) :
    TableExplodeRows.loop exploder_ next_ region value len (fuel + 1) i st pool
      = TableExplodeRows.loop exploder_ next_ region value len fuel (int32 (i + 1)) o.next
          (if o.moved then o.pool
            else shared_ptr_drop o.pool
              (TableExplodeRows.callAt exploder_ region value i pool).region) := by
  rw [TableExplodeRows.loop, if_pos h]
  simp only [TableExplodeRows.callAt] at ho
  simp only [ho]
  rfl

/-- The loop of the Explode stage over a consumer that returns from its calls: it returns
after `max(len - i, 0)` runs of its body, each of which makes the call `callAt` for its index,
and a property `P` of the state of the consumer and of the pool that each run of the body
keeps holds at the start of every run and at the end. -/
theorem explode_loop_spec {σ : Type} (exploder_ : Exploder) (next_ : Consumer σ)
    (region value : Nat) (len : Int) (hlen : len < 2 ^ 31) (P : σ → World → Prop)
    (hret : ∀ st q i, P st q → ∃ o,
      next_ st (TableExplodeRows.callAt exploder_ region value i q).pool
        (TableExplodeRows.callAt exploder_ region value i q).region
        (TableExplodeRows.callAt exploder_ region value i q).value = some o)
    (hstep : ∀ st q i o, P st q →
      next_ st (TableExplodeRows.callAt exploder_ region value i q).pool
        (TableExplodeRows.callAt exploder_ region value i q).region
        (TableExplodeRows.callAt exploder_ region value i q).value = some o →
      P o.next (if o.moved then o.pool
        else shared_ptr_drop o.pool (TableExplodeRows.callAt exploder_ region value i q).region)) :
    ∀ (k fuel : Nat) (i : Int) (st : σ) (log : List Call) (pool : World), k < fuel →
      -(2 ^ 31) ≤ i → (len - i).toNat = k → P st pool →
      ∃ st1 run pool1,
        TableExplodeRows.loop exploder_ (Consumer.traced next_) region value len fuel i
          (st, log) pool = some ((st1, log ++ run), pool1) ∧
        P st1 pool1 ∧ run.length = k ∧
        ∀ j, j < run.length → ∃ stq q, P stq q ∧
          run[j]? = some (TableExplodeRows.callAt exploder_ region value (i + (j : Int)) q)
  | 0, fuel, i, st, log, pool, hf, _, hk, hP => by
    obtain ⟨f, rfl⟩ : ∃ f, fuel = f + 1 := ⟨fuel - 1, by omega⟩
    refine ⟨st, [], pool, ?_, hP, rfl, fun j hj => by simp at hj⟩
    rw [explode_loop_done _ _ _ _ _ _ _ _ _ (by omega)]
    simp
  | k + 1, fuel, i, st, log, pool, hf, hi, hk, hP => by
    obtain ⟨f, rfl⟩ : ∃ f, fuel = f + 1 := ⟨fuel - 1, by omega⟩
    have hlt : i < len := by omega
    obtain ⟨o, ho⟩ := hret st pool i hP
    have hP1 := hstep st pool i o hP ho
    have e1 : int32 (i + 1) = i + 1 := int32_eq _ (by omega) (by omega)
    obtain ⟨st1, run, pool1, r1, r2, r3, r4⟩ :=
      explode_loop_spec exploder_ next_ region value len hlen P hret hstep k f (i + 1)
        o.next (log ++ [TableExplodeRows.callAt exploder_ region value i pool]) _ (by omega)
        (by omega) (by omega) hP1
    refine ⟨st1, TableExplodeRows.callAt exploder_ region value i pool :: run, pool1, ?_, r2,
      by simp [r3], fun j hj => ?_⟩
    · rw [explode_loop_more exploder_ (Consumer.traced next_) region value len f i (st, log)
        pool hlt ⟨(o.next, log ++ [TableExplodeRows.callAt exploder_ region value i pool]),
          o.pool, o.moved⟩ (traced_eq next_ st log _ _ _ o ho), e1]
      simp only [List.append_assoc, List.singleton_append] at r1
      exact r1
    · cases j with
      | zero => exact ⟨st, pool, hP, by simp⟩
      | succ j =>
        obtain ⟨stq, q, q1, q2⟩ := r4 j (by simpa using hj)
        refine ⟨stq, q, q1, ?_⟩
        rw [List.getElem?_cons_succ, q2]
        congr 2
        push_cast
        ring

/-- One call of the Explode stage on a consumer that returns from its calls, with a property
`P` that each run of the loop body keeps. -/
theorem explode_call_spec {σ : Type} (exploder_ : Exploder) (next_ : Consumer σ)
    (region value : Nat) (fuel : Nat) (hlen : exploder_.len region value < 2 ^ 31)
    (hfuel : (exploder_.len region value).toNat < fuel) (P : σ → World → Prop)
    (hret : ∀ st q i, P st q → ∃ o,
      next_ st (TableExplodeRows.callAt exploder_ region value i q).pool
        (TableExplodeRows.callAt exploder_ region value i q).region
        (TableExplodeRows.callAt exploder_ region value i q).value = some o)
    (hstep : ∀ st q i o, P st q →
      next_ st (TableExplodeRows.callAt exploder_ region value i q).pool
        (TableExplodeRows.callAt exploder_ region value i q).region
        (TableExplodeRows.callAt exploder_ region value i q).value = some o →
      P o.next (if o.moved then o.pool
        else shared_ptr_drop o.pool (TableExplodeRows.callAt exploder_ region value i q).region))
    (st : σ) (log : List Call) (pool : World) (hP : P st pool) :
    ∃ st1 run pool1,
      TableExplodeRows.call exploder_ (Consumer.traced next_) fuel (st, log) pool region value
        = some ⟨(st1, log ++ run), pool1, false⟩ ∧
      P st1 pool1 ∧ (run.length : Int) = max (exploder_.len region value) 0 ∧
      ∀ j, j < run.length → ∃ stq q, P stq q ∧
        run[j]? = some (TableExplodeRows.callAt exploder_ region value (j : Int) q) := by
  obtain ⟨st1, run, pool1, r1, r2, r3, r4⟩ :=
    explode_loop_spec exploder_ next_ region value (exploder_.len region value) hlen P hret
      hstep (exploder_.len region value - 0).toNat fuel 0 st log pool (by omega) (by omega) rfl
      hP
  refine ⟨st1, run, pool1, ?_, r2, by rw [r3]; omega, fun j hj => ?_⟩
  · simp only [TableExplodeRows.call, r1, Option.map_some']
  · obtain ⟨stq, q, q1, q2⟩ := r4 j hj
    rw [Int.zero_add] at q2
    exact ⟨stq, q, q1, q2⟩

theorem explode_feed {σ : Type} (exploder_ : Exploder) (next_ : Consumer σ) (fuel : Nat)
    (hn : ∀ st pool region value, ∃ o, next_ st pool region value = some o) :
    ∀ (rows : List (Nat × Nat)) (st : σ) (log : List Call) (pool : World),
      (∀ r ∈ rows, exploder_.len r.1 r.2 < 2 ^ 31 ∧ (exploder_.len r.1 r.2).toNat < fuel) →
      ∃ st1 runs pool1,
        feed (TableExplodeRows.call exploder_ (Consumer.traced next_) fuel) (st, log) pool rows
          = some ((st1, log ++ runs.flatten), pool1) ∧
        List.Forall₂ (TableExplodeRows.IsRun exploder_) rows runs
  | [], st, log, pool, _ => ⟨st, [], pool, by simp [feed], List.Forall₂.nil⟩
  | r :: rs, st, log, pool, h => by
    obtain ⟨h1, h2⟩ := h r (List.mem_cons_self _ _)
    obtain ⟨st1, run, pool1, r1, _, r3, r4⟩ :=
      explode_call_spec exploder_ next_ r.1 r.2 fuel h1 h2 (fun _ _ => True)
        (fun st q i _ => hn st _ _ _) (fun _ _ _ _ _ _ => trivial) st log pool trivial
    obtain ⟨st2, runs, pool2, q1, q2⟩ :=
      explode_feed exploder_ next_ fuel hn rs st1 (log ++ run) pool1
        (fun x hx => h x (List.mem_cons_of_mem _ hx))
    refine ⟨st2, run :: runs, pool2, ?_, List.Forall₂.cons ⟨r3, fun j hj => ?_⟩ q2⟩
    · rw [feed, r1]
      simp only [List.flatten_cons, ← List.append_assoc]
      exact q1
    · obtain ⟨_, q, _, hq⟩ := r4 j hj
      exact ⟨q, hq⟩

/-- C26: for every exploder, every consumer that returns from its calls and every input row
whose multiplicity `len` is an `int`, one call of the Explode stage returns (within `len + 1`
tests of its loop condition), having made exactly `max(len, 0)` calls on the consumer, none
when `len ≤ 0`; the call at position `j` is the one of the loop body for the index `j`, with
the arena obtained for that index and the pointer that the exploder returns for that arena and
index `j`.  For a sequence of input rows the calls on the consumer are the runs of the rows,
one after the other in the order of the rows. -/
theorem explode_makes_len_calls {σ : Type} (exploder_ : Exploder) (next_ : Consumer σ)
    (fuel : Nat) (hn : ∀ st pool region value, ∃ o, next_ st pool region value = some o)
    (rows : List (Nat × Nat)) (st : σ) (log : List Call) (pool : World)
    (hrows : ∀ r ∈ rows,
      exploder_.len r.1 r.2 < 2 ^ 31 ∧ (exploder_.len r.1 r.2).toNat < fuel) :
    (∀ r ∈ rows, ∃ st1 run pool1,
      TableExplodeRows.call exploder_ (Consumer.traced next_) fuel (st, log) pool r.1 r.2
        = some ⟨(st1, log ++ run), pool1, false⟩ ∧
      (run.length : Int) = max (exploder_.len r.1 r.2) 0 ∧
      (exploder_.len r.1 r.2 ≤ 0 → run = []) ∧
      (∀ j, j < run.length →
        ∃ q, run[j]? = some (TableExplodeRows.callAt exploder_ r.1 r.2 (j : Int) q)) ∧
      (∀ (j : Nat) (c : Call), run[j]? = some c →
        ∃ q, c.value = (exploder_.call q c.region r.2 (j : Int)).2)) ∧
    ∃ st1 runs pool1,
      feed (TableExplodeRows.call exploder_ (Consumer.traced next_) fuel) (st, log) pool rows
        = some ((st1, log ++ runs.flatten), pool1) ∧
      List.Forall₂ (TableExplodeRows.IsRun exploder_) rows runs := by
  refine ⟨fun r hr => ?_, explode_feed exploder_ next_ fuel hn rows st log pool hrows⟩
  obtain ⟨h1, h2⟩ := hrows r hr
  obtain ⟨st1, run, pool1, r1, _, r3, r4⟩ :=
    explode_call_spec exploder_ next_ r.1 r.2 fuel h1 h2 (fun _ _ => True)
      (fun st q i _ => hn st _ _ _) (fun _ _ _ _ _ _ => trivial) st log pool trivial
  refine ⟨st1, run, pool1, r1, r3, fun h0 => ?_, fun j hj => ?_, fun j c hc => ?_⟩
  · apply List.eq_nil_of_length_eq_zero
    omega
  · obtain ⟨_, q, _, hq⟩ := r4 j hj
    exact ⟨q, hq⟩
  · have hj : j < run.length := by
      rcases Nat.lt_or_ge j run.length with h | h
      · exact h
      · rw [List.getElem?_eq_none h] at hc
        exact absurd hc (by simp)
    obtain ⟨_, q, _, hq⟩ := r4 j hj
    rw [hq] at hc
    simp only [Option.some.injEq] at hc
    subst hc
    exact ⟨_, rfl⟩

/-- C26, at a sample: rows of multiplicity 3, 0 and 2 in arena 0, through the sample exploder
to a consumer that keeps the arenas: the calls are the elements 0, 1, 2 of the first row in the
arenas 1, 2, 3, none for the second row, and the elements 0, 1 of the third row in the arenas
4, 5. -/
theorem explode_makes_len_calls_witness :
    (feed (TableExplodeRows.call Exploder.sample (Consumer.traced Consumer.keeping) 4) ([], [])
        (RegionPool.get_region RegionPool.init).1 [(0, 3), (0, 0), (0, 2)]).map
        (fun r => r.1.2.map Call.row)
      = some [(1, 300), (2, 301), (3, 302), (4, 200), (5, 201)] ∧
    ∃ st1 runs pool1,
      feed (TableExplodeRows.call Exploder.sample (Consumer.traced Consumer.keeping) 4) ([], [])
        (RegionPool.get_region RegionPool.init).1 [(0, 3), (0, 0), (0, 2)]
        = some ((st1, [] ++ runs.flatten), pool1) ∧
      List.Forall₂ (TableExplodeRows.IsRun Exploder.sample) [(0, 3), (0, 0), (0, 2)] runs :=
  ⟨by decide,
   (explode_makes_len_calls Exploder.sample Consumer.keeping 4
      (fun st pool region value => ⟨_, rfl⟩) [(0, 3), (0, 0), (0, 2)] [] []
      (RegionPool.get_region RegionPool.init).1 (by decide)).2⟩

/-! ## The Read stage -/

/-- C29: for every decoder and every consumer that returns from its calls, one call of
`consume()` calls `get_region` on the pool once, calls `decode_row` on the decoder exactly
once, with the arena that `get_region` returned and the pool that it left, and makes exactly
one call on the consumer, with that arena, the row pointer that `decode_row` returned and the
pool that `decode_row` left; afterwards the `RegionPtr` is destroyed unless the consumer moved
from it.  `advance()` calls `decode_byte` once and returns its result; it makes no call on the
consumer and leaves the pool as it is. -/
theorem read_consume_once {σ δ : Type} (dec_ : Decoder δ) (next_ : Consumer σ)
    (hn : ∀ st pool region value, ∃ o, next_ st pool region value = some o)
    (st : σ) (d : δ) (clog : List Call) (dlog : List DecoderCall) (pool : World) :
    (∃ o, next_ st (dec_.decode_row d (RegionPool.get_region pool).1
          (RegionPool.get_region pool).2).2.1 (RegionPool.get_region pool).2
          (dec_.decode_row d (RegionPool.get_region pool).1
            (RegionPool.get_region pool).2).2.2 = some o ∧
      TableNativeRead.consume (Decoder.traced dec_) (Consumer.traced next_)
          ((st, clog), (d, dlog)) pool
        = some (((o.next,
              clog ++ [⟨(RegionPool.get_region pool).2,
                (dec_.decode_row d (RegionPool.get_region pool).1
                  (RegionPool.get_region pool).2).2.2,
                (dec_.decode_row d (RegionPool.get_region pool).1
                  (RegionPool.get_region pool).2).2.1⟩]),
            ((dec_.decode_row d (RegionPool.get_region pool).1 (RegionPool.get_region pool).2).1,
              dlog ++ [DecoderCall.decode_row (RegionPool.get_region pool).2
                (dec_.decode_row d (RegionPool.get_region pool).1
                  (RegionPool.get_region pool).2).2.2])),
          if o.moved then o.pool else shared_ptr_drop o.pool (RegionPool.get_region pool).2)) ∧
    TableNativeRead.advance (Decoder.traced dec_) ((st, clog), (d, dlog)) pool
      = ((((st, clog), ((dec_.decode_byte d).1,
            dlog ++ [DecoderCall.decode_byte (dec_.decode_byte d).2])), pool),
          (dec_.decode_byte d).2) := by
  obtain ⟨o, ho⟩ := hn st (dec_.decode_row d (RegionPool.get_region pool).1
    (RegionPool.get_region pool).2).2.1 (RegionPool.get_region pool).2
    (dec_.decode_row d (RegionPool.get_region pool).1 (RegionPool.get_region pool).2).2.2
  refine ⟨⟨o, ho, ?_⟩, rfl⟩
  simp only [TableNativeRead.consume, Decoder.traced,
    traced_eq next_ st clog _ _ _ o ho]

/-- C29, at a sample: from a fresh pool, `consume()` with the sample decoder and a consumer
that keeps the arenas obtains arena 0, decodes row 0 into it and passes both on; `advance()`
returns the decoder's flag and changes neither the pool nor the record of downstream
calls. -/
theorem read_consume_once_witness :
    (TableNativeRead.consume (Decoder.traced Decoder.sample) (Consumer.traced Consumer.keeping)
        (([], []), (0, [])) RegionPool.init).map
        (fun r => (r.1.1.2.map Call.row, r.1.2.2, r.2.regions.length))
      = some ([(0, 0)], [DecoderCall.decode_row 0 0], 1) ∧
    TableNativeRead.advance (Decoder.traced Decoder.sample)
        ((([] : List Nat), ([] : List Call)), (0, [])) RegionPool.init
      = (((([], []), (0, [] ++ [DecoderCall.decode_byte true])), RegionPool.init), true) :=
  ⟨by decide,
   (read_consume_once Decoder.sample Consumer.keeping (fun st pool region value => ⟨_, rfl⟩)
      [] 0 [] [] RegionPool.init).2⟩

/-! ## Client code of the pool along the pipeline -/

theorem allocs_frame {cfg : Config} {r : Nat} {a b : World} (h : Allocs cfg r a b) :
    AllocFrame r a b := by
  induction h with
  | done w => exact AllocFrame.idle r w
  | step fuel alignment n p h1 _ ih =>
    exact (allocate_frame cfg fuel _ r alignment n _ p h1).followedBy ih

theorem allocs_reachable {cfg : Config} {r : Nat} {a b : World} (h : Allocs cfg r a b) :
    ∀ {hs : List Nat}, Reachable cfg a hs → r ∈ hs → Reachable cfg b hs := by
  induction h with
  | done w => intro hs h1 _; exact h1
  | step fuel alignment n p h1 _ ih =>
    intro hs hr hm
    exact ih (Reachable.allocate r fuel alignment n p hr hm h1) hm

/-- What client code does with the `RegionPtr`s it holds leaves a reachable state, whatever
`RegionPtr`s `ext` other code holds. -/
theorem acts_reachable {cfg : Config} {w w1 : World} {C C1 : List Nat}
    (h : Acts cfg w C w1 C1) :
    ∀ (ext : List Nat), Reachable cfg w (C ++ ext) → Reachable cfg w1 (C1 ++ ext) := by
  induction h with
  | done w C => intro ext h1; exact h1
  | get_region _ ih => intro ext h1; exact ih ext (Reachable.get_region h1)
  | copy r hr _ ih =>
    intro ext h1
    exact ih ext (Reachable.copy r h1 (List.mem_append_left _ hr))
  | release r hr _ ih =>
    intro ext h1
    have := Reachable.release r h1 (List.mem_append_left _ hr)
    rw [List.erase_append_left _ hr] at this
    exact ih ext this
  | add_reference_to r region hr hg _ ih =>
    intro ext h1
    exact ih ext (Reachable.add_reference_to r region h1 (List.mem_append_left _ hr)
      (List.mem_append_left _ hg))
  | clear r hr _ ih =>
    intro ext h1
    exact ih ext (Reachable.clear r h1 (List.mem_append_left _ hr))
  | allocate r fuel alignment n p hr ha _ ih =>
    intro ext h1
    exact ih ext (Reachable.allocate r fuel alignment n p h1 (List.mem_append_left _ hr) ha)

/-- A destructor run changes an object only by retiring it. -/
theorem drop_obj_or_retired (s : World) (r x : Nat) :
    (shared_ptr_drop s r).obj x = s.obj x ∨ x ∈ (shared_ptr_drop s r).free_regions_ := by
  have h := dropN_inv (fun t _ R => ∀ y, t.obj y = s.obj y ∨ y ∈ t.free_regions_ ++ R)
    (fun t a D R ht _ y => by rw [World.obj_setRefs]; exact ht y)
    (fun t a D R ht _ y => by
      by_cases e : y = a
      · subst e
        refine Or.inr ?_
        show y ∈ t.free_regions_ ++ y :: R
        simp
      · rw [clearFields_obj_ne _ _ _ e, World.obj_setRefs]
        rcases ht y with h1 | h1
        · exact Or.inl h1
        · refine Or.inr ?_
          show y ∈ t.free_regions_ ++ a :: R
          simp only [List.mem_append, List.mem_cons] at h1 ⊢
          tauto)
    (fun t a D R ht y => by
      rcases ht y with h1 | h1
      · exact Or.inl h1
      · refine Or.inr ?_
        show y ∈ (t.free_regions_ ++ [a]) ++ R
        simpa [List.append_assoc] using h1)
    s.depth s r [] [] (Nat.lt_succ_self _) (fun y => Or.inl rfl)
  simpa using h x

theorem release_all_frame : ∀ (rs : List Nat) (s : World), Frame s (release_all s rs)
  | [], s => Frame.stay s
  | r :: rs, s => (drop_frame s r).andThen (release_all_frame rs (shared_ptr_drop s r))

theorem release_all_obj_or_retired : ∀ (rs : List Nat) (s : World) (x : Nat),
    (release_all s rs).obj x = s.obj x ∨ x ∈ (release_all s rs).free_regions_
  | [], s, x => Or.inl rfl
  | r :: rs, s, x => by
    show (release_all (shared_ptr_drop s r) rs).obj x = _ ∨ _
    rcases release_all_obj_or_retired rs (shared_ptr_drop s r) x with h | h
    · rcases drop_obj_or_retired s r x with h1 | h1
      · exact Or.inl (h.trans h1)
      · obtain ⟨l, hl⟩ := (release_all_frame rs (shared_ptr_drop s r)).free_regions
        refine Or.inr ?_
        show x ∈ (release_all (shared_ptr_drop s r) rs).free_regions_
        rw [hl]
        exact List.mem_append_left _ h1
    · exact Or.inr h

theorem release_all_reachable {cfg : Config} : ∀ (rs : List Nat) {s : World} {hs : List Nat},
    Reachable cfg s hs → (∀ a, rs.count a ≤ hs.count a) →
    ∃ hs1, Reachable cfg (release_all s rs) hs1 ∧
      ∀ a, hs1.count a + rs.count a = hs.count a
  | [], s, hs, h, _ => ⟨hs, h, fun a => by simp⟩
  | r :: rs, s, hs, h, hsub => by
    have hr : r ∈ hs := by
      have := hsub r
      rw [List.count_cons_self] at this
      exact List.count_pos_iff.mp (by omega)
    have hsub1 : ∀ a, rs.count a ≤ (hs.erase r).count a := by
      intro a
      have := hsub a
      by_cases e : a = r
      · subst e
        rw [List.count_cons_self] at this
        rw [List.count_erase_self]
        omega
      · rw [List.count_cons_of_ne e] at this
        rw [List.count_erase_of_ne e]
        exact this
    obtain ⟨hs1, h1, h2⟩ := release_all_reachable rs (Reachable.release r h hr) hsub1
    refine ⟨hs1, h1, fun a => ?_⟩
    have := h2 a
    by_cases e : a = r
    · subst e
      have := List.count_erase_self a hs
      have := List.count_pos_iff.mpr hr
      rw [List.count_cons_self]
      omega
    · rw [List.count_cons_of_ne e]
      rw [List.count_erase_of_ne e] at this
      exact this

/-! ## A row that the filter rejects -/

/-- C30: when the predicate is false for a row, the Filter stage makes no call on its consumer,
leaves the pool as it is, with the use count of the row's arena, and does not move from the
`RegionPtr`.  In a chain of Read and Filter, on a reachable pool and with a decoder that does
nothing to the pool but allocate in the arena it is passed, a call of `consume()` whose row the
predicate rejects returns with the arena obtained by `get_region` on the list of retired arenas
of the pool, once, as its last entry, and with no call made on the consumer. -/
theorem rejected_row_is_retired (cfg : Config) {σ δ : Type} (dec_ : Decoder δ)
    (filter_ : Nat → Nat → Nat → Bool) (globals_ : Nat) (next_ : Consumer σ)
    (hdec : ∀ d w r, Allocs cfg r w (dec_.decode_row d w r).2.1)
    {pool : World} {hs : List Nat} (h : Reachable cfg pool hs) (st : σ) (d : δ)
    (clog : List Call)
    (hfalse : filter_ (RegionPool.get_region pool).2 globals_
      (dec_.decode_row d (RegionPool.get_region pool).1 (RegionPool.get_region pool).2).2.2
        = false) :
    (∀ (w : World) (region value : Nat), filter_ region globals_ value = false →
      TableFilterRows.call filter_ globals_ (Consumer.traced next_) (st, clog) w region value
        = some ⟨(st, clog), w, false⟩) ∧
    ∃ pool1,
      TableNativeRead.consume dec_ (TableFilterRows.call filter_ globals_ (Consumer.traced next_))
          ((st, clog), d) pool
        = some (((st, clog),
            (dec_.decode_row d (RegionPool.get_region pool).1 (RegionPool.get_region pool).2).1),
          pool1) ∧
      pool1.free_regions_ = pool.free_regions_.dropLast ++ [(RegionPool.get_region pool).2] ∧
      pool1.free_regions_.count (RegionPool.get_region pool).2 = 1 ∧
      pool1.refs (RegionPool.get_region pool).2 = 0 ∧
      Reachable cfg pool1 hs := by
  have hri := (reachable_inv h).1
  obtain ⟨_, s2, s3, s4, _, s6⟩ := get_region_spec hri
  have hal := hdec d (RegionPool.get_region pool).1 (RegionPool.get_region pool).2
  have fr := allocs_frame hal
  have hR2 := allocs_reachable hal (Reachable.get_region h) (List.mem_cons_self _ _)
  generalize hw2 : (dec_.decode_row d (RegionPool.get_region pool).1
    (RegionPool.get_region pool).2).2.1 = w2 at fr hR2
  generalize hrow : (dec_.decode_row d (RegionPool.get_region pool).1
    (RegionPool.get_region pool).2).2.2 = row at hfalse
  generalize hw1 : (RegionPool.get_region pool).1 = w1 at s2 s3 s4 s6 fr hw2 hrow
  generalize ha : (RegionPool.get_region pool).2 = a at s2 s3 s4 fr hR2 hfalse hw2 hrow
  have hrefs : w2.refs a = 1 := by rw [fr.refs]; exact s2
  have hpar : (w2.obj a).parents_ = [] := by rw [fr.own_parents]; exact s3.2.2.2
  have hva : a < w2.regions.length := by rw [fr.length]; exact s4
  have hdrop := drop_last_no_parents w2 a (by omega) hpar
  have hnot : a ∉ w2.free_regions_ := by
    intro hm
    have := ((reachable_inv hR2).1.free a hm).2.1
    omega
  have hrel := Reachable.release a hR2 (List.mem_cons_self _ _)
  rw [List.erase_cons_head] at hrel
  refine ⟨fun w region value hf => ?_, shared_ptr_drop w2 a, ?_, ?_, ?_, ?_, hrel⟩
  · simp only [TableFilterRows.call, hf, Bool.false_eq_true, if_false]
  · simp only [TableNativeRead.consume, TableFilterRows.call, hw1, ha, hw2, hrow, hfalse,
      Bool.false_eq_true, if_false]
  · rw [hdrop]
    show w2.free_regions_ ++ [a] = _
    rw [fr.free_regions, s6]
  · rw [hdrop]
    show (w2.free_regions_ ++ [a]).count a = 1
    rw [List.count_append, List.count_eq_zero_of_not_mem hnot]
    simp
  · rw [hdrop]
    show (Region2.clearFields (w2.setRefs a (w2.refs a - 1)) a).refs a = 0
    rw [clearFields_refs, World.refs_setRefs_self _ _ _ hva]
    omega

/-- C30, at a sample: from a fresh pool, `consume()` with the sample decoder and a filter that
rejects every row leaves arena 0 on the list of retired arenas and makes no call on the
consumer. -/
theorem rejected_row_is_retired_witness :
    (TableNativeRead.consume Decoder.sample
        (TableFilterRows.call (fun _ _ _ => false) 0 (Consumer.traced Consumer.keeping))
        (([], []), 0) RegionPool.init).map
        (fun r => (r.1.1.1, r.1.1.2.map Call.row, r.2.free_regions_))
      = some ([], [], [0]) ∧
    ∃ pool1,
      TableNativeRead.consume Decoder.sample
          (TableFilterRows.call (fun _ _ _ => false) 0 (Consumer.traced Consumer.keeping))
          (([], []), 0) RegionPool.init
        = some ((([], []), 1), pool1) ∧
      pool1.free_regions_ = [] ++ [0] ∧ pool1.free_regions_.count 0 = 1 := by
  obtain ⟨_, pool1, h1, h2, h3, _⟩ :=
    rejected_row_is_retired Config.sample Decoder.sample (fun _ _ _ => false) 0
      Consumer.keeping (fun d w r => Allocs.done w) Reachable.init [] 0 [] rfl
  exact ⟨by decide, pool1, h1, h2, h3⟩

/-! ## The arenas that the Explode stage passes on -/

/-- The loop of the Explode stage, with a property `P j` of the state of the consumer and of
the pool after `j` runs of the body: when every run of the body returns and takes `P j` to
`P (j + 1)`, the loop returns with `P` at the number of runs made. -/
theorem explode_loop_rule {σ : Type} (exploder_ : Exploder) (next_ : Consumer σ)
    (region value : Nat) (len : Int) (hlen : len < 2 ^ 31) (P : Nat → σ → World → Prop)
    (hstep : ∀ j st q, P j st q → (j : Int) < len → ∃ o,
      next_ st (TableExplodeRows.callAt exploder_ region value j q).pool
        (TableExplodeRows.callAt exploder_ region value j q).region
        (TableExplodeRows.callAt exploder_ region value j q).value = some o ∧
      P (j + 1) o.next (if o.moved then o.pool
        else shared_ptr_drop o.pool (TableExplodeRows.callAt exploder_ region value j q).region)) :
    ∀ (k fuel j : Nat) (st : σ) (pool : World), k < fuel → (len - (j : Int)).toNat = k →
      P j st pool →
      ∃ st1 pool1,
        TableExplodeRows.loop exploder_ next_ region value len fuel (j : Int) st pool
          = some (st1, pool1) ∧ P (j + k) st1 pool1
  | 0, fuel, j, st, pool, hf, hk, hP => by
    obtain ⟨f, rfl⟩ : ∃ f, fuel = f + 1 := ⟨fuel - 1, by omega⟩
    exact ⟨st, pool, explode_loop_done _ _ _ _ _ _ _ _ _ (by omega), hP⟩
  | k + 1, fuel, j, st, pool, hf, hk, hP => by
    obtain ⟨f, rfl⟩ : ∃ f, fuel = f + 1 := ⟨fuel - 1, by omega⟩
    have hlt : (j : Int) < len := by omega
    obtain ⟨o, ho, hP1⟩ := hstep j st pool hP hlt
    have e1 : int32 ((j : Int) + 1) = ((j + 1 : Nat) : Int) := by
      rw [int32_eq _ (by omega) (by omega)]; push_cast; rfl
    obtain ⟨st1, pool1, r1, r2⟩ :=
      explode_loop_rule exploder_ next_ region value len hlen P hstep k f (j + 1) o.next _
        (by omega) (by push_cast; omega) hP1
    refine ⟨st1, pool1, ?_, by rw [show j + (k + 1) = j + 1 + k by omega]; exact r2⟩
    rw [explode_loop_more exploder_ next_ region value len f j st pool hlt o ho, e1]
    exact r1

/-- The call of the body of the loop on a reachable pool in which the input arena is held. -/
theorem callAt_facts (cfg : Config) (exploder_ : Exploder)
    (hex : ∀ w r v i, Allocs cfg r w (exploder_.call w r v i).1) (region value : Nat) (i : Int)
    {q : World} {held : List Nat} (h : Reachable cfg q held) (hr : region ∈ held) :
    (TableExplodeRows.callAt exploder_ region value i q).region = (RegionPool.get_region q).2 ∧
    (TableExplodeRows.callAt exploder_ region value i q).region ∉ held ∧
    q.refs (TableExplodeRows.callAt exploder_ region value i q).region = 0 ∧
    (TableExplodeRows.callAt exploder_ region value i q).region ≠ region ∧
    ((TableExplodeRows.callAt exploder_ region value i q).pool.obj
      (TableExplodeRows.callAt exploder_ region value i q).region).parents_ = [region] ∧
    (TableExplodeRows.callAt exploder_ region value i q).pool.refs
      (TableExplodeRows.callAt exploder_ region value i q).region = 1 ∧
    (∀ x, x ≠ (TableExplodeRows.callAt exploder_ region value i q).region →
      (TableExplodeRows.callAt exploder_ region value i q).pool.obj x = q.obj x) ∧
    Reachable cfg (TableExplodeRows.callAt exploder_ region value i q).pool
      ((TableExplodeRows.callAt exploder_ region value i q).region :: held) ∧
    (∀ x, (TableExplodeRows.callAt exploder_ region value i q).region ∉ (q.obj x).parents_) := by
  have hri := (reachable_inv h).1
  obtain ⟨s1, s2, s3, s4, s5, _⟩ := get_region_spec hri
  have hpos := hri.refs_pos_of_mem hr
  have hne : (RegionPool.get_region q).2 ≠ region := by
    intro e; rw [e] at s1; omega
  have hnh : (RegionPool.get_region q).2 ∉ held := by
    intro hm
    have := hri.refs_pos_of_mem hm
    omega
  have hRg : Reachable cfg (RegionPool.get_region q).1 ((RegionPool.get_region q).2 :: held) :=
    Reachable.get_region h
  have hvr : region < (RegionPool.get_region q).1.regions.length := by
    apply World.lt_length_of_refs_pos
    rw [(s5 region (Ne.symm hne)).1]
    exact hpos
  obtain ⟨a1, a2, a3, a4, _⟩ :=
    add_reference_spec (RegionPool.get_region q).1 (RegionPool.get_region q).2 region s4 hvr
  have hRa := Reachable.add_reference_to (RegionPool.get_region q).2 region hRg
    (List.mem_cons_self _ _) (List.mem_cons_of_mem _ hr)
  have hal := hex
    (Region2.add_reference_to (RegionPool.get_region q).1 (RegionPool.get_region q).2 region)
    (RegionPool.get_region q).2 value i
  have fr := allocs_frame hal
  have hRe := allocs_reachable hal hRa (List.mem_cons_self _ _)
  refine ⟨rfl, hnh, s1, hne, ?_, ?_, fun x hx => ?_, hRe, fun x hm => ?_⟩
  · show ((exploder_.call _ _ value i).1.obj (RegionPool.get_region q).2).parents_ = [region]
    rw [fr.own_parents, a1, s3.2.2.2]
    rfl
  · show (exploder_.call _ _ value i).1.refs (RegionPool.get_region q).2 = 1
    rw [fr.refs, a4 _ hne, s2]
  · show (exploder_.call _ _ value i).1.obj x = q.obj x
    have hx1 : x ≠ (RegionPool.get_region q).2 := hx
    rw [fr.obj x hx1, a3 x hx1, (s5 x hx1).2]
  · have hm1 : (RegionPool.get_region q).2 ∈ (q.obj x).parents_ := hm
    by_cases hx : x < q.regions.length
    · have h1 := World.count_le_gather (fun o => o.parents_) q x (RegionPool.get_region q).2 hx
      have h2 := List.count_pos_iff.mpr hm1
      have h3 := hri.count (RegionPool.get_region q).2
      have h4 : List.count (RegionPool.get_region q).2 (q.obj x).parents_
          ≤ q.allParents.count (RegionPool.get_region q).2 := h1
      omega
    · rw [World.obj_of_length_le q x (by omega)] at hm1
      simp [Region2.null] at hm1

theorem callAt_child (cfg : Config) (exploder_ : Exploder)
    (hex : ∀ w r v i, Allocs cfg r w (exploder_.call w r v i).1) (region value : Nat) (i : Int)
    {q : World} {held : List Nat} (h : Reachable cfg q held) (hr : region ∈ held) :
    TableExplodeRows.ChildCall cfg region (TableExplodeRows.callAt exploder_ region value i q) := by
  obtain ⟨f1, f2, f3, f4, f5, f6, _, f8, _⟩ :=
    callAt_facts cfg exploder_ hex region value i h hr
  have hri := (reachable_inv f8).1
  have hpos := hri.refs_pos_of_mem (List.mem_cons_of_mem _ hr)
  refine ⟨f4, f5, f6, fun hm => ?_, ⟨fun hm => ?_, hpos⟩, ⟨q, held, h, hr, f1, f2, f3⟩⟩
  · have := (hri.free _ hm).2.1
    omega
  · have := (hri.free _ hm).2.1
    omega

/-- One call of the Explode stage on a consumer that is client code of the pool and returns
from its calls: every call made on the consumer is a `ChildCall`, and the pool is left
reachable. -/
theorem explode_sound_calls (cfg : Config) {σ : Type} (exploder_ : Exploder)
    (hex : ∀ w r v i, Allocs cfg r w (exploder_.call w r v i).1) (next_ : Consumer σ)
    (own : σ → List Nat) (hs : Consumer.Sound cfg next_ own)
    (hn : ∀ st pool region value, ∃ o, next_ st pool region value = some o)
    (region value fuel : Nat) (hlen : exploder_.len region value < 2 ^ 31)
    (hfuel : (exploder_.len region value).toNat < fuel) (ext : List Nat) (hr : region ∈ ext)
    (st : σ) (pool : World) (h : Reachable cfg pool (own st ++ ext)) :
    ∃ st1 run pool1,
      TableExplodeRows.call exploder_ (Consumer.traced next_) fuel (st, []) pool region value
        = some ⟨(st1, run), pool1, false⟩ ∧
      (run.length : Int) = max (exploder_.len region value) 0 ∧
      (∀ c ∈ run, TableExplodeRows.ChildCall cfg region c ∧ c.region ∉ ext) ∧
      Reachable cfg pool1 (own st1 ++ ext) := by
  obtain ⟨st1, pool1, r1, r2, r3, r4⟩ :=
    explode_loop_rule exploder_ (Consumer.traced next_) region value
      (exploder_.len region value) hlen
      (fun j s q => s.2.length = j ∧ Reachable cfg q (own s.1 ++ ext) ∧
        ∀ c ∈ s.2, TableExplodeRows.ChildCall cfg region c ∧ c.region ∉ ext)
      (fun j s q hP hj => by
        obtain ⟨p1, p2, p3⟩ := hP
        have hreg : region ∈ own s.1 ++ ext := List.mem_append_right _ hr
        obtain ⟨_, f2, _, _, _, _, _, f8, _⟩ :=
          callAt_facts cfg exploder_ hex region value j p2 hreg
        have hch := callAt_child cfg exploder_ hex region value j p2 hreg
        obtain ⟨o, ho⟩ := hn s.1 (TableExplodeRows.callAt exploder_ region value j q).pool
          (TableExplodeRows.callAt exploder_ region value j q).region
          (TableExplodeRows.callAt exploder_ region value j q).value
        have hacts := acts_reachable (hs _ _ _ _ o ho) ext f8
        refine ⟨_, traced_eq next_ s.1 s.2 _ _ _ o ho, ?_, ?_, ?_⟩
        · simp [p1]
        · dsimp only
          cases hm : o.moved with
          | true =>
            rw [hm] at hacts
            simpa using hacts
          | false =>
            rw [hm] at hacts
            have := Reachable.release
              (TableExplodeRows.callAt exploder_ region value j q).region hacts
              (by simp)
            simpa using this
        · intro c hc
          rcases List.mem_append.mp hc with hc | hc
          · exact p3 c hc
          · rw [List.mem_singleton] at hc
            subst hc
            exact ⟨hch, fun hm => f2 (List.mem_append_right _ hm)⟩)
      (exploder_.len region value - ((0 : Nat) : Int)).toNat fuel 0 (st, []) pool
      (by simpa using hfuel) rfl ⟨rfl, h, by simp⟩
  refine ⟨st1.1, st1.2, pool1, ?_, ?_, r4, r3⟩
  · simp only [TableExplodeRows.call]
    have e : ((0 : Nat) : Int) = 0 := rfl
    rw [e] at r1
    rw [r1]
    rfl
  · rw [r2]
    simp only [Nat.zero_add, Nat.cast_zero, sub_zero]
    omega

theorem kept_region_mem {cfg : Config} {region : Nat} {st0 ext : List Nat} {pool0 : World}
    {j : Nat} {s : List Nat × List Call} {q : World}
    (hk : TableExplodeRows.Kept cfg region st0 ext pool0 j s q) {c : Call} (hc : c ∈ s.2) :
    c.region ∈ s.1 ++ ext := by
  rw [hk.held]
  simp only [List.mem_append, List.mem_reverse, List.mem_map]
  exact Or.inl (Or.inl ⟨c, hc, rfl⟩)

/-- One run of the body of the loop over the consumer that keeps the arenas. -/
theorem kept_step (cfg : Config) (exploder_ : Exploder)
    (hex : ∀ w r v i, Allocs cfg r w (exploder_.call w r v i).1) (region value : Nat)
    (st0 ext : List Nat) (hr : region ∈ ext) (pool0 : World) (j : Nat)
    (s : List Nat × List Call) (q : World)
    (hk : TableExplodeRows.Kept cfg region st0 ext pool0 j s q) :
    TableExplodeRows.Kept cfg region st0 ext pool0 (j + 1)
      ((TableExplodeRows.callAt exploder_ region value j q).region :: s.1,
        s.2 ++ [TableExplodeRows.callAt exploder_ region value j q])
      (TableExplodeRows.callAt exploder_ region value j q).pool := by
  have hreg : region ∈ s.1 ++ ext := List.mem_append_right _ hr
  obtain ⟨_, f2, _, f4, f5, _, f7, f8, f9⟩ :=
    callAt_facts cfg exploder_ hex region value j hk.reach hreg
  generalize TableExplodeRows.callAt exploder_ region value j q = c at f2 f4 f5 f7 f8 f9
  have hold : ∀ c1 ∈ s.2, c1.region ≠ c.region := by
    intro c1 hc1 e
    exact f2 (e ▸ kept_region_mem hk hc1)
  have hst0 : ∀ x ∈ st0, x ∈ s.1 ++ ext := by
    intro x hx
    rw [hk.held]
    simp only [List.mem_append]
    exact Or.inl (Or.inr hx)
  have hner : ∀ c1 ∈ s.2, c1.region ≠ region := by
    intro c1 hc1 e
    exact hk.fresh c1 hc1 (e ▸ List.mem_append_right _ hr)
  refine ⟨?_, ?_, f8, ?_, ?_, ?_, ?_, ?_⟩
  · simp [hk.count]
  · show c.region :: s.1 = _
    rw [hk.held]
    simp
  · show ((s.2 ++ [c]).map Call.region).Nodup
    rw [List.map_append, List.nodup_append]
    refine ⟨hk.nodup, by simp, ?_⟩
    intro x hx hx1
    simp only [List.map_cons, List.map_nil, List.mem_singleton] at hx1
    obtain ⟨c1, hc1, e⟩ := List.mem_map.mp hx
    exact hold c1 hc1 (e.trans hx1)
  · intro c1 hc1
    have hc1' : c1 ∈ s.2 ++ [c] := hc1
    rcases List.mem_append.mp hc1' with h1 | h1
    · exact hk.fresh c1 h1
    · rw [List.mem_singleton] at h1
      subst h1
      intro hm
      apply f2
      rcases List.mem_append.mp hm with h2 | h2
      · exact hst0 _ h2
      · exact List.mem_append_right _ h2
  · intro c1 hc1
    have hc1' : c1 ∈ s.2 ++ [c] := hc1
    rcases List.mem_append.mp hc1' with h1 | h1
    · rw [f7 _ (hold c1 h1)]
      exact hk.parents c1 h1
    · rw [List.mem_singleton] at h1
      subst h1
      exact f5
  · intro x hx
    have hx' : x ∉ (s.2 ++ [c]).map Call.region := hx
    simp only [List.map_append, List.map_cons, List.map_nil, List.mem_append,
      List.mem_singleton, not_or] at hx'
    rw [f7 x hx'.2]
    exact hk.others x hx'.1
  · intro c1 hc1 x hm
    have hc1' : c1 ∈ s.2 ++ [c] := hc1
    by_cases hx : x = c.region
    · subst hx
      rw [f5] at hm
      rw [List.mem_singleton] at hm
      rcases List.mem_append.mp hc1' with h1 | h1
      · exact hner c1 h1 hm
      · rw [List.mem_singleton] at h1
        subst h1
        exact f4 hm
    · rw [f7 x hx] at hm
      rcases List.mem_append.mp hc1' with h1 | h1
      · exact hk.unref c1 h1 x hm
      · rw [List.mem_singleton] at h1
        subst h1
        exact f9 x hm

/-- One call of the Explode stage on the consumer that keeps the arenas and records the
calls. -/
theorem explode_keeping (cfg : Config) (exploder_ : Exploder)
    (hex : ∀ w r v i, Allocs cfg r w (exploder_.call w r v i).1) (region value fuel : Nat)
    (hlen : exploder_.len region value < 2 ^ 31)
    (hfuel : (exploder_.len region value).toNat < fuel) (st0 ext : List Nat)
    (hr : region ∈ ext) (pool0 : World) (h : Reachable cfg pool0 (st0 ++ ext)) :
    ∃ st1 run pool1,
      TableExplodeRows.call exploder_ (Consumer.traced Consumer.keeping) fuel (st0, []) pool0
        region value = some ⟨(st1, run), pool1, false⟩ ∧
      TableExplodeRows.Kept cfg region st0 ext pool0 (exploder_.len region value).toNat
        (st1, run) pool1 := by
  obtain ⟨st1, pool1, r1, r2⟩ :=
    explode_loop_rule exploder_ (Consumer.traced Consumer.keeping) region value
      (exploder_.len region value) hlen
      (fun j s q => TableExplodeRows.Kept cfg region st0 ext pool0 j s q)
      (fun j s q hP hj =>
        ⟨_, rfl, kept_step cfg exploder_ hex region value st0 ext hr pool0 j s q hP⟩)
      (exploder_.len region value - ((0 : Nat) : Int)).toNat fuel 0 (st0, []) pool0
      (by simpa using hfuel) rfl
      ⟨rfl, rfl, h, by simp, by simp, by simp, fun _ _ => rfl, by simp⟩
  refine ⟨st1.1, st1.2, pool1, ?_, ?_⟩
  · simp only [TableExplodeRows.call]
    have e : ((0 : Nat) : Int) = 0 := rfl
    rw [e] at r1
    rw [r1]
    rfl
  · simpa using r2

/-- When only destructor runs lie between `s1` and the reachable state `s3`, no `RegionPtr` to
`a` or to one of the arenas `K` is left in `s3`, only arenas of `K` referred to `a` in `s1`
and nothing referred to an arena of `K`, then `a` is on the list of retired arenas of `s3`,
once. -/
theorem retired_of_frame_children {cfg : Config} {s1 s3 : World} {hs3 : List Nat}
    (h3 : Reachable cfg s3 hs3) (f : Frame s1 s3) (a : Nat) (K : List Nat)
    (hva : a < s1.regions.length) (hvK : ∀ k ∈ K, k < s1.regions.length)
    (hca : hs3.count a = 0) (hcK : ∀ k ∈ K, hs3.count k = 0)
    (hpa : ∀ x, x ∉ K → a ∉ (s1.obj x).parents_)
    (hpK : ∀ k ∈ K, ∀ x, k ∉ (s1.obj x).parents_) :
    s3.free_regions_.count a = 1 := by
  have hinv := (reachable_inv h3).1
  have hnl := reachable_noLeak h3
  have hsub : ∀ x y, y ∈ (s3.obj x).parents_ → y ∈ (s1.obj x).parents_ := by
    intro x y hy
    rcases f.obj x with e | e
    · rw [← e]; exact hy
    · rw [e] at hy; simp [Region2.reset] at hy
  have hK : ∀ k ∈ K, (s3.obj k).parents_ = [] := by
    intro k hk
    have hk0 : k ∉ s3.allParents := by
      intro hm
      obtain ⟨x, _, hx⟩ := World.exists_of_mem_gather _ s3 k hm
      exact hpK k hk x (hsub x k hx)
    have hrk : s3.refs k = 0 := by
      have := hinv.count k
      rw [List.count_eq_zero_of_not_mem hk0, hcK k hk] at this
      simpa using this
    have hfree : k ∈ s3.free_regions_ := by
      simpa using hnl k (by rw [f.length]; exact hvK k hk) hrk
    exact (hinv.free k hfree).2.2.2.2.2
  have ha0 : a ∉ s3.allParents := by
    intro hm
    obtain ⟨x, _, hx⟩ := World.exists_of_mem_gather _ s3 a hm
    by_cases e : x ∈ K
    · rw [hK x e] at hx
      simp at hx
    · exact hpa x e (hsub x a hx)
  have hra : s3.refs a = 0 := by
    have := hinv.count a
    rw [List.count_eq_zero_of_not_mem ha0, hca] at this
    simpa using this
  have hafree : a ∈ s3.free_regions_ := by
    simpa using hnl a (by rw [f.length]; exact hva) hra
  have hnd : s3.free_regions_.Nodup := by
    simpa using hinv.nodup
  exact List.count_eq_one_of_mem hnd hafree

/-- After the call of the Explode stage on the consumer that keeps the arenas, and after the
caller has dropped its `RegionPtr` to the input arena: while the consumer still holds one of
the arenas passed, the input arena is not on the list of retired arenas. -/
theorem kept_parent_live {cfg : Config} {region : Nat} {st0 ext : List Nat} {pool0 : World}
    {j : Nat} {s : List Nat × List Call} {q : World}
    (hk : TableExplodeRows.Kept cfg region st0 ext pool0 j s q) (hr : region ∈ ext)
    (l1 l2 : List Nat) (hp : (l1 ++ l2).Perm (s.2.map Call.region)) (hl2 : l2 ≠ []) :
    region ∉ (release_all (shared_ptr_drop q region) l1).free_regions_ := by
  have hreg : region ∈ s.1 ++ ext := List.mem_append_right _ hr
  have hR2 := Reachable.release region hk.reach hreg
  have hnd : (l1 ++ l2).Nodup := hp.nodup_iff.mpr hk.nodup
  have hmem : ∀ a, a ∈ l1 ++ l2 → ∃ c ∈ s.2, c.region = a := by
    intro a ha
    exact List.mem_map.mp (hp.subset ha)
  have hner : ∀ a, a ∈ l1 ++ l2 → a ≠ region := by
    intro a ha e
    obtain ⟨c, hc, e1⟩ := hmem a ha
    exact hk.fresh c hc (by rw [e1, e]; exact List.mem_append_right _ hr)
  have hheld : ∀ a, a ∈ l1 ++ l2 → 1 ≤ ((s.1 ++ ext).erase region).count a := by
    intro a ha
    obtain ⟨c, hc, e1⟩ := hmem a ha
    rw [List.count_erase_of_ne (hner a ha)]
    exact List.count_pos_iff.mpr (e1 ▸ kept_region_mem hk hc)
  have hcnt : ∀ a, l1.count a ≤ ((s.1 ++ ext).erase region).count a := by
    intro a
    by_cases ha : a ∈ l1
    · have h1 := hheld a (List.mem_append_left _ ha)
      have h2 : l1.count a ≤ 1 := List.nodup_iff_count_le_one.mp (List.Nodup.of_append_left hnd) a
      omega
    · rw [List.count_eq_zero_of_not_mem ha]
      exact Nat.zero_le _
  obtain ⟨hs1, hRt, hc1⟩ := release_all_reachable l1 hR2 hcnt
  obtain ⟨c, hc⟩ := List.exists_mem_of_ne_nil l2 hl2
  have hcl1 : c ∉ l1 := fun hm => (List.nodup_append.mp hnd).2.2 hm hc
  have hchs : c ∈ hs1 := by
    have h1 := hc1 c
    have h2 := hheld c (List.mem_append_right _ hc)
    rw [List.count_eq_zero_of_not_mem hcl1] at h1
    exact List.count_pos_iff.mp (by omega)
  have hrt := (reachable_inv hRt).1
  have hpos := hrt.refs_pos_of_mem hchs
  have hcfree : c ∉ (release_all (shared_ptr_drop q region) l1).free_regions_ := by
    intro hm
    have := (hrt.free c hm).2.1
    omega
  have hobj : (release_all (shared_ptr_drop q region) l1).obj c = q.obj c := by
    rcases release_all_obj_or_retired l1 (shared_ptr_drop q region) c with h1 | h1
    · rcases drop_obj_or_retired q region c with h2 | h2
      · exact h1.trans h2
      · obtain ⟨l, hl⟩ := (release_all_frame l1 (shared_ptr_drop q region)).free_regions
        exact absurd (by rw [hl]; exact List.mem_append_left _ h2) hcfree
    · exact absurd h1 hcfree
  obtain ⟨call, hcall, e1⟩ := hmem c (List.mem_append_right _ hc)
  have hpar : ((release_all (shared_ptr_drop q region) l1).obj c).parents_ = [region] := by
    rw [hobj, ← e1]
    exact hk.parents call hcall
  have hin : region ∈ (release_all (shared_ptr_drop q region) l1).allParents :=
    World.mem_gather (fun o => o.parents_) _ c region
      (by show region ∈ ((release_all (shared_ptr_drop q region) l1).obj c).parents_
          rw [hpar]; simp)
      (World.lt_length_of_refs_pos _ c hpos)
  intro hm
  have h1 := (hrt.free region hm).2.1
  have h2 := hrt.count region
  have h3 := List.count_pos_iff.mpr hin
  omega

/-- After the call of the Explode stage on the consumer that keeps the arenas, when the
`RegionPtr` of the caller was the only reference to the input arena: once the caller has
dropped it and the consumer has released all the arenas passed, in any order, the input arena
is on the list of retired arenas, once. -/
theorem kept_parent_retired {cfg : Config} {region : Nat} {st0 ext : List Nat} {pool0 : World}
    {j : Nat} {s : List Nat × List Call} {q : World}
    (hk : TableExplodeRows.Kept cfg region st0 ext pool0 j s q) (hr : region ∈ ext)
    (h0 : Reachable cfg pool0 (st0 ++ ext)) (hone : pool0.refs region = 1)
    (order : List Nat) (hp : order.Perm (s.2.map Call.region)) :
    (release_all (shared_ptr_drop q region) order).free_regions_.count region = 1 := by
  have hreg : region ∈ s.1 ++ ext := List.mem_append_right _ hr
  have hri0 := (reachable_inv h0).1
  have hc0 := hri0.count region
  have hin0 : 1 ≤ (st0 ++ ext).count region :=
    List.count_pos_iff.mpr (List.mem_append_right _ hr)
  simp only [List.count_nil] at hc0
  have hR2 := Reachable.release region hk.reach hreg
  have hndK := hk.nodup
  have hnd : order.Nodup := hp.nodup_iff.mpr hndK
  have hmemK : ∀ a, a ∈ s.2.map Call.region → ∃ c ∈ s.2, c.region = a :=
    fun a ha => List.mem_map.mp ha
  have hnerK : ∀ a, a ∈ s.2.map Call.region → a ≠ region := by
    intro a ha e
    obtain ⟨c, hc, e1⟩ := hmemK a ha
    exact hk.fresh c hc (by rw [e1, e]; exact List.mem_append_right _ hr)
  have hfreshK : ∀ a, a ∈ s.2.map Call.region → (st0 ++ ext).count a = 0 := by
    intro a ha
    obtain ⟨c, hc, e1⟩ := hmemK a ha
    exact List.count_eq_zero_of_not_mem (e1 ▸ hk.fresh c hc)
  have hcountS : ∀ a, (s.1 ++ ext).count a
      = (s.2.map Call.region).count a + (st0 ++ ext).count a := by
    intro a
    rw [hk.held]
    simp only [List.count_append, List.count_reverse]
    omega
  have hregK : region ∉ s.2.map Call.region := fun hm => hnerK region hm rfl
  have hcnt : ∀ a, order.count a ≤ ((s.1 ++ ext).erase region).count a := by
    intro a
    rw [hp.count_eq a]
    by_cases ha : a ∈ s.2.map Call.region
    · rw [List.count_erase_of_ne (hnerK a ha), hcountS a]
      omega
    · rw [List.count_eq_zero_of_not_mem ha]
      exact Nat.zero_le _
  obtain ⟨hs1, hRt, hc1⟩ := release_all_reachable order hR2 hcnt
  have hfr : Frame q (release_all (shared_ptr_drop q region) order) :=
    (drop_frame q region).andThen (release_all_frame order _)
  have hriq := (reachable_inv hk.reach).1
  refine retired_of_frame_children hRt hfr region (s.2.map Call.region) ?_ ?_ ?_ ?_ ?_ ?_
  · exact World.lt_length_of_refs_pos _ _ (hriq.refs_pos_of_mem hreg)
  · intro k hkm
    obtain ⟨c, hc, e1⟩ := hmemK k hkm
    exact World.lt_length_of_refs_pos _ _
      (hriq.refs_pos_of_mem (e1 ▸ kept_region_mem hk hc))
  · have h1 := hc1 region
    have h2 := hcountS region
    rw [hp.count_eq, List.count_eq_zero_of_not_mem hregK, List.count_erase_self] at h1
    rw [List.count_eq_zero_of_not_mem hregK] at h2
    omega
  · intro k hkm
    have h1 := hc1 k
    have h2 := hcountS k
    have h3 := hfreshK k hkm
    have h4 : (s.2.map Call.region).count k = 1 := List.count_eq_one_of_mem hndK hkm
    rw [hp.count_eq, List.count_erase_of_ne (hnerK k hkm)] at h1
    omega
  · intro x hx hm
    rw [hk.others x hx] at hm
    by_cases hv : x < pool0.regions.length
    · have h1 := World.count_le_gather (fun o => o.parents_) pool0 x region hv
      have h2 := List.count_pos_iff.mpr hm
      have h3 : List.count region (pool0.obj x).parents_ ≤ pool0.allParents.count region := h1
      omega
    · rw [World.obj_of_length_le pool0 x (by omega)] at hm
      simp [Region2.null] at hm
  · intro k hkm x
    obtain ⟨c, hc, e1⟩ := hmemK k hkm
    rw [← e1]
    exact hk.unref c hc x

/-- C27: at each call that `TableExplodeRows::operator()` makes on `next_`, the arena passed is
one that `get_region()` of the pool gave for that index, it is not the input arena, and its
parent list holds exactly one reference, to the input arena (for every consumer that is client
code of the pool and returns from its calls). For the consumer that keeps the arenas it is
passed: after the caller has dropped its `RegionPtr` to the input arena, the input arena is not
on the list of retired arenas while one of the arenas passed is still held, in whatever order
the others are released; and when the `RegionPtr` of the caller was the only reference to the
input arena, it is on the list of retired arenas, once, when the last one is released. -/
theorem explode_child_arenas (cfg : Config) (exploder_ : Exploder)
    (hex : ∀ w r v i, Allocs cfg r w (exploder_.call w r v i).1) (region value fuel : Nat)
    (hlen : exploder_.len region value < 2 ^ 31)
    (hfuel : (exploder_.len region value).toNat < fuel) (ext : List Nat) (hr : region ∈ ext) :
    (∀ (σ : Type) (next_ : Consumer σ) (own : σ → List Nat), Consumer.Sound cfg next_ own →
      (∀ st pool region value, ∃ o, next_ st pool region value = some o) →
      ∀ (st : σ) (pool : World), Reachable cfg pool (own st ++ ext) →
      ∃ st1 run pool1,
        TableExplodeRows.call exploder_ (Consumer.traced next_) fuel (st, []) pool region value
          = some ⟨(st1, run), pool1, false⟩ ∧
        (run.length : Int) = max (exploder_.len region value) 0 ∧
        ∀ c ∈ run, TableExplodeRows.ChildCall cfg region c) ∧
    (∀ (st0 : List Nat) (pool : World), Reachable cfg pool (st0 ++ ext) →
      ∃ st1 run pool1,
        TableExplodeRows.call exploder_ (Consumer.traced Consumer.keeping) fuel (st0, []) pool
          region value = some ⟨(st1, run), pool1, false⟩ ∧
        run.length = (exploder_.len region value).toNat ∧
        st1 = (run.map Call.region).reverse ++ st0 ∧
        (∀ c ∈ run, (pool1.obj c.region).parents_ = [region]) ∧
        (∀ l1 l2 : List Nat, (l1 ++ l2).Perm (run.map Call.region) → l2 ≠ [] →
          region ∉ (release_all (shared_ptr_drop pool1 region) l1).free_regions_) ∧
        (pool.refs region = 1 → ∀ order : List Nat, order.Perm (run.map Call.region) →
          (release_all (shared_ptr_drop pool1 region) order).free_regions_.count region
            = 1)) := by
  refine ⟨fun σ next_ own hs hn st pool h => ?_, fun st0 pool h => ?_⟩
  · obtain ⟨st1, run, pool1, r1, r2, r3, _⟩ :=
      explode_sound_calls cfg exploder_ hex next_ own hs hn region value fuel hlen hfuel ext hr
        st pool h
    exact ⟨st1, run, pool1, r1, r2, fun c hc => (r3 c hc).1⟩
  · obtain ⟨st1, run, pool1, r1, hk⟩ :=
      explode_keeping cfg exploder_ hex region value fuel hlen hfuel st0 ext hr pool h
    exact ⟨st1, run, pool1, r1, hk.count, hk.held, hk.parents,
      fun l1 l2 hp hl2 => kept_parent_live hk hr l1 l2 hp hl2,
      fun hone order hp => kept_parent_retired hk hr h hone order hp⟩

/-- C27 at a sample: the input arena 0 of a fresh pool, a row of three elements and the
consumer that keeps the arenas. The arenas passed are 1, 2 and 3, each with the parent list
`[0]`; after the caller has dropped arena 0 and the consumer arenas 2 and 1, arena 0 is not
retired; it is retired when arena 3 is released. -/
theorem explode_child_arenas_witness :
    (TableExplodeRows.call Exploder.sample (Consumer.traced Consumer.keeping) 4 ([], [])
        (RegionPool.get_region RegionPool.init).1 0 3).map
        (fun o => (o.next.1, o.next.2.map Call.region,
          o.next.2.map (fun c => (c.pool.obj c.region).parents_)))
      = some ([3, 2, 1], [1, 2, 3], [[0], [0], [0]]) ∧
    (TableExplodeRows.call Exploder.sample (Consumer.traced Consumer.keeping) 4 ([], [])
        (RegionPool.get_region RegionPool.init).1 0 3).map
        (fun o => ((shared_ptr_drop o.pool 0).free_regions_,
          (release_all (shared_ptr_drop o.pool 0) [2, 1]).free_regions_,
          (release_all (shared_ptr_drop o.pool 0) [2, 1, 3]).free_regions_))
      = some ([], [2, 1], [2, 1, 0, 3]) ∧
    (∃ st1 run pool1,
      TableExplodeRows.call Exploder.sample (Consumer.traced Consumer.dropping) 4 ((), [])
          (RegionPool.get_region RegionPool.init).1 0 3 = some ⟨(st1, run), pool1, false⟩ ∧
        (run.length : Int) = max (Exploder.sample.len 0 3) 0 ∧
        ∀ c ∈ run, TableExplodeRows.ChildCall Config.sample 0 c) ∧
    ∃ st1 run pool1,
      TableExplodeRows.call Exploder.sample (Consumer.traced Consumer.keeping) 4 ([], [])
          (RegionPool.get_region RegionPool.init).1 0 3 = some ⟨(st1, run), pool1, false⟩ ∧
        run.length = (Exploder.sample.len 0 3).toNat ∧
        st1 = (run.map Call.region).reverse ++ [] ∧
        (∀ c ∈ run, (pool1.obj c.region).parents_ = [0]) ∧
        (∀ l1 l2 : List Nat, (l1 ++ l2).Perm (run.map Call.region) → l2 ≠ [] →
          0 ∉ (release_all (shared_ptr_drop pool1 0) l1).free_regions_) ∧
        ((RegionPool.get_region RegionPool.init).1.refs 0 = 1 →
          ∀ order : List Nat, order.Perm (run.map Call.region) →
          (release_all (shared_ptr_drop pool1 0) order).free_regions_.count 0 = 1) := by
  have h := explode_child_arenas Config.sample Exploder.sample (fun w r v i => Allocs.done w)
    0 3 4 (by decide) (by decide) [0] (by simp)
  refine ⟨by decide, by decide, ?_, ?_⟩
  · exact h.1 Unit Consumer.dropping (fun _ => [])
      (fun st pool region value o ho => by
        simp only [Consumer.dropping, Option.some.injEq] at ho
        subst ho
        exact Acts.done _ _)
      (fun st pool region value => ⟨_, rfl⟩) () _ Reachable.init.get_region
  · exact h.2 [] _ Reachable.init.get_region

theorem round_up_alignment_eq (off alignment : Nat) :
    round_up_alignment off alignment = round_up_offset off alignment := rfl

theorem pow_two_lt_exp {k n : Nat} (h : 2 ^ k < 2 ^ n) : k < n :=
  (Nat.pow_lt_pow_iff_right (by decide)).mp h

/-- The least multiple of `a` at or above `off`, as a quotient. -/
theorem round_up_quotient (off a : Nat) (ha : 0 < a) :
    a ∣ (off + a - 1) / a * a ∧ off ≤ (off + a - 1) / a * a ∧
      (off + a - 1) / a * a < off + a ∧
      ∀ m, a ∣ m → off ≤ m → (off + a - 1) / a * a ≤ m := by
  have hdm := Nat.div_add_mod (off + a - 1) a
  have hlt := Nat.mod_lt (off + a - 1) ha
  rw [Nat.mul_comm] at hdm
  refine ⟨Dvd.intro_left _ rfl, by omega, by omega, ?_⟩
  rintro m ⟨c, rfl⟩ hm
  rw [Nat.mul_comm a c]
  apply Nat.mul_le_mul_right
  apply (Nat.div_le_iff_le_mul_add_pred ha).mpr
  have : off ≤ a * c := hm
  omega

/-- C32: for every `off ≥ 0` and every alignment `2 ^ k` with `off + alignment` a `long`,
`round_up_offset(off, alignment)` is a multiple of the alignment, it is at least `off` and
less than `off + alignment`, and no multiple of the alignment from `off` on is smaller;
`round_up_alignment(long, long)` returns the same value, and rounding the rounded offset once
more returns it unchanged. -/
theorem round_up_offset_least_multiple (off k : Nat) (h : off + 2 ^ k < 2 ^ 63) :
    2 ^ k ∣ round_up_offset off (2 ^ k) ∧
    off ≤ round_up_offset off (2 ^ k) ∧
    round_up_offset off (2 ^ k) < off + 2 ^ k ∧
    (∀ m, 2 ^ k ∣ m → off ≤ m → round_up_offset off (2 ^ k) ≤ m) ∧
    round_up_alignment off (2 ^ k) = round_up_offset off (2 ^ k) ∧
    round_up_offset (round_up_offset off (2 ^ k)) (2 ^ k) = round_up_offset off (2 ^ k) ∧
    round_up_alignment (round_up_alignment off (2 ^ k)) (2 ^ k)
      = round_up_alignment off (2 ^ k) := by
  have hpos : 0 < 2 ^ k := Nat.pow_pos (by decide)
  have hk : k < 63 := pow_two_lt_exp (by omega)
  have e := round_up_offset_pow_two off k (by omega) hk
  obtain ⟨q1, q2, q3, q4⟩ := round_up_quotient off (2 ^ k) hpos
  have e2 := round_up_offset_pow_two ((off + 2 ^ k - 1) / 2 ^ k * 2 ^ k) k (by omega) hk
  obtain ⟨p1, p2, p3, p4⟩ := round_up_quotient ((off + 2 ^ k - 1) / 2 ^ k * 2 ^ k) (2 ^ k) hpos
  have hid : round_up_offset ((off + 2 ^ k - 1) / 2 ^ k * 2 ^ k) (2 ^ k)
      = (off + 2 ^ k - 1) / 2 ^ k * 2 ^ k := by
    rw [e2]
    exact Nat.le_antisymm (p4 _ q1 (Nat.le_refl _)) p2
  rw [round_up_alignment_eq, round_up_alignment_eq, e]
  exact ⟨q1, q2, q3, q4, rfl, hid, hid⟩

/-- C32, at samples: 13 rounded up to a multiple of 8 is 16, and 16 stays 16; with the
alignment 1 an offset stays as it is. -/
theorem round_up_offset_least_multiple_witness :
    round_up_offset 13 8 = 16 ∧ round_up_alignment 13 8 = 16 ∧ round_up_offset 16 8 = 16 ∧
    round_up_offset 13 1 = 13 ∧
    2 ^ 3 ∣ round_up_offset 13 (2 ^ 3) ∧
    13 ≤ round_up_offset 13 (2 ^ 3) ∧
    round_up_offset 13 (2 ^ 3) < 13 + 2 ^ 3 ∧
    round_up_offset (round_up_offset 13 (2 ^ 3)) (2 ^ 3) = round_up_offset 13 (2 ^ 3) := by
  obtain ⟨h1, h2, h3, _, _, h6, _⟩ := round_up_offset_least_multiple 13 3 (by decide)
  exact ⟨by decide, by decide, by decide, by decide, h1, h2, h3, h6⟩

/-! ## `floordiv` and `lfloordiv` -/

theorem int64_eq (x : Int) (h0 : -(2 ^ 63) ≤ x) (h1 : x < 2 ^ 63) : int64 x = x := by
  unfold int64
  omega

/-- Division that truncates towards zero, for a positive divisor: the quotient, the product
and the remainder stay within the bounds of the dividend, and lowering the quotient by 1 when
the remainder is negative gives the quotient rounded towards negative infinity. -/
theorem tdiv_pos_divisor (n d : Int) (hd : 0 < d) :
    (if n - Int.tdiv n d * d < 0 then Int.tdiv n d - 1 else Int.tdiv n d) = n / d ∧
    (0 ≤ n → 0 ≤ Int.tdiv n d * d ∧ Int.tdiv n d * d ≤ n ∧ 0 ≤ Int.tdiv n d ∧
      Int.tdiv n d ≤ n) ∧
    (n < 0 → n ≤ Int.tdiv n d * d ∧ Int.tdiv n d * d ≤ 0 ∧ n ≤ Int.tdiv n d ∧
      Int.tdiv n d ≤ 0 ∧ (n - Int.tdiv n d * d < 0 → n < Int.tdiv n d)) ∧
    -d < n - Int.tdiv n d * d ∧ n - Int.tdiv n d * d < d := by
  by_cases hn : 0 ≤ n
  · have hq : Int.tdiv n d = n / d := Int.tdiv_eq_ediv hn (Int.le_of_lt hd)
    have h1 := Int.ediv_add_emod n d
    have h2 := Int.emod_nonneg n (Int.ne_of_gt hd)
    have h3 := Int.emod_lt_of_pos n hd
    have h4 : 0 ≤ n / d := Int.ediv_nonneg hn (Int.le_of_lt hd)
    have h5 : 0 ≤ d * (n / d) := Int.mul_nonneg (Int.le_of_lt hd) h4
    have h6 : n / d ≤ d * (n / d) := by nlinarith
    rw [hq, Int.mul_comm (n / d) d]
    refine ⟨by rw [if_neg (by omega)], fun _ => ⟨h5, by omega, h4, by omega⟩,
      fun h => absurd hn (by omega), by omega, by omega⟩
  · have hm : 0 ≤ -n := by omega
    have hq : Int.tdiv n d = -(-n / d) := by
      have e : n = -(-n) := by omega
      rw [e, Int.neg_tdiv, Int.tdiv_eq_ediv hm (Int.le_of_lt hd)]
      simp
    have h1 := Int.ediv_add_emod (-n) d
    have h2 := Int.emod_nonneg (-n) (Int.ne_of_gt hd)
    have h3 := Int.emod_lt_of_pos (-n) hd
    have h4 : 0 ≤ -n / d := Int.ediv_nonneg hm (Int.le_of_lt hd)
    have h5 : 0 ≤ d * (-n / d) := Int.mul_nonneg (Int.le_of_lt hd) h4
    have h6 : -n / d ≤ d * (-n / d) := by nlinarith
    have e1 : -(-n / d) * d = -(d * (-n / d)) := by ring
    rw [hq, e1]
    refine ⟨?_, fun h => absurd h hn, fun _ => ⟨by omega, by omega, by omega, by omega,
      fun _ => by omega⟩, by omega, by omega⟩
    by_cases hr : -n % d = 0
    · rw [if_neg (by omega)]
      symm
      refine ((Int.ediv_emod_unique hd).mpr ⟨?_, Int.le_refl 0, hd⟩).1
      have e2 : d * -(-n / d) = -(d * (-n / d)) := by ring
      rw [e2]
      omega
    · rw [if_pos (by omega)]
      symm
      refine ((Int.ediv_emod_unique hd).mpr
        (⟨?_, ?_, ?_⟩ : (d - -n % d) + d * (-(-n / d) - 1) = n ∧ 0 ≤ d - -n % d ∧
          d - -n % d < d)).1
      · have e2 : d * (-(-n / d) - 1) = -(d * (-n / d)) - d := by ring
        rw [e2]
        omega
      · omega
      · omega

/-- The quotient rounded towards negative infinity, for a positive divisor. -/
theorem floor_quotient (n d : Int) (hd : 0 < d) :
    Int.fdiv n d = n / d ∧ 0 ≤ n - n / d * d ∧ n - n / d * d < d ∧
      n / d * d ≤ n ∧ n < (n / d + 1) * d ∧ ∀ q : Int, q * d ≤ n → q ≤ n / d := by
  have h1 := Int.ediv_add_emod n d
  have h2 := Int.emod_nonneg n (Int.ne_of_gt hd)
  have h3 := Int.emod_lt_of_pos n hd
  have e1 : n / d * d = d * (n / d) := Int.mul_comm _ _
  have e2 : (n / d + 1) * d = d * (n / d) + d := by ring
  rw [e1, e2]
  refine ⟨Int.fdiv_eq_ediv n (Int.le_of_lt hd), by omega, by omega, by omega, by omega, ?_⟩
  intro q hq
  exact Int.le_ediv_of_mul_le hd hq

/-- The body of `floordiv` and of `lfloordiv` for a positive divisor, with `wrap` the
arithmetic of the type and `W` its bound: no operation leaves the type, and the result is the
quotient rounded towards negative infinity. -/
theorem floordiv_body (W : Int) (wrap : Int → Int)
    (hw : ∀ x, -W ≤ x → x < W → wrap x = x) (n d : Int) (hn0 : -W ≤ n) (hn1 : n < W)
    (hd : 0 < d) (hd1 : d < W) :
    (if wrap (n - wrap (Int.tdiv n d * d)) < 0 then wrap (Int.tdiv n d - 1) else Int.tdiv n d)
      = n / d := by
  obtain ⟨h1, h2, h3, h4, h5⟩ := tdiv_pos_divisor n d hd
  have e1 : wrap (Int.tdiv n d * d) = Int.tdiv n d * d := by
    by_cases hn : 0 ≤ n
    · obtain ⟨a, b, _, _⟩ := h2 hn
      exact hw _ (by omega) (by omega)
    · obtain ⟨a, b, _, _, _⟩ := h3 (by omega)
      exact hw _ (by omega) (by omega)
  have e2 : wrap (n - Int.tdiv n d * d) = n - Int.tdiv n d * d := hw _ (by omega) (by omega)
  rw [e1, e2]
  by_cases hr : n - Int.tdiv n d * d < 0
  · have hneg : n < 0 := by
      by_contra hc
      obtain ⟨_, b, _, _⟩ := h2 (by omega)
      omega
    obtain ⟨_, _, _, c, e⟩ := h3 hneg
    have e3 : wrap (Int.tdiv n d - 1) = Int.tdiv n d - 1 :=
      hw _ (by have := e hr; omega) (by omega)
    rw [if_pos hr] at h1 ⊢
    rw [e3, h1]
  · rw [if_neg hr] at h1 ⊢
    exact h1

/-- C36: for every `int` `n` and every `int` divisor `d > 0`, `floordiv(n, d)` returns the
quotient `n / d` rounded towards negative infinity, so that `n - floordiv(n, d) * d` is at
least 0 and less than `d`; `lfloordiv` does the same for `long` values. -/
theorem floordiv_rounds_down (n d : Int) (hd : 0 < d) :
    (-(2 ^ 31) ≤ n → n < 2 ^ 31 → d < 2 ^ 31 → floordiv n d = some (Int.fdiv n d)) ∧
    (-(2 ^ 63) ≤ n → n < 2 ^ 63 → d < 2 ^ 63 → lfloordiv n d = some (Int.fdiv n d)) ∧
    0 ≤ n - Int.fdiv n d * d ∧ n - Int.fdiv n d * d < d ∧
    Int.fdiv n d * d ≤ n ∧ n < (Int.fdiv n d + 1) * d ∧
    ∀ q : Int, q * d ≤ n → q ≤ Int.fdiv n d := by
  obtain ⟨f1, f2, f3, f4, f5, f6⟩ := floor_quotient n d hd
  rw [f1]
  refine ⟨fun h0 h1 h2 => ?_, fun h0 h1 h2 => ?_, f2, f3, f4, f5, f6⟩
  · unfold floordiv
    rw [if_neg (by omega)]
    exact congrArg some
      (floordiv_body (2 ^ 31) int32 (fun x a b => int32_eq x a b) n d h0 h1 hd h2)
  · unfold lfloordiv
    rw [if_neg (by omega)]
    exact congrArg some
      (floordiv_body (2 ^ 63) int64 (fun x a b => int64_eq x a b) n d h0 h1 hd h2)

/-- C36, at samples: `floordiv(-7, 2)` is -4 with the remainder 1, `floordiv(7, 2)` is 3,
`floordiv(INT_MIN, 1)` is `INT_MIN`, and `lfloordiv(-7, 2)` is -4. -/
theorem floordiv_rounds_down_witness :
    floordiv (-7) 2 = some (-4) ∧ floordiv 7 2 = some 3 ∧
    floordiv (-2147483648) 1 = some (-2147483648) ∧ lfloordiv (-7) 2 = some (-4) ∧
    floordiv (-7) 2 = some (Int.fdiv (-7) 2) ∧ lfloordiv (-7) 2 = some (Int.fdiv (-7) 2) ∧
    0 ≤ -7 - Int.fdiv (-7) 2 * 2 ∧ -7 - Int.fdiv (-7) 2 * 2 < 2 := by
  obtain ⟨h1, h2, h3, h4, _⟩ := floordiv_rounds_down (-7) 2 (by decide)
  exact ⟨by decide, by decide, by decide, by decide,
    h1 (by decide) (by decide) (by decide), h2 (by decide) (by decide) (by decide), h3, h4⟩

/-- C37 fails on the code: for the divisor -2, `floordiv(7, -2)` returns -3, where the
quotient rounded towards negative infinity is -4, and leaves the remainder 1, which is not
in `(-2, 0]`; `floordiv(-7, -2)` returns 2, where the rounded quotient is 3, and leaves the
remainder -3; `lfloordiv` returns the same.  The test `r < 0` is the adjustment for a
positive divisor only. -/
theorem floordiv_negative_divisor :
    floordiv 7 (-2) = some (-3) ∧ Int.fdiv 7 (-2) = -4 ∧
    ¬ (-2 < (7 : Int) - (-3) * (-2) ∧ (7 : Int) - (-3) * (-2) ≤ 0) ∧
    floordiv (-7) (-2) = some 2 ∧ Int.fdiv (-7) (-2) = 3 ∧
    ¬ (-2 < (-7 : Int) - 2 * (-2) ∧ (-7 : Int) - 2 * (-2) ≤ 0) ∧
    lfloordiv 7 (-2) = some (-3) ∧ lfloordiv (-7) (-2) = some 2 ∧
    floordiv (-6) (-2) = some 3 := by
  decide

/-! ## Bits -/

set_option maxRecDepth 100000 in
theorem byte_bit : ∀ x, x < 256 → ∀ j, j < 8 →
    (char_to_int x &&& (1 <<< j) != 0) = x.testBit j := by decide

set_option maxRecDepth 100000 in
theorem byte_set : ∀ x, x < 256 → ∀ k, k < 8 →
    (char_to_int x ||| (1 <<< k)) % 256 = x ||| 2 ^ k := by decide

set_option maxRecDepth 100000 in
theorem byte_clear : ∀ x, x < 256 → ∀ k, k < 8 →
    (char_to_int x &&& (2 ^ 32 - 1 - (1 <<< k))) % 256 = x &&& (2 ^ 8 - (2 ^ k + 1)) := by
  decide

theorem bit_index (i : Nat) : i >>> 3 = i / 8 ∧ i &&& 0x7 = i % 8 := by
  refine ⟨by rw [Nat.shiftRight_eq_div_pow], ?_⟩
  exact Nat.and_pow_two_sub_one_eq_mod i 3

theorem getD_byte_lt (p : List Nat) (hp : ∀ x ∈ p, x < 256) (m : Nat) : p.getD m 0 < 256 := by
  by_cases h : m < p.length
  · rw [List.getD_eq_getElem _ _ h]
    exact hp _ (List.getElem_mem h)
  · rw [getD_of_length_le p m 0 (by omega)]
    decide

theorem load_bit_eq (p : List Nat) (hp : ∀ x ∈ p, x < 256) (j : Nat) :
    load_bit p j = (p.getD (j / 8) 0).testBit (j % 8) := by
  unfold load_bit
  rw [(bit_index j).1, (bit_index j).2]
  exact byte_bit _ (getD_byte_lt p hp _) _ (Nat.mod_lt _ (by decide))

theorem set_bit_eq (p : List Nat) (hp : ∀ x ∈ p, x < 256) (i : Nat) :
    set_bit p i = p.set (i / 8) (p.getD (i / 8) 0 ||| 2 ^ (i % 8)) := by
  unfold set_bit
  simp only [(bit_index i).1, (bit_index i).2]
  rw [byte_set _ (getD_byte_lt p hp _) _ (Nat.mod_lt _ (by decide))]

theorem clear_bit_eq (p : List Nat) (hp : ∀ x ∈ p, x < 256) (i : Nat) :
    clear_bit p i = p.set (i / 8) (p.getD (i / 8) 0 &&& (2 ^ 8 - (2 ^ (i % 8) + 1))) := by
  unfold clear_bit
  simp only [(bit_index i).1, (bit_index i).2]
  rw [byte_clear _ (getD_byte_lt p hp _) _ (Nat.mod_lt _ (by decide))]

theorem set_byte_lt (p : List Nat) (hp : ∀ x ∈ p, x < 256) (m y : Nat) (hy : y < 256) :
    ∀ x ∈ p.set m y, x < 256 := by
  intro x hx
  rcases List.mem_or_eq_of_mem_set hx with h | h
  · exact hp x h
  · rw [h]; exact hy

theorem set_bit_lt (p : List Nat) (i : Nat) (hp : ∀ x ∈ p, x < 256) :
    ∀ x ∈ set_bit p i, x < 256 := by
  unfold set_bit
  exact set_byte_lt p hp _ _ (Nat.mod_lt _ (by decide))

theorem clear_bit_lt (p : List Nat) (i : Nat) (hp : ∀ x ∈ p, x < 256) :
    ∀ x ∈ clear_bit p i, x < 256 := by
  unfold clear_bit
  exact set_byte_lt p hp _ _ (Nat.mod_lt _ (by decide))

theorem testBit_set_byte (x k j : Nat) :
    (x ||| 2 ^ k).testBit j = (x.testBit j || decide (k = j)) := by
  rw [Nat.testBit_or, Nat.testBit_two_pow]

theorem testBit_clear_byte (x k j : Nat) (hk : k < 8) (hj : j < 8) :
    (x &&& (2 ^ 8 - (2 ^ k + 1))).testBit j = (x.testBit j && !decide (k = j)) := by
  have h : 2 ^ k < 2 ^ 8 := Nat.pow_lt_pow_right (by decide) hk
  rw [Nat.testBit_and, Nat.testBit_two_pow_sub_succ h, Nat.testBit_two_pow]
  simp [hj]

/-- What `store_bit` does to the byte `i / 8` and to no other. -/
theorem store_bit_eq (p : List Nat) (hp : ∀ x ∈ p, x < 256) (i : Nat) (b : Bool) :
    store_bit p i b = p.set (i / 8)
      (if b then p.getD (i / 8) 0 ||| 2 ^ (i % 8)
        else p.getD (i / 8) 0 &&& (2 ^ 8 - (2 ^ (i % 8) + 1))) := by
  unfold store_bit
  cases b
  · simp [clear_bit_eq p hp i]
  · simp [set_bit_eq p hp i]

/-- C38: for every buffer of bytes `p`, every bit index `i` inside it and every `b`, after
`store_bit(p, i, b)` the call `load_bit(p, i)` returns `b` and `load_bit(p, j)` returns what
it returned before for every other `j`; the bit is bit `i mod 8` of the byte `i / 8`, no other
byte changes, and this holds for bit 7, the sign bit of a `char`, too; `set_bit` twice is
`set_bit` once, and `clear_bit` twice is `clear_bit` once. -/
theorem store_bit_load_bit (p : List Nat) (i : Nat) (b : Bool) (hp : ∀ x ∈ p, x < 256)
    (hi : i < 8 * p.length) :
    load_bit (store_bit p i b) i = b ∧
    (∀ j, j ≠ i → load_bit (store_bit p i b) j = load_bit p j) ∧
    ((store_bit p i b).getD (i / 8) 0).testBit (i % 8) = b ∧
    (∀ m, m ≠ i / 8 → (store_bit p i b).getD m 0 = p.getD m 0) ∧
    (store_bit p i b).length = p.length ∧ (∀ x ∈ store_bit p i b, x < 256) ∧
    set_bit (set_bit p i) i = set_bit p i ∧
    clear_bit (clear_bit p i) i = clear_bit p i := by
  have ho : i / 8 < p.length := by omega
  have hk : i % 8 < 8 := Nat.mod_lt _ (by decide)
  have hlt : ∀ x ∈ store_bit p i b, x < 256 := by
    unfold store_bit
    cases b
    · exact clear_bit_lt p i hp
    · exact set_bit_lt p i hp
  have hbit : ((store_bit p i b).getD (i / 8) 0).testBit (i % 8) = b := by
    rw [store_bit_eq p hp i b, getD_set_self _ _ _ _ ho]
    cases b
    · rw [if_neg (by decide), testBit_clear_byte _ _ _ hk hk]
      simp
    · rw [if_pos rfl, testBit_set_byte]
      simp
  have hbyte : ∀ m, m ≠ i / 8 → (store_bit p i b).getD m 0 = p.getD m 0 := by
    intro m hm
    rw [store_bit_eq p hp i b, getD_set_ne _ _ _ _ _ hm]
  refine ⟨?_, ?_, hbit, hbyte, ?_, hlt, ?_, ?_⟩
  · rw [load_bit_eq _ hlt, hbit]
  · intro j hj
    rw [load_bit_eq _ hlt, load_bit_eq _ hp]
    by_cases hm : j / 8 = i / 8
    · have hne : i % 8 ≠ j % 8 := by omega
      rw [hm, store_bit_eq p hp i b, getD_set_self _ _ _ _ ho]
      cases b
      · rw [if_neg (by decide), testBit_clear_byte _ _ _ hk (Nat.mod_lt j (by decide))]
        simp [hne]
      · rw [if_pos rfl, testBit_set_byte]
        simp [hne]
    · rw [hbyte _ hm]
  · rw [store_bit_eq p hp i b, List.length_set]
  · rw [set_bit_eq _ (set_bit_lt p i hp), set_bit_eq p hp, getD_set_self _ _ _ _ ho,
      List.set_set, Nat.lor_assoc, Nat.or_self]
  · rw [clear_bit_eq _ (clear_bit_lt p i hp), clear_bit_eq p hp, getD_set_self _ _ _ _ ho,
      List.set_set, Nat.land_assoc, Nat.and_self]

/-- C38, at samples: storing 1 at bit 7 of a zero byte gives the byte `0x80`, and `load_bit`
returns 1 for it; storing 0 at bit 9 of two bytes `0xFF` clears bit 1 of the second byte. -/
theorem store_bit_load_bit_witness :
    store_bit [0, 0] 7 true = [0x80, 0] ∧ load_bit [0x80, 0] 7 = true ∧
    load_bit [0x80, 0] 6 = false ∧ store_bit [0xFF, 0xFF] 9 false = [0xFF, 0xFD] ∧
    load_bit (store_bit [0xFF, 0xFF] 9 false) 9 = false ∧
    (∀ j, j ≠ 9 → load_bit (store_bit [0xFF, 0xFF] 9 false) j = load_bit [0xFF, 0xFF] j) ∧
    set_bit (set_bit [0xFF, 0xFF] 9) 9 = set_bit [0xFF, 0xFF] 9 ∧
    clear_bit (clear_bit [0xFF, 0xFF] 9) 9 = clear_bit [0xFF, 0xFF] 9 := by
  obtain ⟨h1, h2, _, _, _, _, h7, h8⟩ :=
    store_bit_load_bit [0xFF, 0xFF] 9 false (by decide) (by decide)
  exact ⟨by decide, by decide, by decide, by decide, h1, h2, h7, h8⟩

/-! ## The layout of arrays -/

theorem reinterpret_small (v : Nat) (h : v < 2 ^ 31) : reinterpret 32 v = (v : Int) := by
  unfold reinterpret
  have e : v % 2 ^ 32 = v := Nat.mod_eq_of_lt (by omega)
  rw [e, if_pos (by simpa using h)]

/-- For an array length that is a non-negative `int`, `n_missing_bytes` is the length
divided by 8 and rounded up. -/
theorem n_missing_bytes_eq (m : Nat) (h : m < 2 ^ 31) :
    n_missing_bytes (m : Int) = (((m + 7) / 8 : Nat) : Int) := by
  unfold n_missing_bytes
  have e1 : bit_pattern 64 (m : Int) = m := by
    rw [bit_pattern_of_nonneg 64 _ (by omega) (by omega)]
    simp
  have e2 : (m + 7) % 2 ^ 64 = m + 7 := Nat.mod_eq_of_lt (by omega)
  rw [e1, e2, Nat.shiftRight_eq_div_pow]
  exact reinterpret_small _ (by omega)

/-- The value of `elements_offset` when the sum to round is `off` and the alignment a power
of two up to `2 ^ 30`. -/
theorem elements_offset_eq (req : Bool) (sz k : Nat) (len : Int) (off : Nat)
    (hoff : (4 + (if req then 0 else n_missing_bytes len) : Int) = (off : Int))
    (hsmall : off < 2 ^ 30) (hk : k ≤ 30) :
    BaseArrayImpl.elements_offset ⟨req, sz, 2 ^ k⟩ len
      = (((off + 2 ^ k - 1) / 2 ^ k * 2 ^ k : Nat) : Int) ∧
    (off + 2 ^ k - 1) / 2 ^ k * 2 ^ k < 2 ^ 31 := by
  have hpos : 0 < 2 ^ k := Nat.pow_pos (by decide)
  have hle : 2 ^ k ≤ 2 ^ 30 := Nat.pow_le_pow_right (by decide) hk
  obtain ⟨_, _, q3, _⟩ := round_up_quotient off (2 ^ k) hpos
  have hR := round_up_offset_pow_two off k (by omega) (by omega)
  unfold BaseArrayImpl.elements_offset
  simp only []
  rw [hoff, int32_eq _ (by omega) (by omega), bit_pattern_of_nonneg 64 _ (by omega) (by omega),
    Int.toNat_ofNat, round_up_alignment_eq, hR]
  exact ⟨reinterpret_small _ (by omega), by omega⟩

/-- The addresses of two elements next to each other differ by `array_elem_size`, in the
arithmetic of addresses. -/
theorem element_address_succ (t : BaseArrayImpl) (mem : List Nat) (a : Nat) (i : Int)
    (h0 : -(2 ^ 31) ≤ i) (h1 : i + 1 < 2 ^ 31) :
    t.element_address mem a (i + 1)
      = (t.element_address mem a i + t.array_elem_size) % 2 ^ 64 := by
  unfold BaseArrayImpl.element_address
  generalize t.elements_address mem a = E
  generalize t.array_elem_size = S
  have hb : bit_pattern 64 (i + 1) = bit_pattern 64 i + 1 ∨
      (bit_pattern 64 i = 2 ^ 64 - 1 ∧ bit_pattern 64 (i + 1) = 0) := by
    unfold bit_pattern
    omega
  rcases hb with hb | ⟨hb1, hb2⟩
  · rw [hb, Nat.add_mul, Nat.one_mul]
    generalize bit_pattern 64 i * S = X
    omega
  · rw [hb1, hb2, Nat.zero_mul]
    have e : (2 ^ 64 - 1) * S + S = 2 ^ 64 * S := by
      have : (2 ^ 64 - 1) * S + 1 * S = (2 ^ 64 - 1 + 1) * S := (Nat.add_mul _ _ _).symm
      simpa using this
    generalize (2 ^ 64 - 1) * S = X at e ⊢
    omega

/-! ## `write_int` and `write_long` on the same value -/

theorem getLast?_of_length (L : List Nat) (n : Nat) (h : L.length = n + 1) :
    L.getLast? = some (L.getD n 0) := by
  have hn : n < L.length := by omega
  rw [List.getLast?_eq_getElem?, h, Nat.add_sub_cancel, List.getElem?_eq_getElem hn,
    List.getD_eq_getElem _ _ hn]

/-- The encoding of a value with bit 31 set and no higher bit: five bytes, the last of them
between `0x08` and `0x0F`. -/
theorem uleb128_five (u : Nat) (h0 : 2 ^ 31 ≤ u) (h1 : u < 2 ^ 32) :
    (uleb128 u).length = 5 ∧ 0x08 ≤ (uleb128 u).getD 4 0 ∧ (uleb128 u).getD 4 0 ≤ 0x0F := by
  have hg : leb128_groups u = 4 + 1 :=
    leb128_groups_eq u 4 (by norm_num; omega) (Or.inr (by norm_num; omega))
  have hb := uleb128_getD u 4 (by omega)
  rw [hg, if_neg (by omega)] at hb
  rw [uleb128_length, hg, hb]
  norm_num
  omega

/-- The encoding of a value with bit 63 set and no higher bit: ten bytes, the last of them
`0x01`. -/
theorem uleb128_ten (u : Nat) (h0 : 2 ^ 63 ≤ u) (h1 : u < 2 ^ 64) :
    (uleb128 u).length = 10 ∧ (uleb128 u).getD 9 0 = 0x01 := by
  have hg : leb128_groups u = 9 + 1 :=
    leb128_groups_eq u 9 (by norm_num; omega) (Or.inr (by norm_num; omega))
  have hb := uleb128_getD u 9 (by omega)
  rw [hg, if_neg (by omega)] at hb
  rw [uleb128_length, hg, hb]
  norm_num
  omega

/-- C35: for every non-negative `int` `i`, `write_int(i)` and `write_long(i)` of the LEB128
layer make the same `write_byte` calls; for every negative `int` `i` they differ:
`write_int(i)` writes five bytes, the last of them between `0x08` and `0x0F`, and
`write_long(i)`, on the sign-extended value, writes ten bytes, the last of them `0x01`.  The
bytes of `write_int(i)` encode the unsigned value `i + 2 ^ 32`, which is `i` as an `int` and
`i + 2 ^ 32` as a `long`; the bytes of `write_long(i)` encode `i + 2 ^ 64`. -/
theorem write_int_vs_write_long (fuel : Nat) (buf_ : List BufCall) (i : Int)
    (h0 : -(2 ^ 31) ≤ i) (h1 : i < 2 ^ 31) :
    (0 ≤ i →
      LEB128OutputBuffer.write_int (fuel + 5) buf_ i
        = LEB128OutputBuffer.write_long (fuel + 10) buf_ i ∧
      ∃ L : List Nat,
        LEB128OutputBuffer.write_int (fuel + 5) buf_ i
          = some (buf_ ++ L.map BufCall.write_byte) ∧
        LEB128OutputBuffer.write_long (fuel + 10) buf_ i
          = some (buf_ ++ L.map BufCall.write_byte)) ∧
    (i < 0 → ∃ L5 L10 : List Nat,
      LEB128OutputBuffer.write_int (fuel + 5) buf_ i
        = some (buf_ ++ L5.map BufCall.write_byte) ∧
      LEB128OutputBuffer.write_long (fuel + 10) buf_ i
        = some (buf_ ++ L10.map BufCall.write_byte) ∧
      L5.length = 5 ∧ L10.length = 10 ∧
      (∃ x, L5.getLast? = some x ∧ 0x08 ≤ x ∧ x ≤ 0x0F) ∧
      L10.getLast? = some 0x01 ∧
      L5 ≠ L10 ∧
      L5 = uleb128 (i + 2 ^ 32).toNat ∧ L10 = uleb128 (i + 2 ^ 64).toNat ∧
      reinterpret 32 (i + 2 ^ 32).toNat = i ∧ reinterpret 64 (i + 2 ^ 64).toNat = i ∧
      reinterpret 64 (i + 2 ^ 32).toNat = i + 2 ^ 32) := by
  have w32 : LEB128OutputBuffer.write_int (fuel + 5) buf_ i
      = some (buf_ ++ (uleb128 (bit_pattern 32 i)).map BufCall.write_byte) :=
    write_unpacked_uleb128 _ _ _
      (Nat.le_trans (leb128_groups_le _ 32 (bit_pattern_lt 32 i)) (by simp))
  have w64 : LEB128OutputBuffer.write_long (fuel + 10) buf_ i
      = some (buf_ ++ (uleb128 (bit_pattern 64 i)).map BufCall.write_byte) :=
    write_unpacked_uleb128 _ _ _
      (Nat.le_trans (leb128_groups_le _ 64 (bit_pattern_lt 64 i)) (by simp))
  refine ⟨fun hi => ?_, fun hi => ?_⟩
  · have e32 := bit_pattern_of_nonneg 32 i hi (by omega)
    have e64 := bit_pattern_of_nonneg 64 i hi (by omega)
    rw [w32, w64, e32, e64]
    exact ⟨rfl, _, rfl, rfl⟩
  · have e32 := bit_pattern_of_neg 32 i hi (by omega)
    have e64 := bit_pattern_of_neg 64 i hi (by omega)
    rw [e32] at w32
    rw [e64] at w64
    obtain ⟨a1, a2, a3⟩ := uleb128_five (i + 2 ^ 32).toNat (by omega) (by omega)
    obtain ⟨b1, b2⟩ := uleb128_ten (i + 2 ^ 64).toNat (by omega) (by omega)
    refine ⟨_, _, w32, w64, a1, b1, ⟨_, getLast?_of_length _ 4 a1, a2, a3⟩, ?_, ?_, rfl, rfl,
      ?_, ?_, ?_⟩
    · rw [getLast?_of_length _ 9 b1, b2]
    · intro e
      rw [e] at a1
      omega
    · unfold reinterpret
      omega
    · unfold reinterpret
      omega
    · unfold reinterpret
      omega

/-- C35, at samples: 300 is written as `0xAC 0x02` by both; -1 is written as four bytes
`0xFF` and `0x0F` by `write_int`, and as nine bytes `0xFF` and `0x01` by `write_long`. -/
theorem write_int_vs_write_long_witness :
    LEB128OutputBuffer.write_int 5 [] 300
      = some [BufCall.write_byte 0xAC, BufCall.write_byte 0x02] ∧
    LEB128OutputBuffer.write_long 10 [] 300
      = some [BufCall.write_byte 0xAC, BufCall.write_byte 0x02] ∧
    (LEB128OutputBuffer.write_int 5 [] (-1)).map BufCall.bytes
      = some [0xFF, 0xFF, 0xFF, 0xFF, 0x0F] ∧
    (LEB128OutputBuffer.write_long 10 [] (-1)).map BufCall.bytes
      = some [0xFF, 0xFF, 0xFF, 0xFF, 0xFF, 0xFF, 0xFF, 0xFF, 0xFF, 0x01] ∧
    LEB128OutputBuffer.write_int (0 + 5) [] 300
      = LEB128OutputBuffer.write_long (0 + 10) [] 300 ∧
    ∃ L5 L10 : List Nat,
      LEB128OutputBuffer.write_int (0 + 5) [] (-1) = some ([] ++ L5.map BufCall.write_byte) ∧
      LEB128OutputBuffer.write_long (0 + 10) [] (-1)
        = some ([] ++ L10.map BufCall.write_byte) ∧
      L5.length = 5 ∧ L10.length = 10 ∧ L10.getLast? = some 0x01 ∧ L5 ≠ L10 := by
  have h300 := (write_int_vs_write_long 0 [] 300 (by decide) (by decide)).1 (by decide)
  obtain ⟨L5, L10, a1, a2, a3, a4, _, a6, a7, _⟩ :=
    (write_int_vs_write_long 0 [] (-1) (by decide) (by decide)).2 (by decide)
  exact ⟨by decide, by decide, by decide, by decide, h300.1, L5, L10, a1, a2, a3, a4, a6, a7⟩

/-! ## Values of fixed width are not split -/

/-- The common body of `write_byte`, `write_int`, `write_long`, `write_float` and
`write_double` stores the value in one piece. -/
theorem scalar_stores (B : Int) (s : BlockingOutputBuffer) (rep : List Nat) (w : Int)
    (h : BlockingOutputBuffer.Inv B s) (hrep : (rep.length : Int) = w) (hw : w ≤ B)
    (hB : B + w < 2 ^ 31) :
    BlockingOutputBuffer.Stores B s
      ⟨memcpy (if int32 (s.off_ + w) > B then s.flush else s).block_
          (if int32 (s.off_ + w) > B then s.flush else s).off_ rep w,
        int32 ((if int32 (s.off_ + w) > B then s.flush else s).off_ + w),
        (if int32 (s.off_ + w) > B then s.flush else s).block_buf_⟩ rep w := by
  have g1 := h.off_nonneg
  have g2 := h.off_le
  have g3 := h.length
  have hw0 : 0 ≤ w := by omega
  have e1 : int32 (s.off_ + w) = s.off_ + w := int32_eq _ (by omega) (by omega)
  have e2 : int32 (0 + w) = w := by
    rw [Int.zero_add]
    exact int32_eq _ (by omega) (by omega)
  have ht : rep.take w.toNat = rep := List.take_of_length_le (by omega)
  rw [e1]
  by_cases hc : s.off_ + w > B
  · rw [if_pos hc, flush_of_pos s (by omega)]
    simp only [e2]
    refine ⟨fun _ => ⟨rfl, ?_, rfl⟩, fun hf => absurd hf (by omega), ?_⟩
    · simp [memcpy, ht]
    · simp only [memcpy, Int.toNat_zero, List.take_zero, List.nil_append, ht,
        List.length_append, List.length_drop, Nat.zero_add]
      omega
  · rw [if_neg hc, e1]
    refine ⟨fun hf => absurd hf hc, fun _ => ⟨rfl, ?_, rfl⟩, ?_⟩
    · simp only [memcpy, ht]
      rw [Int.toNat_add g1 hw0]
    · simp only [memcpy, ht, List.length_append, List.length_take, List.length_drop]
      omega

/-! ## The buffered writer stays within its array -/

/-- A copy to a place within the array leaves the length of the list as it is exactly when it
ends within the array: a store behind the end of the array would show as a longer list. -/
theorem memcpy_length_iff (dst src : List Nat) (o k : Nat) (ho : o ≤ dst.length)
    (hk : k ≤ src.length) :
    (memcpy dst (o : Int) src (k : Int)).length = dst.length ↔ o + k ≤ dst.length := by
  simp only [memcpy, Int.toNat_ofNat, List.length_append, List.length_take, List.length_drop]
  omega

/-- C33, amended: for every `BLOCKSIZE` from 8 up to `INT_MAX - 8`, every call of
`write_byte`, `write_boolean`, `write_int`, `write_long`, `write_float`, `write_double`,
`write_bytes` (with `n ≥ 0` bytes at `buf`) and
`flush` that starts with `0 ≤ off ≤ BLOCKSIZE` returns with `0 ≤ off ≤ BLOCKSIZE` and with the
array of `BLOCKSIZE` chars it had, so that nothing was stored behind its end, and every block
that it hands to the wrapped stage has between 1 and `BLOCKSIZE` bytes; the same holds for
`close()`, which makes the call `close()` on the wrapped stage after the blocks. -/
theorem writer_stays_in_bounds (BLOCKSIZE : Int) (fuel : Nat) (s : BlockingOutputBuffer)
    (c : WriterCall) (hB8 : 8 ≤ BLOCKSIZE) (hB : BLOCKSIZE + 8 < 2 ^ 31)
    (hinv : BlockingOutputBuffer.Inv BLOCKSIZE s) (hv : c.valid) (hf : c.payload < fuel) :
    (∃ (s1 : BlockingOutputBuffer) (blocks : List (List Nat)),
      WriterCall.run BLOCKSIZE fuel s c = some s1 ∧
      0 ≤ s1.off_ ∧ s1.off_ ≤ BLOCKSIZE ∧ s1.block_.length = BLOCKSIZE.toNat ∧
      s1.block_buf_ = s.block_buf_ ++ blocks.map BlockCall.write_block ∧
      ∀ b ∈ blocks, 1 ≤ b.length ∧ (b.length : Int) ≤ BLOCKSIZE) ∧
    (0 ≤ s.close.off_ ∧ s.close.off_ ≤ BLOCKSIZE ∧
      s.close.block_.length = BLOCKSIZE.toNat ∧
      ∃ blocks : List (List Nat),
        s.close.block_buf_
          = s.block_buf_ ++ blocks.map BlockCall.write_block ++ [BlockCall.close] ∧
        ∀ b ∈ blocks, 1 ≤ b.length ∧ (b.length : Int) ≤ BLOCKSIZE) ∧
    ∀ (dst src : List Nat) (o k : Nat), o ≤ dst.length → k ≤ src.length →
      ((memcpy dst (o : Int) src (k : Int)).length = dst.length ↔ o + k ≤ dst.length) := by
  obtain ⟨s1, blocks, r1, r2, r3⟩ := run_appends BLOCKSIZE fuel s c hB8 hB hinv hv hf
  obtain ⟨f1, _, _, f4⟩ := flush_appends BLOCKSIZE s hinv
  refine ⟨⟨s1, blocks, r1, r2.off_nonneg, r2.off_le, r2.length, r3.calls, r3.sizes⟩,
    ⟨f1.off_nonneg, f1.off_le, f1.length, _, ?_, f4.sizes⟩,
    fun dst src o k ho hk => memcpy_length_iff dst src o k ho hk⟩
  show s.flush.block_buf_ ++ [BlockCall.close] = _
  rw [f4.calls]

/-- C33 amended, at samples: with blocks of 8 bytes and the offset at 6, `write_long(-2)` hands the
block of 6 bytes on and leaves the offset at 8; `write_bytes` of 11 bytes hands two blocks of
8 bytes on and leaves the offset at 1. -/
theorem writer_stays_in_bounds_witness :
    WriterCall.run 8 12 ⟨[1, 2, 3, 4, 5, 6, 0, 0], 6, []⟩ (WriterCall.write_long (-2))
      = some ⟨[254, 255, 255, 255, 255, 255, 255, 255], 8,
          [BlockCall.write_block [1, 2, 3, 4, 5, 6]]⟩ ∧
    (WriterCall.run 8 12 ⟨[1, 2, 3, 4, 5, 6, 0, 0], 6, []⟩
        (WriterCall.write_bytes [1, 2, 3, 4, 5, 6, 7, 8, 9, 10, 11] 11)).map
        (fun s => (s.off_, s.block_.length, s.block_buf_))
      = some (1, 8, [BlockCall.write_block [1, 2, 3, 4, 5, 6, 1, 2],
          BlockCall.write_block [3, 4, 5, 6, 7, 8, 9, 10]]) ∧
    ∃ (s1 : BlockingOutputBuffer) (blocks : List (List Nat)),
      WriterCall.run 8 12 ⟨[1, 2, 3, 4, 5, 6, 0, 0], 6, []⟩
        (WriterCall.write_bytes [1, 2, 3, 4, 5, 6, 7, 8, 9, 10, 11] 11) = some s1 ∧
      0 ≤ s1.off_ ∧ s1.off_ ≤ 8 ∧ s1.block_.length = (8 : Int).toNat ∧
      s1.block_buf_ = [] ++ blocks.map BlockCall.write_block ∧
      ∀ b ∈ blocks, 1 ≤ b.length ∧ (b.length : Int) ≤ 8 :=
  ⟨by decide, by decide,
   (writer_stays_in_bounds 8 12 ⟨[1, 2, 3, 4, 5, 6, 0, 0], 6, []⟩
      (WriterCall.write_bytes [1, 2, 3, 4, 5, 6, 7, 8, 9, 10, 11] 11) (by decide) (by decide)
      ⟨by decide, by decide, by decide⟩ (by decide) (by decide)).1⟩

/-! ## An arena that is obtained, used and released again -/

theorem allocs_trans {cfg : Config} {r : Nat} {a b c : World} (h1 : Allocs cfg r a b)
    (h2 : Allocs cfg r b c) : Allocs cfg r a c := by
  induction h1 with
  | done w => exact h2
  | step fuel alignment n p h _ ih => exact Allocs.step fuel alignment n p h (ih h2)

/-- What `get_region` does to the list of retired arenas and to the number of arenas
constructed: with a retired arena, the last one is taken and none is constructed; with none,
one is constructed. -/
theorem get_region_counts (s : World) :
    (s.free_regions_ = [] →
      (RegionPool.get_region s).1.free_regions_ = [] ∧
      (RegionPool.get_region s).1.regions.length = s.regions.length + 1 ∧
      (RegionPool.get_region s).2 = s.regions.length) ∧
    (s.free_regions_ ≠ [] →
      (RegionPool.get_region s).1.free_regions_ ++ [(RegionPool.get_region s).2]
        = s.free_regions_ ∧
      (RegionPool.get_region s).1.regions.length = s.regions.length) := by
  rcases get_region_cases s with ⟨h, e⟩ | ⟨l, r, hl, e⟩
  · refine ⟨fun _ => ?_, fun hne => absurd h hne⟩
    rw [e]
    refine ⟨?_, ?_, ?_⟩
    · simp [h]
    · simp
    · simp
  · refine ⟨fun h => ?_, fun _ => ?_⟩
    · rw [h] at hl
      simp at hl
    · rw [e]
      simp [hl]

/-- Dropping the last reference to an arena whose parent list holds one reference, to an
arena that has another reference: the arena is cleared and pushed on `free_regions_`, the use
count of the parent goes down by one, and nothing else happens. -/
theorem drop_last_one_parent (s : World) (c region : Nat) (hv : c < s.regions.length)
    (h1 : s.refs c - 1 = 0) (hp : (s.obj c).parents_ = [region]) (hne : region ≠ c)
    (hk : 2 ≤ s.refs region) :
    (shared_ptr_drop s c).free_regions_ = s.free_regions_ ++ [c] ∧
    (shared_ptr_drop s c).regions.length = s.regions.length ∧
    (shared_ptr_drop s c).refs region = s.refs region - 1 ∧
    (∀ x, x ≠ c → (shared_ptr_drop s c).obj x = s.obj x) := by
  have hmem : region ∈ s.allParents :=
    World.mem_gather (fun o => o.parents_) s c region
      (by show region ∈ (s.obj c).parents_; rw [hp]; simp) hv
  have hlen : 0 < s.allParents.length := List.length_pos_of_mem hmem
  obtain ⟨f, hf⟩ : ∃ f, s.depth = f + 1 + 1 := ⟨s.allParents.length - 1, by
    unfold World.depth; omega⟩
  have hreg : region < s.regions.length := World.lt_length_of_refs_pos s region (by omega)
  have hrefs : (Region2.clearFields (s.setRefs c (s.refs c - 1)) c).refs region
      = s.refs region := by
    rw [clearFields_refs, World.refs_setRefs_ne _ _ _ _ hne]
  have hpar : ((s.setRefs c (s.refs c - 1)).obj c).parents_ = [region] := by
    rw [World.obj_setRefs]
    exact hp
  have e : shared_ptr_drop s c
      = { (Region2.clearFields (s.setRefs c (s.refs c - 1)) c).setRefs region
            (s.refs region - 1) with
          free_regions_ := s.free_regions_ ++ [c] } := by
    unfold shared_ptr_drop
    rw [hf, dropN_fire (f + 1) s c h1]
    have e1 : Region2.clearWith (shared_ptr_dropN (f + 1)) (s.setRefs c (s.refs c - 1)) c
        = (Region2.clearFields (s.setRefs c (s.refs c - 1)) c).setRefs region
            (s.refs region - 1) := by
      unfold Region2.clearWith
      rw [hpar]
      simp only [List.foldl_cons, List.foldl_nil]
      rw [dropN_keep f _ region (by rw [hrefs]; omega), hrefs]
    rw [e1]
    simp
  rw [e]
  refine ⟨rfl, ?_, ?_, fun x hx => ?_⟩
  · show ((Region2.clearFields (s.setRefs c (s.refs c - 1)) c).setRefs region
      (s.refs region - 1)).regions.length = _
    rw [World.setRefs_length, clearFields_length, World.setRefs_length]
  · show ((Region2.clearFields (s.setRefs c (s.refs c - 1)) c).setRefs region
      (s.refs region - 1)).refs region = _
    have hreg1 : region < (Region2.clearFields (s.setRefs c (s.refs c - 1)) c).regions.length := by
      rw [clearFields_length, World.setRefs_length]
      exact hreg
    rw [World.refs_setRefs_self _ _ _ hreg1]
  · show ((Region2.clearFields (s.setRefs c (s.refs c - 1)) c).setRefs region
      (s.refs region - 1)).obj x = _
    rw [World.obj_setRefs, clearFields_obj_ne _ _ _ hx, World.obj_setRefs]

/-- One arena obtained from the pool, made to reference the arena `region` that the caller
holds, used for allocations and released again: the pool is reachable with the same
`RegionPtr`s held, the arena is on the list of retired arenas, which is as before when it was
not empty, and no arena was constructed unless the list was empty; the arena `region` has its
use count and its members as before. -/
theorem borrow_step (cfg : Config) {q : World} {held : List Nat} (h : Reachable cfg q held)
    (region : Nat) (hr : region ∈ held) (w2 : World)
    (hA : Allocs cfg (RegionPool.get_region q).2
      (Region2.add_reference_to (RegionPool.get_region q).1 (RegionPool.get_region q).2 region)
      w2) :
    Reachable cfg (shared_ptr_drop w2 (RegionPool.get_region q).2) held ∧
    (q.free_regions_ = [] →
      (shared_ptr_drop w2 (RegionPool.get_region q).2).free_regions_
        = [(RegionPool.get_region q).2] ∧
      (shared_ptr_drop w2 (RegionPool.get_region q).2).regions.length
        = q.regions.length + 1) ∧
    (q.free_regions_ ≠ [] →
      (shared_ptr_drop w2 (RegionPool.get_region q).2).free_regions_ = q.free_regions_ ∧
      (shared_ptr_drop w2 (RegionPool.get_region q).2).regions.length = q.regions.length) ∧
    (RegionPool.get_region q).2 ∈
      (shared_ptr_drop w2 (RegionPool.get_region q).2).free_regions_ ∧
    (shared_ptr_drop w2 (RegionPool.get_region q).2).refs region = q.refs region ∧
    (shared_ptr_drop w2 (RegionPool.get_region q).2).obj region = q.obj region ∧
    (RegionPool.get_region q).2 ≠ region ∧ (RegionPool.get_region q).2 ∉ held := by
  have hri := (reachable_inv h).1
  obtain ⟨s1, s2, s3, s4, s5, _⟩ := get_region_spec hri
  obtain ⟨c1, c2⟩ := get_region_counts q
  have hpos := hri.refs_pos_of_mem hr
  have hR1 := Reachable.add_reference_to (RegionPool.get_region q).2 region
    (Reachable.get_region h) (List.mem_cons_self _ _) (List.mem_cons_of_mem _ hr)
  have hR2 := allocs_reachable hA hR1 (List.mem_cons_self _ _)
  have fr := allocs_frame hA
  have hrel := Reachable.release (RegionPool.get_region q).2 hR2 (List.mem_cons_self _ _)
  rw [List.erase_cons_head] at hrel
  generalize (RegionPool.get_region q).1 = g at s2 s3 s4 s5 c1 c2 fr hA hR1
  generalize (RegionPool.get_region q).2 = c at s1 s2 s3 s4 s5 c1 c2 fr hA hR1 hR2 hrel ⊢
  have hne : c ≠ region := by
    intro e
    rw [e] at s1
    omega
  have hnh : c ∉ held := by
    intro hm
    have := hri.refs_pos_of_mem hm
    omega
  have hgr : g.refs region = q.refs region := (s5 region (Ne.symm hne)).1
  have hg : region < g.regions.length :=
    World.lt_length_of_refs_pos g region (by omega)
  obtain ⟨a1, a2, a3, a4, a5⟩ := add_reference_spec g c region s4 hg
  rw [s3.2.2.2, List.nil_append] at a1
  have hlen : w2.regions.length = g.regions.length := by
    rw [fr.length, add_reference_length]
  obtain ⟨b1, b2, b3, b4⟩ := drop_last_one_parent w2 c region (by omega)
    (by rw [fr.refs, a4 c hne, s2]) (by rw [fr.own_parents]; exact a1) (Ne.symm hne)
    (by rw [fr.refs, a2]; omega)
  have hfree : (shared_ptr_drop w2 c).free_regions_ = g.free_regions_ ++ [c] := by
    rw [b1, fr.free_regions, a5]
  refine ⟨hrel, fun he => ?_, fun he => ?_, ?_, ?_, ?_, hne, hnh⟩
  · obtain ⟨d1, d2, _⟩ := c1 he
    rw [hfree, d1, b2, hlen, d2]
    exact ⟨rfl, rfl⟩
  · obtain ⟨d1, d2⟩ := c2 he
    rw [hfree, d1, b2, hlen, d2]
    exact ⟨rfl, rfl⟩
  · rw [hfree]
    simp
  · rw [b3, fr.refs, a2, hgr]
    omega
  · rw [b4 region (Ne.symm hne), fr.obj region (Ne.symm hne), a3 region (Ne.symm hne)]
    exact (s5 region (Ne.symm hne)).2

/-- One call of the Explode stage on a consumer that keeps no arena, on a reachable pool in
which the caller holds the input arena: the call returns after `max(len, 0)` calls on the
consumer, every arena passed is on the list of retired arenas afterwards, the input arena has
its use count and its members as before, and as many arenas were constructed as the list of
retired arenas has grown, which is by one at most and only when it was empty. -/
theorem explode_borrowing (cfg : Config) {σ : Type} (exploder_ : Exploder)
    (hex : ∀ w r v i, Allocs cfg r w (exploder_.call w r v i).1) (next_ : Consumer σ)
    (hkeep : Consumer.KeepsNone cfg next_) (region value fuel : Nat)
    (hlen : exploder_.len region value < 2 ^ 31)
    (hfuel : (exploder_.len region value).toNat < fuel) (held : List Nat)
    (hr : region ∈ held) (st : σ) (log : List Call) (pool : World)
    (h : Reachable cfg pool held) :
    ∃ st1 run pool1,
      TableExplodeRows.call exploder_ (Consumer.traced next_) fuel (st, log) pool region value
        = some ⟨(st1, log ++ run), pool1, false⟩ ∧
      (run.length : Int) = max (exploder_.len region value) 0 ∧
      Reachable cfg pool1 held ∧
      pool1.refs region = pool.refs region ∧ pool1.obj region = pool.obj region ∧
      (∀ c ∈ run, c.region ∈ pool1.free_regions_ ∧ c.region ≠ region ∧ c.region ∉ held) ∧
      pool1.regions.length + pool.free_regions_.length
        = pool.regions.length + pool1.free_regions_.length ∧
      pool.free_regions_.length ≤ pool1.free_regions_.length ∧
      pool1.free_regions_.length ≤ max pool.free_regions_.length 1 := by
  obtain ⟨st1, pool1, r1, ⟨run, e1, e2, e3⟩, r3, r4, r5, r6, r7, r8⟩ :=
    explode_loop_rule exploder_ (Consumer.traced next_) region value
      (exploder_.len region value) hlen
      (fun j s q =>
        (∃ run : List Call, s.2 = log ++ run ∧ run.length = j ∧
          ∀ c ∈ run, c.region ∈ q.free_regions_ ∧ c.region ≠ region ∧ c.region ∉ held) ∧
        Reachable cfg q held ∧ q.refs region = pool.refs region ∧
        q.obj region = pool.obj region ∧
        q.regions.length + pool.free_regions_.length
          = pool.regions.length + q.free_regions_.length ∧
        pool.free_regions_.length ≤ q.free_regions_.length ∧
        q.free_regions_.length ≤ max pool.free_regions_.length 1)
      (fun j s q hP hj => by
        obtain ⟨⟨run, e1, e2, e3⟩, p2, p3, p4, p5, p6, p7⟩ := hP
        obtain ⟨o, w, ho, hw, hpool⟩ := hkeep s.1
          (TableExplodeRows.callAt exploder_ region value j q).pool
          (TableExplodeRows.callAt exploder_ region value j q).region
          (TableExplodeRows.callAt exploder_ region value j q).value
        have hA : Allocs cfg (RegionPool.get_region q).2
            (Region2.add_reference_to (RegionPool.get_region q).1 (RegionPool.get_region q).2
              region) w :=
          allocs_trans (hex _ _ _ _) hw
        obtain ⟨b1, b2, b3, b4, b5, b6, b7, b8⟩ := borrow_step cfg p2 region hr w hA
        have hnew : (if o.moved then o.pool
            else shared_ptr_drop o.pool
              (TableExplodeRows.callAt exploder_ region value j q).region)
            = shared_ptr_drop w (RegionPool.get_region q).2 := by
          rw [hpool]
          cases o.moved
          · simp only [Bool.false_eq_true, if_false]
            rfl
          · simp only [if_true]
            rfl
        refine ⟨_, traced_eq next_ s.1 s.2 _ _ _ o ho, ?_⟩
        show (∃ run1 : List Call, s.2 ++ [_] = log ++ run1 ∧ run1.length = j + 1 ∧ _) ∧ _
        rw [hnew]
        refine ⟨⟨run ++ [TableExplodeRows.callAt exploder_ region value j q], ?_, ?_, ?_⟩,
          b1, ?_, ?_, ?_, ?_, ?_⟩
        · rw [e1, List.append_assoc]
        · simp [e2]
        · intro c hc
          rcases List.mem_append.mp hc with hc | hc
          · obtain ⟨m1, m2, m3⟩ := e3 c hc
            have hne : q.free_regions_ ≠ [] := List.ne_nil_of_mem m1
            rw [(b3 hne).1]
            exact ⟨m1, m2, m3⟩
          · rw [List.mem_singleton] at hc
            subst hc
            exact ⟨b4, b7, b8⟩
        · rw [b5, p3]
        · rw [b6, p4]
        · by_cases he : q.free_regions_ = []
          · rw [(b2 he).1, (b2 he).2]
            rw [he] at p5
            simp only [List.length_nil, List.length_singleton] at p5 ⊢
            omega
          · rw [(b3 he).1, (b3 he).2]
            exact p5
        · by_cases he : q.free_regions_ = []
          · rw [(b2 he).1]
            rw [he] at p6
            simp only [List.length_nil, List.length_singleton] at p6 ⊢
            omega
          · rw [(b3 he).1]
            exact p6
        · by_cases he : q.free_regions_ = []
          · rw [(b2 he).1]
            simp only [List.length_singleton]
            omega
          · rw [(b3 he).1]
            exact p7)
      (exploder_.len region value - ((0 : Nat) : Int)).toNat fuel 0 (st, log) pool
      (by simpa using hfuel) rfl
      ⟨⟨[], by simp, rfl, by simp⟩, h, rfl, rfl, rfl, Nat.le_refl _, by omega⟩
  refine ⟨st1.1, run, pool1, ?_, ?_, r3, r4, r5, e3, r6, r7, r8⟩
  · simp only [TableExplodeRows.call]
    have e : ((0 : Nat) : Int) = 0 := rfl
    rw [e] at r1
    rw [r1, ← e1]
    rfl
  · rw [e2]
    simp only [Nat.zero_add, Nat.cast_ofNat, Int.Nat.cast_ofNat_Int, Int.sub_zero]
    omega

/-- One call of `consume()` in a chain of Read and Explode over a consumer that keeps no arena,
on a reachable pool: the call returns, the arena of the row and every arena passed to the
consumer are on the list of retired arenas afterwards, the list has grown by as many arenas
as were constructed, and none was constructed when the list had two entries, at most one
when it had one, and at most two when it was empty. -/
theorem consume_explode_step (cfg : Config) {σ δ : Type} (dec_ : Decoder δ)
    (hdec : ∀ d w r, Allocs cfg r w (dec_.decode_row d w r).2.1) (exploder_ : Exploder)
    (hex : ∀ w r v i, Allocs cfg r w (exploder_.call w r v i).1) (next_ : Consumer σ)
    (hkeep : Consumer.KeepsNone cfg next_) (fuel : Nat)
    (hrows : ∀ region value, exploder_.len region value < 2 ^ 31 ∧
      (exploder_.len region value).toNat < fuel)
    {pool : World} {hs : List Nat} (h : Reachable cfg pool hs) (st : σ) (log : List Call)
    (d : δ) :
    ∃ st1 run pool1,
      TableNativeRead.consume dec_
          (TableExplodeRows.call exploder_ (Consumer.traced next_) fuel) ((st, log), d) pool
        = some (((st1, log ++ run),
            (dec_.decode_row d (RegionPool.get_region pool).1 (RegionPool.get_region pool).2).1),
          pool1) ∧
      (run.length : Int) = max (exploder_.len (RegionPool.get_region pool).2
        (dec_.decode_row d (RegionPool.get_region pool).1
          (RegionPool.get_region pool).2).2.2) 0 ∧
      Reachable cfg pool1 hs ∧
      (RegionPool.get_region pool).2 ∈ pool1.free_regions_ ∧
      (∀ c ∈ run, c.region ∈ pool1.free_regions_ ∧ c.region ≠ (RegionPool.get_region pool).2) ∧
      pool1.regions.length + pool.free_regions_.length
        = pool.regions.length + pool1.free_regions_.length ∧
      (pool1.regions.length ≤ pool.regions.length ∨
        pool1.regions.length + pool.free_regions_.length ≤ pool.regions.length + 2) := by
  have hri := (reachable_inv h).1
  obtain ⟨_, s2, s3, s4, _, _⟩ := get_region_spec hri
  obtain ⟨c1, c2⟩ := get_region_counts pool
  have hal := hdec d (RegionPool.get_region pool).1 (RegionPool.get_region pool).2
  have fr := allocs_frame hal
  have hR2 := allocs_reachable hal (Reachable.get_region h) (List.mem_cons_self _ _)
  obtain ⟨st1, run, pe, r1, r2, r3, r4, r5, r6, r7, r8, r9⟩ :=
    explode_borrowing cfg exploder_ hex next_ hkeep (RegionPool.get_region pool).2
      (dec_.decode_row d (RegionPool.get_region pool).1 (RegionPool.get_region pool).2).2.2
      fuel (hrows _ _).1 (hrows _ _).2 ((RegionPool.get_region pool).2 :: hs)
      (List.mem_cons_self _ _) st log _ hR2
  generalize hw2 : (dec_.decode_row d (RegionPool.get_region pool).1
    (RegionPool.get_region pool).2).2.1 = w2 at fr hR2 r1 r4 r5 r7 r8 r9
  generalize hrow : (dec_.decode_row d (RegionPool.get_region pool).1
    (RegionPool.get_region pool).2).2.2 = row at r1 r2
  generalize hd1 : (dec_.decode_row d (RegionPool.get_region pool).1
    (RegionPool.get_region pool).2).1 = d1
  generalize hw1 : (RegionPool.get_region pool).1 = w1 at s2 s3 s4 c1 c2 fr hw2 hrow hd1
  generalize ha : (RegionPool.get_region pool).2 = a
    at s2 s3 s4 c1 c2 fr hR2 hw2 hrow hd1 r1 r2 r3 r4 r5 r6
  have hrefs : pe.refs a = 1 := by rw [r4, fr.refs]; exact s2
  have hpar : (pe.obj a).parents_ = [] := by rw [r5, fr.own_parents]; exact s3.2.2.2
  have hdrop := drop_last_no_parents pe a (by omega) hpar
  have hrel := Reachable.release a r3 (List.mem_cons_self _ _)
  rw [List.erase_cons_head] at hrel
  have hfree : (shared_ptr_drop pe a).free_regions_ = pe.free_regions_ ++ [a] := by
    rw [hdrop]
  have hlen : (shared_ptr_drop pe a).regions.length = pe.regions.length := by
    rw [hdrop]
    show (Region2.clearFields (pe.setRefs a (pe.refs a - 1)) a).regions.length = _
    rw [clearFields_length, World.setRefs_length]
  refine ⟨st1, run, shared_ptr_drop pe a, ?_, r2, hrel, ?_, ?_, ?_, ?_⟩
  · simp only [TableNativeRead.consume, hw1, ha, hw2, hrow, hd1, r1, Bool.false_eq_true,
      if_false]
  · rw [hfree]
    simp
  · intro c hc
    obtain ⟨m1, m2, _⟩ := r6 c hc
    rw [hfree]
    exact ⟨List.mem_append_left _ m1, m2⟩
  · rw [hfree, hlen, List.length_append, List.length_singleton]
    rw [fr.length, fr.free_regions] at r7
    rw [fr.free_regions] at r8 r9
    by_cases he : pool.free_regions_ = []
    · obtain ⟨d1, d2, _⟩ := c1 he
      rw [d1, d2] at r7
      rw [he]
      simp only [List.length_nil] at r7 ⊢
      omega
    · obtain ⟨d1, d2⟩ := c2 he
      rw [← d1, List.length_append, List.length_singleton]
      rw [d2] at r7
      omega
  · rw [hlen]
    rw [fr.length, fr.free_regions] at r7
    rw [fr.free_regions] at r8 r9
    by_cases he : pool.free_regions_ = []
    · obtain ⟨d1, d2, _⟩ := c1 he
      rw [d1, d2] at r7
      rw [d1] at r8 r9
      rw [he]
      simp only [List.length_nil] at r7 r8 r9 ⊢
      omega
    · obtain ⟨d1, d2⟩ := c2 he
      rw [← d1, List.length_append, List.length_singleton]
      rw [d2] at r7
      omega

/-- A list of distinct numbers below `n` that has `n` entries holds every number below `n`. -/
theorem mem_of_nodup_of_length (l : List Nat) (n : Nat) (hnd : l.Nodup)
    (hlt : ∀ x ∈ l, x < n) (hlen : l.length = n) : ∀ x, x < n → x ∈ l := by
  intro x hx
  have hsub : l.toFinset ⊆ Finset.range n := by
    intro y hy
    exact Finset.mem_range.mpr (hlt y (List.mem_toFinset.mp hy))
  have hcard : l.toFinset.card = n := by
    rw [List.toFinset_card_of_nodup hnd, hlen]
  have heq : l.toFinset = Finset.range n :=
    Finset.eq_of_subset_of_card_le hsub (by rw [hcard, Finset.card_range])
  exact List.mem_toFinset.mp (by rw [heq]; exact Finset.mem_range.mpr hx)

/-- Calls of `consume()` one after the other in a chain of Read and Explode over a consumer
that keeps no arena, started on a pool with at most two arenas, all of them retired: every
call returns, and the pool has at most two arenas afterwards, all of them retired. -/
theorem consume_times_recycles (cfg : Config) {σ δ : Type} (dec_ : Decoder δ)
    (hdec : ∀ d w r, Allocs cfg r w (dec_.decode_row d w r).2.1) (exploder_ : Exploder)
    (hex : ∀ w r v i, Allocs cfg r w (exploder_.call w r v i).1) (next_ : Consumer σ)
    (hkeep : Consumer.KeepsNone cfg next_) (fuel : Nat)
    (hrows : ∀ region value, exploder_.len region value < 2 ^ 31 ∧
      (exploder_.len region value).toNat < fuel) :
    ∀ (n : Nat) (st : σ) (log : List Call) (d : δ) (pool : World),
      Reachable cfg pool [] → pool.free_regions_.length = pool.regions.length →
      pool.regions.length ≤ 2 →
      ∃ st1 pool1,
        TableNativeRead.consume_times dec_
            (TableExplodeRows.call exploder_ (Consumer.traced next_) fuel) n ((st, log), d) pool
          = some (st1, pool1) ∧
        Reachable cfg pool1 [] ∧ pool1.free_regions_.length = pool1.regions.length ∧
        pool1.regions.length ≤ 2
  | 0, st, log, d, pool, h, h1, h2 => ⟨_, _, rfl, h, h1, h2⟩
  | n + 1, st, log, d, pool, h, h1, h2 => by
    obtain ⟨st1, run, pool1, r1, _, r3, _, _, r6, r7⟩ :=
      consume_explode_step cfg dec_ hdec exploder_ hex next_ hkeep fuel hrows h st log d
    obtain ⟨st2, pool2, q1, q2, q3, q4⟩ :=
      consume_times_recycles cfg dec_ hdec exploder_ hex next_ hkeep fuel hrows n st1
        (log ++ run)
        (dec_.decode_row d (RegionPool.get_region pool).1 (RegionPool.get_region pool).2).1
        pool1 r3 (by omega) (by omega)
    refine ⟨st2, pool2, ?_, q2, q3, q4⟩
    rw [TableNativeRead.consume_times, r1]
    exact q1

/-- C34: in a chain of Read and Explode over a consumer that keeps no arena, with a decoder
and an exploder that do nothing to the pool but allocate in the arena they are passed, every
call of `consume()` on a reachable pool returns with the arena of the row and every arena
passed to the consumer on the list of retired arenas; and after any number of calls of
`consume()` on a new pool, whatever the multiplicities of the rows, the pool has constructed
at most two arenas, and every arena constructed is on the list of retired arenas. -/
theorem chain_recycles_two_arenas (cfg : Config) {σ δ : Type} (dec_ : Decoder δ)
    (hdec : ∀ d w r, Allocs cfg r w (dec_.decode_row d w r).2.1) (exploder_ : Exploder)
    (hex : ∀ w r v i, Allocs cfg r w (exploder_.call w r v i).1) (next_ : Consumer σ)
    (hkeep : Consumer.KeepsNone cfg next_) (fuel : Nat)
    (hrows : ∀ region value, exploder_.len region value < 2 ^ 31 ∧
      (exploder_.len region value).toNat < fuel) :
    (∀ (pool : World) (hs : List Nat), Reachable cfg pool hs →
      ∀ (st : σ) (log : List Call) (d : δ), ∃ st1 run pool1,
        TableNativeRead.consume dec_
            (TableExplodeRows.call exploder_ (Consumer.traced next_) fuel) ((st, log), d) pool
          = some (((st1, log ++ run),
              (dec_.decode_row d (RegionPool.get_region pool).1
                (RegionPool.get_region pool).2).1), pool1) ∧
        (run.length : Int) = max (exploder_.len (RegionPool.get_region pool).2
          (dec_.decode_row d (RegionPool.get_region pool).1
            (RegionPool.get_region pool).2).2.2) 0 ∧
        (RegionPool.get_region pool).2 ∈ pool1.free_regions_ ∧
        (∀ c ∈ run, c.region ∈ pool1.free_regions_) ∧
        Reachable cfg pool1 hs) ∧
    (∀ (n : Nat) (st : σ) (d : δ), ∃ st1 pool1,
      TableNativeRead.consume_times dec_
          (TableExplodeRows.call exploder_ (Consumer.traced next_) fuel) n ((st, []), d)
          RegionPool.init
        = some (st1, pool1) ∧
      pool1.regions.length ≤ 2 ∧
      pool1.free_regions_.length = pool1.regions.length ∧
      (∀ x, x < pool1.regions.length → x ∈ pool1.free_regions_) ∧
      Reachable cfg pool1 []) := by
  refine ⟨fun pool hs h st log d => ?_, fun n st d => ?_⟩
  · obtain ⟨st1, run, pool1, r1, r2, r3, r4, r5, _, _⟩ :=
      consume_explode_step cfg dec_ hdec exploder_ hex next_ hkeep fuel hrows h st log d
    exact ⟨st1, run, pool1, r1, r2, r4, fun c hc => (r5 c hc).1, r3⟩
  · obtain ⟨st1, pool1, r1, r2, r3, r4⟩ :=
      consume_times_recycles cfg dec_ hdec exploder_ hex next_ hkeep fuel hrows n st [] d
        RegionPool.init Reachable.init rfl (by decide)
    have hri := (reachable_inv r2).1
    have hnd : pool1.free_regions_.Nodup := by
      have := hri.nodup
      simpa using this
    exact ⟨st1, pool1, r1, r4, r3,
      mem_of_nodup_of_length _ _ hnd (fun x hx => (hri.free x hx).1) r3, r2⟩

/-- C34, at a sample: three rows with 0, 1 and 2 elements, read into a new pool and passed to
a consumer that leaves the `RegionPtr` where it is, or to one that destroys it; the three
calls on the consumer are passed arena 1, and afterwards the pool has the two arenas 0 and 1,
both retired. -/
theorem chain_recycles_two_arenas_witness :
    (TableNativeRead.consume_times Decoder.sample
        (TableExplodeRows.call Exploder.cycle (Consumer.traced Consumer.dropping) 4) 3
        (((), []), 0) RegionPool.init).map
        (fun r => (r.1.1.2.map Call.row, r.2.free_regions_, r.2.regions.length))
      = some ([(1, 1000), (1, 2000), (1, 2001)], [1, 0], 2) ∧
    (TableNativeRead.consume_times Decoder.sample
        (TableExplodeRows.call Exploder.cycle (Consumer.traced Consumer.destroying) 4) 3
        (((), []), 0) RegionPool.init).map
        (fun r => (r.1.1.2.map Call.row, r.2.free_regions_, r.2.regions.length))
      = some ([(1, 1000), (1, 2000), (1, 2001)], [1, 0], 2) ∧
    ∃ st1 pool1,
      TableNativeRead.consume_times Decoder.sample
          (TableExplodeRows.call Exploder.cycle (Consumer.traced Consumer.dropping) 4) 3
          (((), []), 0) RegionPool.init
        = some (st1, pool1) ∧
      pool1.regions.length ≤ 2 ∧
      pool1.free_regions_.length = pool1.regions.length ∧
      (∀ x, x < pool1.regions.length → x ∈ pool1.free_regions_) ∧
      Reachable Config.sample pool1 [] :=
  ⟨by decide, by decide,
   (chain_recycles_two_arenas Config.sample Decoder.sample (fun d w r => Allocs.done w)
      Exploder.cycle (fun w r v i => Allocs.done w) Consumer.dropping
      (fun st pool region value => ⟨⟨st, pool, false⟩, pool, rfl, Allocs.done pool, rfl⟩) 4
      (fun region value => by
        have h3 : value % 3 < 3 := Nat.mod_lt _ (by decide)
        constructor
        · show ((value % 3 : Nat) : Int) < 2 ^ 31
          omega
        · show (((value % 3 : Nat) : Int)).toNat < 4
          omega)).2 3 () 0⟩

/-! ## The layout of arrays, for the alignments that fit -/

/-- The rounding of `round_up_offset_pow_two` on bit patterns of `size_t`: the least multiple
of the alignment at or above `off`, as long as it is below `2 ^ 64`. -/
theorem round_up_offset_unsigned (off k : Nat) (hk : k < 64) (h : off + 2 ^ k ≤ 2 ^ 64) :
    round_up_offset off (2 ^ k) = (off + 2 ^ k - 1) / 2 ^ k * 2 ^ k := by
  have hpos : 0 < 2 ^ k := Nat.pow_pos (by decide)
  have hle : 2 ^ k ≤ 2 ^ 63 := Nat.pow_le_pow_right (by decide) (by omega)
  have hmod := Nat.and_pow_two_sub_one_eq_mod (off + (2 ^ k - 1)) k
  have hdm := Nat.div_add_mod (off + (2 ^ k - 1)) (2 ^ k)
  have hx : off + 2 ^ k - 1 = off + (2 ^ k - 1) := by omega
  rw [hx]
  unfold round_up_offset
  generalize 2 ^ k = a at hpos hle hmod hdm h ⊢
  have e1 : (a + (2 ^ 64 - 1)) % 2 ^ 64 = a - 1 := by omega
  have e2 : (off + (a - 1)) % 2 ^ 64 = off + (a - 1) := by omega
  simp only [e1, e2]
  have h1 := and_add_and_compl 64 (off + (a - 1)) (a - 1) (by omega) (by omega)
  rw [hmod] at h1
  rw [Nat.mul_comm] at hdm
  omega

/-- The address of element `i ≥ 0` of an array whose elements start at the offset `eo ≥ 0`. -/
theorem element_address_eq (t : BaseArrayImpl) (mem : List Nat) (a : Nat) (i : Int)
    (h0 : 0 ≤ i) (h1 : i < 2 ^ 31)
    (he : 0 ≤ t.elements_offset (BaseArrayImpl.load_length mem a))
    (he1 : t.elements_offset (BaseArrayImpl.load_length mem a) < 2 ^ 31) :
    t.element_address mem a i
      = (a + (t.elements_offset (BaseArrayImpl.load_length mem a)).toNat
          + i.toNat * t.array_elem_size) % 2 ^ 64 := by
  unfold BaseArrayImpl.element_address BaseArrayImpl.elements_address
    BaseArrayImpl.elements_address_len
  rw [bit_pattern_of_nonneg 64 _ he (by omega), bit_pattern_of_nonneg 64 i h0 (by omega)]
  generalize (t.elements_offset (BaseArrayImpl.load_length mem a)).toNat = E
  generalize i.toNat * t.array_elem_size = X
  omega

/-- C39 as stated fails for alignments from `2 ^ 31` on, where the rounded offset does not fit
the `int` that `elements_offset` returns: with the alignment `2 ^ 31` it returns
-2147483648, and with `2 ^ 32` it returns 0, neither of which is at least 4.  It fails for an
element size that rounding takes past `2 ^ 64`, too: elements of `2 ^ 64 - 1` bytes with the
alignment 2 get the `array_elem_size` 0. -/
theorem array_layout_counterexample :
    BaseArrayImpl.elements_offset ⟨true, 1, 2 ^ 31⟩ 0 = -2147483648 ∧
    ¬ (4 ≤ BaseArrayImpl.elements_offset ⟨true, 1, 2 ^ 31⟩ 0) ∧
    BaseArrayImpl.elements_offset ⟨false, 1, 2 ^ 31⟩ 0 = -2147483648 ∧
    ¬ (4 + n_missing_bytes 0 ≤ BaseArrayImpl.elements_offset ⟨false, 1, 2 ^ 31⟩ 0) ∧
    BaseArrayImpl.elements_offset ⟨true, 1, 2 ^ 32⟩ 0 = 0 ∧
    BaseArrayImpl.array_elem_size ⟨true, 2 ^ 64 - 1, 2 ^ 1⟩ = 0 ∧
    ¬ (2 ^ 64 - 1 ≤ BaseArrayImpl.array_elem_size ⟨true, 2 ^ 64 - 1, 2 ^ 1⟩) := by
  decide

/-- C39, amended: for every array length `len ≥ 0` and every element alignment `2 ^ k`:
`n_missing_bytes(len)` is `len / 8` rounded up; for the alignments up to `2 ^ 30`,
`elements_offset(len)` is a multiple of the alignment, at least `4 + n_missing_bytes(len)` when
elements may be missing and at least 4 when they are required, and element `i` of the array at
`a` is at the address `a + elements_offset(len) + i * array_elem_size`, with `len` the length
stored at `a`, so that element 0 starts behind the length and the missing bits; for every
element size with `elem_size + elem_align ≤ 2 ^ 64`, `array_elem_size` is the element size
rounded up to a multiple of the alignment, which is at least the element size; and the
address of element `i + 1` is the address of element `i` plus `array_elem_size`. -/
theorem array_layout (req : Bool) (sz k : Nat) (len : Int) (h0 : 0 ≤ len)
    (h1 : len < 2 ^ 31) :
    (n_missing_bytes len = (len + 7) / 8 ∧ len ≤ 8 * n_missing_bytes len ∧
      8 * n_missing_bytes len < len + 8) ∧
    (k ≤ 30 →
      ((2 : Int) ^ k ∣ BaseArrayImpl.elements_offset ⟨false, sz, 2 ^ k⟩ len ∧
        4 + n_missing_bytes len ≤ BaseArrayImpl.elements_offset ⟨false, sz, 2 ^ k⟩ len ∧
        BaseArrayImpl.elements_offset ⟨false, sz, 2 ^ k⟩ len
          < 4 + n_missing_bytes len + 2 ^ k) ∧
      ((2 : Int) ^ k ∣ BaseArrayImpl.elements_offset ⟨true, sz, 2 ^ k⟩ len ∧
        4 ≤ BaseArrayImpl.elements_offset ⟨true, sz, 2 ^ k⟩ len ∧
        BaseArrayImpl.elements_offset ⟨true, sz, 2 ^ k⟩ len < 4 + 2 ^ k)) ∧
    (k < 64 → sz + 2 ^ k ≤ 2 ^ 64 →
      2 ^ k ∣ BaseArrayImpl.array_elem_size ⟨req, sz, 2 ^ k⟩ ∧
      sz ≤ BaseArrayImpl.array_elem_size ⟨req, sz, 2 ^ k⟩ ∧
      BaseArrayImpl.array_elem_size ⟨req, sz, 2 ^ k⟩ < sz + 2 ^ k ∧
      ∀ m, 2 ^ k ∣ m → sz ≤ m → BaseArrayImpl.array_elem_size ⟨req, sz, 2 ^ k⟩ ≤ m) ∧
    (k ≤ 30 → ∀ (mem : List Nat) (a : Nat) (i : Int),
      BaseArrayImpl.load_length mem a = len → 0 ≤ i → i < 2 ^ 31 →
      0 ≤ BaseArrayImpl.elements_offset ⟨req, sz, 2 ^ k⟩ len ∧
      BaseArrayImpl.element_address ⟨req, sz, 2 ^ k⟩ mem a i
        = (a + (BaseArrayImpl.elements_offset ⟨req, sz, 2 ^ k⟩ len).toNat
            + i.toNat * BaseArrayImpl.array_elem_size ⟨req, sz, 2 ^ k⟩) % 2 ^ 64 ∧
      (i = 0 → BaseArrayImpl.element_address ⟨req, sz, 2 ^ k⟩ mem a i
        = (a + (BaseArrayImpl.elements_offset ⟨req, sz, 2 ^ k⟩ len).toNat) % 2 ^ 64)) ∧
    ∀ (mem : List Nat) (a : Nat) (i : Int), -(2 ^ 31) ≤ i → i + 1 < 2 ^ 31 →
      BaseArrayImpl.element_address ⟨req, sz, 2 ^ k⟩ mem a (i + 1)
        = (BaseArrayImpl.element_address ⟨req, sz, 2 ^ k⟩ mem a i
            + BaseArrayImpl.array_elem_size ⟨req, sz, 2 ^ k⟩) % 2 ^ 64 ∧
      (BaseArrayImpl.element_address ⟨req, sz, 2 ^ k⟩ mem a i
          + BaseArrayImpl.array_elem_size ⟨req, sz, 2 ^ k⟩ < 2 ^ 64 →
        BaseArrayImpl.element_address ⟨req, sz, 2 ^ k⟩ mem a (i + 1)
          - BaseArrayImpl.element_address ⟨req, sz, 2 ^ k⟩ mem a i
          = BaseArrayImpl.array_elem_size ⟨req, sz, 2 ^ k⟩) := by
  obtain ⟨m, rfl⟩ := Int.eq_ofNat_of_zero_le h0
  have hm : m < 2 ^ 31 := by omega
  have hpos : 0 < 2 ^ k := Nat.pow_pos (by decide)
  have hnm := n_missing_bytes_eq m hm
  have hcast : ((2 : Int) ^ k) = ((2 ^ k : Nat) : Int) := by push_cast; rfl
  obtain ⟨a1, a2, a3, _⟩ := round_up_quotient (4 + (m + 7) / 8) (2 ^ k) hpos
  obtain ⟨b1, b2, b3, _⟩ := round_up_quotient 4 (2 ^ k) hpos
  obtain ⟨c1, c2, c3, c4⟩ := round_up_quotient sz (2 ^ k) hpos
  have hoff : k ≤ 30 →
      (BaseArrayImpl.elements_offset ⟨false, sz, 2 ^ k⟩ (m : Int)
        = (((4 + (m + 7) / 8 + 2 ^ k - 1) / 2 ^ k * 2 ^ k : Nat) : Int) ∧
        (4 + (m + 7) / 8 + 2 ^ k - 1) / 2 ^ k * 2 ^ k < 2 ^ 31) ∧
      (BaseArrayImpl.elements_offset ⟨true, sz, 2 ^ k⟩ (m : Int)
        = (((4 + 2 ^ k - 1) / 2 ^ k * 2 ^ k : Nat) : Int) ∧
        (4 + 2 ^ k - 1) / 2 ^ k * 2 ^ k < 2 ^ 31) := fun hk =>
    ⟨elements_offset_eq false sz k (m : Int) (4 + (m + 7) / 8) (by rw [hnm]; simp) (by omega) hk,
      elements_offset_eq true sz k (m : Int) 4 (by simp) (by omega) hk⟩
  refine ⟨?_, fun hk => ⟨?_, ?_⟩, fun hk hsz => ?_, fun hk => ?_, ?_⟩
  · rw [hnm]
    refine ⟨by omega, by omega, by omega⟩
  · obtain ⟨⟨e1, g1⟩, _⟩ := hoff hk
    clear hoff
    refine ⟨?_, ?_, ?_⟩
    · rw [e1, hcast]
      exact Int.natCast_dvd_natCast.mpr a1
    · rw [e1, hnm]
      exact_mod_cast a2
    · rw [e1, hnm]
      have : (((4 + (m + 7) / 8 + 2 ^ k - 1) / 2 ^ k * 2 ^ k : Nat) : Int)
          < ((4 + (m + 7) / 8 + 2 ^ k : Nat) : Int) := by exact_mod_cast a3
      push_cast at this ⊢
      omega
  · obtain ⟨_, e2, g2⟩ := hoff hk
    clear hoff
    refine ⟨?_, ?_, ?_⟩
    · rw [e2, hcast]
      exact Int.natCast_dvd_natCast.mpr b1
    · rw [e2]
      exact_mod_cast b2
    · rw [e2]
      have : (((4 + 2 ^ k - 1) / 2 ^ k * 2 ^ k : Nat) : Int) < ((4 + 2 ^ k : Nat) : Int) := by
        exact_mod_cast b3
      push_cast at this ⊢
      omega
  · have hS : BaseArrayImpl.array_elem_size ⟨req, sz, 2 ^ k⟩
        = (sz + 2 ^ k - 1) / 2 ^ k * 2 ^ k :=
      round_up_offset_unsigned sz k hk hsz
    rw [hS]
    exact ⟨c1, c2, c3, c4⟩
  · obtain ⟨⟨e1, g1⟩, e2, g2⟩ := hoff hk
    clear hoff
    have hnonneg : 0 ≤ BaseArrayImpl.elements_offset ⟨req, sz, 2 ^ k⟩ (m : Int) ∧
        BaseArrayImpl.elements_offset ⟨req, sz, 2 ^ k⟩ (m : Int) < 2 ^ 31 := by
      cases req
      · rw [e1]
        exact ⟨Int.natCast_nonneg _, by exact_mod_cast g1⟩
      · rw [e2]
        exact ⟨Int.natCast_nonneg _, by exact_mod_cast g2⟩
    intro mem a i hl hi0 hi1
    have hea := element_address_eq ⟨req, sz, 2 ^ k⟩ mem a i hi0 hi1
      (by rw [hl]; exact hnonneg.1) (by rw [hl]; exact hnonneg.2)
    rw [hl] at hea
    refine ⟨hnonneg.1, hea, fun hz => ?_⟩
    rw [hea, hz]
    simp
  · intro mem a i hi0 hi1
    have hs := element_address_succ ⟨req, sz, 2 ^ k⟩ mem a i hi0 hi1
    refine ⟨hs, fun hlt => ?_⟩
    rw [hs, Nat.mod_eq_of_lt hlt]
    omega

/-- C39 amended, at a sample: elements of 3 bytes with the alignment 4 that may be missing, in
an array of length 9 at address 0: two bytes of missing bits, the elements start at offset 8
and follow each other at a distance of 4 bytes. -/
theorem array_layout_witness :
    n_missing_bytes 9 = 2 ∧
    BaseArrayImpl.elements_offset ⟨false, 3, 2 ^ 2⟩ 9 = 8 ∧
    BaseArrayImpl.elements_offset ⟨true, 3, 2 ^ 2⟩ 9 = 4 ∧
    BaseArrayImpl.array_elem_size ⟨false, 3, 2 ^ 2⟩ = 4 ∧
    BaseArrayImpl.element_address ⟨false, 3, 2 ^ 2⟩ [9, 0, 0, 0] 0 0 = 8 ∧
    BaseArrayImpl.element_address ⟨false, 3, 2 ^ 2⟩ [9, 0, 0, 0] 0 2 = 16 ∧
    BaseArrayImpl.element_address ⟨false, 3, 2 ^ 2⟩ [9, 0, 0, 0] 0 (2 + 1) = 20 ∧
    (n_missing_bytes 9 = (9 + 7) / 8 ∧ (9 : Int) ≤ 8 * n_missing_bytes 9 ∧
      8 * n_missing_bytes 9 < 9 + 8) ∧
    ((2 : Int) ^ 2 ∣ BaseArrayImpl.elements_offset ⟨false, 3, 2 ^ 2⟩ 9 ∧
      4 + n_missing_bytes 9 ≤ BaseArrayImpl.elements_offset ⟨false, 3, 2 ^ 2⟩ 9 ∧
      BaseArrayImpl.elements_offset ⟨false, 3, 2 ^ 2⟩ 9 < 4 + n_missing_bytes 9 + 2 ^ 2) ∧
    (2 ^ 2 ∣ BaseArrayImpl.array_elem_size ⟨false, 3, 2 ^ 2⟩ ∧
      3 ≤ BaseArrayImpl.array_elem_size ⟨false, 3, 2 ^ 2⟩) ∧
    BaseArrayImpl.element_address ⟨false, 3, 2 ^ 2⟩ [9, 0, 0, 0] 0 2
      = (0 + (BaseArrayImpl.elements_offset ⟨false, 3, 2 ^ 2⟩ 9).toNat
          + (2 : Int).toNat * BaseArrayImpl.array_elem_size ⟨false, 3, 2 ^ 2⟩) % 2 ^ 64 ∧
    BaseArrayImpl.element_address ⟨false, 3, 2 ^ 2⟩ [9, 0, 0, 0] 0 (2 + 1)
      = (BaseArrayImpl.element_address ⟨false, 3, 2 ^ 2⟩ [9, 0, 0, 0] 0 2
          + BaseArrayImpl.array_elem_size ⟨false, 3, 2 ^ 2⟩) % 2 ^ 64 := by
  obtain ⟨h1, h2, h4, h5, h6⟩ := array_layout false 3 2 9 (by decide) (by decide)
  obtain ⟨c1, c2, _⟩ := h4 (by decide) (by decide)
  exact ⟨by decide, by decide, by decide, by decide, by decide, by decide, by decide, h1,
    (h2 (by decide)).1, ⟨c1, c2⟩,
    (h5 (by decide) [9, 0, 0, 0] 0 2 (by decide) (by decide) (by decide)).2.1,
    (h6 [9, 0, 0, 0] 0 2 (by decide) (by decide)).1⟩

/-! ## Block sizes within 8 of `INT_MAX` -/

theorem full_inv (B : Int) (h : 0 ≤ B) :
    BlockingOutputBuffer.Inv B (BlockingOutputBuffer.full B) :=
  ⟨h, le_refl _, List.length_replicate _ _⟩

theorem int32_wraps (x : Int) (h0 : 2 ^ 31 ≤ x) (h1 : x < 2 ^ 32) : int32 x = x - 2 ^ 32 := by
  unfold int32
  omega

/-- When `off_ + w` does not fit an `int`, the test `off_ + w > BLOCKSIZE` of the common body
of the fixed-width writes fails on the wrapped sum: no `flush()` is made, the value is stored
from the offset on, and the offset is left at the wrapped sum, which is negative. -/
theorem scalar_wraps (B : Int) (s : BlockingOutputBuffer) (rep : List Nat) (w : Int)
    (hinv : BlockingOutputBuffer.Inv B s) (hB : B < 2 ^ 31) (hw0 : 0 < w) (hw : w < 2 ^ 31)
    (h : 2 ^ 31 ≤ s.off_ + w) :
    (if int32 (s.off_ + w) > B then s.flush else s) = s ∧
    int32 (s.off_ + w) = s.off_ + w - 2 ^ 32 ∧
    ¬ BlockingOutputBuffer.Stores B s
        ⟨memcpy s.block_ s.off_ rep w, s.off_ + w - 2 ^ 32, s.block_buf_⟩ rep w := by
  have g1 := hinv.off_nonneg
  have g2 := hinv.off_le
  have e : int32 (s.off_ + w) = s.off_ + w - 2 ^ 32 := int32_wraps _ h (by omega)
  refine ⟨?_, e, fun hs => ?_⟩
  · rw [e, if_neg (by omega)]
  · have h3 := (hs.flushed (by omega)).2.2
    have h4 : s.off_ + w - 2 ^ 32 = w := h3
    omega

theorem write_byte_wraps (B : Int) (s : BlockingOutputBuffer) (c : Nat)
    (hinv : BlockingOutputBuffer.Inv B s) (hB : B < 2 ^ 31) (h : 2 ^ 31 ≤ s.off_ + 1) :
    s.write_byte B c = ⟨memcpy s.block_ s.off_ [c] 1, s.off_ + 1 - 2 ^ 32, s.block_buf_⟩ := by
  obtain ⟨_, e2, _⟩ := scalar_wraps B s [c] 1 hinv hB (by decide) (by decide) h
  have g := hinv.off_le
  have hc : ¬ (s.off_ + 1 - 2 ^ 32 > B) := by omega
  simp only [BlockingOutputBuffer.write_byte, e2, if_neg hc]

theorem write_int_wraps (B : Int) (s : BlockingOutputBuffer) (i : Int)
    (hinv : BlockingOutputBuffer.Inv B s) (hB : B < 2 ^ 31) (h : 2 ^ 31 ≤ s.off_ + 4) :
    s.write_int B i
      = ⟨memcpy s.block_ s.off_ (object_bytes 4 (bit_pattern 32 i)) 4, s.off_ + 4 - 2 ^ 32,
          s.block_buf_⟩ := by
  obtain ⟨_, e2, _⟩ := scalar_wraps B s [] 4 hinv hB (by decide) (by decide) h
  have g := hinv.off_le
  have hc : ¬ (s.off_ + 4 - 2 ^ 32 > B) := by omega
  simp only [BlockingOutputBuffer.write_int, e2, if_neg hc]

theorem write_long_wraps (B : Int) (s : BlockingOutputBuffer) (l : Int)
    (hinv : BlockingOutputBuffer.Inv B s) (hB : B < 2 ^ 31) (h : 2 ^ 31 ≤ s.off_ + 8) :
    s.write_long B l
      = ⟨memcpy s.block_ s.off_ (object_bytes 8 (bit_pattern 64 l)) 8, s.off_ + 8 - 2 ^ 32,
          s.block_buf_⟩ := by
  obtain ⟨_, e2, _⟩ := scalar_wraps B s [] 8 hinv hB (by decide) (by decide) h
  have g := hinv.off_le
  have hc : ¬ (s.off_ + 8 - 2 ^ 32 > B) := by omega
  simp only [BlockingOutputBuffer.write_long, e2, if_neg hc]

theorem write_float_wraps (B : Int) (s : BlockingOutputBuffer) (f : Nat)
    (hinv : BlockingOutputBuffer.Inv B s) (hB : B < 2 ^ 31) (h : 2 ^ 31 ≤ s.off_ + 4) :
    s.write_float B f
      = ⟨memcpy s.block_ s.off_ (object_bytes 4 f) 4, s.off_ + 4 - 2 ^ 32, s.block_buf_⟩ := by
  obtain ⟨_, e2, _⟩ := scalar_wraps B s [] 4 hinv hB (by decide) (by decide) h
  have g := hinv.off_le
  have hc : ¬ (s.off_ + 4 - 2 ^ 32 > B) := by omega
  simp only [BlockingOutputBuffer.write_float, e2, if_neg hc]

theorem write_double_wraps (B : Int) (s : BlockingOutputBuffer) (d : Nat)
    (hinv : BlockingOutputBuffer.Inv B s) (hB : B < 2 ^ 31) (h : 2 ^ 31 ≤ s.off_ + 8) :
    s.write_double B d
      = ⟨memcpy s.block_ s.off_ (object_bytes 8 d) 8, s.off_ + 8 - 2 ^ 32, s.block_buf_⟩ := by
  obtain ⟨_, e2, _⟩ := scalar_wraps B s [] 8 hinv hB (by decide) (by decide) h
  have g := hinv.off_le
  have hc : ¬ (s.off_ + 8 - 2 ^ 32 > B) := by omega
  simp only [BlockingOutputBuffer.write_double, e2, if_neg hc]

/-- A run of `BLOCKSIZE` bytes written to a new writer fills the array and leaves the offset at
`BLOCKSIZE`; when `BLOCKSIZE + 8` does not fit an `int`, the `long` written next makes no
`flush()` and leaves the offset negative, so that `close()` hands no block on at all. -/
theorem full_then_long (B : Int) (blk buf : List Nat) (l : Int) (hB0 : 0 ≤ B)
    (hlen : blk.length = B.toNat) (hbuf : B ≤ buf.length) (hB : B < 2 ^ 31) (h : 2 ^ 31 ≤ B + 8) :
    (WriterCall.runAll B 1 ⟨blk, 0, []⟩
        [WriterCall.write_bytes buf B, WriterCall.write_long l]).map
        (fun s => (s.off_, s.close.block_buf_))
      = some (B + 8 - 2 ^ 32, [BlockCall.close]) := by
  have e0 : int32 (B - 0) = B := by
    rw [Int.sub_zero]
    exact int32_eq _ (by omega) (by omega)
  have e1 : int32 (0 + B) = B := by
    rw [Int.zero_add]
    exact int32_eq _ (by omega) (by omega)
  have e2 : int32 (B - B) = 0 := by
    rw [Int.sub_self]
    rfl
  have hd : ¬ (B > int32 (B - (⟨blk, 0, []⟩ : BlockingOutputBuffer).off_)) := by
    show ¬ (B > int32 (B - 0))
    rw [e0]
    omega
  have hrun : WriterCall.run B 1 ⟨blk, 0, []⟩ (WriterCall.write_bytes buf B)
      = some ⟨memcpy blk 0 (buf.drop (int32 (B - B)).toNat) B, B, []⟩ := by
    show BlockingOutputBuffer.write_bytes_loop B buf B (0 + 1) ⟨blk, 0, []⟩ B = _
    rw [write_bytes_loop_done B buf B 0 ⟨blk, 0, []⟩ B hd]
    simp only [e1]
  have hlong : ∀ s1 : BlockingOutputBuffer,
      WriterCall.run B 1 s1 (WriterCall.write_long l)
        = some (BlockingOutputBuffer.write_long B s1 l) := fun _ => rfl
  have hall : WriterCall.runAll B 1 ⟨blk, 0, []⟩
      [WriterCall.write_bytes buf B, WriterCall.write_long l]
      = some (BlockingOutputBuffer.write_long B
          ⟨memcpy blk 0 (buf.drop (int32 (B - B)).toNat) B, B, []⟩ l) := by
    rw [WriterCall.runAll, hrun]
    simp only [WriterCall.runAll, hlong]
  obtain ⟨_, c2, _⟩ := scalar_wraps B
    ⟨memcpy blk 0 (buf.drop (int32 (B - B)).toNat) B, B, []⟩ [] 8
    ⟨hB0, le_refl _, by
      show (memcpy blk 0 (buf.drop (int32 (B - B)).toNat) B).length = B.toNat
      simp only [memcpy, e2, Int.toNat_zero, List.drop_zero, List.take_zero, List.nil_append,
        List.length_append, List.length_take, List.length_drop, Nat.zero_add]
      omega⟩ hB (by decide) (by decide) h
  have hneg : ¬ (B + 8 - 2 ^ 32 > 0) := by omega
  have hc : ¬ (B + 8 - 2 ^ 32 > B) := by omega
  rw [hall]
  simp only [Option.map_some', BlockingOutputBuffer.close, BlockingOutputBuffer.flush,
    BlockingOutputBuffer.write_long, c2, if_neg hc, if_neg hneg, List.nil_append]

/-- On a full array, a fixed-width write for which `BLOCKSIZE + w` does not fit an `int` hands
no block on and leaves a negative offset, where a block was due and the offset `w`. -/
theorem full_not_stored (B w : Int) (rep : List Nat) (s1 : BlockingOutputBuffer) (hB0 : 0 ≤ B)
    (hB : B < 2 ^ 31) (hw0 : 0 < w) (hw : w < 2 ^ 31) (h : 2 ^ 31 ≤ B + w)
    (e : s1 = ⟨memcpy (BlockingOutputBuffer.full B).block_ (BlockingOutputBuffer.full B).off_
        rep w, (BlockingOutputBuffer.full B).off_ + w - 2 ^ 32,
        (BlockingOutputBuffer.full B).block_buf_⟩) :
    BlockingOutputBuffer.Inv B (BlockingOutputBuffer.full B) ∧
    (BlockingOutputBuffer.full B).off_ + w > B ∧
    s1.block_buf_ = [] ∧ s1.off_ = B + w - 2 ^ 32 ∧
    ¬ BlockingOutputBuffer.Stores B (BlockingOutputBuffer.full B) s1 rep w := by
  have hi := full_inv B hB0
  obtain ⟨_, _, hn⟩ := scalar_wraps B (BlockingOutputBuffer.full B) rep w hi hB hw0 hw h
  subst e
  refine ⟨hi, ?_, rfl, rfl, hn⟩
  show B + w > B
  omega

/-- C31 as stated fails where `BLOCKSIZE + w` does not fit an `int`.  With the offset at
`BLOCKSIZE`, so that `off + w > BLOCKSIZE`: `write_byte` with `BLOCKSIZE = INT_MAX`,
`write_int` with `BLOCKSIZE = INT_MAX - 3` and `write_long` with `BLOCKSIZE = INT_MAX - 7`
hand no block to the wrapped stage and leave the offset at `INT_MIN`, not at `w`, since
`off + w` wraps to `INT_MIN`, which is not above `BLOCKSIZE`. -/
theorem fixed_width_not_split_counterexample :
    ((1 : Int) ≤ 2147483647 ∧
      BlockingOutputBuffer.Inv 2147483647 (BlockingOutputBuffer.full 2147483647) ∧
      (BlockingOutputBuffer.full 2147483647).off_ + 1 > 2147483647 ∧
      ((BlockingOutputBuffer.full 2147483647).write_byte 2147483647 7).block_buf_ = [] ∧
      ((BlockingOutputBuffer.full 2147483647).write_byte 2147483647 7).off_ = -2147483648 ∧
      ¬ BlockingOutputBuffer.Stores 2147483647 (BlockingOutputBuffer.full 2147483647)
          ((BlockingOutputBuffer.full 2147483647).write_byte 2147483647 7) [7] 1) ∧
    ((4 : Int) ≤ 2147483644 ∧
      BlockingOutputBuffer.Inv 2147483644 (BlockingOutputBuffer.full 2147483644) ∧
      (BlockingOutputBuffer.full 2147483644).off_ + 4 > 2147483644 ∧
      ((BlockingOutputBuffer.full 2147483644).write_int 2147483644 1).block_buf_ = [] ∧
      ((BlockingOutputBuffer.full 2147483644).write_int 2147483644 1).off_ = -2147483648 ∧
      ¬ BlockingOutputBuffer.Stores 2147483644 (BlockingOutputBuffer.full 2147483644)
          ((BlockingOutputBuffer.full 2147483644).write_int 2147483644 1)
          (object_bytes 4 (bit_pattern 32 1)) 4) ∧
    ((8 : Int) ≤ 2147483640 ∧
      BlockingOutputBuffer.Inv 2147483640 (BlockingOutputBuffer.full 2147483640) ∧
      (BlockingOutputBuffer.full 2147483640).off_ + 8 > 2147483640 ∧
      ((BlockingOutputBuffer.full 2147483640).write_long 2147483640 1).block_buf_ = [] ∧
      ((BlockingOutputBuffer.full 2147483640).write_long 2147483640 1).off_ = -2147483648 ∧
      ¬ BlockingOutputBuffer.Stores 2147483640 (BlockingOutputBuffer.full 2147483640)
          ((BlockingOutputBuffer.full 2147483640).write_long 2147483640 1)
          (object_bytes 8 (bit_pattern 64 1)) 8) := by
  have n1 : (2147483647 : Int) + 1 - 2 ^ 32 = -2147483648 := by decide
  have n4 : (2147483644 : Int) + 4 - 2 ^ 32 = -2147483648 := by decide
  have n8 : (2147483640 : Int) + 8 - 2 ^ 32 = -2147483648 := by decide
  have k1 : (2 : Int) ^ 31 ≤ 2147483647 + 1 := by decide
  have k4 : (2 : Int) ^ 31 ≤ 2147483644 + 4 := by decide
  have k8 : (2 : Int) ^ 31 ≤ 2147483640 + 8 := by decide
  obtain ⟨a1, a2, a3, a4, a5⟩ := full_not_stored 2147483647 1 [7]
    ((BlockingOutputBuffer.full 2147483647).write_byte 2147483647 7) (by decide) (by decide)
    (by decide) (by decide) k1
    (write_byte_wraps 2147483647 _ 7 (full_inv _ (by decide)) (by decide) k1)
  obtain ⟨b1, b2, b3, b4, b5⟩ := full_not_stored 2147483644 4 (object_bytes 4 (bit_pattern 32 1))
    ((BlockingOutputBuffer.full 2147483644).write_int 2147483644 1) (by decide) (by decide)
    (by decide) (by decide) k4
    (write_int_wraps 2147483644 _ 1 (full_inv _ (by decide)) (by decide) k4)
  obtain ⟨c1, c2, c3, c4, c5⟩ := full_not_stored 2147483640 8 (object_bytes 8 (bit_pattern 64 1))
    ((BlockingOutputBuffer.full 2147483640).write_long 2147483640 1) (by decide) (by decide)
    (by decide) (by decide) k8
    (write_long_wraps 2147483640 _ 1 (full_inv _ (by decide)) (by decide) k8)
  rw [n1] at a4
  rw [n4] at b4
  rw [n8] at c4
  exact ⟨⟨by decide, a1, a2, a3, a4, a5⟩, ⟨by decide, b1, b2, b3, b4, b5⟩,
    ⟨by decide, c1, c2, c3, c4, c5⟩⟩

/-- C31, amended: for `write_byte`, `write_int`, `write_long`, `write_float` and
`write_double`, of width `w` = 1, 4, 8, 4, 8, and `w ≤ BLOCKSIZE ≤ INT_MAX - w`: when
`off + w > BLOCKSIZE`, exactly one block, the part `[0, off)` of the array, is handed to the
wrapped stage, the value is stored at `[0, w)` and the offset is `w` afterwards; otherwise no
call is made on the wrapped stage, the value is stored at `[off, off + w)` and the offset is
`off + w` afterwards.  In both cases the value lies in the array in one piece. -/
theorem fixed_width_not_split (BLOCKSIZE : Int) (s : BlockingOutputBuffer)
    (h : BlockingOutputBuffer.Inv BLOCKSIZE s) (c : Nat) (i l : Int) (f d : Nat) :
    (1 ≤ BLOCKSIZE → BLOCKSIZE ≤ 2147483647 - 1 →
      BlockingOutputBuffer.Stores BLOCKSIZE s (s.write_byte BLOCKSIZE c) [c] 1) ∧
    (4 ≤ BLOCKSIZE → BLOCKSIZE ≤ 2147483647 - 4 →
      BlockingOutputBuffer.Stores BLOCKSIZE s (s.write_int BLOCKSIZE i)
        (object_bytes 4 (bit_pattern 32 i)) 4) ∧
    (8 ≤ BLOCKSIZE → BLOCKSIZE ≤ 2147483647 - 8 →
      BlockingOutputBuffer.Stores BLOCKSIZE s (s.write_long BLOCKSIZE l)
        (object_bytes 8 (bit_pattern 64 l)) 8) ∧
    (4 ≤ BLOCKSIZE → BLOCKSIZE ≤ 2147483647 - 4 →
      BlockingOutputBuffer.Stores BLOCKSIZE s (s.write_float BLOCKSIZE f)
        (object_bytes 4 f) 4) ∧
    (8 ≤ BLOCKSIZE → BLOCKSIZE ≤ 2147483647 - 8 →
      BlockingOutputBuffer.Stores BLOCKSIZE s (s.write_double BLOCKSIZE d)
        (object_bytes 8 d) 8) :=
  ⟨fun hw hB => scalar_stores BLOCKSIZE s [c] 1 h rfl hw (by omega),
   fun hw hB =>
    scalar_stores BLOCKSIZE s _ 4 h (by rw [object_bytes_length]; rfl) hw (by omega),
   fun hw hB =>
    scalar_stores BLOCKSIZE s _ 8 h (by rw [object_bytes_length]; rfl) hw (by omega),
   fun hw hB =>
    scalar_stores BLOCKSIZE s _ 4 h (by rw [object_bytes_length]; rfl) hw (by omega),
   fun hw hB =>
    scalar_stores BLOCKSIZE s _ 8 h (by rw [object_bytes_length]; rfl) hw (by omega)⟩

/-- C31 amended, at samples: with blocks of 8 bytes and the offset at 6, `write_int(1)` hands
the block of the first 6 bytes on and stores the value at `[0, 4)`; `write_byte(7)` stores the
byte at index 6 and hands nothing on. -/
theorem fixed_width_not_split_witness :
    BlockingOutputBuffer.write_int 8 ⟨[1, 2, 3, 4, 5, 6, 0, 0], 6, []⟩ 1
      = ⟨[1, 0, 0, 0, 5, 6, 0, 0], 4, [BlockCall.write_block [1, 2, 3, 4, 5, 6]]⟩ ∧
    BlockingOutputBuffer.write_byte 8 ⟨[1, 2, 3, 4, 5, 6, 0, 0], 6, []⟩ 7
      = ⟨[1, 2, 3, 4, 5, 6, 7, 0], 7, []⟩ ∧
    BlockingOutputBuffer.Stores 8 ⟨[1, 2, 3, 4, 5, 6, 0, 0], 6, []⟩
      (BlockingOutputBuffer.write_int 8 ⟨[1, 2, 3, 4, 5, 6, 0, 0], 6, []⟩ 1)
      (object_bytes 4 (bit_pattern 32 1)) 4 ∧
    BlockingOutputBuffer.Stores 8 ⟨[1, 2, 3, 4, 5, 6, 0, 0], 6, []⟩
      (BlockingOutputBuffer.write_byte 8 ⟨[1, 2, 3, 4, 5, 6, 0, 0], 6, []⟩ 7) [7] 1 := by
  obtain ⟨h1, h2, _⟩ := fixed_width_not_split 8 ⟨[1, 2, 3, 4, 5, 6, 0, 0], 6, []⟩
    ⟨by decide, by decide, by decide⟩ 7 1 0 0 0
  exact ⟨by decide, by decide, h2 (by decide) (by decide), h1 (by decide) (by decide)⟩

/-- C33 as stated fails for the block sizes within 8 of `INT_MAX`: with
`BLOCKSIZE = INT_MAX - 7` and the offset at `BLOCKSIZE`, `write_long` starts with
`0 ≤ off ≤ BLOCKSIZE`, makes no `flush()` since `off + 8` wraps to `INT_MIN`, stores the 8 bytes
at the indices from `BLOCKSIZE` on, behind the end of the array, and leaves the offset at
`INT_MIN`. -/
theorem writer_stays_in_bounds_counterexample :
    (8 : Int) ≤ 2147483640 ∧
    BlockingOutputBuffer.Inv 2147483640 (BlockingOutputBuffer.full 2147483640) ∧
    (WriterCall.write_long 1).valid ∧
    (BlockingOutputBuffer.full 2147483640).block_.length = 2147483640 ∧
    (WriterCall.run 2147483640 1 (BlockingOutputBuffer.full 2147483640)
        (WriterCall.write_long 1)).map (fun s => (s.off_, s.block_.length, s.block_buf_))
      = some (-2147483648, 2147483648, []) ∧
    ¬ (∃ s1, WriterCall.run 2147483640 1 (BlockingOutputBuffer.full 2147483640)
        (WriterCall.write_long 1) = some s1 ∧ 0 ≤ s1.off_) := by
  have k8 : (2 : Int) ^ 31 ≤ 2147483640 + 8 := by decide
  have n8 : (2147483640 : Int) + 8 - 2 ^ 32 = -2147483648 := by decide
  have hi := full_inv 2147483640 (by decide)
  have hlen : (BlockingOutputBuffer.full 2147483640).block_.length = 2147483640 :=
    List.length_replicate _ _
  have e := write_long_wraps 2147483640 (BlockingOutputBuffer.full 2147483640) 1 hi
    (by decide) k8
  have hrun : WriterCall.run 2147483640 1 (BlockingOutputBuffer.full 2147483640)
      (WriterCall.write_long 1)
      = some ⟨memcpy (BlockingOutputBuffer.full 2147483640).block_ 2147483640
          (object_bytes 8 (bit_pattern 64 1)) 8, -2147483648, []⟩ := by
    show some ((BlockingOutputBuffer.full 2147483640).write_long 2147483640 1) = _
    rw [e]
    show some (⟨_, (2147483640 : Int) + 8 - 2 ^ 32, []⟩ : BlockingOutputBuffer) = _
    rw [n8]
    rfl
  have hm : (memcpy (BlockingOutputBuffer.full 2147483640).block_ 2147483640
      (object_bytes 8 (bit_pattern 64 1)) 8).length = 2147483648 := by
    have e1 : (2147483640 : Int).toNat = 2147483640 := rfl
    have e2 : (8 : Int).toNat = 8 := rfl
    simp only [memcpy, e1, e2, List.length_append, List.length_take, List.length_drop, hlen,
      object_bytes_length]
    omega
  refine ⟨by decide, hi, trivial, hlen, ?_, ?_⟩
  · rw [hrun]
    simp only [Option.map_some', hm]
  · rintro ⟨s1, h1, h2⟩
    rw [hrun] at h1
    cases h1
    exact absurd h2 (by decide)

/-- The bytes that a run of `n` bytes and a `long` are to append. -/
theorem run_and_long_bytes (n : Nat) (l : Int) :
    ([WriterCall.write_bytes (List.replicate n 0) (n : Int), WriterCall.write_long l].flatMap
      WriterCall.bytes).length = n + 8 := by
  simp only [List.flatMap_cons, List.flatMap_nil, WriterCall.bytes, List.length_append,
    List.length_take, List.length_replicate, object_bytes_length, List.length_nil,
    Int.toNat_ofNat]
  omega

/-- C19 as stated fails for the block sizes within 8 of `INT_MAX`: with
`BLOCKSIZE = INT_MAX - 7`, a run of `BLOCKSIZE` bytes and a `long` written to a new writer,
followed by `close()`, hand no block to the wrapped stage at all, only the `close()`: the run
fills the array, `off + 8` wraps to `INT_MIN` in `write_long`, which makes no `flush()` and
leaves the offset negative, and the `flush()` of `close()` finds nothing to hand on.  The
`BLOCKSIZE + 8` bytes written are lost. -/
theorem writer_stream_counterexample :
    (8 : Int) ≤ 2147483640 ∧
    (∀ c ∈ [WriterCall.write_bytes (List.replicate 2147483640 0) 2147483640,
        WriterCall.write_long 1], c.valid) ∧
    (WriterCall.runAll 2147483640 1 (BlockingOutputBuffer.init 2147483640)
        [WriterCall.write_bytes (List.replicate 2147483640 0) 2147483640,
         WriterCall.write_long 1]).map (fun s => (s.off_, s.close.block_buf_))
      = some (-2147483648, [BlockCall.close]) ∧
    (BlockCall.blocks [BlockCall.close]).flatten = [] ∧
    ([WriterCall.write_bytes (List.replicate 2147483640 0) 2147483640,
        WriterCall.write_long 1].flatMap WriterCall.bytes).length = 2147483648 := by
  have n8 : (2147483640 : Int) + 8 - 2 ^ 32 = -2147483648 := by decide
  have hl : ((List.replicate 2147483640 0 : List Nat).length : Int) = 2147483640 := by
    rw [List.length_replicate]
    rfl
  refine ⟨by decide, ?_, ?_, rfl, run_and_long_bytes 2147483640 1⟩
  · intro c hc
    rw [List.mem_cons, List.mem_singleton] at hc
    rcases hc with rfl | rfl
    · show (0 : Int) ≤ 2147483640 ∧ (2147483640 : Int) < 2 ^ 31 ∧
        (2147483640 : Int) ≤ ((List.replicate 2147483640 0 : List Nat).length : Int)
      rw [hl]
      decide
    · trivial
  · have h := full_then_long 2147483640 (List.replicate (2147483640 : Int).toNat 0)
      (List.replicate 2147483640 0) 1 (by decide) (List.length_replicate _ _)
      (by rw [hl]) (by decide) (by decide)
    rw [n8] at h
    exact h

/-! ## An arena kept alive by a child, with parents of its own -/

theorem foldl_dropN_zero (ps : List Nat) (s : World) :
    ps.foldl (shared_ptr_dropN 0) s = s := by
  induction ps with
  | nil => rfl
  | cons p ps ih => exact ih

/-- Destroying pointers to arenas that all have further references retires no arena. -/
theorem foldl_dropN_kept_free (fuel : Nat) (ps : List Nat) (s : World)
    (h : ∀ p ∈ ps, ps.count p < s.refs p) :
    (ps.foldl (shared_ptr_dropN fuel) s).free_regions_ = s.free_regions_ := by
  cases fuel with
  | zero => rw [foldl_dropN_zero]
  | succ k => exact (foldl_dropN_keep k ps s h).2.2.1

/-- Releasing the last reference to an arena that holds the last reference to none of its
parents retires this arena and no other. -/
theorem dropN_last_parents_kept (fuel : Nat) (s : World) (r : Nat) (h1 : s.refs r - 1 = 0)
    (hk : ∀ p ∈ (s.obj r).parents_, (s.obj r).parents_.count p < s.refs p) :
    (shared_ptr_dropN (fuel + 1) s r).free_regions_ = s.free_regions_ ++ [r] := by
  rw [dropN_fire fuel s r h1]
  show (Region2.clearWith (shared_ptr_dropN fuel) (s.setRefs r (s.refs r - 1)) r).free_regions_
    ++ [r] = _
  unfold Region2.clearWith
  rw [World.obj_setRefs, foldl_dropN_kept_free fuel _ _ (by
    intro p hp
    have hp1 := hk p hp
    have hne : p ≠ r := by
      intro e
      subst e
      have := List.count_pos_iff.mpr hp
      omega
    rw [clearFields_refs, World.refs_setRefs_ne _ _ _ _ hne]
    exact hp1)]
  rfl

/-- C2, amended: from every reachable state, with `a` an arena held by client code and `b`
the arena obtained with `a.get_region()` that registered a reference to `a`: releasing a
handle to `a` leaves `num_free_regions` unchanged; and when that handle was the only reference
to `a` and `a` holds the last reference to none of its parents (every parent of `a` has more
references than `a` holds to it), releasing the handle to `b` then increases
`num_free_regions` by exactly 2 in that single step, `a` and `b` being the arenas pushed. -/
theorem keep_alive (cfg : Config) {s : World} {hs : List Nat} (h : Reachable cfg s hs)
    (a : Nat) (ha : a ∈ hs) :
    RegionPool.num_free_regions (refTest_first_released s a)
      = RegionPool.num_free_regions (refTest_referenced s a) ∧
    (s.refs a = 1 →
      (∀ p ∈ (s.obj a).parents_, (s.obj a).parents_.count p < s.refs p) →
      RegionPool.num_free_regions (refTest_both_released s a)
        = RegionPool.num_free_regions (refTest_first_released s a) + 2 ∧
      (refTest_both_released s a).free_regions_
        = (refTest_first_released s a).free_regions_ ++ [a, (Region2.get_region s a).2]) := by
  have hinv := (reachable_inv h).1
  obtain ⟨hb0, hb1, hbc, hbv, hoth, _⟩ := get_region_spec hinv
  have hapos := hinv.refs_pos_of_mem ha
  have hab : a ≠ (RegionPool.get_region s).2 := by
    intro e; rw [← e] at hb0; omega
  have hav1 : a < (RegionPool.get_region s).1.regions.length :=
    World.lt_length_of_refs_pos _ a (by rw [(hoth a hab).1]; exact hapos)
  obtain ⟨hp2, hr2, ho2, hrr2, _⟩ :=
    add_reference_spec (RegionPool.get_region s).1 (RegionPool.get_region s).2 a hbv hav1
  have hs2a : (refTest_referenced s a).refs a = s.refs a + 1 := by
    show (Region2.add_reference_to (RegionPool.get_region s).1 (RegionPool.get_region s).2 a).refs a = _
    rw [hr2, (hoth a hab).1]
  have hs3 : refTest_first_released s a = (refTest_referenced s a).setRefs a (s.refs a) := by
    unfold refTest_first_released
    rw [drop_keep _ _ (by rw [hs2a]; omega), hs2a]
    rfl
  refine ⟨by rw [hs3]; rfl, fun h1 hnp => ?_⟩
  have hav2 : a < (refTest_referenced s a).regions.length :=
    World.lt_length_of_refs_pos _ a (by rw [hs2a]; omega)
  have hp2' : ((refTest_referenced s a).obj (RegionPool.get_region s).2).parents_ = [a] := by
    show ((Region2.add_reference_to (RegionPool.get_region s).1 (RegionPool.get_region s).2 a).obj (RegionPool.get_region s).2).parents_ = _
    rw [hp2, hbc.2.2.2]; rfl
  -- the state after the first release
  have h3a : (refTest_first_released s a).refs a = 1 := by
    rw [hs3, World.refs_setRefs_self _ _ _ hav2, h1]
  have h3b : (refTest_first_released s a).refs (RegionPool.get_region s).2 = 1 := by
    rw [hs3, World.refs_setRefs_ne _ _ _ _ (Ne.symm hab)]
    show (Region2.add_reference_to (RegionPool.get_region s).1 (RegionPool.get_region s).2 a).refs (RegionPool.get_region s).2 = _
    rw [hrr2 _ (Ne.symm hab), hb1]
  have h3pb : ((refTest_first_released s a).obj (RegionPool.get_region s).2).parents_ = [a] := by
    rw [hs3, World.obj_setRefs]; exact hp2'
  have h3pa : ((refTest_first_released s a).obj a).parents_ = (s.obj a).parents_ := by
    rw [hs3, World.obj_setRefs]
    show ((Region2.add_reference_to (RegionPool.get_region s).1 (RegionPool.get_region s).2 a).obj a).parents_ = _
    rw [ho2 a hab, (hoth a hab).2]
  -- the parents of `a` keep the use counts they had
  have h3r : ∀ p ∈ (s.obj a).parents_, (refTest_first_released s a).refs p = s.refs p := by
    intro p hp
    have hp1 := hnp p hp
    have hpa : p ≠ a := by
      intro e
      subst e
      have := List.count_pos_iff.mpr hp
      omega
    have hpb : p ≠ (RegionPool.get_region s).2 := by
      intro e
      rw [e, hb0] at hp1
      omega
    rw [hs3, World.refs_setRefs_ne _ _ _ _ hpa]
    show (Region2.add_reference_to (RegionPool.get_region s).1 (RegionPool.get_region s).2 a).refs p = _
    rw [hrr2 p hpa, (hoth p hpb).1]
  have hdepth : ∃ k, (refTest_first_released s a).depth = k + 1 :=
    ⟨(refTest_first_released s a).allParents.length, rfl⟩
  obtain ⟨k, hk⟩ := hdepth
  have key : (refTest_both_released s a).free_regions_
      = (refTest_first_released s a).free_regions_ ++ [a, (Region2.get_region s a).2] := by
    show (shared_ptr_drop (refTest_first_released s a) (RegionPool.get_region s).2).free_regions_
      = _
    unfold shared_ptr_drop
    rw [hk, dropN_fire _ _ _ (by rw [h3b])]
    unfold Region2.clearWith
    rw [World.obj_setRefs, h3pb]
    simp only [List.foldl_cons, List.foldl_nil]
    have hk1 : ∃ j, k = j + 1 := by
      have hm : a ∈ (refTest_first_released s a).allParents :=
        World.mem_gather (fun o => o.parents_) _ (RegionPool.get_region s).2 a
          (by show a ∈ ((refTest_first_released s a).obj (RegionPool.get_region s).2).parents_
              rw [h3pb]; simp)
          (by
            by_contra hc
            rw [World.obj_of_length_le _ _ (by omega)] at h3pb
            simp [Region2.null] at h3pb)
      have := List.length_pos_of_mem hm
      unfold World.depth at hk
      exact ⟨k - 1, by omega⟩
    obtain ⟨j, rfl⟩ := hk1
    show (shared_ptr_dropN (j + 1) _ a).free_regions_ ++ [(RegionPool.get_region s).2] = _
    rw [dropN_last_parents_kept j _ a
      (by rw [clearFields_refs, World.refs_setRefs_ne _ _ _ _ hab, h3a])
      (by
        rw [clearFields_obj_ne _ _ _ hab, World.obj_setRefs, h3pa]
        intro p hp
        have hpb : p ≠ (RegionPool.get_region s).2 := by
          intro e
          have hp1 := hnp p hp
          rw [e, hb0] at hp1
          omega
        rw [clearFields_refs, World.refs_setRefs_ne _ _ _ _ hpb, h3r p hp]
        exact hnp p hp)]
    simp [Region2.get_region]
  refine ⟨?_, key⟩
  unfold RegionPool.num_free_regions
  rw [key]
  simp

/-- C2 amended, at samples: the test section itself, run from a fresh pool; and the test
section run on arena 0 of a state in which arena 0 references arena 1 and client code still
holds arena 1: arena 0 has a parent, and the count rises by exactly 2. -/
theorem keep_alive_witness :
    (RegionPool.num_free_regions
        (refTest_first_released (RegionPool.get_region RegionPool.init).1 0)
      = RegionPool.num_free_regions
          (refTest_referenced (RegionPool.get_region RegionPool.init).1 0) ∧
    RegionPool.num_free_regions (refTest_both_released (RegionPool.get_region RegionPool.init).1 0)
      = RegionPool.num_free_regions
          (refTest_first_released (RegionPool.get_region RegionPool.init).1 0) + 2) ∧
    (sampleReferencing.obj 0).parents_ = [1] ∧
    RegionPool.num_free_regions (refTest_both_released sampleReferencing 0)
      = RegionPool.num_free_regions (refTest_first_released sampleReferencing 0) + 2 ∧
    (refTest_both_released sampleReferencing 0).free_regions_
      = (refTest_first_released sampleReferencing 0).free_regions_ ++ [0, 2] :=
  ⟨⟨(keep_alive Config.sample (Reachable.get_region Reachable.init) 0 (by decide)).1,
    ((keep_alive Config.sample (Reachable.get_region Reachable.init) 0 (by decide)).2
      (by decide) (by decide)).1⟩,
   by decide,
   ((keep_alive Config.sample
      (Reachable.add_reference_to 0 1 (Reachable.get_region sampleSpilled_reachable)
        (by decide) (by decide)) 0 (by decide)).2 (by decide) (by decide)).1,
   ((keep_alive Config.sample
      (Reachable.add_reference_to 0 1 (Reachable.get_region sampleSpilled_reachable)
        (by decide) (by decide)) 0 (by decide)).2 (by decide) (by decide)).2⟩

/-! ## What `clear()` returns to the pool -/

theorem clearAcc_keep (s0 : World) (r0 : Nat) (hs : List Nat) (s : World) (r : Nat)
    (D R : List Nat)
    (h : ∃ lr lb lc, ClearAcc s0 r0 hs lr lb lc s (r :: D) R) (hz : s.refs r - 1 ≠ 0) :
    ∃ lr lb lc, ClearAcc s0 r0 hs lr lb lc (s.setRefs r (s.refs r - 1)) D R := by
  obtain ⟨lr, lb, lc, A⟩ := h
  refine ⟨lr, lb, lc, refInv_keep hs s r D R A.ref hz, A.held, A.free_regions, A.free_blocks,
    A.freed_chunks, A.blocks, A.chunks, fun x h1 h2 h3 => ?_, A.retired,
    fun x hx => A.pending x (List.mem_cons_of_mem _ hx)⟩
  rw [World.obj_setRefs]
  exact A.obj x h1 h2 h3

theorem clearAcc_fire (s0 : World) (r0 : Nat) (hs : List Nat) (s : World) (r : Nat)
    (D R : List Nat)
    (h : ∃ lr lb lc, ClearAcc s0 r0 hs lr lb lc s (r :: D) R) (hz : s.refs r - 1 = 0) :
    ∃ lr lb lc, ClearAcc s0 r0 hs lr lb lc
      (Region2.clearFields (s.setRefs r (s.refs r - 1)) r) ((s.obj r).parents_ ++ D)
      (r :: R) := by
  obtain ⟨lr, lb, lc, A⟩ := h
  have hpos : 0 < s.refs r := A.ref.refs_pos
  have h1 : r ∉ lr := by
    intro hm
    have := (A.ref.free r (by rw [A.free_regions]; exact List.mem_append_right _ hm)).2.1
    omega
  have h2 : r ∉ R := by
    intro hm
    have := (A.ref.pend r hm).2.1
    omega
  have h3 : r ≠ r0 := by
    intro e
    have hc := A.ref.count r
    rw [List.count_cons_self] at hc
    have := List.count_pos_iff.mpr (e ▸ A.held : r ∈ hs)
    omega
  have ho : s.obj r = s0.obj r := A.obj r h1 h2 h3
  refine ⟨lr, lb ++ (s0.obj r).used_blocks_, lc ++ (s0.obj r).big_chunks_,
    refInv_fire hs s r D R A.ref hz, A.held, ?_, ?_, ?_, ?_, ?_, fun x g1 g2 g3 => ?_,
    fun x hx => ?_, fun x hx => ?_⟩
  · rw [clearFields_free_regions]
    exact A.free_regions
  · rw [clearFields_free_blocks, World.obj_setRefs, ho]
    show s.free_blocks_ ++ _ = _
    rw [A.free_blocks, List.append_assoc]
  · rw [clearFields_freed_chunks, World.obj_setRefs, ho]
    show s.freed_chunks ++ _ = _
    rw [A.freed_chunks, List.append_assoc]
  · have hb := A.blocks
    rw [List.flatMap_append] at hb ⊢
    rw [List.flatMap_cons]
    exact (hb.append_right _).trans (by
      rw [List.append_assoc]
      exact List.Perm.append_left _ List.perm_append_comm)
  · have hb := A.chunks
    rw [List.flatMap_append] at hb ⊢
    rw [List.flatMap_cons]
    exact (hb.append_right _).trans (by
      rw [List.append_assoc]
      exact List.Perm.append_left _ List.perm_append_comm)
  · have hne : x ≠ r := fun e => g2 (e ▸ List.mem_cons_self _ _)
    rw [clearFields_obj_ne _ _ _ hne, World.obj_setRefs]
    exact A.obj x g1 (fun hm => g2 (List.mem_cons_of_mem _ hm)) g3
  · rcases List.mem_append.mp hx with hm | hm
    · exact A.retired x (List.mem_append_left _ hm)
    · rcases List.mem_cons.mp hm with e | hm
      · rw [e]
        exact A.pending r (List.mem_cons_self _ _)
      · exact A.retired x (List.mem_append_right _ hm)
  · rcases List.mem_append.mp hx with hm | hm
    · rw [ho] at hm
      exact Ancestor.next (A.pending r (List.mem_cons_self _ _)) hm
    · exact A.pending x (List.mem_cons_of_mem _ hm)

theorem clearAcc_retire (s0 : World) (r0 : Nat) (hs : List Nat) (s : World) (r : Nat)
    (D R : List Nat)
    (h : ∃ lr lb lc, ClearAcc s0 r0 hs lr lb lc s D (r :: R)) :
    ∃ lr lb lc, ClearAcc s0 r0 hs lr lb lc
      { s with free_regions_ := s.free_regions_ ++ [r] } D R := by
  obtain ⟨lr, lb, lc, A⟩ := h
  have e : (lr ++ [r]) ++ R = lr ++ r :: R := by simp
  refine ⟨lr ++ [r], lb, lc, refInv_retire hs s r D R A.ref, A.held, ?_, A.free_blocks,
    A.freed_chunks, by rw [e]; exact A.blocks, by rw [e]; exact A.chunks,
    fun x g1 g2 g3 => ?_, fun x hx => A.retired x (by rw [← e]; exact hx), A.pending⟩
  · show s.free_regions_ ++ [r] = _
    rw [A.free_regions, List.append_assoc]
  · have g4 : x ∉ lr := fun hm => g1 (List.mem_append_left _ hm)
    have g5 : x ∉ r :: R := by
      intro hm
      rcases List.mem_cons.mp hm with e1 | hm
      · exact g1 (List.mem_append_right _ (by rw [e1]; exact List.mem_singleton_self _))
      · exact g2 hm
    exact A.obj x g4 g5 g3

/-- The account of the whole cascade of `clear()` on an arena that client code holds. -/
theorem clear_acc {s : World} {hs : List Nat} {r : Nat} (h : RefInv s hs [] [])
    (hr : r ∈ hs) : ∃ lr lb lc, ClearAcc s r hs lr lb lc (Region2.clear s r) [] [] := by
  have hpos := h.refs_pos_of_mem hr
  have hne : ∀ a, s.refs a = 0 → a ≠ r := by
    intro a ha e; subst e; omega
  unfold Region2.clear Region2.clearWith
  apply foldl_dropN_inv (fun t D R => ∃ lr lb lc, ClearAcc s r hs lr lb lc t D R)
    (clearAcc_keep s r hs) (clearAcc_fire s r hs) (clearAcc_retire s r hs)
  · intro _
    have := clearFields_length_parents s r
    show (Region2.clearFields s r).allParents.length < s.allParents.length + 1
    omega
  · refine ⟨[], [], [], ⟨fun a => ?_, fun a ha => ?_, fun a ha => by simp at ha, h.nodup⟩, hr,
      by simp, by simp, by simp, by simp, by simp, fun x _ _ g3 => clearFields_obj_ne _ _ _ g3,
      fun x hx => by simp at hx, fun x hx => Ancestor.parent (by simpa using hx)⟩
    · have hc := h.count a
      have hcp := clearFields_count_parents s r a
      rw [clearFields_refs, List.count_append]
      simp only [List.count_nil] at hc ⊢
      omega
    · obtain ⟨h1, h2, h3⟩ := h.free a ha
      have e := hne a h2
      exact ⟨by simpa using h1, by rw [clearFields_refs]; exact h2,
        by rw [clearFields_obj_ne _ _ _ e]; exact h3⟩

/-- The pool's free list holds no block twice and no current block of an arena. -/
theorem BlockInv.free_blocks_clean {s : World} (h : BlockInv s) :
    s.free_blocks_.Nodup ∧
    ∀ x, x < s.regions.length → (s.obj x).current_block_ ∉ s.free_blocks_ := by
  refine ⟨List.nodup_iff_count_le_one.mpr fun b => ?_, fun x hv hm => ?_⟩
  · have h2 := h.blocks b
    simp only [World.allBlocks, List.count_append] at h2
    split_ifs at h2 <;> omega
  · have h1 := World.count_le_gather (fun o => o.current_block_ :: o.used_blocks_) s x
      (s.obj x).current_block_ hv
    have h2 := h.blocks (s.obj x).current_block_
    have h3 := List.count_pos_iff.mpr hm
    simp only [World.allBlocks, List.count_append] at h2
    simp only [List.count_cons_self] at h1
    split_ifs at h2 <;> omega

end Hail
